import Mathlib

/-!
# SPAdes / Hammer core: coverage index, k-mer counting, read correction, simplification

Shallow embedding of

* `assembler/src/include/omni/coverage.hpp` (`omnigraph::CoverageIndex`),
* `assembler/src/hammer/hammer_tools.cpp` (`HammerTools`),
* `assembler/src/debruijn/graph_simplification.hpp` (the schedule of `SimplifyGraph`,
  `PreSimplification`, `RemoveIsolatedEdges` and the loop of `PostSimplification`),

followed by the properties established about them.

Conventions.  C++ `int` is a 32-bit two's complement integer, `size_t`, `hint_t` and
`uint64_t` are 64-bit unsigned, `uint32_t` is 32-bit unsigned.  A narrowing conversion
wraps; signed overflow and out-of-range floating-to-integer conversions have no defined
result and are reported as `Fault.undefined`.  A failed `VERIFY` is `Fault.verify`.
`double` is IEEE-754 binary64 with round-to-nearest-even; only finite values are
represented, and the exponent range is not bounded (no value computed from 32-bit counts
and 64-bit lengths leaves the normal range).

In the `HammerTools` part a function has the result `none` where the source reads or
writes outside a vector, reads a variable that never got a value, or when the bound given
on the number of iterations of a loop is exhausted.  Offsets into the blob and counters of
reads and k-mers (`hint_t`) are natural numbers; the vote counters and the bounds of the
trim window (`int`) are integers, whose overflow would take a read of `2 ^ 31` letters and
is not represented.
-/

set_option autoImplicit false

/-! ## binary64 arithmetic -/

/-- A finite binary64 value `man * 2 ^ exp`. -/
structure Dbl where
  man : Int
  exp : Int
deriving DecidableEq

namespace Dbl

/-- Number of binary digits of `n` (the first argument bounds the recursion). -/
def bitLen : Nat → Nat → Nat
  | 0, _ => 0
  | fuel + 1, n => if n = 0 then 0 else bitLen fuel (n / 2) + 1

/-- Position of the leading binary digit, `floor (log2 n)` for `n > 0`. -/
def ilog2 (n : Nat) : Nat := bitLen n n - 1

/-- Numerator and denominator of `a / (d * 2 ^ e)`. -/
def scaled (a d : Nat) (e : Int) : Nat × Nat :=
  if 0 ≤ e then (a, d * 2 ^ e.toNat) else (a * 2 ^ (-e).toNat, d)

/-- The exponent `e` with `2 ^ 52 ≤ a / (d * 2 ^ e) < 2 ^ 53`, for `a, d > 0`. -/
def binExp (a d : Nat) : Int :=
  let e0 : Int := (ilog2 a : Int) - (ilog2 d : Int) - 52
  if (scaled a d e0).1 / (scaled a d e0).2 < 2 ^ 52 then e0 - 1 else e0

/-- The integer nearest to `n / m`, ties to the even one. -/
def nearestEven (n m : Nat) : Nat :=
  if 2 * (n % m) < m then n / m
  else if m < 2 * (n % m) then n / m + 1
  else if (n / m) % 2 = 0 then n / m else n / m + 1

/-- The binary64 value nearest to the rational `n / d` (53 significant bits,
round to nearest, ties to even). -/
def ofRatio (n : Int) (d : Nat) : Dbl :=
  if n = 0 ∨ d = 0 then ⟨0, 0⟩
  else
    let e := binExp n.natAbs d
    ⟨Int.sign n * (nearestEven (scaled n.natAbs d e).1 (scaled n.natAbs d e).2 : Nat), e⟩

/-- The binary64 value nearest to `m * 2 ^ e`. -/
def ofScaled (m e : Int) : Dbl :=
  if 0 ≤ e then ofRatio (m * 2 ^ e.toNat) 1 else ofRatio m (2 ^ (-e).toNat)

/-- Conversion `(double) n` of an integer. -/
def ofInt (n : Int) : Dbl := ofRatio n 1

/-- Conversion `(double) n` of an unsigned integer. -/
def ofNat (n : Nat) : Dbl := ofRatio n 1

/-- Product `x * y`, rounded. -/
def mul (x y : Dbl) : Dbl := ofScaled (x.man * y.man) (x.exp + y.exp)

/-- Quotient `x / y`, rounded; `y` is not zero. -/
def div (x y : Dbl) : Dbl :=
  if 0 ≤ x.exp - y.exp then
    ofRatio (x.man * Int.sign y.man * 2 ^ (x.exp - y.exp).toNat) y.man.natAbs
  else
    ofRatio (x.man * Int.sign y.man) (y.man.natAbs * 2 ^ (y.exp - x.exp).toNat)

/-- Integer part, rounding toward zero. -/
def trunc (x : Dbl) : Int :=
  if 0 ≤ x.exp then x.man * 2 ^ x.exp.toNat
  else Int.sign x.man * (x.man.natAbs / 2 ^ (-x.exp).toNat : Nat)

/-- Result of `std::floor`, as an integer. -/
def floor (x : Dbl) : Int :=
  if 0 ≤ x.exp then x.man * 2 ^ x.exp.toNat else x.man / 2 ^ (-x.exp).toNat

/-- Comparison `x < y`. -/
def lt (x y : Dbl) : Bool :=
  if x.exp ≤ y.exp then decide (x.man < y.man * 2 ^ (y.exp - x.exp).toNat)
  else decide (x.man * 2 ^ (x.exp - y.exp).toNat < y.man)

/-- Result of `std::max (x, y)`: `y` when `x < y`, else `x`. -/
def max (x y : Dbl) : Dbl := if lt x y then y else x

/-- The constant `1.`. -/
def one : Dbl := ⟨1, 0⟩

/-- Modelled from the spec: `math::round`, which `coverage.hpp` calls and does not define;
the spec says "round", taken as the nearest integer with halves rounded up. -/
def round (x : Dbl) : Dbl :=
  if 0 ≤ x.exp then x else ⟨(2 * x.man + 2 ^ (-x.exp).toNat) / (2 * 2 ^ (-x.exp).toNat), 0⟩

/-- Difference `x - y`, rounded. -/
def sub (x y : Dbl) : Dbl :=
  if x.exp ≤ y.exp then ofScaled (x.man - y.man * 2 ^ (y.exp - x.exp).toNat) x.exp
  else ofScaled (x.man * 2 ^ (x.exp - y.exp).toNat - y.man) y.exp

/-- The decimal digits of `n` (in ASCII) in front of `acc`; the first argument bounds the
recursion. -/
def digitsAux : Nat → Nat → List Nat → List Nat
  | 0, _, acc => acc
  | fuel + 1, n, acc =>
    if n < 10 then (48 + n) :: acc else digitsAux fuel (n / 10) ((48 + n % 10) :: acc)

/-- The characters that `operator<<` writes for an unsigned integer: its decimal digits. -/
def decimal (n : Nat) : List Nat := digitsAux (n + 1) n []

/-- The least `k` from the last argument on with `d ≤ n * 10 ^ k`; the first argument bounds
the recursion. -/
def negExp : Nat → Nat → Nat → Nat → Nat
  | 0, _, _, k => k
  | fuel + 1, n, d, k => if d ≤ n * 10 ^ k then k else negExp fuel n d (k + 1)

/-- The decimal exponent of `n / d`, for `n, d > 0`: the `x` with
`10 ^ x ≤ n / d < 10 ^ (x + 1)`. -/
def decExp (n d : Nat) : Int :=
  if d ≤ n then ((decimal (n / d)).length : Int) - 1 else -(negExp d n d 1 : Int)

/-- The value `n / d` rounded to six significant decimal digits (to the nearest, ties to
even): the six digits as a number and the decimal exponent of the first of them. -/
def sixDigits (n d : Nat) : Nat × Int :=
  let x := decExp n d
  let m := if x ≤ 5 then nearestEven (n * 10 ^ (5 - x).toNat) d
    else nearestEven n (d * 10 ^ (x - 5).toNat)
  if m = 10 ^ 6 then (10 ^ 5, x + 1) else (m, x)

/-- A list of digits without the zeros (byte 48) at its end. -/
def stripZeros (l : List Nat) : List Nat :=
  (l.reverse.dropWhile (fun c => decide (c = 48))).reverse

/-- The characters that `operator<<` writes for a `double` on a stream in its initial
state (precision 6, no `fixed` or `scientific`, the conversion `%g` of the C library): six
significant digits; positional when the decimal exponent is from -4 to 5 and with an
exponent of at least two digits otherwise; the zeros at the end of the fraction and a
point with nothing after it are left out. -/
def print (x : Dbl) : List Nat :=
  if x.man = 0 then [48]
  else
    let md := sixDigits
      (if 0 ≤ x.exp then x.man.natAbs * 2 ^ x.exp.toNat else x.man.natAbs)
      (if 0 ≤ x.exp then 1 else 2 ^ (-x.exp).toNat)
    let ds := decimal md.1
    (if x.man < 0 then [45] else []) ++
      (if -4 ≤ md.2 ∧ md.2 < 6 then
        if 0 ≤ md.2 then
          ds.take (md.2.toNat + 1) ++
            (if stripZeros (ds.drop (md.2.toNat + 1)) = [] then []
              else 46 :: stripZeros (ds.drop (md.2.toNat + 1)))
        else [48, 46] ++ List.replicate ((-md.2).toNat - 1) 48 ++ stripZeros ds
      else
        ds.take 1 ++
          (if stripZeros (ds.drop 1) = [] then [] else 46 :: stripZeros (ds.drop 1)) ++
          [101] ++ (if 0 ≤ md.2 then [43] else [45]) ++
          (if md.2.natAbs < 10 then [48] else []) ++ decimal md.2.natAbs)

end Dbl

/-! ## `omnigraph::CoverageIndex` -/

namespace omnigraph

/-- Edge identifiers. -/
abbrev EdgeId := Nat

/-- What the index reads from the graph: `g().length(edge)`, a `size_t`. -/
structure Graph where
  length : EdgeId → Nat

/-- The member `storage_ : map<EdgeId, int>`. -/
abbrev Storage := EdgeId → Option Int

/-- Ways an operation can end without a result. -/
inductive Fault where
  | verify
  | undefined
deriving DecidableEq

/-- Values of the C++ type `int`. -/
def isInt32 (n : Int) : Prop := -(2 : Int) ^ 31 ≤ n ∧ n < (2 : Int) ^ 31

instance (n : Int) : Decidable (isInt32 n) := by unfold isInt32; infer_instance

/-- Narrowing conversion to `int`. -/
def toInt32 (n : Int) : Int := (n + 2 ^ 31) % 2 ^ 32 - 2 ^ 31

/-- Result of a signed `int` operation whose exact value is `n`. -/
def int32 (n : Int) : Except Fault Int := if isInt32 n then .ok n else .error .undefined

/-- Conversion `(size_t) x` of a double. -/
def toSizeT (x : Dbl) : Except Fault Nat :=
  if 0 ≤ x.trunc ∧ x.trunc < 2 ^ 64 then .ok x.trunc.toNat else .error .undefined

/-- The stored count of an edge, `0` when it has no entry. -/
def stored (s : Storage) (edge : EdgeId) : Int := (s edge).getD 0

/-- Embeds `CoverageIndex::coverage`: the average coverage `(double) it->second / length`.
For an entry of an edge of length `0` the quotient is not a finite value. -/
def coverage (g : Graph) (s : Storage) (edge : EdgeId) : Except Fault Dbl :=
  match s edge with
  | none => .ok ⟨0, 0⟩
  | some c =>
    if g.length edge = 0 then .error .undefined
    else .ok (Dbl.div (Dbl.ofInt c) (Dbl.ofNat (g.length edge)))

/-- Embeds `CoverageIndex::KPlusOneMerCoverage`: `(size_t) (coverage(edge) * length(edge))`. -/
def KPlusOneMerCoverage (g : Graph) (s : Storage) (edge : EdgeId) : Except Fault Nat := do
  let cv ← coverage g s edge
  toSizeT (Dbl.mul cv (Dbl.ofNat (g.length edge)))

/-- Embeds `CoverageIndex::SetCoverage (edge, cov)`, `cov` an `int`. -/
def SetCoverage (s : Storage) (edge : EdgeId) (cov : Int) : Except Fault Storage :=
  if 0 ≤ cov then .ok (fun e => if e = edge then some cov else s e) else .error .verify

/-- Embeds `CoverageIndex::IncCoverage (edge, toAdd)`, `toAdd` an `int`:
`storage_[edge] += toAdd; VERIFY(storage_[edge] >= 0)`. -/
def IncCoverage (s : Storage) (edge : EdgeId) (toAdd : Int) : Except Fault Storage :=
  if ¬ isInt32 (stored s edge + toAdd) then .error .undefined
  else if 0 ≤ stored s edge + toAdd then
    .ok (fun e => if e = edge then some (stored s edge + toAdd) else s e)
  else .error .verify

/-- A mapped read: `Path<EdgeId>` with `sequence()`, `start_pos()`, `end_pos()`. -/
structure Path where
  sequence : List EdgeId
  start_pos : Nat
  end_pos : Nat

/-- The loop of `AddPathsToGraph` over the edges of the path. -/
def addLengths (g : Graph) : Storage → List EdgeId → Except Fault Storage
  | s, [] => .ok s
  | s, e :: es => do
    let s1 ← IncCoverage s e (toInt32 (g.length e))
    addLengths g s1 es

/-- Embeds `CoverageIndex::AddPathsToGraph`. -/
def AddPathsToGraph (g : Graph) (s : Storage) (path : Path) : Except Fault Storage :=
  match path.sequence with
  | [] => .ok s
  | e0 :: rest => do
    let s1 ← addLengths g s (e0 :: rest)
    let d0 ← int32 (-(toInt32 path.start_pos))
    let s2 ← IncCoverage s1 e0 d0
    let last := (e0 :: rest).getLast (List.cons_ne_nil e0 rest)
    let d1 ← int32 (toInt32 path.end_pos - toInt32 (g.length last))
    IncCoverage s2 last d1

/-- Embeds `CoverageIndex::HandleDelete`. -/
def HandleDelete (s : Storage) (edge : EdgeId) : Storage :=
  fun e => if e = edge then none else s e

/-- The accumulation loop of `HandleMerge` (`size_t coverage`). -/
def mergeSum (g : Graph) (s : Storage) : Nat → List EdgeId → Except Fault Nat
  | acc, [] => .ok acc
  | acc, e :: es => do
    let k ← KPlusOneMerCoverage g s e
    mergeSum g s ((acc + k) % 2 ^ 64) es

/-- Embeds `CoverageIndex::HandleMerge`. -/
def HandleMerge (g : Graph) (s : Storage) (oldEdges : List EdgeId) (newEdge : EdgeId) :
    Except Fault Storage := do
  let cov ← mergeSum g s 0 oldEdges
  SetCoverage s newEdge (toInt32 cov)

/-- Embeds `CoverageIndex::HandleGlue`. -/
def HandleGlue (g : Graph) (s : Storage) (new_edge edge1 edge2 : EdgeId) :
    Except Fault Storage := do
  let k2 ← KPlusOneMerCoverage g s edge2
  let s1 ← IncCoverage s new_edge (toInt32 k2)
  let k1 ← KPlusOneMerCoverage g s1 edge1
  IncCoverage s1 new_edge (toInt32 k1)

/-- The value `size_t (max (1., math::round (avg_cov * length)))` of `HandleSplit`. -/
def splitCount (avg_cov : Dbl) (len : Nat) : Except Fault Nat :=
  toSizeT (Dbl.max Dbl.one (Dbl.round (Dbl.mul avg_cov (Dbl.ofNat len))))

/-- Embeds `CoverageIndex::HandleSplit`. -/
def HandleSplit (g : Graph) (s : Storage) (oldEdge newEdge1 newEdge2 : EdgeId) :
    Except Fault Storage := do
  let avg_cov ← coverage g s oldEdge
  let c1 ← splitCount avg_cov (g.length newEdge1)
  let s1 ← SetCoverage s newEdge1 (toInt32 c1)
  let c2 ← splitCount avg_cov (g.length newEdge2)
  SetCoverage s1 newEdge2 (toInt32 c2)

/-- The `int` argument `floor (KPlusOneMerCoverage (old_ID) * split_coefficients[j])`. -/
def splitShare (k : Nat) (coeff : Dbl) : Except Fault Int :=
  int32 (Dbl.floor (Dbl.mul (Dbl.ofNat k) coeff))

/-- The loop of `HandleVertexSplit` from index `j` on. -/
def vertexSplitLoop (g : Graph) (coeffs : List Dbl) :
    Storage → Nat → List (EdgeId × EdgeId) → Except Fault Storage
  | s, _, [] => .ok s
  | s, j, (old_ID, new_ID) :: rest =>
    match coeffs[j]? with
    | none => .error .undefined
    | some c => do
      let k ← KPlusOneMerCoverage g s old_ID
      let a ← splitShare k c
      let s1 ← IncCoverage s new_ID a
      vertexSplitLoop g coeffs s1 (j + 1) rest

/-- Embeds `CoverageIndex::HandleVertexSplit`. -/
def HandleVertexSplit (g : Graph) (s : Storage) (newEdges : List (EdgeId × EdgeId))
    (split_coefficients : List Dbl) : Except Fault Storage :=
  vertexSplitLoop g split_coefficients s 0 newEdges

/-- The claimed split formula `max (1, round (c * len_i / len))` in exact arithmetic. -/
def exactSplitCount (c : Int) (len len_i : Nat) : Int :=
  Max.max 1 ((2 * c * len_i + len) / (2 * len))

/-- The integer `max (1., math::round (avg_cov * len))` computed by `HandleSplit`. -/
def splitValue (avg_cov : Dbl) (len : Nat) : Int :=
  (Dbl.max Dbl.one (Dbl.round (Dbl.mul avg_cov (Dbl.ofNat len)))).trunc

/-- All stored entries are non-negative. -/
def NonNeg (s : Storage) : Prop := ∀ e c, s e = some c → 0 ≤ c

end omnigraph

/-! ## `HammerTools` -/

namespace HammerTools

/-- Embeds `HammerTools::InitializeSubKMerPositions`: the vector
`Globals::subKMerPositions` of `tau + 2` entries of type `uint32_t`; `K` is the k-mer
length and `tau` is `cfg::get().general_tau`.  The product `i * K` is a 32-bit unsigned
product. -/
def InitializeSubKMerPositions (K tau : Nat) : List Nat :=
  (List.range (tau + 1)).map (fun i => (i * K % 2 ^ 32) / (tau + 1)) ++ [K % 2 ^ 32]

/-- Entry `Globals::subKMerPositions->at(j)`. -/
def subKMerPositionAt (K tau j : Nat) : Nat := (InitializeSubKMerPositions K tau).getD j 0

/-- The `j`-th sub-k-mer written by `CountKMersBySplitAndMerge` for a k-mer with bytes `a`:
`string (blob + pos + at(j), at(j+1) - at(j))`, the length being a 32-bit unsigned
difference. -/
def subKMer {α : Type} (K tau : Nat) (a : List α) (j : Nat) : List α :=
  (a.drop (subKMerPositionAt K tau j)).take
    ((subKMerPositionAt K tau (j + 1) + 2 ^ 32 - subKMerPositionAt K tau j) % 2 ^ 32)

/-- Hamming distance of two byte strings of the same length. -/
def hamming {α : Type} [DecidableEq α] (a b : List α) : Nat :=
  (a.zip b).countP (fun p => decide (p.1 ≠ p.2))


/-- Embeds `KMerStat`: count (`uint32_t`), `changeto`, `totalQual` (a `double`, kept
abstract as a type `P` with its product) and the per-position qualities `qual`. -/
structure KMerStat (P : Type) where
  count : Nat
  changeto : Nat
  totalQual : P
  qual : List Int
deriving DecidableEq

/-- Embeds `KMerCount = pair<PositionKMer, KMerStat>`; `first` is the blob offset
`first.start()` of the k-mer. -/
structure KMerCount (P : Type) where
  first : Nat
  second : KMerStat P
deriving DecidableEq

/-- The inner step of a merge: `x` is the head of the first range, `rest` continues once
`x` has been emitted. -/
def mergeStep {α : Type} (lt : α → α → Bool) (x : α) (rest : List α → List α) :
    List α → List α
  | [] => x :: rest []
  | y :: ys => if lt y x then y :: mergeStep lt x rest ys else x :: rest (y :: ys)

/-- The result of merging two consecutive ranges with comparator `lt`: an element of the
second range is taken only when it is less than the head of the first (stable). -/
def mergeRanges {α : Type} (lt : α → α → Bool) : List α → List α → List α
  | [], ys => ys
  | x :: xs, ys => mergeStep lt x (mergeRanges lt xs) ys

/-- Embeds `std::inplace_merge (vec.begin () + first, vec.begin () + middle,
vec.begin () + last, lt)`. -/
def inplace_merge {α : Type} (lt : α → α → Bool) (vec : List α) (first middle last : Nat) :
    List α :=
  vec.take first ++ mergeRanges lt ((vec.take middle).drop first) ((vec.take last).drop middle)
    ++ vec.drop last

/-- The "Concat vectors" loop of `CountKMersBySplitAndMerge`: appends every bucket to `vec`
and records `vec.size()` in `enditers`. -/
def concatVectors {α : Type} : List α → List Nat → List (List α) → List α × List Nat
  | vec, enditers, [] => (vec, enditers)
  | vec, enditers, b :: bs => concatVectors (vec ++ b) (enditers ++ [(vec ++ b).length]) bs

/-- The "Merge in place" loop: `for (iFile = 1; iFile < numfiles; ++iFile)
inplace_merge (begin, begin + enditers[iFile-1], begin + enditers[iFile])`. -/
def mergeInPlace {α : Type} (lt : α → α → Bool) (numfiles : Nat) (enditers : List Nat)
    (vec : List α) : List α :=
  (List.range' 1 (numfiles - 1)).foldl
    (fun v iFile => inplace_merge lt v 0 (enditers.getD (iFile - 1) 0) (enditers.getD iFile 0))
    vec

/-- The concatenation, merge and `kmernos` extraction of `CountKMersBySplitAndMerge`, from
the per-bucket vectors `kmcvec`; the comparator `lt` is `KMerNo::is_less_kmercount`.
Returns the global vector and `Globals::kmernos`. -/
def mergeBuckets {P : Type} (lt : KMerCount P → KMerCount P → Bool)
    (kmcvec : List (List (KMerCount P))) : List (KMerCount P) × List Nat :=
  let cv := concatVectors [] [] kmcvec
  let vec := mergeInPlace lt kmcvec.length cv.2 cv.1
  (vec, vec.map (fun kmc => kmc.first))

/-- A range is sorted under the comparator `lt`: no later element is less than an earlier
one. -/
def SortedUnder {α : Type} (lt : α → α → Bool) (l : List α) : Prop :=
  l.Pairwise (fun x y => lt y x = false)

instance {α : Type} (lt : α → α → Bool) (l : List α) : Decidable (SortedUnder lt l) := by
  unfold SortedUnder
  infer_instance


/-- The globals and configuration values read by the k-mer counting code: the k-mer length
`K`, `Globals::blob`, `Globals::blobquality`, `Globals::use_common_quality`,
`Globals::common_quality`, `(char) cfg::get().input_qvoffset`, and the constants
`MAX_SHORT` and `KMERSTAT_GOODITER`.  `ctorQual` is the value of the member `qual` as left
by the `KMerStat` constructor, which `hammer_tools.cpp` calls and does not define. -/
structure Globals where
  K : Nat
  blob : Nat → Nat
  blobquality : Nat → Int
  use_common_quality : Bool
  common_quality : Int
  char_offset : Int
  MAX_SHORT : Int
  KMERSTAT_GOODITER : Nat
  ctorQual : List Int

/-- Embeds `KMerNo`: a k-mer occurrence, its blob offset and error probability. -/
structure KMerNo (P : Type) where
  index : Nat
  errprob : P
deriving DecidableEq

/-- The `K` bytes of the k-mer at blob offset `pos`. -/
def kmerBytes (G : Globals) (pos : Nat) : List Nat :=
  (List.range G.K).map (fun j => G.blob (pos + j))

/-- Modelled from the spec: `KMerNo::equal (const KMerCount &)`, which `hammer_tools.cpp`
calls and does not define; "equality is byte-wise over `K` bytes at that offset". -/
def KMerNo.equal {P : Type} (G : Globals) (x : KMerNo P) (kmc : KMerCount P) : Bool :=
  decide (kmerBytes G x.index = kmerBytes G kmc.first)

/-- Embeds `KMerCount kmc (PositionKMer (index), KMerStat (use_common_quality, 1,
KMERSTAT_GOODITER, errprob))`. -/
def newKMerCount {P : Type} (G : Globals) (x : KMerNo P) : KMerCount P :=
  ⟨x.index, ⟨1, G.KMERSTAT_GOODITER, x.errprob, G.ctorQual⟩⟩

/-- Embeds `fillQVec (qvec, index, char_offset)`: when per-base qualities are kept, every
`qvec[j]`, `j < K`, is assigned `blobquality[index + j] - char_offset`. -/
def fillQVec (G : Globals) (qvec : List Int) (index : Nat) : List Int :=
  if G.use_common_quality then qvec
  else (List.range G.K).map (fun j => G.blobquality (index + j) - G.char_offset)

/-- Embeds `kmc.second.qual = QualBitSet (); for j < K: qual.set (j, min (MAX_SHORT,
qvec[j]))`. -/
def setQual {P : Type} (G : Globals) (kmc : KMerCount P) (qvec : List Int) : KMerCount P :=
  { kmc with second := { kmc.second with
      qual := (List.range G.K).map (fun j => min G.MAX_SHORT (qvec.getD j 0)) } }

/-- The guarded update `if (!first_occ && !use_common_quality) ...` of the last record. -/
def closeRun {P : Type} (G : Globals) (kmc : KMerCount P) (qvec : List Int)
    (first_occ : Bool) : KMerCount P :=
  if !first_occ && !G.use_common_quality then setQual G kmc qvec else kmc

/-- The variables of the loop of `KmerHashUnique`: `vkmc` is `pre` followed by `cur`
(`cur` is `vkmc[vkmc.size() - 1]`). -/
structure UniqueState (P : Type) where
  pre : List (KMerCount P)
  cur : KMerCount P
  qvec : List Int
  first_occ : Bool

/-- One iteration of the loop of `KmerHashUnique` on `vec[i]`; `count` is a `uint32_t`. -/
def uniqueStep {P : Type} [Mul P] (G : Globals) (st : UniqueState P) (v : KMerNo P) :
    UniqueState P :=
  if v.equal G st.cur then
    { pre := st.pre
      cur := { st.cur with second := { st.cur.second with
        count := (st.cur.second.count + 1) % 2 ^ 32
        totalQual := st.cur.second.totalQual * v.errprob } }
      qvec := fillQVec G st.qvec v.index
      first_occ := false }
  else
    { pre := st.pre ++ [closeRun G st.cur st.qvec st.first_occ]
      cur := newKMerCount G v
      qvec := fillQVec G st.qvec v.index
      first_occ := true }

/-- The state of `KmerHashUnique` when its loop is left. -/
def uniqueLoop {P : Type} [Mul P] (G : Globals) (v0 : KMerNo P) (rest : List (KMerNo P))
    (vkmc : List (KMerCount P)) : UniqueState P :=
  rest.foldl (uniqueStep G)
    ⟨vkmc, newKMerCount G v0, fillQVec G (List.replicate G.K 0) v0.index, true⟩

/-- Embeds `HammerTools::KmerHashUnique (vec, vkmc)`: the vector `vkmc` on return; no
result for an empty `vec` (`vec[0]` does not exist). -/
def KmerHashUnique {P : Type} [Mul P] (G : Globals) (vec : List (KMerNo P))
    (vkmc : List (KMerCount P)) : Option (List (KMerCount P)) :=
  match vec with
  | [] => none
  | v0 :: rest =>
    some ((uniqueLoop G v0 rest vkmc).pre ++
      [closeRun G (uniqueLoop G v0 rest vkmc).cur (uniqueLoop G v0 rest vkmc).qvec
        (uniqueLoop G v0 rest vkmc).first_occ])

/-- Equal k-mers are adjacent in `vec`: a record between two records of the same k-mer
holds that k-mer too. -/
def EqualAdjacent {P : Type} (G : Globals) (vec : List (KMerNo P)) : Prop :=
  ∀ x y z, [x, y, z].Sublist vec → kmerBytes G x.index = kmerBytes G z.index →
    kmerBytes G y.index = kmerBytes G x.index

/-- The record `kmc` stands for the run made of the record `r.1` followed by the records
`r.2`: it is positioned at the first record, counts the records and holds the product of
their error probabilities. -/
def Summarises {P : Type} [Mul P] (r : KMerNo P × List (KMerNo P)) (kmc : KMerCount P) : Prop :=
  kmc.first = r.1.index ∧ kmc.second.count = r.2.length + 1 ∧
    kmc.second.totalQual = r.2.foldl (fun p y => p * y.errprob) r.1.errprob

/-- The runs of equal k-mers of `x :: xs ++ rest`, the first one starting with `x :: xs`:
a record joins the current run when its k-mer is the one of the run's first record. -/
def splitRuns {P : Type} (G : Globals) :
    KMerNo P → List (KMerNo P) → List (KMerNo P) → List (KMerNo P × List (KMerNo P))
  | x, xs, [] => [(x, xs)]
  | x, xs, v :: vs =>
    if kmerBytes G v.index = kmerBytes G x.index then splitRuns G x (xs ++ [v]) vs
    else (x, xs) :: splitRuns G v [] vs


/-- Embeds `PositionRead`: a stored read, its blob offset, size, id and `done` flag. -/
structure PositionRead where
  start : Nat
  size : Nat
  id : Nat
  done : Bool
deriving DecidableEq

/-- One k-mer yielded by `ValidKMerGenerator`: `gen.kmer ()`, `gen.pos ()` and
`gen.correct_probability ()` while `gen.HasMore ()`. -/
structure ValidKMer (P : Type) where
  kmer : List Nat
  pos : Nat
  correct_probability : P

/-- What `SplitKMers` takes from outside `hammer_tools.cpp`: the valid k-mer generator
`gen` (from the strings `s` and `q` to the k-mers it yields, in order), `Seq<K>::hash`, the
OpenMP assignment `thread` of loop iterations to thread numbers, and the configuration
values `count_numfiles`, the thread count and `count_split_buffer`. -/
structure SplitEnv (P : Type) where
  gen : List Nat → List Int → List (ValidKMer P)
  hash : List Nat → Nat
  thread : Nat → Nat
  numfiles : Nat
  count_num_threads : Nat
  readbuffer : Int

/-- Conversion to `char`. -/
def toChar (n : Int) : Int := (n + 128) % 256 - 128

/-- The string `s` built for a read: its bytes in the blob. -/
def readSequence (G : Globals) (r : PositionRead) : List Nat :=
  (List.range r.size).map (fun j => G.blob (r.start + j))

/-- The string `q` built for a read: the common quality, or the stored qualities with the
offset taken off. -/
def readQuality (G : Globals) (r : PositionRead) : List Int :=
  if G.use_common_quality then List.replicate r.size (toChar G.common_quality)
  else (List.range r.size).map (fun j => toChar (G.blobquality (r.start + j) - G.char_offset))

/-- The bytes of the record `<offset>\t<error_prob>\n` that `SplitKMers` writes, for the
decimal digits `offset` and `error_prob` that the stream operators produce. -/
def recordBytes (offset error_prob : List Nat) : List Nat :=
  offset ++ [9] ++ error_prob ++ [10]

/-- The characters of `fs << first << "\t" << second << "\n"` for a pair of a `hint_t` and
a `double`. -/
def recordLine (e : Nat × Dbl) : List Nat :=
  recordBytes (Dbl.decimal e.1) (Dbl.print e.2)

/-- The entries pushed for one read, each with its bucket
`hash_function (gen.kmer ()) % numfiles`: the pair
`(start + gen.pos () - 1, 1 - gen.correct_probability ())`, the offset being a `hint_t`
and the difference a `double`. -/
def readEntries (G : Globals) (E : SplitEnv Dbl) (r : PositionRead) :
    List (Nat × (Nat × Dbl)) :=
  (E.gen (readSequence G r) (readQuality G r)).map
    (fun k => (E.hash k.kmer % E.numfiles,
      ((r.start + k.pos + (2 ^ 64 - 1)) % 2 ^ 64, Dbl.sub Dbl.one k.correct_probability)))

/-- The entries of one read that go to bucket `k`. -/
def bucketEntries (G : Globals) (E : SplitEnv Dbl) (k : Nat) (r : PositionRead) :
    List (Nat × Dbl) :=
  ((readEntries G E r).filter (fun e => decide (e.1 = k))).map (fun e => e.2)

/-- The content of `tmp_entries[t][k]` after the parallel loop over the reads `batch`
(pairs of index and read): the entries for bucket `k` of the reads handled by thread `t`,
in increasing read index. -/
def tmpEntries (G : Globals) (E : SplitEnv Dbl) (batch : List (Nat × PositionRead))
    (t k : Nat) : List (Nat × Dbl) :=
  (batch.filter (fun ir => decide (E.thread ir.1 = t))).flatMap
    (fun ir => bucketEntries G E k ir.2)

/-- The "Writing to files" loop: the stream of file `k` receives the characters of the
entries of `tmp_entries[i][k]` for the threads `i = 0, 1, ...` in turn; a file is the list
of the bytes written to it. -/
def writeFiles (G : Globals) (E : SplitEnv Dbl) (batch : List (Nat × PositionRead))
    (files : List (List Nat)) : List (List Nat) :=
  (List.range E.numfiles).map (fun k =>
    files.getD k [] ++
      ((List.range E.count_num_threads).flatMap (fun t => tmpEntries G E batch t k)).flatMap
        recordLine)

/-- The `while (cur_i < (int) pr->size ())` loop of `SplitKMers`; `cur_i`, `cur_limit` and
`readbuffer` are `int`s.  The first argument bounds the number of iterations; there is no
result when it is exhausted or when `cur_limit + readbuffer` overflows. -/
def splitLoop (G : Globals) (E : SplitEnv Dbl) (pr : List PositionRead) :
    Nat → Int → Int → List (List Nat) → Option (List (List Nat))
  | 0, _, _, _ => none
  | fuel + 1, cur_i, cur_limit, files =>
    if cur_i < omnigraph.toInt32 pr.length then
      if omnigraph.isInt32 (cur_limit + E.readbuffer) then
        splitLoop G E pr fuel
          (min (cur_limit + E.readbuffer) (omnigraph.toInt32 pr.length))
          (min (cur_limit + E.readbuffer) (omnigraph.toInt32 pr.length))
          (writeFiles G E
            ((pr.enum.drop cur_i.toNat).take
              (min (cur_limit + E.readbuffer) (omnigraph.toInt32 pr.length) - cur_i).toNat)
            files)
      else none
    else some files

/-- Embeds `HammerTools::SplitKMers`: the contents of the `numfiles` bucket files, each the
list of its bytes; the files start empty. -/
def SplitKMers (G : Globals) (E : SplitEnv Dbl) (pr : List PositionRead) (fuel : Nat) :
    Option (List (List Nat)) :=
  splitLoop G E pr fuel 0 0 (List.replicate E.numfiles [])

/-- The records of the valid k-mers as the amended claim words them, not read off the
source: for each stored read in turn and each k-mer that the generator yields on the
letters of the read and on its qualities (the common quality for every letter when it is
in use, else the stored quality of the letter less the offset, as `char`s), the bucket
`hash (kmer) mod numfiles` and the line made of the offset `start + pos - 1` (a 64-bit
unsigned value) in decimal digits, a tab, `1 - correct_probability` at six significant
digits and a newline. -/
def validKMerLines (G : Globals) (E : SplitEnv Dbl) (pr : List PositionRead) :
    List (Nat × List Nat) :=
  pr.flatMap (fun r =>
    (E.gen (List.ofFn (fun j : Fin r.size => G.blob (r.start + j)))
        (List.ofFn (fun j : Fin r.size =>
          if G.use_common_quality = true then (G.common_quality + 128) % 256 - 128
          else (G.blobquality (r.start + j) - G.char_offset + 128) % 256 - 128))).map
      (fun v => (E.hash v.kmer % E.numfiles,
        Dbl.decimal ((((r.start + v.pos : Nat) : Int) - 1) % 2 ^ 64).toNat ++ [9] ++
          Dbl.print (Dbl.sub Dbl.one v.correct_probability) ++ [10])))

/-- Embeds what `hammer_tools.cpp` uses of a `Read`: the strings returned by
`getSequenceString ()` and `getQualityString ()`. -/
structure Read where
  seq : List Nat
  qual : List Int
deriving DecidableEq

/-- Modelled from the spec: the complement of a nucleotide letter (`A` with `T`, `C` with
`G`, in ASCII), any other byte being kept. -/
def complementLetter (c : Nat) : Nat :=
  if c = 65 then 84 else if c = 84 then 65 else if c = 67 then 71 else if c = 71 then 67
  else c

/-- Modelled from the spec: `Read::operator!`, which `hammer_tools.cpp` calls and does not
define; the "reverse-complement" of a read: the letters complemented and taken in reverse
order, the qualities taken in reverse order. -/
def Read.revComp (r : Read) : Read :=
  ⟨(r.seq.map complementLetter).reverse, r.qual.reverse⟩

/-- What `ReadFileIntoBlob` takes from outside `hammer_tools.cpp`: the read left by
`r.trimNsAndBadQuality (trim_quality)`, whose returned size is the length of the trimmed
sequence, and the configuration value `input_qvoffset`. -/
structure ReadEnv where
  trimNsAndBadQuality : Read → Read
  input_qvoffset : Int

/-- The variables `ReadFileIntoBlob` works on: `Globals::blob`, `Globals::blobquality`,
`Globals::pr` and the two counters `curpos` and `cur_read` (of type `hint_t`, offsets and
counts of objects held in memory). -/
structure BlobState where
  blob : Nat → Nat
  blobquality : Nat → Int
  pr : List PositionRead
  curpos : Nat
  cur_read : Nat

/-- The body of the loop of `ReadFileIntoBlob` past the test of the size: the table entry
is pushed (its size is a `uint32_t`), the `read_size` first letters of `r` are written from
`curpos` on, the qualities too unless the common quality is in use (each is converted to
`char`), and the two counters move on. -/
def pushRead (G : Globals) (E : ReadEnv) (st : BlobState) (read_size : Nat) (r : Read) :
    BlobState :=
  { blob := fun p =>
      if st.curpos ≤ p ∧ p < st.curpos + read_size then r.seq.getD (p - st.curpos) 0
      else st.blob p
    blobquality := fun p =>
      if ¬ G.use_common_quality ∧ st.curpos ≤ p ∧ p < st.curpos + read_size then
        toChar (toChar E.input_qvoffset + r.qual.getD (p - st.curpos) 0)
      else st.blobquality p
    pr := st.pr ++ [⟨st.curpos, read_size % 2 ^ 32, st.cur_read, false⟩]
    curpos := st.curpos + read_size
    cur_read := st.cur_read + 1 }

/-- One iteration of the loop of `ReadFileIntoBlob` on the read `r0` taken from the stream:
`read_size = r.trimNsAndBadQuality (trim_quality); if (read_size < K) continue;
if (reverse_complement) r = !r; ...`. -/
def storeRead (G : Globals) (E : ReadEnv) (reverse_complement : Bool) (st : BlobState)
    (r0 : Read) : BlobState :=
  if (E.trimNsAndBadQuality r0).seq.length < G.K then st
  else pushRead G E st (E.trimNsAndBadQuality r0).seq.length
    (if reverse_complement then (E.trimNsAndBadQuality r0).revComp
      else E.trimNsAndBadQuality r0)

/-- Embeds `HammerTools::ReadFileIntoBlob (readsFilename, curpos, cur_read,
reverse_complement)`; `reads` are the reads the stream of the file yields. -/
def ReadFileIntoBlob (G : Globals) (E : ReadEnv) (reads : List Read)
    (reverse_complement : Bool) (st : BlobState) : BlobState :=
  reads.foldl (storeRead G E reverse_complement) st

/-- What `ReadAllFilesIntoBlob` leaves: the blob state, `Globals::revNo` and
`Globals::input_file_blob_positions`. -/
structure BlobResult where
  st : BlobState
  revNo : Nat
  input_file_blob_positions : List Nat

/-- The first loop of `ReadAllFilesIntoBlob`, over the files read forward. -/
def readForward (G : Globals) (E : ReadEnv) :
    List (List Read) → BlobState → List Nat → BlobState × List Nat
  | [], st, ps => (st, ps)
  | f :: fs, st, ps =>
    readForward G E fs (ReadFileIntoBlob G E f false st)
      (ps ++ [(ReadFileIntoBlob G E f false st).cur_read])

/-- Embeds `HammerTools::ReadAllFilesIntoBlob`; `files` holds, for each name of
`Globals::input_filenames`, the reads of that file, which is read twice. -/
def ReadAllFilesIntoBlob (G : Globals) (E : ReadEnv) (files : List (List Read)) :
    BlobResult :=
  { st := files.foldl (fun st f => ReadFileIntoBlob G E f true st)
      (readForward G E files ⟨G.blob, G.blobquality, [], 0, 0⟩ [0]).1
    revNo := (readForward G E files ⟨G.blob, G.blobquality, [], 0, 0⟩ [0]).1.cur_read
    input_file_blob_positions :=
      (readForward G E files ⟨G.blob, G.blobquality, [], 0, 0⟩ [0]).2 }

/-- The globals once the blob is built. -/
def BlobResult.globals (B : BlobResult) (G : Globals) : Globals :=
  { G with blob := B.st.blob, blobquality := B.st.blobquality }

/-- The trimmed reads of the files that are at least `K` long, in the order of the files. -/
def keptReads (G : Globals) (E : ReadEnv) (files : List (List Read)) : List Read :=
  (files.flatten.map E.trimNsAndBadQuality).filter (fun r => decide (G.K ≤ r.seq.length))

/-- The table entries of reads stored one after the other from offset `pos` and number
`id` on. -/
def layout : Nat → Nat → List Read → List PositionRead
  | _, _, [] => []
  | pos, id, r :: rs => ⟨pos, r.seq.length % 2 ^ 32, id, false⟩ ::
      layout (pos + r.seq.length) (id + 1) rs


/-- What the expansion and the correction of reads take from outside `hammer_tools.cpp`:
the tests `isGood`, `isGoodForIterative`, `isMarkedGoodForIterative`, `change` and the
update `makeGoodForIterative` of `KMerStat`; for the read number `readno` of `Globals::pr`
the pairs (position in the read, index in the k-mer table) that the successive calls
`pr.nextKMerNo (it.first)` yield until the position is `-1`; the letter codes `dignucl` and
`nucl`. -/
structure KMerEnv (P : Type) where
  isGood : KMerStat P → Bool
  isGoodForIterative : KMerStat P → Bool
  isMarkedGoodForIterative : KMerStat P → Bool
  change : KMerStat P → Bool
  makeGoodForIterative : KMerStat P → KMerStat P
  nextKMerNo : Nat → List (Nat × Nat)
  dignucl : Nat → Nat
  nucl : Nat → Nat

/-- The variables `IterativeExpansionStep` works on: its counter `res`, the k-mer table
`kmers` and `Globals::pr`. -/
structure ExpansionState (P : Type) where
  res : Nat
  kmers : List (KMerCount P)
  pr : List PositionRead
deriving DecidableEq

/-- The value `(hint_t) -1` that fills `kmer_indices`. -/
def noKMer : Nat := 2 ^ 64 - 1

/-- The `while` loop of `IterativeExpansionStep` over the k-mers of a read of size
`read_size`: the vectors `covered_by_solid` and `kmer_indices` (both of `read_size`
entries) when it is left.  There is no result when an index is outside its vector. -/
def scanKMers {P : Type} (G : Globals) (E : KMerEnv P) (kmers : List (KMerCount P))
    (read_size : Nat) :
    List (Nat × Nat) → (Nat → Bool) → (Nat → Nat) → Option ((Nat → Bool) × (Nat → Nat))
  | [], covered_by_solid, kmer_indices => some (covered_by_solid, kmer_indices)
  | (pos, idx) :: rest, covered_by_solid, kmer_indices =>
    if pos < read_size then
      match kmers[idx]? with
      | none => none
      | some k =>
        if E.isGoodForIterative k.second then
          if pos + G.K ≤ read_size then
            scanKMers G E kmers read_size rest
              (fun j => decide (pos ≤ j ∧ j < pos + G.K) || covered_by_solid j)
              (Function.update kmer_indices pos idx)
          else none
        else
          scanKMers G E kmers read_size rest covered_by_solid
            (Function.update kmer_indices pos idx)
    else none

/-- One iteration of the last loop of `IterativeExpansionStep`, on the entry `idx` of
`kmer_indices`: a k-mer that is neither good for the
iteration nor marked is counted and made good. -/
def promoteStep {P : Type} (E : KMerEnv P) (st : Option (Nat × List (KMerCount P)))
    (idx : Nat) : Option (Nat × List (KMerCount P)) :=
  match st with
  | none => none
  | some (res, kmers) =>
    if idx = noKMer then some (res, kmers)
    else
      match kmers[idx]? with
      | none => none
      | some k =>
        if !E.isGoodForIterative k.second && !E.isMarkedGoodForIterative k.second then
          some (res + 1, kmers.set idx ⟨k.first, E.makeGoodForIterative k.second⟩)
        else some (res, kmers)

/-- The body of the loop of `IterativeExpansionStep` for the read number `readno`. -/
def visitRead {P : Type} (G : Globals) (E : KMerEnv P) (st : ExpansionState P)
    (readno : Nat) : Option (ExpansionState P) :=
  match st.pr[readno]? with
  | none => none
  | some r =>
    if r.done then some st
    else
      match scanKMers G E st.kmers r.size (E.nextKMerNo readno) (fun _ => false)
          (fun _ => noKMer) with
      | none => none
      | some (covered_by_solid, kmer_indices) =>
        if (List.range r.size).all covered_by_solid then
          match ((List.range r.size).map kmer_indices).foldl (promoteStep E)
              (some (st.res, st.kmers)) with
          | none => none
          | some (res, kmers) =>
            some ⟨res, kmers, st.pr.set readno { r with done := true }⟩
        else some st

/-- The loop of `IterativeExpansionStep` over the read numbers `readnos`, run in sequence. -/
def visitReads {P : Type} (G : Globals) (E : KMerEnv P) :
    List Nat → ExpansionState P → Option (ExpansionState P)
  | [], st => some st
  | readno :: rest, st =>
    match visitRead G E st readno with
    | none => none
    | some st1 => visitReads G E rest st1

/-- Embeds `HammerTools::IterativeExpansionStep (expand_iter_no, expand_nthreads, kmers)`,
its loop over `readno < Globals::revNo` run in sequence: the value returned (`res`) together
with the k-mer table and the read table it leaves. -/
def IterativeExpansionStep {P : Type} (G : Globals) (E : KMerEnv P)
    (kmers : List (KMerCount P)) (pr : List PositionRead) (revNo : Nat) :
    Option (ExpansionState P) :=
  visitReads G E (List.range revNo) ⟨0, kmers, pr⟩

/-- The values returned by `n` calls of `IterativeExpansionStep` made one after the other. -/
def expansionResults {P : Type} (G : Globals) (E : KMerEnv P) (revNo : Nat) :
    Nat → List (KMerCount P) → List PositionRead → Option (List Nat)
  | 0, _, _ => some []
  | n + 1, kmers, pr =>
    match IterativeExpansionStep G E kmers pr revNo with
    | none => none
    | some st =>
      match expansionResults G E revNo n st.kmers st.pr with
      | none => none
      | some rs => some (st.res :: rs)

/-- Every position of the read `readno`, of size `size`, lies inside one of its k-mers that
is good for the iteration in the table `kmers`. -/
def CoveredBySolid {P : Type} (G : Globals) (E : KMerEnv P) (kmers : List (KMerCount P))
    (readno size : Nat) : Prop :=
  ∀ j, j < size → ∃ p ∈ E.nextKMerNo readno, p.1 ≤ j ∧ j < p.1 + G.K ∧
    ∃ k : KMerCount P, kmers[p.2]? = some k ∧ E.isGoodForIterative k.second = true

/-- The k-mers of the reads below `revNo` are k-mers of the table `kmers` (of fewer than
`2 ^ 64` entries) and lie inside their reads, at positions no two of which are equal; the
read table has at least `revNo` entries and `K` is not zero. -/
def KMersInRange {P : Type} (G : Globals) (E : KMerEnv P) (kmers : List (KMerCount P))
    (pr : List PositionRead) (revNo : Nat) : Prop :=
  revNo ≤ pr.length ∧ 1 ≤ G.K ∧ kmers.length < 2 ^ 64 ∧
  ∀ readno, readno < revNo → ∀ r ∈ pr[readno]?,
    ((E.nextKMerNo readno).map (fun p => p.1)).Nodup ∧
    ∀ p ∈ E.nextKMerNo readno, p.1 + G.K ≤ r.size ∧ p.2 < kmers.length

instance {P : Type} (G : Globals) (E : KMerEnv P) (kmers : List (KMerCount P))
    (pr : List PositionRead) (revNo : Nat) : Decidable (KMersInRange G E kmers pr revNo) := by
  unfold KMersInRange; infer_instance

/-- The table `kmers'` and the counter `res'` come from `kmers` and `res` by making k-mers
good for the iteration that were neither good nor marked, each counted once. -/
def TableGrows {P : Type} (E : KMerEnv P) (res : Nat) (kmers : List (KMerCount P))
    (res' : Nat) (kmers' : List (KMerCount P)) : Prop :=
  res ≤ res' ∧ kmers'.length = kmers.length ∧
  (∀ (i : Nat) (a : KMerCount P), kmers[i]? = some a →
    ∃ b : KMerCount P, kmers'[i]? = some b ∧ b.first = a.first ∧
    (b = a ∨ (E.isGoodForIterative a.second = false ∧ E.isGoodForIterative b.second = true ∧
      E.isMarkedGoodForIterative a.second = false))) ∧
  kmers'.countP (fun k => E.isGoodForIterative k.second) + res =
    kmers.countP (fun k => E.isGoodForIterative k.second) + res' ∧
  (res' = res → kmers' = kmers)

/-- The state `s'` comes from `s` by visits of reads: the table grows and reads are marked
done. -/
def Grows {P : Type} (E : KMerEnv P) (s s' : ExpansionState P) : Prop :=
  TableGrows E s.res s.kmers s'.res s'.kmers ∧ s'.pr.length = s.pr.length ∧
  ∀ (i : Nat) (r : PositionRead), s.pr[i]? = some r →
    ∃ r' : PositionRead, s'.pr[i]? = some r' ∧ r'.start = r.start ∧
    r'.size = r.size ∧ r'.id = r.id ∧ (r.done = true → r'.done = true)

/-- An environment for the instances: the status of a k-mer is read off `changeto`
(below 1000 the index of the k-mer to change to, 1002 good, 1003 good for the iteration,
1005 marked), the k-mers of the reads are given by `next`, and the letters `A`, `C`, `G`,
`T` (in ASCII) have the codes 0, 1, 2, 3. -/
def codedEnv (P : Type) (next : Nat → List (Nat × Nat)) : KMerEnv P :=
  { isGood := fun s => decide (1002 ≤ s.changeto)
    isGoodForIterative := fun s => decide (s.changeto = 1003)
    isMarkedGoodForIterative := fun s => decide (s.changeto = 1005)
    change := fun s => decide (s.changeto < 1000)
    makeGoodForIterative := fun s => { s with changeto := 1003 }
    nextKMerNo := next
    dignucl := fun c => if c = 65 then 0 else if c = 67 then 1 else if c = 71 then 2 else 3
    nucl := fun k => if k = 0 then 65 else if k = 1 then 67 else if k = 2 then 71 else 84 }


/-- The variables of `CorrectOneRead` that `internalCorrectReadProcedure` works on: the
votes (`v k j` is `v[k][j]`, for the four letter codes `k` and the `read_size` columns `j`;
the entries are `int`s counting the k-mers that vote for a cell), `left`, `right` and
`isGood`. -/
structure VoteState where
  v : Nat → Nat → Int
  left : Int
  right : Int
  isGood : Bool

/-- The loop `for (j = 0; j < K; ++j) v[dignucl (kmer[j])][pos + j]++` from `j` on, `n`
iterations being left; `kmer` is the blob offset of the k-mer.  There is no result when a
cell is outside the four rows or the `read_size` columns. -/
def voteLoop {P : Type} (G : Globals) (E : KMerEnv P) (read_size kmer pos : Nat) :
    Nat → Nat → (Nat → Nat → Int) → Option (Nat → Nat → Int)
  | 0, _, v => some v
  | n + 1, j, v =>
    if E.dignucl (G.blob (kmer + j)) < 4 ∧ pos + j < read_size then
      voteLoop G E read_size kmer pos n (j + 1)
        (fun k c => if k = E.dignucl (G.blob (kmer + j)) ∧ c = pos + j then v k c + 1 else v k c)
    else none

/-- The votes `v` with one vote more in the `K` cells of a k-mer at position `pos`: the
cell of column `c`, for `pos ≤ c < pos + K`, in the row of the letter of the k-mer at
`c - pos`. -/
def addKMer {P : Type} (G : Globals) (E : KMerEnv P) (kmer pos : Nat) (v : Nat → Nat → Int) :
    Nat → Nat → Int :=
  fun k c =>
    if pos ≤ c ∧ c < pos + G.K ∧ k = E.dignucl (G.blob (kmer + (c - pos))) then v k c + 1
    else v k c

/-- The updates `if ((int) pos < left) left = pos; if ((int) pos > right) right = pos` and
`isGood = true`, with the votes `v`. -/
def extendWindow (st : VoteState) (pos : Nat) (v : Nat → Nat → Int) : VoteState :=
  { v := v
    left := if omnigraph.toInt32 pos < st.left then omnigraph.toInt32 pos else st.left
    right := if omnigraph.toInt32 pos > st.right then omnigraph.toInt32 pos else st.right
    isGood := true }

/-- Embeds `HammerTools::internalCorrectReadProcedure` as `CorrectOneRead` calls it, with
`ofs = NULL` and `revcomp = false`: the variables `v`, `left`, `right`, `isGood` it leaves
and the value it returns.  `km` is the k-mer table, `kmer` the blob offset of the k-mer,
`pos` its position in the read and `stat` its record.  There is no result when
`km[stat.changeto]` or a cell of `v` does not exist. -/
def internalCorrectReadProcedure {P : Type} (G : Globals) (E : KMerEnv P) (read_size : Nat)
    (km : List (KMerCount P)) (kmer pos : Nat) (stat : KMerStat P) (st : VoteState)
    (correct_threshold discard_singletons : Bool) : Option (VoteState × Bool) :=
  if E.isGoodForIterative stat || (correct_threshold && E.isGood stat) then
    match voteLoop G E read_size kmer pos G.K 0 st.v with
    | none => none
    | some v => some (extendWindow st pos v, false)
  else if E.change stat then
    match km[stat.changeto]? with
    | none => none
    | some newkmer =>
      if discard_singletons || E.isGoodForIterative newkmer.second ||
          (correct_threshold && E.isGood stat) then
        match voteLoop G E read_size newkmer.first pos G.K 0 st.v with
        | none => none
        | some v => some (extendWindow st pos v, true)
      else some (st, false)
  else some (st, false)

/-- The `while` loop of `CorrectOneRead` over the k-mers of the read (pairs of position and
table index): `changedRead = changedRead || internalCorrectReadProcedure (...)`, where the
procedure is not called once `changedRead` is true. -/
def voteAll {P : Type} (G : Globals) (E : KMerEnv P) (kmers : List (KMerCount P))
    (read_size : Nat) (correct_threshold discard_singletons : Bool) :
    List (Nat × Nat) → VoteState → Bool → Option (VoteState × Bool)
  | [], st, changedRead => some (st, changedRead)
  | (pos, idx) :: rest, st, changedRead =>
    match kmers[idx]? with
    | none => none
    | some kmc =>
      if changedRead then
        voteAll G E kmers read_size correct_threshold discard_singletons rest st true
      else
        match internalCorrectReadProcedure G E read_size kmers kmc.first pos kmc.second st
            correct_threshold discard_singletons with
        | none => none
        | some (st1, res) =>
          voteAll G E kmers read_size correct_threshold discard_singletons rest st1 res

/-- The window of `CorrectOneRead` after the merge with `left_rev = 0` and
`right_rev = read_size - (int) K`; `read_size` and `K` are unsigned 32-bit values and the
window is made of `int`s.  A difference of `int`s outside the range of `int`, which takes
a size of `2 ^ 31` or more, is not represented. -/
def mergeWindow (K read_size : Nat) (left right : Int) : Int × Int :=
  if left ≤ right ∧ 0 ≤ omnigraph.toInt32 ((read_size : Int) - K) then
    (min left (omnigraph.toInt32 read_size - 0 - omnigraph.toInt32 K),
      max right (omnigraph.toInt32 read_size - omnigraph.toInt32 ((read_size : Int) - K) -
        omnigraph.toInt32 K))
  else if left > right ∧ 0 ≤ omnigraph.toInt32 ((read_size : Int) - K) then
    (omnigraph.toInt32 read_size - 0 - omnigraph.toInt32 K,
      omnigraph.toInt32 read_size - omnigraph.toInt32 ((read_size : Int) - K) -
        omnigraph.toInt32 K)
  else (left, right)

/-- The inner loop of the consensus for column `j`, whose input letter is `c`:
`cmax = seq[j]; nummax = 0; for (k = 0; k < 4; ++k) if (v[k][j] > nummax)
{ cmax = nucl (k); nummax = v[k][j]; }`; the pair `(cmax, nummax)` when it is left. -/
def consensusLetter {P : Type} (E : KMerEnv P) (v : Nat → Nat → Int) (j c : Nat) : Nat × Int :=
  (List.range 4).foldl
    (fun (m : Nat × Int) k => if v k j > m.2 then (E.nucl k, v k j) else m) (c, 0)

/-- The string `seq` after the consensus loop of `CorrectOneRead`. -/
def consensus {P : Type} (E : KMerEnv P) (v : Nat → Nat → Int) (seq : List Nat) : List Nat :=
  seq.enum.map (fun jc => (consensusLetter E v jc.1 jc.2).1)

/-- The counter `res` after the consensus loop: the number of letters that changed. -/
def changedLetters {P : Type} (E : KMerEnv P) (v : Nat → Nat → Int) (seq : List Nat) : Nat :=
  seq.enum.countP (fun jc => decide (jc.2 ≠ (consensusLetter E v jc.1 jc.2).1))

/-- Modelled from the spec: `r.trimLeftRight (left, right)`, which `hammer_tools.cpp` calls
and does not define, "trim to `[left, right+K-1]`": the letters and qualities at the
positions `left` to `right`, both included, are kept. -/
def Read.trimLeftRight (r : Read) (left right : Int) : Read :=
  ⟨(r.seq.drop left.toNat).take (right - left + 1).toNat,
    (r.qual.drop left.toNat).take (right - left + 1).toNat⟩

/-- What `CorrectOneRead` leaves: the value returned, the read `r` and the two counters. -/
structure CorrectOutcome where
  isGood : Bool
  r : Read
  changedReads : Nat
  changedNucleotides : Nat
deriving DecidableEq

/-- The variables `v`, `left`, `right`, `isGood` and `changedRead` of `CorrectOneRead` when
its `while` loop is left, for a read of the table entry `p`. -/
def readVotes {P : Type} (G : Globals) (E : KMerEnv P) (kmers : List (KMerCount P))
    (readno : Nat) (p : PositionRead) (correct_threshold discard_singletons : Bool) :
    Option (VoteState × Bool) :=
  voteAll G E kmers p.size correct_threshold discard_singletons (E.nextKMerNo readno)
    ⟨fun _ _ => 0, omnigraph.toInt32 p.size, -1, false⟩ false

/-- Embeds `HammerTools::CorrectOneRead (kmers, changedReads, changedNucleotides, readno,
r, i, correct_threshold, discard_singletons)`; `pr` is `Globals::pr`.  The sequence of `r`
is set to the consensus (`r.setSequence` replaces the letters of `r`) and trimmed to
`left .. right + K - 1` (an unsigned 32-bit sum passed as an `int`).  There is no result
when the read or a k-mer does not exist. -/
def CorrectOneRead {P : Type} (G : Globals) (E : KMerEnv P) (kmers : List (KMerCount P))
    (pr : List PositionRead) (changedReads changedNucleotides readno : Nat) (r : Read)
    (correct_threshold discard_singletons : Bool) : Option CorrectOutcome :=
  match pr[readno]? with
  | none => none
  | some p =>
    match readVotes G E kmers readno p correct_threshold discard_singletons with
    | none => none
    | some (st, _) =>
      some
        { isGood := st.isGood
          r := Read.trimLeftRight ⟨consensus E st.v (readSequence G p), r.qual⟩
            (mergeWindow G.K p.size st.left st.right).1
            (omnigraph.toInt32 ((mergeWindow G.K p.size st.left st.right).2 + G.K - 1))
          changedReads :=
            if 0 < changedLetters E st.v (readSequence G p) then changedReads + 1
            else changedReads
          changedNucleotides := changedNucleotides + changedLetters E st.v (readSequence G p) }

/-- The variables of the loop of `CorrectReadFile`: the two counters, `readno` and what
was printed to `outf_good` and to `outf_bad`. -/
structure FileState where
  changedReads : Nat
  changedNucleotides : Nat
  readno : Nat
  outf_good : List Read
  outf_bad : List Read
deriving DecidableEq

/-- One iteration of the loop of `CorrectReadFile` on the read `r0` taken from the stream. -/
def correctStep {P : Type} (G : Globals) (E : KMerEnv P) (R : ReadEnv)
    (kmers : List (KMerCount P)) (pr : List PositionRead)
    (correct_threshold discard_singletons : Bool) (st : FileState) (r0 : Read) :
    Option FileState :=
  if (R.trimNsAndBadQuality r0).seq.length < G.K then some st
  else
    match CorrectOneRead G E kmers pr st.changedReads st.changedNucleotides st.readno
        (R.trimNsAndBadQuality r0) correct_threshold discard_singletons with
    | none => none
    | some o =>
      some
        { changedReads := o.changedReads
          changedNucleotides := o.changedNucleotides
          readno := st.readno + 1
          outf_good := if o.isGood then st.outf_good ++ [o.r] else st.outf_good
          outf_bad := if o.isGood then st.outf_bad else st.outf_bad ++ [o.r] }

/-- Embeds `HammerTools::CorrectReadFile (readsFilename, kmers, changedReads,
changedNucleotides, readno, outf_good, outf_bad)`; `reads` are the reads the stream of the
file yields, and the two output streams start with `outf_good` and `outf_bad`. -/
def CorrectReadFile {P : Type} (G : Globals) (E : KMerEnv P) (R : ReadEnv)
    (kmers : List (KMerCount P)) (pr : List PositionRead)
    (correct_threshold discard_singletons : Bool) :
    List Read → FileState → Option FileState
  | [], st => some st
  | r0 :: rest, st =>
    match correctStep G E R kmers pr correct_threshold discard_singletons st r0 with
    | none => none
    | some st1 => CorrectReadFile G E R kmers pr correct_threshold discard_singletons rest st1

/-- The k-mer with the record `stat` casts a vote: it is good for the iteration, or the
threshold is in use and it is good, or it has a k-mer to change to and either only
singletons are discarded or that k-mer is good for the iteration. -/
def CastsVote {P : Type} (E : KMerEnv P) (kmers : List (KMerCount P))
    (correct_threshold discard_singletons : Bool) (stat : KMerStat P) : Prop :=
  E.isGoodForIterative stat = true ∨ (correct_threshold = true ∧ E.isGood stat = true) ∨
  (E.change stat = true ∧ (discard_singletons = true ∨
    ∃ t : KMerCount P, kmers[stat.changeto]? = some t ∧ E.isGoodForIterative t.second = true))

/-- The k-mers of the read `readno`, of size `size`, can be voted on: each lies inside the
read at a position below `2 ^ 31`, is a k-mer of the table made of the four letters, and
so is the k-mer it is to be changed to, if any. -/
def VotesInRange {P : Type} (G : Globals) (E : KMerEnv P) (kmers : List (KMerCount P))
    (readno size : Nat) : Prop :=
  ∀ p ∈ E.nextKMerNo readno, p.1 + G.K ≤ size ∧ p.1 < 2 ^ 31 ∧ p.2 < kmers.length ∧
    ∀ kmc ∈ kmers[p.2]?,
      (∀ j, j < G.K → E.dignucl (G.blob (kmc.first + j)) < 4) ∧
      (E.change kmc.second = true → kmc.second.changeto < kmers.length ∧
        ∀ t ∈ kmers[kmc.second.changeto]?, ∀ j, j < G.K → E.dignucl (G.blob (t.first + j)) < 4)

instance {P : Type} (G : Globals) (E : KMerEnv P) (kmers : List (KMerCount P))
    (readno size : Nat) : Decidable (VotesInRange G E kmers readno size) := by
  unfold VotesInRange; infer_instance

/-- The read of the table entry `p`, number `readno`, is solid throughout: it is at least
`K ≥ 1` and less than `2 ^ 31` long, made of the four letters, each of which is the letter
of its code; it has a k-mer at every position from 0 to `size - K`; and each of these is a
k-mer of the table that spells the bytes of the read at its position and is good for the
iteration. -/
def FullySolid {P : Type} (G : Globals) (E : KMerEnv P) (kmers : List (KMerCount P))
    (readno : Nat) (p : PositionRead) : Prop :=
  1 ≤ G.K ∧ G.K ≤ p.size ∧ p.size < 2 ^ 31 ∧
  (E.nextKMerNo readno).map (fun q => q.1) = List.range (p.size - G.K + 1) ∧
  (∀ j, j < p.size → E.dignucl (G.blob (p.start + j)) < 4 ∧
    E.nucl (E.dignucl (G.blob (p.start + j))) = G.blob (p.start + j)) ∧
  ∀ q ∈ E.nextKMerNo readno, q.2 < kmers.length ∧
    ∀ kmc ∈ kmers[q.2]?, kmerBytes G kmc.first = kmerBytes G (p.start + q.1) ∧
      E.isGoodForIterative kmc.second = true

instance {P : Type} (G : Globals) (E : KMerEnv P) (kmers : List (KMerCount P))
    (readno : Nat) (p : PositionRead) : Decidable (FullySolid G E kmers readno p) := by
  unfold FullySolid; infer_instance

/-- Every vote of `v` is a vote for the letter that the read of the table entry `p` has in
that column. -/
def VotesForRead {P : Type} (G : Globals) (E : KMerEnv P) (p : PositionRead)
    (v : Nat → Nat → Int) : Prop :=
  ∀ k c, 0 ≤ v k c ∧ (0 < v k c → c < p.size ∧ k = E.dignucl (G.blob (p.start + c)))


/-- The entries `i` of the vectors `l`, `r`, `readno_left` and `readno_right` of
`CorrectPairedReadFiles` when the reading loop of a batch is left: the two reads, trimmed
(`read_size_left[i]` and `read_size_right[i]` are their sizes), and their read numbers. -/
structure BufferedPair where
  l : Read
  r : Read
  readno_left : Nat
  readno_right : Nat
deriving DecidableEq

/-- The entries `i` of `l`, `r`, `left_res` and `right_res` when the correction loop of a
batch is left. -/
structure PairResult where
  l : Read
  r : Read
  left_res : Bool
  right_res : Bool
deriving DecidableEq

/-- The variables of `CorrectPairedReadFiles` between two batches: the two counters,
`readno_left[0]` and `readno_right[0]`, and what was printed to the five streams. -/
structure PairedState where
  changedReads : Nat
  changedNucleotides : Nat
  readno_left : Nat
  readno_right : Nat
  ofbadl : List Read
  ofcorl : List Read
  ofbadr : List Read
  ofcorr : List Read
  ofunp : List Read
deriving DecidableEq

/-- The reading loop of a batch, `n` places of the buffer being left: a pair is taken from
the two streams `irsl` and `irsr`, trimmed and numbered, until the buffer is full or the
left stream is at its end.  The result holds the pairs, what is left of the two streams and
the next read numbers; there is none when the right stream ends before the left one. -/
def readBatch (G : Globals) (R : ReadEnv) :
    Nat → List Read → List Read → Nat → Nat →
      Option (List BufferedPair × List Read × List Read × Nat × Nat)
  | 0, irsl, irsr, nl, nr => some ([], irsl, irsr, nl, nr)
  | _ + 1, [], irsr, nl, nr => some ([], [], irsr, nl, nr)
  | _ + 1, _ :: _, [], _, _ => none
  | n + 1, l0 :: irsl, r0 :: irsr, nl, nr =>
    match readBatch G R n irsl irsr
        (if G.K ≤ (R.trimNsAndBadQuality l0).seq.length then nl + 1 else nl)
        (if G.K ≤ (R.trimNsAndBadQuality r0).seq.length then nr + 1 else nr) with
    | none => none
    | some (b, irsl1, irsr1, nl1, nr1) =>
      some (⟨R.trimNsAndBadQuality l0, R.trimNsAndBadQuality r0, nl, nr⟩ :: b,
        irsl1, irsr1, nl1, nr1)

/-- One iteration of the correction loop of a batch, run in sequence; the two counters are
the sums of the counters of the threads. -/
def correctPair {P : Type} (G : Globals) (E : KMerEnv P) (kmers : List (KMerCount P))
    (pr : List PositionRead) (correct_threshold discard_singletons : Bool)
    (changedReads changedNucleotides : Nat) (x : BufferedPair) :
    Option (PairResult × Nat × Nat) :=
  if x.l.seq.length < G.K ∧ x.r.seq.length < G.K then
    some (⟨x.l, x.r, false, false⟩, changedReads, changedNucleotides)
  else
    match
      (if G.K ≤ x.l.seq.length then
        (CorrectOneRead G E kmers pr changedReads changedNucleotides x.readno_left x.l
          correct_threshold discard_singletons).map
          (fun o => (o.r, o.isGood, o.changedReads, o.changedNucleotides))
      else some (x.l, false, changedReads, changedNucleotides)) with
    | none => none
    | some (l, left_res, cr, cn) =>
      match
        (if G.K ≤ x.r.seq.length then
          (CorrectOneRead G E kmers pr cr cn x.readno_right x.r
            correct_threshold discard_singletons).map
            (fun o => (o.r, o.isGood, o.changedReads, o.changedNucleotides))
        else some (x.r, false, cr, cn)) with
      | none => none
      | some (r, right_res, cr1, cn1) => some (⟨l, r, left_res, right_res⟩, cr1, cn1)

/-- The correction loop of a batch. -/
def correctBatch {P : Type} (G : Globals) (E : KMerEnv P) (kmers : List (KMerCount P))
    (pr : List PositionRead) (correct_threshold discard_singletons : Bool) :
    List BufferedPair → Nat → Nat → Option (List PairResult × Nat × Nat)
  | [], cr, cn => some ([], cr, cn)
  | x :: rest, cr, cn =>
    match correctPair G E kmers pr correct_threshold discard_singletons cr cn x with
    | none => none
    | some (y, cr1, cn1) =>
      match correctBatch G E kmers pr correct_threshold discard_singletons rest cr1 cn1 with
      | none => none
      | some (ys, cr2, cn2) => some (y :: ys, cr2, cn2)

/-- One iteration of the writing loop of a batch: the five `if`s in turn. -/
def writePair (st : PairedState) (x : PairResult) : PairedState :=
  { st with
    ofbadl := if !x.left_res then st.ofbadl ++ [x.l] else st.ofbadl
    ofbadr := if !x.right_res then st.ofbadr ++ [x.r] else st.ofbadr
    ofunp :=
      if !x.left_res && x.right_res then
        (if x.left_res && !x.right_res then st.ofunp ++ [x.l] else st.ofunp) ++ [x.r]
      else (if x.left_res && !x.right_res then st.ofunp ++ [x.l] else st.ofunp)
    ofcorl := if x.left_res && x.right_res then st.ofcorl ++ [x.l] else st.ofcorl
    ofcorr := if x.left_res && x.right_res then st.ofcorr ++ [x.r] else st.ofcorr }

/-- The `while` loop of `CorrectPairedReadFiles` over the batches; the first argument
bounds the number of batches, and there is no result when it is exhausted. -/
def pairedLoop {P : Type} (G : Globals) (E : KMerEnv P) (R : ReadEnv)
    (kmers : List (KMerCount P)) (pr : List PositionRead)
    (correct_threshold discard_singletons : Bool) (read_buffer_size : Nat) :
    Nat → List Read → List Read → PairedState → Option PairedState
  | 0, _, _, _ => none
  | fuel + 1, irsl, irsr, st =>
    if irsl = [] then some st
    else
      match readBatch G R read_buffer_size irsl irsr st.readno_left st.readno_right with
      | none => none
      | some (b, irsl1, irsr1, nl, nr) =>
        match correctBatch G E kmers pr correct_threshold discard_singletons b 0 0 with
        | none => none
        | some (ys, cr, cn) =>
          pairedLoop G E R kmers pr correct_threshold discard_singletons read_buffer_size fuel
            irsl1 irsr1
            (ys.foldl writePair
              { st with
                changedReads := st.changedReads + cr
                changedNucleotides := st.changedNucleotides + cn
                readno_left := nl
                readno_right := nr })

/-- Embeds `HammerTools::CorrectPairedReadFiles`; `irsl` and `irsr` are the reads the
streams of the two files yield, `read_buffer_size` is the size of the buffer, and `st`
holds the counters, the two starting read numbers and the content of the five streams. -/
def CorrectPairedReadFiles {P : Type} (G : Globals) (E : KMerEnv P) (R : ReadEnv)
    (kmers : List (KMerCount P)) (pr : List PositionRead)
    (correct_threshold discard_singletons : Bool) (read_buffer_size : Nat)
    (irsl irsr : List Read) (st : PairedState) (fuel : Nat) : Option PairedState :=
  pairedLoop G E R kmers pr correct_threshold discard_singletons read_buffer_size fuel
    irsl irsr st

/-- The reads that the pairs `ys` add to the unpaired stream, in order. -/
def unpairedOf (ys : List PairResult) : List Read :=
  ys.flatMap (fun x =>
    (if x.left_res && !x.right_res then [x.l] else []) ++
      (if !x.left_res && x.right_res then [x.r] else []))

/-- The entry `y` is the result of the correction loop for the pair of trimmed reads `l`
and `r`: a read whose size is below `K` is left as it is, with the result false; the other
reads hold what `CorrectOneRead` left, with the value it returned. -/
def ResultOf {P : Type} (G : Globals) (E : KMerEnv P) (kmers : List (KMerCount P))
    (pr : List PositionRead) (correct_threshold discard_singletons : Bool) (l r : Read)
    (y : PairResult) : Prop :=
  (if G.K ≤ l.seq.length then
    ∃ cr cn readno o, CorrectOneRead G E kmers pr cr cn readno l
      correct_threshold discard_singletons = some o ∧ y.l = o.r ∧ y.left_res = o.isGood
  else y.l = l ∧ y.left_res = false) ∧
  (if G.K ≤ r.seq.length then
    ∃ cr cn readno o, CorrectOneRead G E kmers pr cr cn readno r
      correct_threshold discard_singletons = some o ∧ y.r = o.r ∧ y.right_res = o.isGood
  else y.r = r ∧ y.right_res = false)

end HammerTools

/-! ## `graph_simplification.hpp` -/

namespace debruijn

/-- The calls that `PostSimplification` makes, with the loop counter `iteration` where it
is passed on. -/
inductive PostCall where
  | TopologyClipTips
  | FinalRemoveErroneousEdges (iteration : Nat)
  | ClipTips
  | RemoveBulges
  | RemoveComplexBulges (iteration : Nat)
  | RemoveHiddenEC
deriving DecidableEq

/-- The variables of a pass of the loop of `PostSimplification`: the graph pack, together
with what the removal handler was called with (`state`, of a type `σ` left open),
`enable_flag`, and the calls made so far. -/
structure PassState (σ : Type) where
  state : σ
  enable_flag : Bool
  calls : List PostCall

/-- The statement `enable_flag |= call (...)`; `run` gives, for each call, what it leaves of
the graph pack and the value it returns (the algorithms end in the `Process ()` of classes
defined outside `graph_simplification.hpp`). -/
def invoke {σ : Type} (run : PostCall → σ → σ × Bool) (c : PostCall) (x : PassState σ) :
    PassState σ :=
  ⟨(run c x.state).1, x.enable_flag || (run c x.state).2, x.calls ++ [c]⟩

/-- The body of the loop of `PostSimplification` for the counter `iteration`, from
`enable_flag = false` on; `topology` is `cfg::get ().simp.topology_simplif_enabled`. -/
def postPass {σ : Type} (topology : Bool) (run : PostCall → σ → σ × Bool) (iteration : Nat)
    (s : σ) (calls : List PostCall) : PassState σ :=
  invoke run (.RemoveComplexBulges iteration)
    (invoke run .RemoveBulges
      (invoke run .ClipTips
        (invoke run (.FinalRemoveErroneousEdges iteration)
          (if topology then invoke run .TopologyClipTips ⟨s, false, calls⟩
            else ⟨s, false, calls⟩))))

/-- The loop `while (enable_flag)` of `PostSimplification`: the graph pack, the counter
`iteration` and the calls made when it is left.  The first argument bounds the number of
passes; there is no result when it is exhausted. -/
def postLoop {σ : Type} (topology : Bool) (run : PostCall → σ → σ × Bool) :
    Nat → Nat → σ → List PostCall → Option (σ × Nat × List PostCall)
  | 0, _, _, _ => none
  | fuel + 1, iteration, s, calls =>
    if (postPass topology run iteration s calls).enable_flag then
      postLoop topology run fuel (iteration + 1) (postPass topology run iteration s calls).state
        (postPass topology run iteration s calls).calls
    else
      some ((postPass topology run iteration s calls).state, iteration + 1,
        (postPass topology run iteration s calls).calls)

/-- Embeds `PostSimplification (gp, info, removal_handler, printer)`: the graph pack it
leaves and the calls it makes. -/
def PostSimplification {σ : Type} (topology : Bool) (run : PostCall → σ → σ × Bool)
    (fuel : Nat) (s : σ) : Option (σ × List PostCall) :=
  match postLoop topology run fuel 0 s [] with
  | none => none
  | some (s1, _, calls) =>
    if topology then some ((run .RemoveHiddenEC s1).1, calls ++ [.RemoveHiddenEC])
    else some (s1, calls)

/-- The calls of the pass with the counter `iteration`. -/
def passCalls (topology : Bool) (iteration : Nat) : List PostCall :=
  (if topology then [PostCall.TopologyClipTips] else []) ++
    [.FinalRemoveErroneousEdges iteration, .ClipTips, .RemoveBulges,
      .RemoveComplexBulges iteration]

/-- The graph pack after `n` passes, the first with the counter `iteration`. -/
def afterPasses {σ : Type} (topology : Bool) (run : PostCall → σ → σ × Bool) :
    Nat → Nat → σ → σ
  | 0, _, s => s
  | n + 1, iteration, s =>
    afterPasses topology run n (iteration + 1) (postPass topology run iteration s []).state

/-- The pass that follows `n` passes, the first with the counter `iteration`, reports a
change: one of its algorithms returns true. -/
def passChanged {σ : Type} (topology : Bool) (run : PostCall → σ → σ × Bool)
    (n iteration : Nat) (s : σ) : Bool :=
  (postPass topology run (iteration + n) (afterPasses topology run n iteration s) []).enable_flag

end debruijn

/-! ## `hammer_tools.cpp`: bucket files and read numbers -/

namespace HammerTools

/-! ### `ProcessKmerHashFile` -/

/-- The product of doubles, for `totalQual *= errprob` with the error probabilities taken
as binary64 values. -/
instance : Mul Dbl := ⟨Dbl.mul⟩

/-- The variables of the loop of `ProcessKmerHashFile`: `pos` and `prob`, which are
declared without a value (`none`), and `vec`. -/
structure LoadState (P : Type) where
  pos : Option Nat
  prob : Option P
  vec : List (KMerNo P)
deriving DecidableEq

/-- The statements `sscanf (buf.c_str (), "%lu\t%lf", &pos, &prob)` and
`vec.push_back (KMerNo (pos, prob))` for the line `buf`; `sscanf buf` gives the values
that the library function assigns to `pos` and to `prob` (`none` for a variable it does
not assign).  There is no result when a variable is read that never got a value. -/
def loadLine {P : Type} (sscanf : List Nat → Option Nat × Option P) (buf : List Nat)
    (x : LoadState P) : Option (LoadState P) :=
  match (sscanf buf).1.orElse (fun _ => x.pos), (sscanf buf).2.orElse (fun _ => x.prob) with
  | some pos, some prob => some ⟨some pos, some prob, x.vec ++ [⟨pos, prob⟩]⟩
  | _, _ => none

/-- The loop `while (inf.good ()) { std::getline (inf, buf); sscanf (...); push_back }`
from inside a call of `std::getline`: the first argument is what is left of the stream (a
list of bytes), `buf` the characters the call has taken so far.  A call that meets the
newline (byte 10) returns with the stream good, and the loop goes on; a call that meets
the end of the stream returns what it has taken, which is nothing when the stream ended
with the last newline, and leaves the stream not good: the body is completed with this
`buf` and the loop is left. -/
def loadLoop {P : Type} (sscanf : List Nat → Option Nat × Option P) :
    List Nat → List Nat → LoadState P → Option (LoadState P)
  | [], buf, x => loadLine sscanf buf x
  | c :: rest, buf, x =>
    if c = 10 then
      match loadLine sscanf buf x with
      | none => none
      | some x1 => loadLoop sscanf rest [] x1
    else loadLoop sscanf rest (buf ++ [c]) x

/-- Embeds `HammerTools::ProcessKmerHashFile (inf, km, vkmc)`: the vector `vkmc` on
return; `inf` is the content of the stream, which is good when the function is entered.
`KMerNo::is_less`, defined outside `hammer_tools.cpp`, is a parameter.  `std::sort` leaves
the order of equivalent records open; it is taken as the sort that keeps them in the order
of the input, which is what the library does on a short vector. -/
def ProcessKmerHashFile {P : Type} [Mul P] (G : Globals)
    (sscanf : List Nat → Option Nat × Option P) (is_less : KMerNo P → KMerNo P → Bool)
    (inf : List Nat) (vkmc : List (KMerCount P)) : Option (List (KMerCount P)) :=
  match loadLoop sscanf inf [] ⟨none, none, []⟩ with
  | none => none
  | some x =>
    if (x.vec.insertionSort (fun a b => is_less b a = false)).length = 0 then some vkmc
    else KmerHashUnique G (x.vec.insertionSort (fun a b => is_less b a = false)) vkmc

/-- Embeds `HammerTools::ProcessKmerHashVector (sv, km, vkmc)`, which takes the records
from a vector of pairs. -/
def ProcessKmerHashVector {P : Type} [Mul P] (G : Globals)
    (is_less : KMerNo P → KMerNo P → Bool) (sv : List (Nat × P))
    (vkmc : List (KMerCount P)) : Option (List (KMerCount P)) :=
  if ((sv.map (fun p => (⟨p.1, p.2⟩ : KMerNo P))).insertionSort
      (fun a b => is_less b a = false)).length = 0 then some vkmc
  else KmerHashUnique G ((sv.map (fun p => (⟨p.1, p.2⟩ : KMerNo P))).insertionSort
    (fun a b => is_less b a = false)) vkmc

/-! ### Reads whose votes are for one sequence -/

/-- The k-mer `q` (position and table index) of a read casts no vote: it is a k-mer of the
table that is not good for the iteration, does not pass the threshold when the threshold
is in use, and, if it has a k-mer to change to, that k-mer is in the table and is not
admissible (not only singletons are discarded and it is not good for the iteration). -/
def NoVote {P : Type} (E : KMerEnv P) (kmers : List (KMerCount P))
    (correct_threshold discard_singletons : Bool) (q : Nat × Nat) : Prop :=
  q.2 < kmers.length ∧ ∀ kmc ∈ kmers[q.2]?,
    E.isGoodForIterative kmc.second = false ∧
    (correct_threshold = true → E.isGood kmc.second = false) ∧
    (E.change kmc.second = true → kmc.second.changeto < kmers.length ∧
      discard_singletons = false ∧
      ∀ t ∈ kmers[kmc.second.changeto]?, E.isGoodForIterative t.second = false)

instance {P : Type} (E : KMerEnv P) (kmers : List (KMerCount P))
    (correct_threshold discard_singletons : Bool) (q : Nat × Nat) :
    Decidable (NoVote E kmers correct_threshold discard_singletons q) := by
  unfold NoVote; infer_instance

/-- The k-mer `q` of a read is a k-mer of the table that is good for the iteration and
spells the letters of `s` (a letter for each column of the read) at its position. -/
def SolidVote {P : Type} (G : Globals) (E : KMerEnv P) (kmers : List (KMerCount P))
    (s : Nat → Nat) (q : Nat × Nat) : Prop :=
  q.2 < kmers.length ∧ ∀ kmc ∈ kmers[q.2]?,
    E.isGoodForIterative kmc.second = true ∧
    ∀ j, j < G.K → G.blob (kmc.first + j) = s (q.1 + j)

instance {P : Type} (G : Globals) (E : KMerEnv P) (kmers : List (KMerCount P))
    (s : Nat → Nat) (q : Nat × Nat) : Decidable (SolidVote G E kmers s q) := by
  unfold SolidVote; infer_instance

/-- The k-mer `q` of a read is a k-mer of the table that is not good for the iteration,
does not pass the threshold when the threshold is in use, and is to be changed to a k-mer
of the table that is good for the iteration and spells the letters of `s` at the position
of `q`. -/
def ChangeVote {P : Type} (G : Globals) (E : KMerEnv P) (kmers : List (KMerCount P))
    (correct_threshold : Bool) (s : Nat → Nat) (q : Nat × Nat) : Prop :=
  q.2 < kmers.length ∧ ∀ kmc ∈ kmers[q.2]?,
    E.isGoodForIterative kmc.second = false ∧
    (correct_threshold = true → E.isGood kmc.second = false) ∧
    E.change kmc.second = true ∧ kmc.second.changeto < kmers.length ∧
    ∀ t ∈ kmers[kmc.second.changeto]?,
      E.isGoodForIterative t.second = true ∧
      ∀ j, j < G.K → G.blob (t.first + j) = s (q.1 + j)

instance {P : Type} (G : Globals) (E : KMerEnv P) (kmers : List (KMerCount P))
    (correct_threshold : Bool) (s : Nat → Nat) (q : Nat × Nat) :
    Decidable (ChangeVote G E kmers correct_threshold s q) := by
  unfold ChangeVote; infer_instance

/-- The read of the table entry `p`, number `readno`, has votes for one sequence `s` on a
window that starts at the position `a`: its k-mers are `skip`, then `voters`, then `rest`;
the k-mers of `skip` cast no vote; those of `voters`, of which there is at least one, sit
at the consecutive positions `a, a + 1, ...` inside the read and each spells the letters
of `s` at its position, being good for the iteration, or, for the last of them only,
being changed to a k-mer that is good for the iteration and spells these letters; when the
last of `voters` is good for the iteration the k-mers of `rest` cast no vote, and
otherwise they are k-mers of the table.  The letters of `s` on the window are among the
four letters, each the letter of its code; `K ≥ 1` and the read is shorter than
`2 ^ 31`. -/
def ConsistentVotes {P : Type} (G : Globals) (E : KMerEnv P) (kmers : List (KMerCount P))
    (readno : Nat) (p : PositionRead) (correct_threshold discard_singletons : Bool)
    (skip voters rest : List (Nat × Nat)) (a : Nat) (s : Nat → Nat) : Prop :=
  1 ≤ G.K ∧ p.size < 2 ^ 31 ∧ voters ≠ [] ∧ a + voters.length + G.K ≤ p.size + 1 ∧
  E.nextKMerNo readno = skip ++ voters ++ rest ∧
  voters.map (fun q => q.1) = List.range' a voters.length ∧
  (∀ c, a ≤ c → c < a + (voters.length - 1 + G.K) →
    E.dignucl (s c) < 4 ∧ E.nucl (E.dignucl (s c)) = s c) ∧
  (∀ q ∈ skip, NoVote E kmers correct_threshold discard_singletons q) ∧
  (∀ q ∈ voters.dropLast, SolidVote G E kmers s q) ∧
  (∀ q ∈ voters.getLast?,
    (SolidVote G E kmers s q ∧
      ∀ q' ∈ rest, NoVote E kmers correct_threshold discard_singletons q') ∨
    (ChangeVote G E kmers correct_threshold s q ∧ ∀ q' ∈ rest, q'.2 < kmers.length))

instance {P : Type} (G : Globals) (E : KMerEnv P) (kmers : List (KMerCount P))
    (readno : Nat) (p : PositionRead) (correct_threshold discard_singletons : Bool)
    (skip voters rest : List (Nat × Nat)) (a : Nat) (s : Nat → Nat) :
    Decidable (ConsistentVotes G E kmers readno p correct_threshold discard_singletons
      skip voters rest a s) := by
  unfold ConsistentVotes; infer_instance

/-- Every vote of `v` is a vote for the letter of `s` in a column from `a` to `a + w - 1`,
and each of these columns has a vote. -/
def VotesCover {P : Type} (E : KMerEnv P) (s : Nat → Nat) (a w : Nat)
    (v : Nat → Nat → Int) : Prop :=
  ∀ k c, 0 ≤ v k c ∧ (0 < v k c → a ≤ c ∧ c < a + w ∧ k = E.dignucl (s c)) ∧
    (a ≤ c → c < a + w → 0 < v (E.dignucl (s c)) c)

/-- The variables `v`, `left`, `right` and `isGood` of `CorrectOneRead`, for a read of size
`size`, after `m` k-mers at the positions `a, a + 1, ..., a + m - 1` have voted for the
letters of `s`. -/
def AfterVotes {P : Type} (E : KMerEnv P) (s : Nat → Nat) (a K size m : Nat)
    (st : VoteState) : Prop :=
  VotesCover E s a (if m = 0 then 0 else m - 1 + K) st.v ∧
  st.left = (if m = 0 then (size : Int) else (a : Int)) ∧
  st.right = (if m = 0 then (-1 : Int) else (a : Int) + m - 1) ∧
  st.isGood = decide (m ≠ 0)

/-! ### Read numbers -/

/-- The trimmed read is at least `K` long. -/
def keptRead (G : Globals) (R : ReadEnv) (r : Read) : Bool :=
  decide (G.K ≤ (R.trimNsAndBadQuality r).seq.length)

/-- The read number of the `j`-th read of a file as the claim words it, not read off the
source: the starting read number of the file plus the number of earlier reads of the file
whose trimmed size is at least `K`. -/
def readNumberSpec (G : Globals) (R : ReadEnv) (start : Nat) (reads : List Read) (j : Nat) :
    Nat :=
  start + (reads.take j).countP (keptRead G R)

/-- The entry `y` is the result of the correction loop of `CorrectPairedReadFiles` for the
buffered pair `x`: a read whose size is below `K` is left as it is, with the result false;
the other reads hold what `CorrectOneRead` left when called with the read number of `x`
for that side, with the value it returned. -/
def ResultAt {P : Type} (G : Globals) (E : KMerEnv P) (kmers : List (KMerCount P))
    (pr : List PositionRead) (correct_threshold discard_singletons : Bool)
    (x : BufferedPair) (y : PairResult) : Prop :=
  (if G.K ≤ x.l.seq.length then
    ∃ cr cn o, CorrectOneRead G E kmers pr cr cn x.readno_left x.l
      correct_threshold discard_singletons = some o ∧ y.l = o.r ∧ y.left_res = o.isGood
  else y.l = x.l ∧ y.left_res = false) ∧
  (if G.K ≤ x.r.seq.length then
    ∃ cr cn o, CorrectOneRead G E kmers pr cr cn x.readno_right x.r
      correct_threshold discard_singletons = some o ∧ y.r = o.r ∧ y.right_res = o.isGood
  else y.r = x.r ∧ y.right_res = false)

end HammerTools

/-! ## `graph_simplification.hpp`: the schedule of `SimplifyGraph` -/

namespace debruijn

/-- The fields of `debruijn_config::simplification::isolated_edges_remover` that are read
in `graph_simplification.hpp`. -/
structure isolated_edges_remover where
  max_length : Nat
  max_coverage : Dbl
  max_length_any_cov : Nat
deriving DecidableEq

/-- The fields of `debruijn_config::simplification::presimplification` that are read in
`graph_simplification.hpp`. -/
structure presimplification where
  enabled : Bool
  parallel : Bool
  chunk_cnt : Nat
  activation_cov : Dbl
  tip_condition : String
  ec_condition : String
  ier : isolated_edges_remover
deriving DecidableEq

/-- What `SimplifyGraph` and the functions it calls read from `cfg::get ()`: the conditions
of `simp.tc` and `simp.ec`, `simp.ier`, `simp.presimp`, `graph_read_corr.enable`,
`ds.RL ()` and `simp.topology_simplif_enabled`. -/
structure debruijn_config where
  tc_condition : String
  ec_condition : String
  ier : isolated_edges_remover
  presimp : presimplification
  graph_read_corr_enable : Bool
  RL : Nat
  topology_simplif_enabled : Bool
deriving DecidableEq

/-- The values kept by a `SimplifInfoContainer`, one for each of its setters and getters
used in `graph_simplification.hpp`. -/
structure SimplifInfoContainer where
  read_length : Nat
  detected_mean_coverage : Dbl
  detected_coverage_bound : Dbl
  iteration_count : Nat
  iteration : Nat
  chunk_cnt : Nat
deriving DecidableEq

/-- The condition objects that `RemoveIsolatedEdges` puts together. -/
inductive EdgeCondition where
  | IsolatedEdgeCondition
  | LengthUpperBound (max_length : Nat)
  | CoverageUpperBound (max_coverage : Dbl)
  | And (a b : EdgeCondition)
  | Or (a b : EdgeCondition)
deriving DecidableEq

/-- The tests of the classes `IsolatedEdgeCondition`, `LengthUpperBound` and
`CoverageUpperBound` on the edges of a graph; the classes are defined outside
`graph_simplification.hpp`. -/
structure EdgeTests where
  isolated : omnigraph.EdgeId → Bool
  lengthBound : Nat → omnigraph.EdgeId → Bool
  coverageBound : Dbl → omnigraph.EdgeId → Bool

/-- Modelled from the spec: `Check (e)` of a condition object, where `func::And` holds when
both of its arguments hold and `func::Or` when one of them does (the spec words the
condition of the isolated edge remover with "AND" and "OR"). -/
def EdgeCondition.Check (T : EdgeTests) : EdgeCondition → omnigraph.EdgeId → Bool
  | .IsolatedEdgeCondition, e => T.isolated e
  | .LengthUpperBound max_length, e => T.lengthBound max_length e
  | .CoverageUpperBound max_coverage, e => T.coverageBound max_coverage e
  | .And a b, e => EdgeCondition.Check T a e && EdgeCondition.Check T b e
  | .Or a b, e => EdgeCondition.Check T a e || EdgeCondition.Check T b e

/-- The positions at which `SimplifyGraph` and `SimplificationCycle` call the printer. -/
inductive info_printer_pos where
  | ipp_before_simplification
  | ipp_tip_clipping
  | ipp_bulge_removal
  | ipp_err_con_removal
deriving DecidableEq

/-- The calls that the schedule before `PostSimplification` makes to the printer and to
algorithms whose bodies end outside `graph_simplification.hpp`, with the arguments that
tell the calls apart: `printer (pos)` or `printer (pos, "_" + iteration)`; the wrappers
`RemoveSelfConjugateEdges`, `ClipTips` (on a graph pack), `RemoveBulges` and
`RemoveLowCoverageEdges`; `EdgeRemovingAlgorithm (g, condition, handler).Process ()`; the
three calls of `RunVertexAlgorithm` and `RunEdgeAlgorithm` with the tip clipping functor,
the compressor and the low coverage functor; `CompressAllVertices ()` and
`Cleaner::Clean ()`. -/
inductive SimplifCall where
  | printer (pos : info_printer_pos) (iteration : Option Nat)
  | RemoveSelfConjugateEdges (max_length : Nat) (max_coverage : Dbl)
  | EdgeRemovingAlgorithm (condition : EdgeCondition)
  | ClipTips (condition : String) (info : SimplifInfoContainer) (enable_projection : Bool)
  | RemoveBulges
  | RemoveLowCoverageEdges (condition : String) (info : SimplifInfoContainer)
  | ParallelTipClipping (tip_condition : String) (info : SimplifInfoContainer)
  | ParallelCompressor (chunk_cnt : Nat)
  | CompressAllVertices
  | Clean
  | ParallelLowCoverage (ec_condition : String) (info : SimplifInfoContainer)
deriving DecidableEq

/-- What the schedule reads from the graph pack `gp` (of a type `σ` left open, which also
holds what the removal handler and the printer were called with): `gp.k_value`,
`gp.g.AllHandlersThreadSafe ()`, `gp.ginfo.ec_bound ()`, `gp.ginfo.estimated_mean ()`;
the comparisons `math::eq` and `math::ls` of doubles, defined outside the file; and what
each call leaves of the graph pack. -/
structure GraphPack (σ : Type) where
  k_value : σ → Nat
  AllHandlersThreadSafe : σ → Bool
  ec_bound : σ → Dbl
  estimated_mean : σ → Dbl
  eq : Dbl → Dbl → Bool
  ls : Dbl → Dbl → Bool
  exec : SimplifCall → σ → σ

/-- The graph pack and the calls made so far. -/
structure SimplifState (σ : Type) where
  state : σ
  calls : List SimplifCall

/-- One call: it is recorded and the graph pack becomes what the call leaves. -/
def call {σ : Type} (E : GraphPack σ) (c : SimplifCall) (x : SimplifState σ) :
    SimplifState σ :=
  ⟨E.exec c x.state, x.calls ++ [c]⟩

/-- Embeds `RemoveIsolatedEdges (g, max_length, max_coverage, max_length_any_cov,
removal_handler)`: the condition it builds. -/
def isolatedEdgeCondition (max_length : Nat) (max_coverage : Dbl)
    (max_length_any_cov : Nat) : EdgeCondition :=
  .And .IsolatedEdgeCondition
    (.Or (.LengthUpperBound max_length_any_cov)
      (.And (.LengthUpperBound max_length) (.CoverageUpperBound max_coverage)))

/-- Embeds `RemoveIsolatedEdges (g, max_length, max_coverage, max_length_any_cov,
removal_handler)`: the edge removing algorithm is run with the condition. -/
def RemoveIsolatedEdges {σ : Type} (E : GraphPack σ) (max_length : Nat)
    (max_coverage : Dbl) (max_length_any_cov : Nat) (x : SimplifState σ) : SimplifState σ :=
  call E (.EdgeRemovingAlgorithm
    (isolatedEdgeCondition max_length max_coverage max_length_any_cov)) x

/-- Embeds `RemoveIsolatedEdges (g, ier, read_length, removal_handler)`; `cfg` is
`cfg::get ()`. -/
def RemoveIsolatedEdgesConfig {σ : Type} (E : GraphPack σ) (cfg : debruijn_config)
    (ier : isolated_edges_remover) (read_length : Nat) (x : SimplifState σ) :
    SimplifState σ :=
  RemoveIsolatedEdges E ier.max_length ier.max_coverage
    (max read_length cfg.ier.max_length_any_cov) x

/-- Embeds `ParallelCompress (g, info)`. -/
def ParallelCompress {σ : Type} (E : GraphPack σ) (info : SimplifInfoContainer)
    (x : SimplifState σ) : SimplifState σ :=
  call E .CompressAllVertices (call E (.ParallelCompressor info.chunk_cnt) x)

/-- Embeds `ParallelClipTips (g, tip_condition, info, removal_handler)`. -/
def ParallelClipTips {σ : Type} (E : GraphPack σ) (tip_condition : String)
    (info : SimplifInfoContainer) (x : SimplifState σ) : SimplifState σ :=
  call E .Clean (ParallelCompress E info (call E (.ParallelTipClipping tip_condition info) x))

/-- Embeds `ParallelEC (g, ec_condition, info, removal_handler)`. -/
def ParallelEC {σ : Type} (E : GraphPack σ) (ec_condition : String)
    (info : SimplifInfoContainer) (x : SimplifState σ) : SimplifState σ :=
  ParallelCompress E info (call E (.ParallelLowCoverage ec_condition info) x)

/-- Embeds `NonParallelPreSimplification` (`cnt_callback.Report ()` only logs). -/
def NonParallelPreSimplification {σ : Type} (E : GraphPack σ) (presimp : presimplification)
    (info : SimplifInfoContainer) (x : SimplifState σ) : SimplifState σ :=
  call E (.RemoveLowCoverageEdges presimp.ec_condition info)
    (call E (.ClipTips presimp.tip_condition info false) x)

/-- Embeds `ParallelPreSimplification`. -/
def ParallelPreSimplification {σ : Type} (E : GraphPack σ) (presimp : presimplification)
    (info : SimplifInfoContainer) (x : SimplifState σ) : SimplifState σ :=
  ParallelEC E presimp.ec_condition info (ParallelClipTips E presimp.tip_condition info x)

/-- Embeds `EnableParallel (gp, presimp)`. -/
def EnableParallel {σ : Type} (E : GraphPack σ) (presimp : presimplification) (s : σ) :
    Except omnigraph.Fault Bool :=
  if presimp.parallel then
    if ¬ 0 < presimp.chunk_cnt then .error .verify
    else if presimp.chunk_cnt = 1 then .ok true
    else if E.AllHandlersThreadSafe s then .ok true
    else .ok false
  else .ok false

/-- Embeds `PreSimplification (gp, presimp, info, removal_handler)`; `gp.k_value + 100` is
a `size_t`. -/
def PreSimplification {σ : Type} (E : GraphPack σ) (cfg : debruijn_config)
    (presimp : presimplification) (info : SimplifInfoContainer) (x : SimplifState σ) :
    Except omnigraph.Fault (SimplifState σ) :=
  if !presimp.enabled then .ok x
  else
    let x1 := call E (.RemoveSelfConjugateEdges ((E.k_value x.state + 100) % 2 ^ 64) Dbl.one) x
    let x2 := RemoveIsolatedEdgesConfig E cfg presimp.ier info.read_length x1
    if E.eq info.detected_mean_coverage ⟨0, 0⟩ then .ok x2
    else if E.ls info.detected_mean_coverage presimp.activation_cov then .ok x2
    else
      match EnableParallel E presimp x2.state with
      | .error f => .error f
      | .ok true =>
        .ok (ParallelPreSimplification E presimp { info with chunk_cnt := presimp.chunk_cnt } x2)
      | .ok false => .ok (NonParallelPreSimplification E presimp info x2)

/-- Embeds `SimplificationCycle (gp, info_container, removal_handler, printer)`
(`cnt_callback.Report ()` only logs). -/
def SimplificationCycle {σ : Type} (E : GraphPack σ) (cfg : debruijn_config)
    (info_container : SimplifInfoContainer) (x : SimplifState σ) : SimplifState σ :=
  let iteration := info_container.iteration
  call E (.printer .ipp_err_con_removal (some iteration))
    (call E (.RemoveLowCoverageEdges cfg.ec_condition info_container)
      (call E (.printer .ipp_bulge_removal (some iteration))
        (call E .RemoveBulges
          (call E (.printer .ipp_tip_clipping (some iteration))
            (call E (.ClipTips cfg.tc_condition info_container cfg.graph_read_corr_enable)
              x)))))

/-- The loop `for (size_t i = 0; i < iteration_count; i++)` of `SimplifyGraph`; the first
argument is the number of passes left, `iteration_count - i`. -/
def simplifyLoop {σ : Type} (E : GraphPack σ) (cfg : debruijn_config) :
    Nat → Nat → SimplifInfoContainer → SimplifState σ → SimplifState σ
  | 0, _, _, x => x
  | left + 1, i, info_container, x =>
    simplifyLoop E cfg left (i + 1) { info_container with iteration := i }
      (SimplificationCycle E cfg { info_container with iteration := i } x)

/-- The container that `SimplifyGraph` passes to `PreSimplification`; `info0` is a
container as its constructor leaves it. -/
def presimpInfo {σ : Type} (E : GraphPack σ) (cfg : debruijn_config)
    (info0 : SimplifInfoContainer) (s : σ) : SimplifInfoContainer :=
  { info0 with
    detected_coverage_bound := E.ec_bound s
    detected_mean_coverage := E.estimated_mean s
    read_length := cfg.RL }

/-- Embeds `SimplifyGraph (gp, removal_handler, printer, iteration_count)`: the graph pack
it leaves and the calls in the order in which they are made, those of `PostSimplification`
on the right of the sum.  The result is `.ok none` when the loop of `PostSimplification`
does not end within `fuel` passes. -/
def SimplifyGraph {σ : Type} (E : GraphPack σ) (cfg : debruijn_config)
    (run : PostCall → σ → σ × Bool) (info0 : SimplifInfoContainer) (iteration_count : Nat)
    (fuel : Nat) (s : σ) :
    Except omnigraph.Fault (Option (σ × List (SimplifCall ⊕ PostCall))) :=
  let x0 := call E (.printer .ipp_before_simplification none) ⟨s, []⟩
  let info_container := presimpInfo E cfg info0 x0.state
  match PreSimplification E cfg cfg.presimp info_container x0 with
  | .error f => .error f
  | .ok x1 =>
    let x2 := simplifyLoop E cfg iteration_count 0
      { info_container with iteration_count := iteration_count } x1
    match PostSimplification cfg.topology_simplif_enabled run fuel x2.state with
    | none => .ok none
    | some (s3, post) => .ok (some (s3, x2.calls.map Sum.inl ++ post.map Sum.inr))

/-- The calls of one `SimplificationCycle` with the container `info_container`, in the order
of the source. -/
def cycleCalls (cfg : debruijn_config) (info_container : SimplifInfoContainer) :
    List SimplifCall :=
  [.ClipTips cfg.tc_condition info_container cfg.graph_read_corr_enable,
    .printer .ipp_tip_clipping (some info_container.iteration),
    .RemoveBulges,
    .printer .ipp_bulge_removal (some info_container.iteration),
    .RemoveLowCoverageEdges cfg.ec_condition info_container,
    .printer .ipp_err_con_removal (some info_container.iteration)]

/-- A graph pack for examples: the state counts the calls made, `k_value` is 55, the
estimates of the coverage are 0, `math::eq` is equality and `math::ls` is `<`. -/
def countingPack (thread_safe : Bool) : GraphPack Nat :=
  ⟨fun _ => 55, fun _ => thread_safe, fun _ => ⟨0, 0⟩, fun _ => ⟨0, 0⟩,
    fun x y => decide (x = y), Dbl.lt, fun _ s => s + 1⟩

end debruijn

/-! ## Properties of `CoverageIndex` -/

namespace omnigraph

theorem bind_eq_ok {α β : Type} (x : Except Fault α) (f : α → Except Fault β) (b : β)
    (h : (x >>= f) = .ok b) : ∃ a, x = .ok a ∧ f a = .ok b := by
  cases x with
  | error e => cases h
  | ok a => exact ⟨a, rfl, h⟩

theorem bind_ok {α β : Type} (x : Except Fault α) (f : α → Except Fault β) (a : α)
    (h : x = .ok a) : (x >>= f) = f a := by
  subst h
  rfl

theorem toInt32_of_lt (n : Int) (h0 : 0 ≤ n) (h1 : n < 2 ^ 31) : toInt32 n = n := by
  unfold toInt32
  omega

theorem stored_set (s : Storage) (edge : EdgeId) (v : Int) (e : EdgeId) :
    stored (fun x => if x = edge then some v else s x) e = if e = edge then v else stored s e := by
  unfold stored
  by_cases h : e = edge <;> simp [h]

theorem coverage_eq (g : Graph) (s : Storage) (edge : EdgeId) (hlen : 0 < g.length edge) :
    coverage g s edge
      = .ok (Dbl.div (Dbl.ofInt (stored s edge)) (Dbl.ofNat (g.length edge))) := by
  unfold coverage stored
  cases h : s edge with
  | none => simp [Dbl.div, Dbl.ofInt, Dbl.ofRatio]
  | some c => simp [Nat.pos_iff_ne_zero.mp hlen]

theorem coverage_congr (g : Graph) (s t : Storage) (edge : EdgeId) (h : t edge = s edge) :
    coverage g t edge = coverage g s edge := by
  unfold coverage
  rw [h]

theorem KPlusOneMerCoverage_congr (g : Graph) (s t : Storage) (edge : EdgeId)
    (h : t edge = s edge) : KPlusOneMerCoverage g t edge = KPlusOneMerCoverage g s edge := by
  unfold KPlusOneMerCoverage
  rw [coverage_congr g s t edge h]

theorem trunc_max_one (x : Dbl) : 1 ≤ (Dbl.max Dbl.one x).trunc := by
  unfold Dbl.max
  by_cases hlt : Dbl.lt Dbl.one x = true
  · rw [if_pos hlt]
    unfold Dbl.lt Dbl.one at hlt
    unfold Dbl.trunc
    by_cases he : 0 ≤ x.exp
    · simp only [he, if_true, decide_eq_true_eq, Int.sub_zero] at hlt
      rw [if_pos he]
      omega
    · simp only [he, if_false, decide_eq_true_eq, Int.zero_sub, Int.one_mul] at hlt
      rw [if_neg he]
      have hpow : (0 : Int) < 2 ^ (-x.exp).toNat := by positivity
      have hman : 0 < x.man := by omega
      have hsign : Int.sign x.man = 1 := Int.sign_eq_one_of_pos hman
      rw [hsign, Int.one_mul]
      have hnat : 2 ^ (-x.exp).toNat ≤ x.man.natAbs := by
        have : ((2 ^ (-x.exp).toNat : Nat) : Int) ≤ (x.man.natAbs : Int) := by
          rw [Int.natAbs_of_nonneg (le_of_lt hman)]
          push_cast
          omega
        exact_mod_cast this
      have hpos : 0 < 2 ^ (-x.exp).toNat := by positivity
      have : 1 ≤ x.man.natAbs / 2 ^ (-x.exp).toNat := (Nat.one_le_div_iff hpos).mpr hnat
      exact_mod_cast this
  · rw [if_neg hlt]
    decide

theorem splitValue_pos (avg_cov : Dbl) (len : Nat) : 1 ≤ splitValue avg_cov len :=
  trunc_max_one _

theorem splitCount_ok (avg_cov : Dbl) (len : Nat) (h : splitValue avg_cov len < 2 ^ 31) :
    splitCount avg_cov len = .ok (splitValue avg_cov len).toNat := by
  have h1 := splitValue_pos avg_cov len
  unfold splitCount toSizeT
  unfold splitValue at h h1 ⊢
  rw [if_pos]
  constructor <;> omega

theorem SetCoverage_ok (s : Storage) (edge : EdgeId) (cov : Int) (s' : Storage)
    (h : SetCoverage s edge cov = .ok s') :
    0 ≤ cov ∧ s' = fun e => if e = edge then some cov else s e := by
  unfold SetCoverage at h
  by_cases h1 : 0 ≤ cov
  · simp only [h1, if_true, Except.ok.injEq] at h
    exact ⟨h1, h.symm⟩
  · simp [h1] at h

theorem IncCoverage_ok (s : Storage) (edge : EdgeId) (a : Int) (s' : Storage)
    (h : IncCoverage s edge a = .ok s') :
    0 ≤ stored s edge + a ∧ s' = fun e => if e = edge then some (stored s edge + a) else s e := by
  unfold IncCoverage at h
  by_cases h1 : isInt32 (stored s edge + a)
  · by_cases h2 : 0 ≤ stored s edge + a
    · simp only [h1, not_true_eq_false, if_false, h2, if_true, Except.ok.injEq] at h
      exact ⟨h2, h.symm⟩
    · simp [h1, h2] at h
  · simp [h1] at h

theorem int32_ok (n v : Int) (h : int32 n = .ok v) : v = n ∧ isInt32 n := by
  unfold int32 at h
  by_cases h1 : isInt32 n
  · simp only [h1, if_true, Except.ok.injEq] at h
    exact ⟨h.symm, h1⟩
  · simp [h1] at h

theorem vertexSplitLoop_spec (g : Graph) (coeffs : List Dbl) (k : EdgeId → Nat) :
    ∀ (rest : List (EdgeId × EdgeId)) (s : Storage) (j : Nat) (s' : Storage),
      (∀ p ∈ rest, ∀ q ∈ rest, p.2 ≠ q.1) →
      (∀ p ∈ rest, KPlusOneMerCoverage g s p.1 = .ok (k p.1)) →
      vertexSplitLoop g coeffs s j rest = .ok s' →
      (∀ e, (∀ p ∈ rest, p.2 ≠ e) → s' e = s e) ∧
      ∀ e, stored s' e = stored s e +
        (((rest.zip (coeffs.drop j)).filter (fun pc => decide (pc.1.2 = e))).map
          (fun pc => Dbl.floor (Dbl.mul (Dbl.ofNat (k pc.1.1)) pc.2))).sum := by
  intro rest
  induction rest with
  | nil =>
    intro s j s' _ _ h
    simp only [vertexSplitLoop, Except.ok.injEq] at h
    subst h
    simp
  | cons p tl ih =>
    intro s j s' hfresh hk h
    obtain ⟨o, n⟩ := p
    simp only [vertexSplitLoop] at h
    cases hc : coeffs[j]? with
    | none =>
      rw [hc] at h
      cases h
    | some c =>
      rw [hc] at h
      obtain ⟨k0, hk0, h1⟩ := bind_eq_ok _ _ _ h
      have hko := hk (o, n) (List.mem_cons_self _ _)
      simp only [hk0, Except.ok.injEq] at hko
      subst hko
      obtain ⟨a, ha, h2⟩ := bind_eq_ok _ _ _ h1
      obtain ⟨s1, hi, h3⟩ := bind_eq_ok _ _ _ h2
      obtain ⟨_, hs1⟩ := IncCoverage_ok s n a s1 hi
      have hav : a = Dbl.floor (Dbl.mul (Dbl.ofNat (k o)) c) := (int32_ok _ _ ha).1
      have hfresh' : ∀ p ∈ tl, ∀ q ∈ tl, p.2 ≠ q.1 := fun p hp q hq =>
        hfresh p (List.mem_cons_of_mem _ hp) q (List.mem_cons_of_mem _ hq)
      have hk' : ∀ p ∈ tl, KPlusOneMerCoverage g s1 p.1 = .ok (k p.1) := by
        intro p hp
        rw [← hk p (List.mem_cons_of_mem _ hp)]
        apply KPlusOneMerCoverage_congr
        have hne : p.1 ≠ n := fun hpn =>
          hfresh (o, n) (List.mem_cons_self _ _) p (List.mem_cons_of_mem _ hp) hpn.symm
        rw [hs1]
        simp [hne]
      obtain ⟨ih1, ih2⟩ := ih s1 (j + 1) s' hfresh' hk' h3
      have hdrop : coeffs.drop j = c :: coeffs.drop (j + 1) := by
        rw [List.getElem?_eq_some] at hc
        obtain ⟨hj, hc⟩ := hc
        rw [← hc]
        exact List.drop_eq_getElem_cons hj
      constructor
      · intro e he
        rw [ih1 e (fun p hp => he p (List.mem_cons_of_mem _ hp))]
        have hne : e ≠ n := fun hen => he (o, n) (List.mem_cons_self _ _) hen.symm
        rw [hs1]
        simp [hne]
      · intro e
        rw [ih2 e, hdrop, List.zip_cons_cons, hs1, stored_set]
        by_cases hen : e = n
        · subst hen
          simp [List.filter_cons, hav]
          ring
        · have hne : ¬ n = e := fun h => hen h.symm
          simp [List.filter_cons, hen, hne]

theorem NonNeg_set (s : Storage) (edge : EdgeId) (v : Int) (hs : NonNeg s) (hv : 0 ≤ v) :
    NonNeg (fun e => if e = edge then some v else s e) := by
  intro e c hc
  by_cases h : e = edge
  · simp only [h, if_true, Option.some.injEq] at hc
    omega
  · simp only [h, if_false] at hc
    exact hs e c hc

theorem SetCoverage_NonNeg (s : Storage) (edge : EdgeId) (cov : Int) (s' : Storage)
    (hs : NonNeg s) (h : SetCoverage s edge cov = .ok s') : NonNeg s' := by
  obtain ⟨h1, h2⟩ := SetCoverage_ok s edge cov s' h
  subst h2
  exact NonNeg_set s edge cov hs h1

theorem IncCoverage_NonNeg (s : Storage) (edge : EdgeId) (a : Int) (s' : Storage)
    (hs : NonNeg s) (h : IncCoverage s edge a = .ok s') : NonNeg s' := by
  obtain ⟨h1, h2⟩ := IncCoverage_ok s edge a s' h
  subst h2
  exact NonNeg_set s edge _ hs h1

theorem addLengths_NonNeg (g : Graph) :
    ∀ (es : List EdgeId) (s s' : Storage), NonNeg s → addLengths g s es = .ok s' → NonNeg s' := by
  intro es
  induction es with
  | nil =>
    intro s s' hs h
    simp only [addLengths, Except.ok.injEq] at h
    subst h
    exact hs
  | cons e tl ih =>
    intro s s' hs h
    simp only [addLengths] at h
    obtain ⟨s1, hi, h⟩ := bind_eq_ok _ _ _ h
    exact ih s1 s' (IncCoverage_NonNeg s e _ s1 hs hi) h

theorem AddPathsToGraph_NonNeg (g : Graph) (s s' : Storage) (path : Path)
    (hs : NonNeg s) (h : AddPathsToGraph g s path = .ok s') : NonNeg s' := by
  unfold AddPathsToGraph at h
  cases hseq : path.sequence with
  | nil =>
    simp only [hseq, Except.ok.injEq] at h
    subst h
    exact hs
  | cons e0 rest =>
    simp only [hseq] at h
    obtain ⟨s1, h1, h⟩ := bind_eq_ok _ _ _ h
    obtain ⟨d0, _, h⟩ := bind_eq_ok _ _ _ h
    obtain ⟨s2, h3, h⟩ := bind_eq_ok _ _ _ h
    obtain ⟨d1, _, h⟩ := bind_eq_ok _ _ _ h
    have hs1 := addLengths_NonNeg g _ s s1 hs h1
    have hs2 := IncCoverage_NonNeg s1 e0 d0 s2 hs1 h3
    exact IncCoverage_NonNeg s2 _ d1 s' hs2 h

theorem HandleDelete_NonNeg (s : Storage) (edge : EdgeId) (hs : NonNeg s) :
    NonNeg (HandleDelete s edge) := by
  intro e c hc
  unfold HandleDelete at hc
  by_cases h : e = edge
  · simp [h] at hc
  · simp only [h, if_false] at hc
    exact hs e c hc

theorem HandleMerge_NonNeg (g : Graph) (s s' : Storage) (oldEdges : List EdgeId)
    (newEdge : EdgeId) (hs : NonNeg s) (h : HandleMerge g s oldEdges newEdge = .ok s') :
    NonNeg s' := by
  unfold HandleMerge at h
  obtain ⟨cov, _, h⟩ := bind_eq_ok _ _ _ h
  exact SetCoverage_NonNeg s newEdge _ s' hs h

theorem HandleGlue_NonNeg (g : Graph) (s s' : Storage) (new_edge edge1 edge2 : EdgeId)
    (hs : NonNeg s) (h : HandleGlue g s new_edge edge1 edge2 = .ok s') : NonNeg s' := by
  unfold HandleGlue at h
  obtain ⟨k2, _, h⟩ := bind_eq_ok _ _ _ h
  obtain ⟨s1, h2, h⟩ := bind_eq_ok _ _ _ h
  obtain ⟨k1, _, h⟩ := bind_eq_ok _ _ _ h
  exact IncCoverage_NonNeg s1 new_edge _ s' (IncCoverage_NonNeg s new_edge _ s1 hs h2) h

theorem HandleSplit_NonNeg (g : Graph) (s s' : Storage) (oldEdge newEdge1 newEdge2 : EdgeId)
    (hs : NonNeg s) (h : HandleSplit g s oldEdge newEdge1 newEdge2 = .ok s') : NonNeg s' := by
  unfold HandleSplit at h
  obtain ⟨avg, _, h⟩ := bind_eq_ok _ _ _ h
  obtain ⟨c1, _, h⟩ := bind_eq_ok _ _ _ h
  obtain ⟨s1, h2, h⟩ := bind_eq_ok _ _ _ h
  obtain ⟨c2, _, h⟩ := bind_eq_ok _ _ _ h
  exact SetCoverage_NonNeg s1 newEdge2 _ s' (SetCoverage_NonNeg s newEdge1 _ s1 hs h2) h

theorem vertexSplitLoop_NonNeg (g : Graph) (coeffs : List Dbl) :
    ∀ (rest : List (EdgeId × EdgeId)) (s : Storage) (j : Nat) (s' : Storage),
      NonNeg s → vertexSplitLoop g coeffs s j rest = .ok s' → NonNeg s' := by
  intro rest
  induction rest with
  | nil =>
    intro s j s' hs h
    simp only [vertexSplitLoop, Except.ok.injEq] at h
    subst h
    exact hs
  | cons p tl ih =>
    intro s j s' hs h
    obtain ⟨o, n⟩ := p
    simp only [vertexSplitLoop] at h
    cases hc : coeffs[j]? with
    | none =>
      rw [hc] at h
      cases h
    | some c =>
      rw [hc] at h
      obtain ⟨k0, _, h⟩ := bind_eq_ok _ _ _ h
      obtain ⟨a, _, h⟩ := bind_eq_ok _ _ _ h
      obtain ⟨s1, hi, h⟩ := bind_eq_ok _ _ _ h
      exact ih s1 (j + 1) s' (IncCoverage_NonNeg s n a s1 hs hi) h

theorem ofRatio_man_nonneg (n : Int) (d : Nat) (hn : 0 ≤ n) : 0 ≤ (Dbl.ofRatio n d).man := by
  unfold Dbl.ofRatio
  by_cases h : n = 0 ∨ d = 0
  · simp [h]
  · simp only [h, if_false]
    exact Int.mul_nonneg (Int.sign_nonneg.mpr hn) (Int.ofNat_nonneg _)

theorem div_man_nonneg (x y : Dbl) (hx : 0 ≤ x.man) (hy : 0 ≤ y.man) :
    0 ≤ (Dbl.div x y).man := by
  unfold Dbl.div
  have hsg : 0 ≤ Int.sign y.man := Int.sign_nonneg.mpr hy
  split
  · exact ofRatio_man_nonneg _ _ (Int.mul_nonneg (Int.mul_nonneg hx hsg) (by positivity))
  · exact ofRatio_man_nonneg _ _ (Int.mul_nonneg hx hsg)

theorem coverage_nonneg (g : Graph) (s : Storage) (edge : EdgeId) (hs : NonNeg s)
    (hlen : 0 < g.length edge) : ∃ cv, coverage g s edge = .ok cv ∧ 0 ≤ cv.man := by
  refine ⟨_, coverage_eq g s edge hlen, ?_⟩
  apply div_man_nonneg
  · apply ofRatio_man_nonneg
    unfold stored
    cases h : s edge with
    | none => simp
    | some c => simpa using hs edge c h
  · exact ofRatio_man_nonneg _ _ (Int.ofNat_nonneg _)


set_option maxRecDepth 100000 in
/-- C1, at the failing input.  One old edge of length 11 holds 15 K+1-mers and is merged
into edge 2: `KPlusOneMerCoverage` computes `(size_t) ((15. / 11) * 11) = 14`, so the new
edge is stored with 14 where the sum of the old stored counts is 15. -/
theorem HandleMerge_drops_kmer :
    ∃ s', HandleMerge ⟨fun _ => 11⟩ (fun e => if e = 1 then some 15 else none) [1] 2 = .ok s' ∧
      stored s' 2 = 14 ∧
      ([1].map (stored (fun e => if e = 1 then some 15 else none))).sum = 15 :=
  ⟨_, rfl, by decide, by decide⟩

set_option maxRecDepth 100000 in
/-- C2, at the failing input.  Edge 1 of length 49 holds one K+1-mer, edges 0 and 2 have no
entry; `HandleGlue (0, 1, 2)` adds `(size_t) ((1. / 49) * 49) = 0` for edge 1, so edge 0 is
stored with 0 where previous count plus the counts of edges 1 and 2 is 1. -/
theorem HandleGlue_drops_kmer :
    ∃ s', HandleGlue ⟨fun _ => 49⟩ (fun e => if e = 1 then some 1 else none) 0 1 2 = .ok s' ∧
      stored s' 0 = 0 ∧
      stored (fun e => if e = 1 then some 1 else none) 0
        + stored (fun e => if e = 1 then some 1 else none) 1
        + stored (fun e => if e = 1 then some 1 else none) 2 = 1 :=
  ⟨_, rfl, by decide, by decide⟩

set_option maxRecDepth 100000 in
/-- C3, counterexample.  (a) An old edge of length 22 with 15 K+1-mers split into edges of
length 11: the code stores `round ((15. / 22) * 11) = round (7.499999999999999) = 7`, the
claimed value `max (1, round (15 / 22 * 11))` is 8.  (b) An old edge of length 1 with
`2 ^ 30` K+1-mers and new edges of length 4: the value `2 ^ 32` is narrowed to `int` and the
new edge is stored with 0, below 1. -/
theorem HandleSplit_counterexample :
    (∃ s', HandleSplit ⟨fun e => if e = 0 then 22 else 11⟩
        (fun e => if e = 0 then some 15 else none) 0 1 2 = .ok s' ∧
      stored s' 1 = 7 ∧ exactSplitCount 15 22 11 = 8) ∧
    (∃ s', HandleSplit ⟨fun e => if e = 0 then 1 else 4⟩
        (fun e => if e = 0 then some (2 ^ 30) else none) 0 1 2 = .ok s' ∧
      stored s' 1 = 0) :=
  ⟨⟨_, rfl, by decide, by decide⟩, ⟨_, rfl, by decide⟩⟩

theorem stored_two_fst (s : Storage) (a b : EdgeId) (v w : Int) :
    stored (fun e => if e = b then some v else if e = a then some w else s e) b = v := by
  simp [stored]

theorem stored_two_snd (s : Storage) (a b : EdgeId) (v w : Int) (hne : a ≠ b) :
    stored (fun e => if e = b then some v else if e = a then some w else s e) a = w := by
  simp [stored, hne]

theorem SetCoverage_splitValue (s : Storage) (edge : EdgeId) (avg : Dbl) (len : Nat)
    (h : splitValue avg len < 2 ^ 31) :
    SetCoverage s edge (toInt32 ((splitValue avg len).toNat : Int))
      = .ok (fun e => if e = edge then some (splitValue avg len) else s e) := by
  have p := splitValue_pos avg len
  have e1 : toInt32 ((splitValue avg len).toNat : Int) = splitValue avg len := by
    rw [Int.toNat_of_nonneg (by omega)]
    exact toInt32_of_lt _ (by omega) h
  rw [e1]
  unfold SetCoverage
  exact if_pos (by omega)

theorem HandleSplit_run (g : Graph) (s : Storage) (oldEdge newEdge1 newEdge2 : EdgeId)
    (avg : Dbl) (hcov : coverage g s oldEdge = .ok avg)
    (h1 : splitValue avg (g.length newEdge1) < 2 ^ 31)
    (h2 : splitValue avg (g.length newEdge2) < 2 ^ 31) :
    HandleSplit g s oldEdge newEdge1 newEdge2
      = .ok (fun e => if e = newEdge2 then some (splitValue avg (g.length newEdge2))
          else if e = newEdge1 then some (splitValue avg (g.length newEdge1)) else s e) := by
  unfold HandleSplit
  refine (bind_ok _ _ _ hcov).trans ?_
  refine (bind_ok _ _ _ (splitCount_ok avg (g.length newEdge1) h1)).trans ?_
  refine (bind_ok _ _ _ (SetCoverage_splitValue s newEdge1 avg _ h1)).trans ?_
  refine (bind_ok _ _ _ (splitCount_ok avg (g.length newEdge2) h2)).trans ?_
  exact SetCoverage_splitValue _ newEdge2 avg _ h2

/-- C3, amended.  For an old edge of positive length, with
`avg = (double) stored (old) / length (old)` and the products rounded as binary64 values,
if both `max (1., round (avg * length (n_i)))` are below `2 ^ 31` then `HandleSplit`
completes and stores exactly these values for `n1` and `n2`, each at least 1. -/
theorem HandleSplit_stores_rounded_share (g : Graph) (s : Storage)
    (oldEdge newEdge1 newEdge2 : EdgeId) (hlen : 0 < g.length oldEdge)
    (h1 : splitValue (Dbl.div (Dbl.ofInt (stored s oldEdge)) (Dbl.ofNat (g.length oldEdge)))
      (g.length newEdge1) < 2 ^ 31)
    (h2 : splitValue (Dbl.div (Dbl.ofInt (stored s oldEdge)) (Dbl.ofNat (g.length oldEdge)))
      (g.length newEdge2) < 2 ^ 31) :
    ∃ s', HandleSplit g s oldEdge newEdge1 newEdge2 = .ok s' ∧
      stored s' newEdge1
        = splitValue (Dbl.div (Dbl.ofInt (stored s oldEdge)) (Dbl.ofNat (g.length oldEdge)))
            (g.length newEdge1) ∧
      stored s' newEdge2
        = splitValue (Dbl.div (Dbl.ofInt (stored s oldEdge)) (Dbl.ofNat (g.length oldEdge)))
            (g.length newEdge2) ∧
      1 ≤ stored s' newEdge1 ∧ 1 ≤ stored s' newEdge2 := by
  have hrun := HandleSplit_run g s oldEdge newEdge1 newEdge2 _
    (coverage_eq g s oldEdge hlen) h1 h2
  have p1 := splitValue_pos
    (Dbl.div (Dbl.ofInt (stored s oldEdge)) (Dbl.ofNat (g.length oldEdge))) (g.length newEdge1)
  have p2 := splitValue_pos
    (Dbl.div (Dbl.ofInt (stored s oldEdge)) (Dbl.ofNat (g.length oldEdge))) (g.length newEdge2)
  by_cases h : newEdge1 = newEdge2
  · subst h
    exact ⟨_, hrun, stored_two_fst s _ _ _ _, stored_two_fst s _ _ _ _,
      (stored_two_fst s _ _ _ _).symm ▸ p1, (stored_two_fst s _ _ _ _).symm ▸ p1⟩
  · exact ⟨_, hrun, stored_two_snd s _ _ _ _ h, stored_two_fst s _ _ _ _,
      (stored_two_snd s _ _ _ _ h).symm ▸ p1, (stored_two_fst s _ _ _ _).symm ▸ p2⟩

set_option maxRecDepth 100000 in
/-- C3, instance of the amended claim: 15 K+1-mers on an edge of length 22, split into
edges of length 11. -/
theorem HandleSplit_stores_rounded_share_witness :
    ∃ s', HandleSplit ⟨fun e => if e = 0 then 22 else 11⟩
        (fun e => if e = 0 then some 15 else none) 0 1 2 = .ok s' ∧
      stored s' 1 = splitValue (Dbl.div (Dbl.ofInt (stored
          (fun e => if e = 0 then some 15 else none) 0)) (Dbl.ofNat 22)) 11 ∧
      stored s' 2 = splitValue (Dbl.div (Dbl.ofInt (stored
          (fun e => if e = 0 then some 15 else none) 0)) (Dbl.ofNat 22)) 11 ∧
      1 ≤ stored s' 1 ∧ 1 ≤ stored s' 2 :=
  HandleSplit_stores_rounded_share ⟨fun e => if e = 0 then 22 else 11⟩
    (fun e => if e = 0 then some 15 else none) 0 1 2 (by decide) (by decide) (by decide)


set_option maxRecDepth 100000 in
/-- C4, at the failing input.  A vertex split with the single pair `(0, 1)` and the
coefficient `1.`: the old edge 0, of length 11, holds 15 K+1-mers and the new edge 1 has
no entry.  `KPlusOneMerCoverage (0)` is `(size_t) ((15. / 11) * 11) = 14`, so the count of
edge 1 grows by `floor (14 * 1.) = 14`, where `floor (stored (old) * coeff)` is 15; the
entry of the old edge is unchanged. -/
theorem HandleVertexSplit_drops_kmer :
    ∃ s', HandleVertexSplit ⟨fun _ => 11⟩ (fun e => if e = 0 then some 15 else none)
        [(0, 1)] [⟨1, 0⟩] = .ok s' ∧
      stored s' 1 = 14 ∧ stored (fun e => if e = 0 then some 15 else none) 1 = 0 ∧
      s' 0 = some 15 ∧
      KPlusOneMerCoverage ⟨fun _ => 11⟩ (fun e => if e = 0 then some 15 else none) 0 = .ok 14 ∧
      Dbl.floor (Dbl.mul
        (Dbl.ofNat (stored (fun e => if e = 0 then some 15 else none) 0).toNat) ⟨1, 0⟩) = 15 :=
  ⟨_, rfl, by decide, by decide, by decide, rfl, by decide⟩

/-- Away from the failing inputs of `KPlusOneMerCoverage`: when no new edge of the list is
also an old edge of the list, and the K+1-mer count `KPlusOneMerCoverage` returns for
every old edge is its stored count, a completed `HandleVertexSplit` leaves the entries of
the old edges unchanged and the stored count of every edge `e` has grown by the sum, over
the pairs `(old_i, e)`, of `floor (stored (old_i) * coeff_i)`, the product being a rounded
binary64 product. -/
theorem HandleVertexSplit_growth (g : Graph) (s s' : Storage)
    (newEdges : List (EdgeId × EdgeId)) (split_coefficients : List Dbl)
    (hfresh : ∀ p ∈ newEdges, ∀ q ∈ newEdges, p.2 ≠ q.1)
    (hexact : ∀ p ∈ newEdges, KPlusOneMerCoverage g s p.1 = .ok (stored s p.1).toNat)
    (hrun : HandleVertexSplit g s newEdges split_coefficients = .ok s') :
    (∀ p ∈ newEdges, s' p.1 = s p.1) ∧
    ∀ e, stored s' e = stored s e +
      (((newEdges.zip split_coefficients).filter (fun pc => decide (pc.1.2 = e))).map
        (fun pc => Dbl.floor (Dbl.mul (Dbl.ofNat (stored s pc.1.1).toNat) pc.2))).sum := by
  obtain ⟨h1, h2⟩ := vertexSplitLoop_spec g split_coefficients (fun e => (stored s e).toNat)
    newEdges s 0 s' hfresh hexact hrun
  refine ⟨fun p hp => h1 p.1 (fun q hq => hfresh q hq p hp), ?_⟩
  intro e
  rw [h2 e, List.drop_zero]

set_option maxRecDepth 100000 in
/-- An instance of `HandleVertexSplit_growth`: edges of length 1, edge 0 with 7 K+1-mers,
split into edges 1 and 2 with coefficients 0.5 and 0.25. -/
theorem HandleVertexSplit_growth_witness :
    ∃ s', HandleVertexSplit ⟨fun _ => 1⟩ (fun e => if e = 0 then some 7 else none)
        [(0, 1), (0, 2)] [⟨1, -1⟩, ⟨1, -2⟩] = .ok s' ∧
      (∀ p ∈ [((0 : EdgeId), (1 : EdgeId)), (0, 2)],
        s' p.1 = (fun e => if e = 0 then some (7 : Int) else none) p.1) ∧
      stored s' 1 = 3 ∧ stored s' 2 = 1 := by
  obtain ⟨s', hs'⟩ : ∃ s', HandleVertexSplit ⟨fun _ => 1⟩
      (fun e => if e = 0 then some 7 else none) [(0, 1), (0, 2)] [⟨1, -1⟩, ⟨1, -2⟩] = .ok s' :=
    ⟨_, rfl⟩
  have hexact : ∀ p ∈ [((0 : EdgeId), (1 : EdgeId)), (0, 2)],
      KPlusOneMerCoverage ⟨fun _ => 1⟩ (fun e => if e = 0 then some 7 else none) p.1
        = .ok (stored (fun e => if e = 0 then some 7 else none) p.1).toNat := by
    intro p hp
    simp only [List.mem_cons, List.mem_singleton, List.not_mem_nil, or_false] at hp
    rcases hp with h | h <;> subst h <;> rfl
  have h := HandleVertexSplit_growth ⟨fun _ => 1⟩ (fun e => if e = 0 then some 7 else none) s'
    [(0, 1), (0, 2)] [⟨1, -1⟩, ⟨1, -2⟩] (by decide) hexact hs'
  refine ⟨s', hs', h.1, ?_, ?_⟩
  · rw [h.2 1]
    decide
  · rw [h.2 2]
    decide

/-- C5.  From an index whose entries are all non-negative, every operation that completes
leaves all entries non-negative; the average coverage of an edge of positive length is then
non-negative; and `SetCoverage` with a negative value, or `IncCoverage` with an increment
that takes the entry below zero, ends in the failed `VERIFY`. -/
theorem coverage_nonnegative_invariant (g : Graph) (s : Storage) (hs : NonNeg s) :
    (∀ edge cov s', SetCoverage s edge cov = .ok s' → NonNeg s') ∧
    (∀ edge toAdd s', IncCoverage s edge toAdd = .ok s' → NonNeg s') ∧
    (∀ path s', AddPathsToGraph g s path = .ok s' → NonNeg s') ∧
    (∀ edge, NonNeg (HandleDelete s edge)) ∧
    (∀ oldEdges newEdge s', HandleMerge g s oldEdges newEdge = .ok s' → NonNeg s') ∧
    (∀ new_edge edge1 edge2 s', HandleGlue g s new_edge edge1 edge2 = .ok s' → NonNeg s') ∧
    (∀ oldEdge newEdge1 newEdge2 s',
      HandleSplit g s oldEdge newEdge1 newEdge2 = .ok s' → NonNeg s') ∧
    (∀ newEdges coeffs s', HandleVertexSplit g s newEdges coeffs = .ok s' → NonNeg s') ∧
    (∀ edge, 0 < g.length edge → ∃ cv, coverage g s edge = .ok cv ∧ 0 ≤ cv.man) ∧
    (∀ edge cov, cov < 0 → SetCoverage s edge cov = .error .verify) ∧
    (∀ edge toAdd, isInt32 (stored s edge + toAdd) → stored s edge + toAdd < 0 →
      IncCoverage s edge toAdd = .error .verify) := by
  refine ⟨?_, ?_, ?_, ?_, ?_, ?_, ?_, ?_, ?_, ?_, ?_⟩
  · exact fun edge cov s' h => SetCoverage_NonNeg s edge cov s' hs h
  · exact fun edge a s' h => IncCoverage_NonNeg s edge a s' hs h
  · exact fun path s' h => AddPathsToGraph_NonNeg g s s' path hs h
  · exact fun edge => HandleDelete_NonNeg s edge hs
  · exact fun o n s' h => HandleMerge_NonNeg g s s' o n hs h
  · exact fun n e1 e2 s' h => HandleGlue_NonNeg g s s' n e1 e2 hs h
  · exact fun o n1 n2 s' h => HandleSplit_NonNeg g s s' o n1 n2 hs h
  · exact fun l c s' h => vertexSplitLoop_NonNeg g c l s 0 s' hs h
  · exact fun edge hlen => coverage_nonneg g s edge hs hlen
  · intro edge cov hcov
    unfold SetCoverage
    exact if_neg (by omega)
  · intro edge a hr hneg
    unfold IncCoverage
    rw [if_neg (not_not.mpr hr), if_neg (by omega)]

/-- C5, instance: the index with the single entry `1 ↦ 15` over edges of length 11. -/
theorem coverage_nonnegative_invariant_witness :
    NonNeg (fun e => if e = 1 then some 15 else none) ∧
    (∀ oldEdges newEdge s', HandleMerge ⟨fun _ => 11⟩ (fun e => if e = 1 then some 15 else none)
      oldEdges newEdge = .ok s' → NonNeg s') ∧
    IncCoverage (fun e => if e = 1 then some 15 else none) 1 (-16) = .error .verify :=
  have hs : NonNeg (fun e => if e = 1 then some 15 else none) := by
    intro e c h
    by_cases he : e = 1
    · simp only [he, if_true, Option.some.injEq] at h
      omega
    · simp [he] at h
  ⟨hs, (coverage_nonnegative_invariant ⟨fun _ => 11⟩ _ hs).2.2.2.2.1,
    (coverage_nonnegative_invariant ⟨fun _ => 11⟩ _ hs).2.2.2.2.2.2.2.2.2.2 1 (-16)
      (by decide) (by decide)⟩

end omnigraph

/-! ## Properties of `HammerTools` -/

namespace HammerTools

theorem subKMerPositionAt_le (K tau j : Nat) (hj : j ≤ tau) :
    subKMerPositionAt K tau j = (j * K % 2 ^ 32) / (tau + 1) := by
  unfold subKMerPositionAt InitializeSubKMerPositions
  rw [List.getD_eq_getElem?_getD, List.getElem?_append_left (by simp; omega)]
  simp [List.getElem?_range (show j < tau + 1 by omega)]

theorem subKMerPositionAt_last (K tau : Nat) :
    subKMerPositionAt K tau (tau + 1) = K % 2 ^ 32 := by
  unfold subKMerPositionAt InitializeSubKMerPositions
  rw [List.getD_eq_getElem?_getD, List.getElem?_append_right (by simp)]
  simp

/-- Without 32-bit wrap-around every entry is `floor (j * K / (tau + 1))`. -/
theorem subKMerPositionAt_exact (K tau j : Nat) (hK : K < 2 ^ 32) (h : tau * K < 2 ^ 32)
    (hj : j ≤ tau + 1) : subKMerPositionAt K tau j = j * K / (tau + 1) := by
  by_cases hj' : j ≤ tau
  · rw [subKMerPositionAt_le K tau j hj']
    have : j * K ≤ tau * K := Nat.mul_le_mul_right K hj'
    rw [Nat.mod_eq_of_lt (by omega)]
  · have hj2 : j = tau + 1 := by omega
    subst hj2
    rw [subKMerPositionAt_last, Nat.mod_eq_of_lt hK, Nat.mul_div_cancel_left K (by omega)]

theorem subKMerPositionAt_mono (K tau j : Nat) (hK : K < 2 ^ 32) (h : tau * K < 2 ^ 32)
    (hj : j ≤ tau) : subKMerPositionAt K tau j ≤ subKMerPositionAt K tau (j + 1) := by
  rw [subKMerPositionAt_exact K tau j hK h (by omega),
    subKMerPositionAt_exact K tau (j + 1) hK h (by omega)]
  exact Nat.div_le_div_right (Nat.mul_le_mul_right K (by omega))

theorem subKMerPositionAt_lt (K tau j : Nat) (hK : K < 2 ^ 32) (h : tau * K < 2 ^ 32)
    (hj : j ≤ tau + 1) : subKMerPositionAt K tau j < 2 ^ 32 := by
  rw [subKMerPositionAt_exact K tau j hK h hj]
  have h1 : j * K ≤ (tau + 1) * K := Nat.mul_le_mul_right K hj
  have h2 : j * K / (tau + 1) ≤ (tau + 1) * K / (tau + 1) := Nat.div_le_div_right h1
  rw [Nat.mul_div_cancel_left K (by omega)] at h2
  omega

theorem subKMer_exact {α : Type} (K tau : Nat) (a : List α) (j : Nat) (hK : K < 2 ^ 32)
    (h : tau * K < 2 ^ 32) (hj : j ≤ tau) :
    subKMer K tau a j = (a.drop (subKMerPositionAt K tau j)).take
      (subKMerPositionAt K tau (j + 1) - subKMerPositionAt K tau j) := by
  unfold subKMer
  have h1 := subKMerPositionAt_mono K tau j hK h hj
  have h2 := subKMerPositionAt_lt K tau (j + 1) hK h (by omega)
  congr 1
  omega

theorem hamming_eq_zero {α : Type} [DecidableEq α] :
    ∀ (a b : List α), a.length = b.length → hamming a b = 0 → a = b := by
  intro a
  induction a with
  | nil =>
    intro b hl _
    cases b with
    | nil => rfl
    | cons y ys => simp at hl
  | cons x xs ih =>
    intro b hl h
    cases b with
    | nil => simp at hl
    | cons y ys =>
      unfold hamming at h
      rw [List.zip_cons_cons, List.countP_cons] at h
      have hxy : x = y := by
        by_contra hne
        simp [hne] at h
      have h0 : hamming xs ys = 0 := by
        unfold hamming
        omega
      rw [hxy, ih ys (by simpa using hl) h0]

theorem zip_take_take {α : Type} (a b : List α) (n : Nat) :
    (a.take n).zip (b.take n) = (a.zip b).take n := by
  unfold List.zip
  rw [List.take_zipWith]

theorem zip_drop_drop {α : Type} (a b : List α) (n : Nat) :
    (a.drop n).zip (b.drop n) = (a.zip b).drop n := by
  unfold List.zip
  rw [List.drop_zipWith]

theorem hamming_take_succ {α : Type} [DecidableEq α] (a b : List α) (n m : Nat) (hnm : n ≤ m) :
    hamming (a.take m) (b.take m)
      = hamming (a.take n) (b.take n)
        + hamming ((a.drop n).take (m - n)) ((b.drop n).take (m - n)) := by
  unfold hamming
  rw [zip_take_take, zip_take_take, zip_take_take, zip_drop_drop, ← List.countP_append]
  congr 1
  have hm : m = n + (m - n) := by omega
  conv_lhs => rw [hm]
  rw [List.take_add]

theorem hamming_full {α : Type} [DecidableEq α] (a b : List α) (K : Nat)
    (ha : a.length = K) (hb : b.length = K) : hamming (a.take K) (b.take K) = hamming a b := by
  rw [List.take_of_length_le (by omega), List.take_of_length_le (by omega)]

/-- If consecutive slices `0 .. j - 1` all differ, the prefixes up to boundary `j` are at
Hamming distance at least `j`. -/
theorem hamming_prefix_ge {α : Type} [DecidableEq α] (a b : List α) (hl : a.length = b.length)
    (P : Nat → Nat) (n : Nat) (hmono : ∀ j, j < n → P j ≤ P (j + 1))
    (hdiff : ∀ j, j < n → (a.drop (P j)).take (P (j + 1) - P j)
      ≠ (b.drop (P j)).take (P (j + 1) - P j)) :
    ∀ j, j ≤ n → j ≤ hamming (a.take (P j)) (b.take (P j)) := by
  intro j
  induction j with
  | zero => intro _; exact Nat.zero_le _
  | succ j ih =>
    intro hj
    have h1 := ih (by omega)
    rw [hamming_take_succ a b (P j) (P (j + 1)) (hmono j (by omega))]
    have h2 : hamming ((a.drop (P j)).take (P (j + 1) - P j))
        ((b.drop (P j)).take (P (j + 1) - P j)) ≠ 0 := by
      intro h0
      refine hdiff j (by omega) (hamming_eq_zero _ _ ?_ h0)
      simp only [List.length_take, List.length_drop, hl]
    omega


/-- C6.  With the positions set by `InitializeSubKMerPositions` for a k-mer length
`K < 2 ^ 16` and a radius `tau` (an `int`, `tau + 1` representable), two strings of length
`K` at Hamming distance at most `tau` have an identical sub-k-mer `j` for some `j` in
`0 .. tau`.  Whenever the 32-bit products do not wrap (`tau * K < 2 ^ 32`) the positions are
`floor (j * K / (tau + 1))` for `j ≤ tau` and `K` at index `tau + 1`, start at 0 and are
non-decreasing, so the slices `[at(j), at(j+1))` cover `[0, K)` without overlap. -/
theorem subKMer_pigeonhole {α : Type} [DecidableEq α] (K tau : Nat) (hK : K < 2 ^ 16)
    (htau : tau + 1 < 2 ^ 31) (a b : List α) (ha : a.length = K) (hb : b.length = K)
    (hd : hamming a b ≤ tau) :
    (∃ j, j ≤ tau ∧ subKMer K tau a j = subKMer K tau b j) ∧
    (tau * K < 2 ^ 32 →
      (∀ j, j ≤ tau → subKMerPositionAt K tau j = j * K / (tau + 1)) ∧
      subKMerPositionAt K tau 0 = 0 ∧ subKMerPositionAt K tau (tau + 1) = K ∧
      (∀ j, j ≤ tau → subKMerPositionAt K tau j ≤ subKMerPositionAt K tau (j + 1)) ∧
      (∀ j, j ≤ tau → subKMer K tau a j = (a.drop (subKMerPositionAt K tau j)).take
        (subKMerPositionAt K tau (j + 1) - subKMerPositionAt K tau j))) := by
  have hK32 : K < 2 ^ 32 := by omega
  constructor
  · by_cases hw : tau * K < 2 ^ 32
    · by_contra hno
      have hdiff : ∀ j, j < tau + 1 →
          (a.drop (subKMerPositionAt K tau j)).take
            (subKMerPositionAt K tau (j + 1) - subKMerPositionAt K tau j)
          ≠ (b.drop (subKMerPositionAt K tau j)).take
            (subKMerPositionAt K tau (j + 1) - subKMerPositionAt K tau j) := by
        intro j hj heq
        apply hno
        refine ⟨j, by omega, ?_⟩
        rw [subKMer_exact K tau a j hK32 hw (by omega),
          subKMer_exact K tau b j hK32 hw (by omega)]
        exact heq
      have hge := hamming_prefix_ge a b (by omega) (subKMerPositionAt K tau) (tau + 1)
        (fun j hj => subKMerPositionAt_mono K tau j hK32 hw (by omega)) hdiff (tau + 1)
        (le_refl _)
      rw [subKMerPositionAt_last, Nat.mod_eq_of_lt hK32, hamming_full a b K ha hb] at hge
      omega
    · have htK : K ≤ tau := by
        by_contra hlt
        have h1 : tau * K ≤ K * K := Nat.mul_le_mul_right K (by omega)
        have h2 : K * K < 2 ^ 16 * 2 ^ 16 := Nat.mul_lt_mul'' hK hK
        omega
      have h1tau : 1 ≤ tau := by
        by_contra h0
        have : tau = 0 := by omega
        subst this
        simp at hw
      have p0 : subKMerPositionAt K tau 0 = 0 := by
        rw [subKMerPositionAt_le K tau 0 (by omega)]
        simp
      have p1 : subKMerPositionAt K tau 1 = 0 := by
        rw [subKMerPositionAt_le K tau 1 h1tau, Nat.one_mul, Nat.mod_eq_of_lt hK32]
        exact Nat.div_eq_of_lt (by omega)
      refine ⟨0, by omega, ?_⟩
      unfold subKMer
      rw [p0, p1]
      simp
  · intro hw
    refine ⟨fun j hj => subKMerPositionAt_exact K tau j hK32 hw (by omega), ?_, ?_,
      fun j hj => subKMerPositionAt_mono K tau j hK32 hw hj,
      fun j hj => subKMer_exact K tau a j hK32 hw hj⟩
    · rw [subKMerPositionAt_exact K tau 0 hK32 hw (by omega)]
      simp
    · rw [subKMerPositionAt_last, Nat.mod_eq_of_lt hK32]

/-- C6, instance: `K = 5`, `tau = 1`, the strings `[0, 1, 2, 3, 4]` and `[0, 1, 2, 3, 9]`. -/
theorem subKMer_pigeonhole_witness :
    hamming [0, 1, 2, 3, 4] [0, 1, 2, 3, 9] ≤ 1 ∧
    (∃ j, j ≤ 1 ∧ subKMer 5 1 [0, 1, 2, 3, 4] j = subKMer 5 1 [0, 1, 2, 3, 9] j) ∧
    subKMerPositionAt 5 1 1 = 2 :=
  ⟨by decide,
    (subKMer_pigeonhole 5 1 (by decide) (by decide) [0, 1, 2, 3, 4] [0, 1, 2, 3, 9] rfl rfl
      (by decide)).1,
    by decide⟩


theorem mergeRanges_nil_right {α : Type} (lt : α → α → Bool) :
    ∀ xs : List α, mergeRanges lt xs [] = xs := by
  intro xs
  induction xs with
  | nil => rfl
  | cons x xs ih =>
    simp only [mergeRanges, mergeStep]
    rw [ih]

theorem mergeRanges_cons_cons {α : Type} (lt : α → α → Bool) (x y : α) (xs ys : List α) :
    mergeRanges lt (x :: xs) (y :: ys)
      = if lt y x then y :: mergeRanges lt (x :: xs) ys else x :: mergeRanges lt xs (y :: ys) := by
  simp only [mergeRanges, mergeStep]

theorem mergeRanges_perm {α : Type} (lt : α → α → Bool) :
    ∀ xs ys : List α, (mergeRanges lt xs ys).Perm (xs ++ ys) := by
  intro xs
  induction xs with
  | nil => intro ys; exact List.Perm.refl _
  | cons x xs ihx =>
    intro ys
    induction ys with
    | nil =>
      rw [mergeRanges_nil_right, List.append_nil]
    | cons y ys ihy =>
      rw [mergeRanges_cons_cons]
      by_cases h : lt y x = true
      · rw [if_pos h]
        refine (List.Perm.cons y ihy).trans ?_
        exact (@List.perm_middle _ y (x :: xs) ys).symm
      · rw [if_neg h]
        exact List.Perm.cons x (ihx (y :: ys))

theorem mergeRanges_sorted {α : Type} (lt : α → α → Bool)
    (hasym : ∀ a b, lt a b = true → lt b a = false)
    (htrans : ∀ a b c, lt b a = false → lt c b = false → lt c a = false) :
    ∀ xs ys : List α, SortedUnder lt xs → SortedUnder lt ys →
      SortedUnder lt (mergeRanges lt xs ys) := by
  intro xs
  induction xs with
  | nil => intro ys _ hy; exact hy
  | cons x xs ihx =>
    intro ys
    induction ys with
    | nil =>
      intro hx _
      rw [mergeRanges_nil_right]
      exact hx
    | cons y ys ihy =>
      intro hx hy
      unfold SortedUnder at hx hy ⊢
      rw [mergeRanges_cons_cons]
      rw [List.pairwise_cons] at hx hy
      by_cases h : lt y x = true
      · rw [if_pos h, List.pairwise_cons]
        refine ⟨?_, ihy (List.pairwise_cons.mpr hx) hy.2⟩
        intro z hz
        have hz' := (mergeRanges_perm lt (x :: xs) ys).subset hz
        rw [List.mem_append, List.mem_cons] at hz'
        have hxy : lt x y = false := hasym y x h
        rcases hz' with (hzx | hzx) | hzy
        · subst hzx
          exact hxy
        · exact htrans y x z hxy (hx.1 z hzx)
        · exact hy.1 z hzy
      · rw [if_neg h, List.pairwise_cons]
        have hyx : lt y x = false := by simpa using h
        refine ⟨?_, ihx (y :: ys) hx.2 (List.pairwise_cons.mpr hy)⟩
        intro z hz
        have hz' := (mergeRanges_perm lt xs (y :: ys)).subset hz
        rw [List.mem_append, List.mem_cons] at hz'
        rcases hz' with hzx | hzy | hzy
        · exact hx.1 z hzx
        · subst hzy
          exact hyx
        · exact htrans x y z hyx (hy.1 z hzy)

theorem concatVectors_fst {α : Type} :
    ∀ (bs : List (List α)) (vec : List α) (e : List Nat),
      (concatVectors vec e bs).1 = vec ++ bs.flatten := by
  intro bs
  induction bs with
  | nil => intro vec e; simp [concatVectors]
  | cons b bs ih =>
    intro vec e
    simp only [concatVectors]
    rw [ih, List.flatten_cons, List.append_assoc]

theorem concatVectors_snd_length {α : Type} :
    ∀ (bs : List (List α)) (vec : List α) (e : List Nat),
      (concatVectors vec e bs).2.length = e.length + bs.length := by
  intro bs
  induction bs with
  | nil => intro vec e; simp [concatVectors]
  | cons b bs ih =>
    intro vec e
    simp only [concatVectors]
    rw [ih]
    simp
    omega

theorem concatVectors_snd {α : Type} :
    ∀ (bs : List (List α)) (vec : List α) (e : List Nat) (i : Nat), i < bs.length →
      (concatVectors vec e bs).2.getD (e.length + i) 0
        = (vec ++ (bs.take (i + 1)).flatten).length := by
  intro bs
  induction bs with
  | nil => intro vec e i hi; simp at hi
  | cons b bs ih =>
    intro vec e i hi
    simp only [concatVectors]
    cases i with
    | zero =>
      have hpre : ∀ (cs : List (List α)) (v : List α) (e' : List Nat) (j : Nat),
          j < e'.length → (concatVectors v e' cs).2.getD j 0 = e'.getD j 0 := by
        intro cs
        induction cs with
        | nil => intro v e' j _; simp [concatVectors]
        | cons c cs ihc =>
          intro v e' j hj
          simp only [concatVectors]
          rw [ihc _ _ j (by simp; omega)]
          simp [List.getD_eq_getElem?_getD, List.getElem?_append_left hj]
      rw [hpre bs _ _ _ (by simp)]
      simp [List.getD_eq_getElem?_getD]
    | succ i =>
      have h := ih (vec ++ b) (e ++ [(vec ++ b).length]) i (by simpa using hi)
      rw [show (e ++ [(vec ++ b).length]).length + i = e.length + (i + 1) by simp; omega] at h
      rw [h]
      simp [List.append_assoc]


theorem inplace_merge_append {α : Type} (lt : α → α → Bool) (s b r : List α) :
    inplace_merge lt (s ++ b ++ r) 0 s.length (s.length + b.length)
      = mergeRanges lt s b ++ r := by
  unfold inplace_merge
  have h1 : ((s ++ b ++ r).take s.length).drop 0 = s := by
    rw [List.drop_zero, List.append_assoc, List.take_left']
    rfl
  have h2 : ((s ++ b ++ r).take (s.length + b.length)).drop s.length = b := by
    rw [List.take_left' (by simp), List.drop_left' rfl]
  have h3 : (s ++ b ++ r).drop (s.length + b.length) = r := by
    rw [List.drop_left' (by simp)]
  rw [h1, h2, h3]
  simp

theorem mergeInPlace_invariant {α : Type} (lt : α → α → Bool)
    (hasym : ∀ a b, lt a b = true → lt b a = false)
    (htrans : ∀ a b c, lt b a = false → lt c b = false → lt c a = false)
    (bs : List (List α)) (hs : ∀ b ∈ bs, SortedUnder lt b) (e : List Nat)
    (he : ∀ i, i < bs.length → e.getD i 0 = ((bs.take (i + 1)).flatten).length) :
    ∀ m, m + 1 ≤ bs.length →
      ∃ s, (List.range' 1 m).foldl
          (fun v iFile => inplace_merge lt v 0 (e.getD (iFile - 1) 0) (e.getD iFile 0))
          bs.flatten = s ++ (bs.drop (m + 1)).flatten ∧
        SortedUnder lt s ∧ s.Perm (bs.take (m + 1)).flatten := by
  intro m
  induction m with
  | zero =>
    intro hm
    refine ⟨(bs.take 1).flatten, ?_, ?_, List.Perm.refl _⟩
    · simp only [List.range'_zero, List.foldl_nil]
      rw [← List.flatten_append, List.take_append_drop]
    · cases bs with
      | nil => simp at hm
      | cons b bs =>
        simp only [List.take_succ_cons, List.take_zero, List.flatten_cons, List.flatten_nil,
          List.append_nil]
        exact hs b (List.mem_cons_self _ _)
  | succ m ih =>
    intro hm
    obtain ⟨s, hfold, hsorted, hperm⟩ := ih (by omega)
    have hlt : m + 1 < bs.length := by omega
    have hdrop : bs.drop (m + 1) = bs[m + 1] :: bs.drop (m + 2) :=
      List.drop_eq_getElem_cons hlt
    have htake : bs.take (m + 2) = bs.take (m + 1) ++ [bs[m + 1]] := by
      rw [List.take_succ, List.getElem?_eq_getElem hlt]
      rfl
    have hlen : s.length = ((bs.take (m + 1)).flatten).length := hperm.length_eq
    refine ⟨mergeRanges lt s bs[m + 1], ?_, ?_, ?_⟩
    · rw [List.range'_concat, List.foldl_append, hfold]
      simp only [List.foldl_cons, List.foldl_nil]
      rw [show 1 + 1 * m - 1 = m by omega, show 1 + 1 * m = m + 1 by omega,
        he m (by omega), he (m + 1) hlt, ← hlen, htake, hdrop, List.flatten_cons,
        ← List.append_assoc]
      have h2 : ((bs.take (m + 1) ++ [bs[m + 1]]).flatten).length
          = s.length + (bs[m + 1]).length := by
        rw [List.flatten_append, List.length_append, ← hlen]
        simp
      rw [h2]
      exact inplace_merge_append lt s _ _
    · exact mergeRanges_sorted lt hasym htrans s _ hsorted
        (hs _ (List.getElem_mem _))
    · refine (mergeRanges_perm lt s _).trans ?_
      rw [htake, List.flatten_append]
      simp only [List.flatten_cons, List.flatten_nil, List.append_nil]
      exact List.Perm.append_right _ hperm

/-- C10.  For a comparator that is a strict weak ordering (asymmetric, with a transitive
"not less"), at least one bucket, and every bucket vector sorted under the comparator
(empty buckets included): after the concatenation and the successive `inplace_merge` calls
the global vector is sorted, it is a permutation of the concatenation of the buckets, and
`kmernos` has the same length and holds at index `i` the blob offset of the `i`-th entry. -/
theorem mergeBuckets_sorted_perm {P : Type} (lt : KMerCount P → KMerCount P → Bool)
    (hasym : ∀ a b, lt a b = true → lt b a = false)
    (htrans : ∀ a b c, lt b a = false → lt c b = false → lt c a = false)
    (kmcvec : List (List (KMerCount P))) (hn : 1 ≤ kmcvec.length)
    (hs : ∀ b ∈ kmcvec, SortedUnder lt b) :
    SortedUnder lt (mergeBuckets lt kmcvec).1 ∧
    (mergeBuckets lt kmcvec).1.Perm kmcvec.flatten ∧
    (mergeBuckets lt kmcvec).2.length = (mergeBuckets lt kmcvec).1.length ∧
    ∀ i (h : i < (mergeBuckets lt kmcvec).1.length),
      (mergeBuckets lt kmcvec).2[i]? = some ((mergeBuckets lt kmcvec).1[i]).first := by
  have he : ∀ i, i < kmcvec.length →
      (concatVectors [] [] kmcvec).2.getD i 0 = ((kmcvec.take (i + 1)).flatten).length := by
    intro i hi
    have h := concatVectors_snd kmcvec [] [] i hi
    simpa using h
  obtain ⟨s, hfold, hsorted, hperm⟩ := mergeInPlace_invariant lt hasym htrans kmcvec hs
    (concatVectors [] [] kmcvec).2 he (kmcvec.length - 1) (by omega)
  have hvec : (mergeBuckets lt kmcvec).1 = s := by
    unfold mergeBuckets mergeInPlace
    simp only
    rw [concatVectors_fst, List.nil_append, hfold,
      show kmcvec.length - 1 + 1 = kmcvec.length by omega, List.drop_length]
    simp
  have hkm : (mergeBuckets lt kmcvec).2
      = (mergeBuckets lt kmcvec).1.map (fun kmc => kmc.first) := rfl
  refine ⟨hvec ▸ hsorted, ?_, ?_, ?_⟩
  · rw [hvec]
    rw [show kmcvec.length - 1 + 1 = kmcvec.length by omega, List.take_length] at hperm
    exact hperm
  · rw [hkm, List.length_map]
  · intro i h
    rw [hkm, List.getElem?_map, List.getElem?_eq_getElem h]
    rfl

/-- C10, instance: three buckets, the middle one empty, ordered by blob offset. -/
theorem mergeBuckets_sorted_perm_witness :
    (∀ b ∈ [[(⟨1, ⟨1, 0, (), []⟩⟩ : KMerCount Unit), ⟨5, ⟨1, 0, (), []⟩⟩], [],
        [⟨3, ⟨2, 0, (), []⟩⟩]], SortedUnder (fun x y => decide (x.first < y.first)) b) ∧
    (mergeBuckets (fun x y => decide (x.first < y.first))
      [[(⟨1, ⟨1, 0, (), []⟩⟩ : KMerCount Unit), ⟨5, ⟨1, 0, (), []⟩⟩], [],
        [⟨3, ⟨2, 0, (), []⟩⟩]]).2 = [1, 3, 5] ∧
    SortedUnder (fun x y => decide (x.first < y.first))
      (mergeBuckets (fun x y => decide (x.first < y.first))
        [[(⟨1, ⟨1, 0, (), []⟩⟩ : KMerCount Unit), ⟨5, ⟨1, 0, (), []⟩⟩], [],
          [⟨3, ⟨2, 0, (), []⟩⟩]]).1 :=
  ⟨by decide, by decide,
    (mergeBuckets_sorted_perm (fun x y => decide (x.first < y.first))
      (by intro a b h; simp only [decide_eq_true_eq, decide_eq_false_iff_not] at h ⊢; omega)
      (by intro a b c h1 h2; simp only [decide_eq_false_iff_not] at h1 h2 ⊢; omega)
      [[(⟨1, ⟨1, 0, (), []⟩⟩ : KMerCount Unit), ⟨5, ⟨1, 0, (), []⟩⟩], [],
        [⟨3, ⟨2, 0, (), []⟩⟩]] (by decide) (by decide)).1⟩


theorem closeRun_fields {P : Type} (G : Globals) (kmc : KMerCount P) (qvec : List Int)
    (f : Bool) :
    (closeRun G kmc qvec f).first = kmc.first ∧
    (closeRun G kmc qvec f).second.count = kmc.second.count ∧
    (closeRun G kmc qvec f).second.totalQual = kmc.second.totalQual := by
  unfold closeRun setQual
  split <;> exact ⟨rfl, rfl, rfl⟩

theorem Summarises_closeRun {P : Type} [Mul P] (G : Globals) (r : KMerNo P × List (KMerNo P))
    (kmc : KMerCount P) (qvec : List Int) (f : Bool) (h : Summarises r kmc) :
    Summarises r (closeRun G kmc qvec f) := by
  obtain ⟨h1, h2, h3⟩ := closeRun_fields G kmc qvec f
  unfold Summarises at h ⊢
  rw [h1, h2, h3]
  exact h

theorem uniqueLoop_runs {P : Type} [Mul P] (G : Globals) :
    ∀ (rest : List (KMerNo P)) (st : UniqueState P) (x : KMerNo P) (xs : List (KMerNo P)),
      Summarises (x, xs) st.cur → xs.length + 1 + rest.length < 2 ^ 32 →
      ∃ out, (rest.foldl (uniqueStep G) st).pre ++
          [closeRun G (rest.foldl (uniqueStep G) st).cur (rest.foldl (uniqueStep G) st).qvec
            (rest.foldl (uniqueStep G) st).first_occ] = st.pre ++ out ∧
        List.Forall₂ Summarises (splitRuns G x xs rest) out := by
  intro rest
  induction rest with
  | nil =>
    intro st x xs hsum _
    refine ⟨[closeRun G st.cur st.qvec st.first_occ], rfl, ?_⟩
    simp only [splitRuns]
    exact List.Forall₂.cons (Summarises_closeRun G _ _ _ _ hsum) List.Forall₂.nil
  | cons v vs ih =>
    intro st x xs hsum hlen
    simp only [List.foldl_cons, List.length_cons] at hlen ⊢
    obtain ⟨h1, h2, h3⟩ := hsum
    simp only at h1 h2 h3
    by_cases heq : kmerBytes G v.index = kmerBytes G x.index
    · have hstep : v.equal G st.cur = true := by
        unfold KMerNo.equal
        rw [h1]
        simpa using heq
      have hsum' : Summarises (x, xs ++ [v]) (uniqueStep G st v).cur := by
        unfold uniqueStep
        rw [if_pos hstep]
        refine ⟨h1, ?_, ?_⟩
        · have hc : st.cur.second.count + 1 < 2 ^ 32 := by
            rw [h2]
            omega
          simp only [List.length_append, List.length_singleton]
          rw [Nat.mod_eq_of_lt hc, h2]
        · simp only [List.foldl_append, List.foldl_cons, List.foldl_nil]
          rw [h3]
      obtain ⟨out, hout, hf⟩ := ih (uniqueStep G st v) x (xs ++ [v]) hsum'
        (by simp only [List.length_append, List.length_singleton]; omega)
      have hpre : (uniqueStep G st v).pre = st.pre := by
        unfold uniqueStep
        rw [if_pos hstep]
      refine ⟨out, by rw [hout, hpre], ?_⟩
      simp only [splitRuns, if_pos heq]
      exact hf
    · have hstep : ¬ v.equal G st.cur = true := by
        unfold KMerNo.equal
        rw [h1]
        simpa using heq
      have hsum' : Summarises (v, []) (uniqueStep G st v).cur := by
        unfold uniqueStep
        rw [if_neg hstep]
        exact ⟨rfl, rfl, rfl⟩
      obtain ⟨out, hout, hf⟩ := ih (uniqueStep G st v) v [] hsum'
        (by simp only [List.length_nil]; omega)
      have hpre : (uniqueStep G st v).pre
          = st.pre ++ [closeRun G st.cur st.qvec st.first_occ] := by
        unfold uniqueStep
        rw [if_neg hstep]
      refine ⟨closeRun G st.cur st.qvec st.first_occ :: out, ?_, ?_⟩
      · rw [hout, hpre, List.append_assoc]
        rfl
      · simp only [splitRuns, if_neg heq]
        exact List.Forall₂.cons (Summarises_closeRun G _ _ _ _ ⟨h1, h2, h3⟩) hf

theorem splitRuns_flatten {P : Type} (G : Globals) :
    ∀ (rest : List (KMerNo P)) (x : KMerNo P) (xs : List (KMerNo P)),
      (splitRuns G x xs rest).flatMap (fun r => r.1 :: r.2) = x :: xs ++ rest := by
  intro rest
  induction rest with
  | nil => intro x xs; simp [splitRuns]
  | cons v vs ih =>
    intro x xs
    simp only [splitRuns]
    split
    · rw [ih]
      simp
    · rw [List.flatMap_cons, ih]
      simp

theorem splitRuns_uniform {P : Type} (G : Globals) :
    ∀ (rest : List (KMerNo P)) (x : KMerNo P) (xs : List (KMerNo P)),
      (∀ y ∈ xs, kmerBytes G y.index = kmerBytes G x.index) →
      ∀ r ∈ splitRuns G x xs rest, ∀ y ∈ r.2, kmerBytes G y.index = kmerBytes G r.1.index := by
  intro rest
  induction rest with
  | nil =>
    intro x xs hx r hr
    simp only [splitRuns, List.mem_singleton] at hr
    subst hr
    exact hx
  | cons v vs ih =>
    intro x xs hx r hr
    simp only [splitRuns] at hr
    split at hr
    · rename_i heq
      refine ih x (xs ++ [v]) ?_ r hr
      intro y hy
      rw [List.mem_append, List.mem_singleton] at hy
      rcases hy with hy | hy
      · exact hx y hy
      · rw [hy]; exact heq
    · rw [List.mem_cons] at hr
      rcases hr with hr | hr
      · subst hr
        exact hx
      · exact ih v [] (by simp) r hr

theorem splitRuns_head {P : Type} (G : Globals) :
    ∀ (rest : List (KMerNo P)) (x : KMerNo P) (xs : List (KMerNo P)),
      ∃ ys rs, splitRuns G x xs rest = (x, ys) :: rs := by
  intro rest
  induction rest with
  | nil => intro x xs; exact ⟨xs, [], rfl⟩
  | cons v vs ih =>
    intro x xs
    simp only [splitRuns]
    split
    · exact ih x (xs ++ [v])
    · exact ⟨xs, _, rfl⟩

theorem splitRuns_chain {P : Type} (G : Globals) :
    ∀ (rest : List (KMerNo P)) (x : KMerNo P) (xs : List (KMerNo P)),
      (splitRuns G x xs rest).Chain'
        (fun r r' => kmerBytes G r.1.index ≠ kmerBytes G r'.1.index) := by
  intro rest
  induction rest with
  | nil => intro x xs; simp [splitRuns]
  | cons v vs ih =>
    intro x xs
    simp only [splitRuns]
    split
    · exact ih x (xs ++ [v])
    · rename_i hne
      obtain ⟨ys, rs, hrs⟩ := splitRuns_head G vs v []
      have hc := ih v []
      rw [hrs] at hc ⊢
      exact List.Chain'.cons (fun h => hne h.symm) hc


theorem EqualAdjacent_suffix {P : Type} (G : Globals) (l1 l2 : List (KMerNo P))
    (h : EqualAdjacent G (l1 ++ l2)) : EqualAdjacent G l2 :=
  fun x y z hs => h x y z (hs.trans (List.sublist_append_right l1 l2))

theorem runs_keys_nodup {P : Type} (G : Globals) :
    ∀ runs : List (KMerNo P × List (KMerNo P)),
      runs.Chain' (fun r r' => kmerBytes G r.1.index ≠ kmerBytes G r'.1.index) →
      EqualAdjacent G (runs.flatMap (fun r => r.1 :: r.2)) →
      (runs.map (fun r => kmerBytes G r.1.index)).Nodup := by
  intro runs
  induction runs with
  | nil => intro _ _; exact List.nodup_nil
  | cons r rs ih =>
    intro hc hadj
    rw [List.flatMap_cons] at hadj
    rw [List.map_cons, List.nodup_cons]
    refine ⟨?_, ih hc.tail (EqualAdjacent_suffix G _ _ hadj)⟩
    intro hmem
    rw [List.mem_map] at hmem
    obtain ⟨r', hr', hkey⟩ := hmem
    cases rs with
    | nil => simp at hr'
    | cons r1 rs' =>
      have hne : kmerBytes G r.1.index ≠ kmerBytes G r1.1.index := (List.chain'_cons.mp hc).1
      rw [List.mem_cons] at hr'
      rcases hr' with hr' | hr'
      · subst hr'
        exact hne hkey.symm
      · rw [List.flatMap_cons] at hadj
        have hz : r'.1 ∈ rs'.flatMap (fun r => r.1 :: r.2) :=
          List.mem_flatMap.mpr ⟨r', hr', List.mem_cons_self _ _⟩
        have hsub : [r.1, r1.1, r'.1].Sublist
            ((r.1 :: r.2) ++ ((r1.1 :: r1.2) ++ rs'.flatMap (fun r => r.1 :: r.2))) := by
          have s1 : [r.1].Sublist (r.1 :: r.2) :=
            List.singleton_sublist.mpr (List.mem_cons_self _ _)
          have s2 : [r1.1].Sublist (r1.1 :: r1.2) :=
            List.singleton_sublist.mpr (List.mem_cons_self _ _)
          have s3 : [r'.1].Sublist (rs'.flatMap (fun r => r.1 :: r.2)) :=
            List.singleton_sublist.mpr hz
          exact s1.append (s2.append s3)
        exact hne (hadj r.1 r1.1 r'.1 hsub hkey.symm).symm

theorem Summarises_count_sum {P : Type} [Mul P] :
    ∀ (runs : List (KMerNo P × List (KMerNo P))) (out : List (KMerCount P)),
      List.Forall₂ Summarises runs out →
      (out.map (fun kmc => kmc.second.count)).sum
        = (runs.flatMap (fun r => r.1 :: r.2)).length := by
  intro runs out h
  induction h with
  | nil => rfl
  | cons hab _ ih =>
    rw [List.map_cons, List.sum_cons, ih, List.flatMap_cons, List.length_append,
      List.length_cons, hab.2.1]

/-- C7.  For a non-empty `vec` (of fewer than `2 ^ 32` records, `count` being a `uint32_t`)
in which equal k-mers are adjacent, `KmerHashUnique` appends to `vkmc` a list `out` for
which there is a decomposition of `vec`, in input order, into runs (a first record and the
records after it) such that the records of a run hold the k-mer of its first record,
adjacent runs hold different k-mers, and the `i`-th appended record is positioned at the
first record of the `i`-th run, counts its records and holds the product of their error
probabilities; the number of appended records is the number of distinct k-mers of `vec`
and the counts sum to the length of `vec`. -/
theorem KmerHashUnique_runs {P : Type} [Mul P] (G : Globals) (vec : List (KMerNo P))
    (vkmc : List (KMerCount P)) (hne : vec ≠ []) (hlen : vec.length < 2 ^ 32)
    (hadj : EqualAdjacent G vec) :
    ∃ (runs : List (KMerNo P × List (KMerNo P))) (out : List (KMerCount P)),
      KmerHashUnique G vec vkmc = some (vkmc ++ out) ∧
      runs.flatMap (fun r => r.1 :: r.2) = vec ∧
      (∀ r ∈ runs, ∀ y ∈ r.2, kmerBytes G y.index = kmerBytes G r.1.index) ∧
      runs.Chain' (fun r r' => kmerBytes G r.1.index ≠ kmerBytes G r'.1.index) ∧
      List.Forall₂ Summarises runs out ∧
      out.length = ((vec.map (fun v => kmerBytes G v.index)).dedup).length ∧
      (out.map (fun kmc => kmc.second.count)).sum = vec.length := by
  cases vec with
  | nil => exact absurd rfl hne
  | cons v0 rest =>
    obtain ⟨out, hout, hf⟩ := uniqueLoop_runs G rest
      ⟨vkmc, newKMerCount G v0, fillQVec G (List.replicate G.K 0) v0.index, true⟩ v0 []
      ⟨rfl, rfl, rfl⟩ (by simp only [List.length_cons, List.length_nil] at hlen ⊢; omega)
    have hflat : (splitRuns G v0 [] rest).flatMap (fun r => r.1 :: r.2) = v0 :: rest :=
      splitRuns_flatten G rest v0 []
    have hunif := splitRuns_uniform G rest v0 [] (by simp)
    have hchain := splitRuns_chain G rest v0 []
    have hnodup := runs_keys_nodup G (splitRuns G v0 [] rest) hchain (by rw [hflat]; exact hadj)
    refine ⟨splitRuns G v0 [] rest, out, ?_, hflat, hunif, hchain, hf, ?_, ?_⟩
    · unfold KmerHashUnique uniqueLoop
      exact congrArg some hout
    · rw [← hf.length_eq, ← List.card_toFinset,
        ← List.length_map (splitRuns G v0 [] rest) (fun r => kmerBytes G r.1.index),
        ← List.toFinset_card_of_nodup hnodup]
      congr 1
      ext k
      simp only [List.mem_toFinset, List.mem_map]
      constructor
      · rintro ⟨r, hr, rfl⟩
        refine ⟨r.1, ?_, rfl⟩
        rw [← hflat]
        exact List.mem_flatMap.mpr ⟨r, hr, List.mem_cons_self _ _⟩
      · rintro ⟨v, hv, rfl⟩
        rw [← hflat] at hv
        obtain ⟨r, hr, hvr⟩ := List.mem_flatMap.mp hv
        refine ⟨r, hr, ?_⟩
        rw [List.mem_cons] at hvr
        rcases hvr with hvr | hvr
        · rw [hvr]
        · exact (hunif r hr v hvr).symm
    · rw [Summarises_count_sum _ _ hf, hflat]

/-- C7, instance: `K = 2`, blob `0 0 0 1`, the records at offsets 0, 1 (both `0 0`) and 2
(`0 1`) with error probabilities 2, 3, 5 (taken in the natural numbers). -/
theorem KmerHashUnique_runs_witness :
    KmerHashUnique (P := Nat) ⟨2, fun i => if i = 3 then 1 else 0, fun _ => 0, true, 0, 0, 255, 7, []⟩
      [⟨0, 2⟩, ⟨1, 3⟩, ⟨2, 5⟩] []
      = some [⟨0, ⟨2, 7, 6, []⟩⟩, ⟨2, ⟨1, 7, 5, []⟩⟩] ∧
    ∃ (runs : List (KMerNo Nat × List (KMerNo Nat))) (out : List (KMerCount Nat)),
      KmerHashUnique ⟨2, fun i => if i = 3 then 1 else 0, fun _ => 0, true, 0, 0, 255, 7, []⟩
        [⟨0, 2⟩, ⟨1, 3⟩, ⟨2, 5⟩] [] = some ([] ++ out) ∧
      runs.flatMap (fun r => r.1 :: r.2) = [⟨0, 2⟩, ⟨1, 3⟩, ⟨2, 5⟩] ∧ out.length = 2 := by
  refine ⟨by decide, ?_⟩
  obtain ⟨runs, out, h1, h2, _, _, _, h6, _⟩ :=
    KmerHashUnique_runs (P := Nat)
      ⟨2, fun i => if i = 3 then 1 else 0, fun _ => 0, true, 0, 0, 255, 7, []⟩
      [⟨0, 2⟩, ⟨1, 3⟩, ⟨2, 5⟩] [] (by decide) (by decide)
      (by
        intro x y z hs hxz
        have hx : x ∈ [(⟨0, 2⟩ : KMerNo Nat), ⟨1, 3⟩, ⟨2, 5⟩] := hs.subset (by simp)
        have hy : y ∈ [(⟨0, 2⟩ : KMerNo Nat), ⟨1, 3⟩, ⟨2, 5⟩] := hs.subset (by simp)
        have hz : z ∈ [(⟨0, 2⟩ : KMerNo Nat), ⟨1, 3⟩, ⟨2, 5⟩] := hs.subset (by simp)
        simp only [List.mem_cons, List.mem_singleton, List.not_mem_nil, or_false] at hx hy hz
        rcases hx with rfl | rfl | rfl <;> rcases hy with rfl | rfl | rfl <;>
          rcases hz with rfl | rfl | rfl <;>
          first
            | decide
            | exact absurd hxz (by decide)
            | exact absurd hs (by decide))
  exact ⟨runs, out, h1, h2, by rw [h6]; decide⟩

/-- C8, at the failing input.  `K = 1`, per-base qualities kept, offset 0, `MAX_SHORT`
255; two occurrences of the same k-mer at offsets 0 and 1 with qualities 10 and 20.  The
record of the run gets `qual[0] = 20`, the quality of the last occurrence, where the sum
capped at `MAX_SHORT` is 30: `fillQVec` assigns `qvec[j]` instead of adding to it. -/
theorem KmerHashUnique_qual_not_summed :
    KmerHashUnique (P := Nat)
      ⟨1, fun _ => 0, fun i => if i = 0 then 10 else 20, false, 0, 0, 255, 7, []⟩
      [⟨0, 1⟩, ⟨1, 1⟩] [] = some [⟨0, ⟨2, 7, 1, [20]⟩⟩] ∧
    min (255 : Int) (((if (0 : Nat) = 0 then 10 else 20) - 0)
      + ((if (1 : Nat) = 0 then 10 else 20) - 0)) = 30 := by
  decide


theorem flatMap_filter_or_perm {α β : Type} (f : α → List β) (p q : α → Bool)
    (hdisj : ∀ x, p x = true → q x = false) :
    ∀ l : List α, ((l.filter (fun x => p x || q x)).flatMap f).Perm
      ((l.filter p).flatMap f ++ (l.filter q).flatMap f) := by
  intro l
  induction l with
  | nil => exact List.Perm.refl _
  | cons x xs ih =>
    by_cases hp : p x = true
    · have hq := hdisj x hp
      simp only [List.filter_cons, hp, hq, Bool.or_false, if_true, List.flatMap_cons,
        List.append_assoc]
      exact List.Perm.append_left _ ih
    · have hp' : p x = false := by simpa using hp
      by_cases hq : q x = true
      · simp only [List.filter_cons, hp', hq, Bool.false_or, if_true, List.flatMap_cons]
        refine (List.Perm.append_left _ ih).trans ?_
        rw [← List.append_assoc, ← List.append_assoc]
        exact List.Perm.append_right _ List.perm_append_comm
      · have hq' : q x = false := by simpa using hq
        simp only [List.filter_cons, hp', hq', Bool.or_false]
        exact ih

/-- Splitting a list by the value of `g` and visiting the classes `0, 1, ..., n - 1` in
turn rearranges the elements with `g x < n`. -/
theorem flatMap_classes_perm {α β : Type} (g : α → Nat) (f : α → List β) (l : List α) :
    ∀ n : Nat, ((List.range n).flatMap
        (fun t => (l.filter (fun x => decide (g x = t))).flatMap f)).Perm
      ((l.filter (fun x => decide (g x < n))).flatMap f) := by
  intro n
  induction n with
  | zero => simp
  | succ n ih =>
    rw [List.range_succ, List.flatMap_append, List.flatMap_singleton]
    refine (List.Perm.append_right _ ih).trans ?_
    have h := flatMap_filter_or_perm f (fun x => decide (g x < n)) (fun x => decide (g x = n))
      (by intro x hx; simp only [decide_eq_true_eq, decide_eq_false_iff_not] at hx ⊢; omega) l
    refine h.symm.trans ?_
    have hfun : (fun x => decide (g x < n) || decide (g x = n))
        = (fun x => decide (g x < n + 1)) := by
      funext x
      by_cases h1 : g x < n
      · simp [h1, Nat.lt_succ_of_lt h1]
      · by_cases h2 : g x = n
        · simp [h2]
        · have h3 : ¬ g x < n + 1 := by omega
          simp [h1, h2, h3]
    rw [hfun]

theorem flatMap_classes_perm_all {α β : Type} (g : α → Nat) (f : α → List β) (l : List α)
    (n : Nat) (hg : ∀ x ∈ l, g x < n) :
    ((List.range n).flatMap
        (fun t => (l.filter (fun x => decide (g x = t))).flatMap f)).Perm (l.flatMap f) := by
  have h := flatMap_classes_perm g f l n
  rw [List.filter_eq_self.mpr (by intro x hx; simpa using hg x hx)] at h
  exact h

theorem writeFiles_length (G : Globals) (E : SplitEnv Dbl) (batch : List (Nat × PositionRead))
    (files : List (List Nat)) : (writeFiles G E batch files).length = E.numfiles := by
  unfold writeFiles
  simp

theorem writeFiles_getD (G : Globals) (E : SplitEnv Dbl) (batch : List (Nat × PositionRead))
    (files : List (List Nat)) (k : Nat) (hk : k < E.numfiles)
    (hthread : ∀ i, E.thread i < E.count_num_threads) :
    ∃ l : List (Nat × Dbl),
      (writeFiles G E batch files).getD k [] = files.getD k [] ++ l.flatMap recordLine ∧
      l.Perm (batch.flatMap (fun ir => bucketEntries G E k ir.2)) := by
  refine ⟨(List.range E.count_num_threads).flatMap (fun t => tmpEntries G E batch t k), ?_, ?_⟩
  · unfold writeFiles
    rw [List.getD_eq_getElem?_getD, List.getElem?_map, List.getElem?_range hk]
    rfl
  · unfold tmpEntries
    exact flatMap_classes_perm_all (fun ir : Nat × PositionRead => E.thread ir.1)
      (fun ir => bucketEntries G E k ir.2) batch E.count_num_threads
      (fun ir _ => hthread ir.1)

theorem splitLoop_partition (G : Globals) (E : SplitEnv Dbl)
    (pr : List PositionRead) (hb : 1 ≤ E.readbuffer)
    (hsize : (pr.length : Int) + E.readbuffer < 2 ^ 31)
    (hthread : ∀ i, E.thread i < E.count_num_threads) :
    ∀ (fuel c : Nat) (files : List (List Nat)),
      c ≤ pr.length → pr.length - c < fuel → files.length = E.numfiles →
      (∀ k, k < E.numfiles → ∃ l : List (Nat × Dbl),
        files.getD k [] = l.flatMap recordLine ∧
        l.Perm ((pr.enum.take c).flatMap (fun ir => bucketEntries G E k ir.2))) →
      ∃ files', splitLoop G E pr fuel c c files = some files' ∧
        files'.length = E.numfiles ∧
        ∀ k, k < E.numfiles → ∃ l : List (Nat × Dbl),
          files'.getD k [] = l.flatMap recordLine ∧
          l.Perm (pr.enum.flatMap (fun ir => bucketEntries G E k ir.2)) := by
  have hn : omnigraph.toInt32 pr.length = pr.length :=
    omnigraph.toInt32_of_lt _ (by omega) (by omega)
  intro fuel
  induction fuel with
  | zero => intro c files _ h _ _; omega
  | succ fuel ih =>
    intro c files hc hfuel hfl hinv
    rw [splitLoop, hn]
    by_cases hlt : (c : Int) < pr.length
    · rw [if_pos hlt, if_pos (by unfold omnigraph.isInt32; omega)]
      have hmin : min ((c : Int) + E.readbuffer) (pr.length : Int)
          = ((min (c + E.readbuffer.toNat) pr.length : Nat) : Int) := by
        omega
      rw [hmin]
      have hcn : c < min (c + E.readbuffer.toNat) pr.length := by omega
      obtain ⟨files', hrun, hperm⟩ := ih (min (c + E.readbuffer.toNat) pr.length)
        (writeFiles G E
          ((pr.enum.drop ((c : Int)).toNat).take
            (((min (c + E.readbuffer.toNat) pr.length : Nat) : Int) - (c : Int)).toNat) files)
        (Nat.min_le_right _ _) (by omega) (writeFiles_length G E _ files)
        (by
          intro k hk
          obtain ⟨l0, hl0, hp0⟩ := hinv k hk
          obtain ⟨l1, hl1, hp1⟩ := writeFiles_getD G E
            ((pr.enum.drop ((c : Int)).toNat).take
              (((min (c + E.readbuffer.toNat) pr.length : Nat) : Int) - (c : Int)).toNat)
            files k hk hthread
          refine ⟨l0 ++ l1, ?_, ?_⟩
          · rw [hl1, hl0, List.flatMap_append]
          · refine (List.Perm.append hp0 hp1).trans ?_
            rw [← List.flatMap_append]
            have h1 : ((c : Int)).toNat = c := Int.toNat_ofNat c
            have h2 : (((min (c + E.readbuffer.toNat) pr.length : Nat) : Int) - (c : Int)).toNat
                = min (c + E.readbuffer.toNat) pr.length - c := by omega
            rw [h1, h2, ← List.take_add,
              show c + (min (c + E.readbuffer.toNat) pr.length - c)
                = min (c + E.readbuffer.toNat) pr.length by omega])
      exact ⟨files', hrun, hperm⟩
    · rw [if_neg hlt]
      refine ⟨files, rfl, hfl, ?_⟩
      intro k hk
      have hcn : c = pr.length := by omega
      obtain ⟨l, hl, hp⟩ := hinv k hk
      rw [hcn, List.take_of_length_le (by simp)] at hp
      exact ⟨l, hl, hp⟩

theorem bucketEntries_flatMap (G : Globals) (E : SplitEnv Dbl) (pr : List PositionRead)
    (k : Nat) :
    pr.enum.flatMap (fun ir => bucketEntries G E k ir.2)
      = ((pr.flatMap (readEntries G E)).filter (fun e => decide (e.1 = k))).map (fun e => e.2) := by
  have h1 : pr.enum.flatMap (fun ir => bucketEntries G E k ir.2)
      = (pr.enum.map Prod.snd).flatMap (bucketEntries G E k) := by
    rw [List.flatMap_map]
  rw [h1, List.enum_map_snd, List.filter_flatMap, List.map_flatMap]
  rfl

/-- The offset `start + pos - 1` as a 64-bit unsigned value. -/
theorem hint_offset (a : Nat) :
    ((((a : Nat) : Int) - 1) % 2 ^ 64).toNat = (a + (2 ^ 64 - 1)) % 2 ^ 64 := by
  have e : (2 : Int) ^ 64 = 18446744073709551616 := by norm_num
  rw [e]
  omega

/-- The entries that the loop pushes, as lines, are the lines of the valid k-mers. -/
theorem readEntries_lines (G : Globals) (E : SplitEnv Dbl) (pr : List PositionRead) :
    (pr.flatMap (readEntries G E)).map (fun e => (e.1, recordLine e.2)) =
      validKMerLines G E pr := by
  unfold validKMerLines
  rw [List.map_flatMap]
  apply List.flatMap_congr
  intro r _
  have hs : readSequence G r = List.ofFn (fun j : Fin r.size => G.blob (r.start + j)) := by
    unfold readSequence
    rw [List.ofFn_eq_map, ← List.map_coe_finRange, List.map_map]
    rfl
  have hq : readQuality G r = List.ofFn (fun j : Fin r.size =>
      if G.use_common_quality = true then (G.common_quality + 128) % 256 - 128
      else (G.blobquality (r.start + j) - G.char_offset + 128) % 256 - 128) := by
    unfold readQuality toChar
    by_cases hc : G.use_common_quality = true
    · simp only [hc, if_true]
      rw [List.ofFn_const]
    · simp only [hc, if_false]
      rw [List.ofFn_eq_map, ← List.map_coe_finRange, List.map_map]
      rfl
  unfold readEntries
  rw [hs, hq, List.map_map]
  apply List.map_congr_left
  intro v _
  simp only [Function.comp, recordLine, recordBytes, hint_offset]

/-- C9, amended.  With at least one bucket file, a positive `count_split_buffer`, thread
numbers below the number of threads, and `pr->size () + readbuffer` within the range of
`int`: the batch loop ends (any bound above the number of reads on the number of
iterations is enough) with `numfiles` files; file `k` is made of lines (`lines k`, one
after the other) that are, up to order, exactly the lines of the valid k-mers of all reads
whose bucket `hash (kmer) mod numfiles` is `k`, a line holding the offset
`start + pos - 1`, a tab, `1 - correct_probability` at six significant digits and a
newline; and the lines of all files together, each with the number of its file, are up to
order the lines of all valid k-mers with their buckets: none is missing and none is
written twice. -/
theorem SplitKMers_lines_partition (G : Globals) (E : SplitEnv Dbl) (pr : List PositionRead)
    (hn : 1 ≤ E.numfiles) (hb : 1 ≤ E.readbuffer)
    (hsize : (pr.length : Int) + E.readbuffer < 2 ^ 31)
    (hthread : ∀ i, E.thread i < E.count_num_threads) (fuel : Nat) (hfuel : pr.length < fuel) :
    ∃ files, SplitKMers G E pr fuel = some files ∧ files.length = E.numfiles ∧
      ∃ lines : Nat → List (List Nat),
        (∀ k, k < E.numfiles → files.getD k [] = (lines k).flatten ∧
          (lines k).Perm (((validKMerLines G E pr).filter (fun e => decide (e.1 = k))).map
            (fun e => e.2))) ∧
        ((List.range E.numfiles).flatMap (fun k => (lines k).map (fun l => (k, l)))).Perm
          (validKMerLines G E pr) := by
  obtain ⟨files, hrun, hlen, hperm⟩ := splitLoop_partition G E pr hb hsize hthread fuel 0
    (List.replicate E.numfiles []) (Nat.zero_le _) (by omega) (by simp)
    (by
      intro k hk
      refine ⟨[], ?_, ?_⟩
      · rw [List.getD_eq_getElem?_getD, List.getElem?_replicate]
        simp [hk]
      · simp)
  choose l hl hp using hperm
  have hlines : ∀ k (hk : k < E.numfiles), ((l k hk).map recordLine).Perm
      (((validKMerLines G E pr).filter (fun e => decide (e.1 = k))).map (fun e => e.2)) := by
    intro k hk
    have h := (hp k hk).map recordLine
    rw [bucketEntries_flatMap, List.map_map] at h
    rw [← readEntries_lines, List.filter_map, List.map_map]
    exact h
  refine ⟨files, hrun, hlen,
    fun k => if hk : k < E.numfiles then (l k hk).map recordLine else [], ?_, ?_⟩
  · intro k hk
    simp only [dif_pos hk]
    exact ⟨hl k hk, hlines k hk⟩
  · have hbucket : ∀ e ∈ validKMerLines G E pr, e.1 < E.numfiles := by
      intro e he
      rw [← readEntries_lines] at he
      obtain ⟨e0, he0, rfl⟩ := List.mem_map.mp he
      obtain ⟨r, _, her⟩ := List.mem_flatMap.mp he0
      unfold readEntries at her
      obtain ⟨v, _, hv⟩ := List.mem_map.mp her
      rw [← hv]
      exact Nat.mod_lt _ (by omega)
    have hall := flatMap_classes_perm_all (fun e : Nat × List Nat => e.1) (fun e => [e])
      (validKMerLines G E pr) E.numfiles hbucket
    rw [List.flatMap_singleton'] at hall
    refine List.Perm.trans ?_ hall
    refine List.Perm.flatMap_left _ ?_
    intro k hk
    rw [List.mem_range] at hk
    simp only [dif_pos hk]
    refine ((hlines k hk).map _).trans ?_
    rw [List.flatMap_singleton', List.map_map]
    have hid : ∀ e ∈ (validKMerLines G E pr).filter (fun e => decide (e.1 = k)),
        ((fun l => (k, l)) ∘ fun e => e.2) e = id e := by
      intro e he
      have hk' : e.1 = k := by simpa using (List.mem_filter.mp he).2
      simp only [Function.comp, id]
      rw [← hk']
    rw [List.map_congr_left hid, List.map_id]

set_option maxRecDepth 100000 in
/-- C9, counterexample: the record in the file is not the pair.  One read of one letter, one bucket file;
the generator yields one k-mer at position 1, with the correct-probability `2 / 3` in the
first run and `0.666667` in the second.  The differences `1 - correct_probability` are two
values, and the file is `0\t0.333333\n` in both runs. -/
theorem SplitKMers_record_counterexample :
    SplitKMers ⟨1, fun _ => 65, fun _ => 0, true, 0, 0, 255, 7, []⟩
      ⟨fun s _ => [⟨s, 1, Dbl.ofRatio 2 3⟩], fun _ => 0, fun _ => 0, 1, 1, 1⟩
      [⟨0, 1, 0, false⟩] 2 = some [[48, 9, 48, 46, 51, 51, 51, 51, 51, 51, 10]] ∧
    SplitKMers ⟨1, fun _ => 65, fun _ => 0, true, 0, 0, 255, 7, []⟩
      ⟨fun s _ => [⟨s, 1, Dbl.ofRatio 666667 1000000⟩], fun _ => 0, fun _ => 0, 1, 1, 1⟩
      [⟨0, 1, 0, false⟩] 2 = some [[48, 9, 48, 46, 51, 51, 51, 51, 51, 51, 10]] ∧
    Dbl.lt (Dbl.sub Dbl.one (Dbl.ofRatio 666667 1000000))
      (Dbl.sub Dbl.one (Dbl.ofRatio 2 3)) = true := by
  refine ⟨by decide, by decide, by decide⟩

set_option maxRecDepth 100000 in
/-- The amended C9 at work: two reads of size 2 in the blob `5 6 7 8` with the stored
qualities 0, 1, 2, 3 (offset 33), a generator yielding the k-mer of each position with the
correct-probability a quarter of the quality of its letter, two bucket files, buffer 1,
one thread.  The files are `1\t0.75\n3\t0.25\n` and `0\t1\n2\t0.5\n`. -/
theorem SplitKMers_lines_partition_witness :
    SplitKMers ⟨1, fun i => 5 + i, fun i => 33 + i, false, 0, 33, 255, 7, []⟩
      ⟨fun s q => (List.range s.length).map
          (fun i => ⟨[s.getD i 0], i + 1, Dbl.ofRatio (q.getD i 0) 4⟩),
        fun k => k.getD 0 0, fun _ => 0, 2, 1, 1⟩
      [⟨0, 2, 0, false⟩, ⟨2, 2, 1, false⟩] 3
      = some [[49, 9, 48, 46, 55, 53, 10, 51, 9, 48, 46, 50, 53, 10],
        [48, 9, 49, 10, 50, 9, 48, 46, 53, 10]] ∧
    ∃ files, SplitKMers ⟨1, fun i => 5 + i, fun i => 33 + i, false, 0, 33, 255, 7, []⟩
      ⟨fun s q => (List.range s.length).map
          (fun i => ⟨[s.getD i 0], i + 1, Dbl.ofRatio (q.getD i 0) 4⟩),
        fun k => k.getD 0 0, fun _ => 0, 2, 1, 1⟩
      [⟨0, 2, 0, false⟩, ⟨2, 2, 1, false⟩] 3 = some files ∧ files.length = 2 := by
  refine ⟨by decide, ?_⟩
  obtain ⟨files, h1, h2, -⟩ := SplitKMers_lines_partition
    ⟨1, fun i => 5 + i, fun i => 33 + i, false, 0, 33, 255, 7, []⟩
    ⟨fun s q => (List.range s.length).map
        (fun i => ⟨[s.getD i 0], i + 1, Dbl.ofRatio (q.getD i 0) 4⟩),
      fun k => k.getD 0 0, fun _ => 0, 2, 1, 1⟩
    [⟨0, 2, 0, false⟩, ⟨2, 2, 1, false⟩] (by decide) (by decide) (by decide)
    (fun _ => Nat.zero_lt_one) 3 (by decide)
  exact ⟨files, h1, h2⟩

/-! ### `ReadAllFilesIntoBlob` -/

theorem layout_length (rs : List Read) : ∀ pos id, (layout pos id rs).length = rs.length := by
  induction rs with
  | nil => intro pos id; rfl
  | cons r rs ih => intro pos id; simp [layout, ih]

theorem layout_append (rs ss : List Read) : ∀ pos id,
    layout pos id (rs ++ ss) =
      layout pos id rs ++
        layout (pos + (rs.map (fun r => r.seq.length)).sum) (id + rs.length) ss := by
  induction rs with
  | nil => intro pos id; simp [layout]
  | cons r rs ih =>
    intro pos id
    have e := ih (pos + r.seq.length) (id + 1)
    rw [show pos + r.seq.length + (rs.map (fun r => r.seq.length)).sum =
        pos + (r.seq.length + (rs.map (fun r => r.seq.length)).sum) by omega,
      show id + 1 + rs.length = id + (rs.length + 1) by omega] at e
    show layout pos id (r :: (rs ++ ss)) = _
    simp only [layout, e, List.map_cons, List.sum_cons, List.length_cons, List.cons_append]

theorem layout_getElem? (rs : List Read) : ∀ pos id i r, rs[i]? = some r →
    (layout pos id rs)[i]? =
      some (⟨pos + ((rs.take i).map (fun r => r.seq.length)).sum, r.seq.length % 2 ^ 32,
        id + i, false⟩ : PositionRead) := by
  induction rs with
  | nil => intro pos id i r h; simp at h
  | cons x rs ih =>
    intro pos id i r h
    cases i with
    | zero =>
      simp only [List.getElem?_cons_zero, Option.some.injEq] at h
      subst h
      simp [layout]
    | succ i =>
      simp only [List.getElem?_cons_succ] at h
      simp only [layout, List.getElem?_cons_succ, ih _ _ i r h, List.take_succ_cons,
        List.map_cons, List.sum_cons]
      rw [show pos + x.seq.length + ((rs.take i).map (fun r => r.seq.length)).sum =
          pos + (x.seq.length + ((rs.take i).map (fun r => r.seq.length)).sum) by omega,
        show id + 1 + i = id + (i + 1) by omega]

/-- The state after storing the prepared reads `rs` one after the other. -/
theorem pushAll_spec (G : Globals) (E : ReadEnv) (rs : List Read) : ∀ st : BlobState,
    (rs.foldl (fun st r => pushRead G E st r.seq.length r) st).pr =
        st.pr ++ layout st.curpos st.cur_read rs ∧
    (rs.foldl (fun st r => pushRead G E st r.seq.length r) st).curpos =
        st.curpos + (rs.map (fun r => r.seq.length)).sum ∧
    (rs.foldl (fun st r => pushRead G E st r.seq.length r) st).cur_read =
        st.cur_read + rs.length ∧
    (∀ p, p < st.curpos →
      (rs.foldl (fun st r => pushRead G E st r.seq.length r) st).blob p = st.blob p) ∧
    (∀ i r j, rs[i]? = some r → j < r.seq.length →
      (rs.foldl (fun st r => pushRead G E st r.seq.length r) st).blob
        (st.curpos + ((rs.take i).map (fun r => r.seq.length)).sum + j) = r.seq.getD j 0) := by
  induction rs with
  | nil => intro st; simp [layout]
  | cons x rs ih =>
    intro st
    obtain ⟨h1, h2, h3, h4, h5⟩ := ih (pushRead G E st x.seq.length x)
    simp only [List.foldl_cons]
    refine ⟨?_, ?_, ?_, ?_, ?_⟩
    · rw [h1]; simp [pushRead, layout]
    · rw [h2]; simp [pushRead]; omega
    · rw [h3]; simp [pushRead]; omega
    · intro p hp
      rw [h4 p (by simp [pushRead]; omega)]
      simp only [pushRead]
      rw [if_neg (by omega)]
    · intro i r j hr hj
      cases i with
      | zero =>
        simp only [List.getElem?_cons_zero, Option.some.injEq] at hr
        subst hr
        simp only [List.take_zero, List.map_nil, List.sum_nil, Nat.add_zero]
        rw [h4 _ (by simp [pushRead]; omega)]
        simp only [pushRead]
        rw [if_pos (by omega)]
        congr 1; omega
      | succ i =>
        simp only [List.getElem?_cons_succ] at hr
        have h := h5 i r j hr hj
        simp only [List.take_succ_cons, List.map_cons, List.sum_cons]
        have e : st.curpos + (x.seq.length + ((rs.take i).map (fun r => r.seq.length)).sum) + j
            = (pushRead G E st x.seq.length x).curpos +
              ((rs.take i).map (fun r => r.seq.length)).sum + j := by
          simp [pushRead]; omega
        rw [e, h]

/-- The reads a pass over one file stores: the trimmed reads that are long enough, each
reverse-complemented in the second pass. -/
theorem ReadFileIntoBlob_eq (G : Globals) (E : ReadEnv) (rc : Bool) (reads : List Read) :
    ∀ st : BlobState, ReadFileIntoBlob G E reads rc st =
      ((((reads.map E.trimNsAndBadQuality).filter
          (fun r => decide (G.K ≤ r.seq.length))).map
            (fun r => if rc then r.revComp else r)).foldl
        (fun st r => pushRead G E st r.seq.length r) st) := by
  induction reads with
  | nil => intro st; rfl
  | cons r0 reads ih =>
    intro st
    have hlen : (if rc then (E.trimNsAndBadQuality r0).revComp
        else E.trimNsAndBadQuality r0).seq.length = (E.trimNsAndBadQuality r0).seq.length := by
      cases rc <;> simp [Read.revComp]
    unfold ReadFileIntoBlob at ih ⊢
    simp only [List.foldl_cons, List.map_cons, List.filter_cons]
    by_cases h : (E.trimNsAndBadQuality r0).seq.length < G.K
    · rw [ih]
      have h' : ¬ G.K ≤ (E.trimNsAndBadQuality r0).seq.length := by omega
      simp [storeRead, h, h']
    · rw [ih]
      have h' : G.K ≤ (E.trimNsAndBadQuality r0).seq.length := by omega
      simp only [storeRead, if_neg h, decide_eq_true h', if_true, List.map_cons,
        List.foldl_cons, hlen]

theorem readFiles_eq (G : Globals) (E : ReadEnv) (rc : Bool) (files : List (List Read)) :
    ∀ st : BlobState, files.foldl (fun st f => ReadFileIntoBlob G E f rc st) st =
      (((keptReads G E files).map (fun r => if rc then r.revComp else r)).foldl
        (fun st r => pushRead G E st r.seq.length r) st) := by
  induction files with
  | nil => intro st; rfl
  | cons f fs ih =>
    intro st
    rw [List.foldl_cons, ih, ReadFileIntoBlob_eq]
    simp only [keptReads, List.flatten_cons, List.map_append, List.filter_append,
      List.foldl_append]

theorem readForward_fst (G : Globals) (E : ReadEnv) (files : List (List Read)) :
    ∀ (st : BlobState) (ps : List Nat), (readForward G E files st ps).1 =
      files.foldl (fun st f => ReadFileIntoBlob G E f false st) st := by
  induction files with
  | nil => intro st ps; rfl
  | cons f fs ih => intro st ps; simp only [readForward, List.foldl_cons, ih]

/-- The whole of `ReadAllFilesIntoBlob` stores the kept reads and then their reverse
complements. -/
theorem ReadAllFilesIntoBlob_eq (G : Globals) (E : ReadEnv) (files : List (List Read)) :
    (ReadAllFilesIntoBlob G E files).st =
      ((keptReads G E files ++ (keptReads G E files).map Read.revComp).foldl
        (fun st r => pushRead G E st r.seq.length r) ⟨G.blob, G.blobquality, [], 0, 0⟩) ∧
    (ReadAllFilesIntoBlob G E files).revNo = (keptReads G E files).length := by
  have h1 := readFiles_eq G E false files ⟨G.blob, G.blobquality, [], 0, 0⟩
  simp only [Bool.false_eq_true, if_false, List.map_id'] at h1
  constructor
  · simp only [ReadAllFilesIntoBlob, readForward_fst, readFiles_eq, h1, List.foldl_append,
      if_true]
  · simp only [ReadAllFilesIntoBlob, readForward_fst, h1]
    rw [(pushAll_spec G E _ _).2.2.1]
    simp

theorem range_map_getD (l : List Nat) : (List.range l.length).map (fun j => l.getD j 0) = l := by
  apply List.ext_getElem
  · simp
  · intro i h1 h2
    simp [List.getD_eq_getElem?_getD, List.getElem?_eq_getElem h2]


theorem layout_getElem?_inv (rs : List Read) (pos id i : Nat) (x : PositionRead)
    (h : (layout pos id rs)[i]? = some x) :
    ∃ r, rs[i]? = some r ∧
      x = ⟨pos + ((rs.take i).map (fun r => r.seq.length)).sum, r.seq.length % 2 ^ 32,
        id + i, false⟩ := by
  have hi : i < rs.length := by
    have := (List.getElem?_eq_some.1 h).1
    rwa [layout_length] at this
  refine ⟨rs[i], List.getElem?_eq_getElem hi, ?_⟩
  have h2 := layout_getElem? rs pos id i rs[i] (List.getElem?_eq_getElem hi)
  rw [h] at h2
  exact Option.some.inj h2

theorem sum_take_succ (rs : List Read) (i : Nat) (r : Read) (h : rs[i]? = some r) :
    ((rs.take (i + 1)).map (fun r => r.seq.length)).sum =
      ((rs.take i).map (fun r => r.seq.length)).sum + r.seq.length := by
  rw [List.take_succ, h]
  simp

theorem layout_sizes (rs : List Read) (hlt : ∀ r ∈ rs, r.seq.length < 2 ^ 32) : ∀ pos id,
    ((layout pos id rs).map (fun x => x.size)).sum = (rs.map (fun r => r.seq.length)).sum := by
  induction rs with
  | nil => intro pos id; rfl
  | cons r rs ih =>
    intro pos id
    simp only [layout, List.map_cons, List.sum_cons,
      ih (fun x hx => hlt x (List.mem_cons_of_mem _ hx)),
      Nat.mod_eq_of_lt (hlt r (List.mem_cons_self _ _))]

/-- Reading back the `i`-th stored read. -/
theorem read_back (G : Globals) (E : ReadEnv) (rs : List Read) (B : BlobResult)
    (hB : B.st = rs.foldl (fun st r => pushRead G E st r.seq.length r)
      ⟨G.blob, G.blobquality, [], 0, 0⟩)
    (i : Nat) (r : Read) (hr : rs[i]? = some r) (hlt : r.seq.length < 2 ^ 32) :
    ∃ a, B.st.pr[i]? = some a ∧ a.size = r.seq.length ∧ readSequence (B.globals G) a = r.seq := by
  obtain ⟨h1, _, _, _, h5⟩ := pushAll_spec G E rs ⟨G.blob, G.blobquality, [], 0, 0⟩
  rw [← hB] at h1 h5
  simp only [List.nil_append, Nat.zero_add] at h1 h5
  refine ⟨⟨((rs.take i).map (fun r => r.seq.length)).sum, r.seq.length % 2 ^ 32, i, false⟩,
    ?_, ?_, ?_⟩
  · rw [h1]
    have := layout_getElem? rs 0 0 i r hr
    simpa using this
  · exact Nat.mod_eq_of_lt hlt
  · simp only [readSequence, BlobResult.globals, Nat.mod_eq_of_lt hlt]
    conv_rhs => rw [← range_map_getD r.seq]
    apply List.map_congr_left
    intro j hj
    exact h5 i r j hr (List.mem_range.1 hj)

theorem keptReads_lt (G : Globals) (E : ReadEnv) (files : List (List Read))
    (hsize : ∀ f ∈ files, ∀ r ∈ f, (E.trimNsAndBadQuality r).seq.length < 2 ^ 32) :
    ∀ r ∈ keptReads G E files, G.K ≤ r.seq.length ∧ r.seq.length < 2 ^ 32 := by
  intro r hr
  simp only [keptReads, List.mem_filter, List.mem_map, List.mem_flatten,
    decide_eq_true_eq] at hr
  obtain ⟨⟨r0, ⟨f, hf, hr0⟩, rfl⟩, hK⟩ := hr
  exact ⟨hK, hsize f hf r0 hr0⟩

/-- C11.  After `ReadAllFilesIntoBlob` over any list of files (whose trimmed reads are
shorter than `2 ^ 32`, the size of a table entry being a `uint32_t`), the table holds
`2 * revNo` reads; for every `i < revNo` entry `i` reads back from the blob as the `i`-th
trimmed read of the files that is at least `K` long, entry `revNo + i` has the same size,
and its bytes are the bytes of entry `i` complemented and reversed. -/
theorem ReadAllFilesIntoBlob_forward_reverse (G : Globals) (E : ReadEnv)
    (files : List (List Read))
    (hsize : ∀ f ∈ files, ∀ r ∈ f, (E.trimNsAndBadQuality r).seq.length < 2 ^ 32) :
    (ReadAllFilesIntoBlob G E files).st.pr.length = 2 * (ReadAllFilesIntoBlob G E files).revNo ∧
    ∀ i, i < (ReadAllFilesIntoBlob G E files).revNo →
      ∃ a b r, (ReadAllFilesIntoBlob G E files).st.pr[i]? = some a ∧
        (ReadAllFilesIntoBlob G E files).st.pr[(ReadAllFilesIntoBlob G E files).revNo + i]?
          = some b ∧
        (keptReads G E files)[i]? = some r ∧
        readSequence ((ReadAllFilesIntoBlob G E files).globals G) a = r.seq ∧
        b.size = a.size ∧
        readSequence ((ReadAllFilesIntoBlob G E files).globals G) b =
          ((readSequence ((ReadAllFilesIntoBlob G E files).globals G) a).map
            complementLetter).reverse := by
  obtain ⟨hst, hrev⟩ := ReadAllFilesIntoBlob_eq G E files
  have hlt := keptReads_lt G E files hsize
  constructor
  · rw [hst, (pushAll_spec G E _ _).1, hrev]
    simp [layout_length]; omega
  · intro i hi
    rw [hrev] at hi ⊢
    have hr : (keptReads G E files)[i]? = some (keptReads G E files)[i] :=
      List.getElem?_eq_getElem hi
    have hr1 : (keptReads G E files ++ (keptReads G E files).map Read.revComp)[i]? =
        some (keptReads G E files)[i] := by
      rw [List.getElem?_append_left hi, hr]
    have hr2 : (keptReads G E files ++ (keptReads G E files).map Read.revComp)[
        (keptReads G E files).length + i]? = some ((keptReads G E files)[i]).revComp := by
      rw [List.getElem?_append_right (by omega)]
      simp [hr]
    have hl := (hlt _ (List.getElem_mem hi)).2
    obtain ⟨a, ha1, ha2, ha3⟩ := read_back G E _ _ hst i _ hr1 hl
    obtain ⟨b, hb1, hb2, hb3⟩ := read_back G E _ _ hst _ _ hr2
      (by simpa [Read.revComp] using hl)
    refine ⟨a, b, _, ha1, hb1, hr, ha3, ?_, ?_⟩
    · rw [ha2, hb2]; simp [Read.revComp]
    · rw [ha3, hb3]; rfl

/-- C11, instance: `K = 2`, a file with the reads `ACG` and `A` and a file with the read `TT`,
nothing trimmed: four entries, the blob is `ACG TT CGT AA`. -/
theorem ReadAllFilesIntoBlob_forward_reverse_witness :
    (List.range 10).map (ReadAllFilesIntoBlob ⟨2, fun _ => 0, fun _ => 0, true, 0, 0, 0, 0, []⟩
      ⟨id, 33⟩ [[⟨[65, 67, 71], [1, 2, 3]⟩, ⟨[65], [1]⟩], [⟨[84, 84], [1, 1]⟩]]).st.blob
      = [65, 67, 71, 84, 84, 67, 71, 84, 65, 65] ∧
    (ReadAllFilesIntoBlob ⟨2, fun _ => 0, fun _ => 0, true, 0, 0, 0, 0, []⟩
      ⟨id, 33⟩ [[⟨[65, 67, 71], [1, 2, 3]⟩, ⟨[65], [1]⟩], [⟨[84, 84], [1, 1]⟩]]).st.pr.length
      = 2 * (ReadAllFilesIntoBlob ⟨2, fun _ => 0, fun _ => 0, true, 0, 0, 0, 0, []⟩
      ⟨id, 33⟩ [[⟨[65, 67, 71], [1, 2, 3]⟩, ⟨[65], [1]⟩], [⟨[84, 84], [1, 1]⟩]]).revNo :=
  ⟨by decide,
    (ReadAllFilesIntoBlob_forward_reverse ⟨2, fun _ => 0, fun _ => 0, true, 0, 0, 0, 0, []⟩
      ⟨id, 33⟩ [[⟨[65, 67, 71], [1, 2, 3]⟩, ⟨[65], [1]⟩], [⟨[84, 84], [1, 1]⟩]]
      (by decide)).1⟩

/-- C12.  After `ReadAllFilesIntoBlob` (over files whose trimmed reads are shorter than
`2 ^ 32`) the table holds two entries for each read of trimmed size at least `K` and none
for the others; every entry has size at least `K`; the `i`-th entry has id `i`; the first
entry starts at offset 0 and every other one where the one before it ends; the final write
position is the sum of the stored sizes. -/
theorem ReadAllFilesIntoBlob_table (G : Globals) (E : ReadEnv) (files : List (List Read))
    (hsize : ∀ f ∈ files, ∀ r ∈ f, (E.trimNsAndBadQuality r).seq.length < 2 ^ 32) :
    (ReadAllFilesIntoBlob G E files).st.pr.length =
      2 * files.flatten.countP (fun r => decide (G.K ≤ (E.trimNsAndBadQuality r).seq.length)) ∧
    (∀ x ∈ (ReadAllFilesIntoBlob G E files).st.pr, G.K ≤ x.size) ∧
    (∀ (i : Nat) (x : PositionRead),
      (ReadAllFilesIntoBlob G E files).st.pr[i]? = some x → x.id = i) ∧
    (∀ x : PositionRead, (ReadAllFilesIntoBlob G E files).st.pr[0]? = some x → x.start = 0) ∧
    (∀ (i : Nat) (x y : PositionRead), (ReadAllFilesIntoBlob G E files).st.pr[i]? = some x →
      (ReadAllFilesIntoBlob G E files).st.pr[i + 1]? = some y → y.start = x.start + x.size) ∧
    (ReadAllFilesIntoBlob G E files).st.curpos =
      ((ReadAllFilesIntoBlob G E files).st.pr.map (fun x => x.size)).sum := by
  obtain ⟨hst, -⟩ := ReadAllFilesIntoBlob_eq G E files
  obtain ⟨h1, h2, -, -, -⟩ := pushAll_spec G E
    (keptReads G E files ++ (keptReads G E files).map Read.revComp)
    ⟨G.blob, G.blobquality, [], 0, 0⟩
  rw [← hst] at h1 h2
  simp only [List.nil_append, Nat.zero_add] at h1 h2
  have hlt : ∀ r ∈ keptReads G E files ++ (keptReads G E files).map Read.revComp,
      G.K ≤ r.seq.length ∧ r.seq.length < 2 ^ 32 := by
    intro r hr
    rcases List.mem_append.1 hr with h | h
    · exact keptReads_lt G E files hsize r h
    · obtain ⟨r0, hr0, rfl⟩ := List.mem_map.1 h
      simpa [Read.revComp] using keptReads_lt G E files hsize r0 hr0
  rw [h1, h2]
  refine ⟨?_, ?_, ?_, ?_, ?_, ?_⟩
  · rw [layout_length]
    simp only [List.length_append, List.length_map, keptReads, ← List.countP_eq_length_filter,
      List.countP_map]
    rw [two_mul]
    rfl
  · intro x hx
    obtain ⟨i, hi⟩ := List.getElem?_of_mem hx
    obtain ⟨r, hr, rfl⟩ := layout_getElem?_inv _ _ _ _ _ hi
    have := hlt r (List.getElem?_mem hr)
    simp only [Nat.mod_eq_of_lt this.2]
    exact this.1
  · intro i x hi
    obtain ⟨r, -, rfl⟩ := layout_getElem?_inv _ _ _ _ _ hi
    simp
  · intro x hi
    obtain ⟨r, -, rfl⟩ := layout_getElem?_inv _ _ _ _ _ hi
    simp
  · intro i x y hx hy
    obtain ⟨r, hr, rfl⟩ := layout_getElem?_inv _ _ _ _ _ hx
    obtain ⟨s, -, rfl⟩ := layout_getElem?_inv _ _ _ _ _ hy
    simp only [sum_take_succ _ i r hr,
      Nat.mod_eq_of_lt (hlt r (List.getElem?_mem hr)).2]
    omega
  · rw [layout_sizes _ (fun r hr => (hlt r hr).2)]

/-- C12, instance: `K = 2`, a file with the reads `ACG` and `A` and a file with the read `TT`,
nothing trimmed: the table is `(0, 3, 0) (3, 2, 1) (5, 3, 2) (8, 2, 3)` and the final write
position is 10. -/
theorem ReadAllFilesIntoBlob_table_witness :
    (ReadAllFilesIntoBlob ⟨2, fun _ => 0, fun _ => 0, true, 0, 0, 0, 0, []⟩
      ⟨id, 33⟩ [[⟨[65, 67, 71], [1, 2, 3]⟩, ⟨[65], [1]⟩], [⟨[84, 84], [1, 1]⟩]]).st.pr
      = [⟨0, 3, 0, false⟩, ⟨3, 2, 1, false⟩, ⟨5, 3, 2, false⟩, ⟨8, 2, 3, false⟩] ∧
    (ReadAllFilesIntoBlob ⟨2, fun _ => 0, fun _ => 0, true, 0, 0, 0, 0, []⟩
      ⟨id, 33⟩ [[⟨[65, 67, 71], [1, 2, 3]⟩, ⟨[65], [1]⟩], [⟨[84, 84], [1, 1]⟩]]).st.curpos
      = ((ReadAllFilesIntoBlob ⟨2, fun _ => 0, fun _ => 0, true, 0, 0, 0, 0, []⟩
      ⟨id, 33⟩ [[⟨[65, 67, 71], [1, 2, 3]⟩, ⟨[65], [1]⟩], [⟨[84, 84], [1, 1]⟩]]).st.pr.map
        (fun x => x.size)).sum :=
  ⟨by decide,
    (ReadAllFilesIntoBlob_table ⟨2, fun _ => 0, fun _ => 0, true, 0, 0, 0, 0, []⟩
      ⟨id, 33⟩ [[⟨[65, 67, 71], [1, 2, 3]⟩, ⟨[65], [1]⟩], [⟨[84, 84], [1, 1]⟩]]
      (by decide)).2.2.2.2.2⟩


/-! ### `IterativeExpansionStep` -/

theorem countP_set_good {α : Type} (p : α → Bool) (l : List α) : ∀ (i : Nat) (a b : α),
    l[i]? = some a → p a = false → p b = true →
    (l.set i b).countP p = l.countP p + 1 := by
  induction l with
  | nil => intro i a b h; simp at h
  | cons x xs ih =>
    intro i a b h ha hb
    cases i with
    | zero =>
      simp only [List.getElem?_cons_zero, Option.some.injEq] at h
      subst h
      simp [List.set, List.countP_cons, ha, hb]
    | succ i =>
      simp only [List.getElem?_cons_succ] at h
      simp only [List.set, List.countP_cons, ih i a b h ha hb]
      omega

theorem TableGrows_refl {P : Type} (E : KMerEnv P) (res : Nat) (kmers : List (KMerCount P)) :
    TableGrows E res kmers res kmers :=
  ⟨le_refl _, rfl, fun _ a h => ⟨a, h, rfl, Or.inl rfl⟩, rfl, fun _ => rfl⟩

theorem TableGrows_trans {P : Type} {E : KMerEnv P} {r1 r2 r3 : Nat}
    {k1 k2 k3 : List (KMerCount P)} (h12 : TableGrows E r1 k1 r2 k2)
    (h23 : TableGrows E r2 k2 r3 k3) : TableGrows E r1 k1 r3 k3 := by
  obtain ⟨a1, a2, a3, a4, a5⟩ := h12
  obtain ⟨b1, b2, b3, b4, b5⟩ := h23
  refine ⟨le_trans a1 b1, b2.trans a2, ?_, by omega, ?_⟩
  · intro i a ha
    obtain ⟨b, hb, hb1, hb2⟩ := a3 i a ha
    obtain ⟨c, hc, hc1, hc2⟩ := b3 i b hb
    refine ⟨c, hc, hc1.trans hb1, ?_⟩
    rcases hc2 with rfl | ⟨h1, h2, h3⟩
    · exact hb2
    · rcases hb2 with rfl | ⟨g1, g2, g3⟩
      · exact Or.inr ⟨h1, h2, h3⟩
      · rw [g2] at h1; exact absurd h1 (by simp)
  · intro h
    have e2 : r2 = r1 := by omega
    have e3 : r3 = r2 := by omega
    rw [b5 e3, a5 e2]

/-- One step of the last loop: it yields a result, the table grows, and the k-mer looked at
is good for the iteration or marked afterwards. -/
theorem promoteStep_spec {P : Type} (E : KMerEnv P)
    (hmake : ∀ s, E.isGoodForIterative (E.makeGoodForIterative s) = true)
    (res : Nat) (kmers : List (KMerCount P)) (idx : Nat)
    (hidx : idx = noKMer ∨ idx < kmers.length) :
    ∃ res' kmers', promoteStep E (some (res, kmers)) idx = some (res', kmers') ∧
      TableGrows E res kmers res' kmers' ∧
      (idx ≠ noKMer → ∃ k' : KMerCount P, kmers'[idx]? = some k' ∧
        (E.isGoodForIterative k'.second = true ∨ E.isMarkedGoodForIterative k'.second = true)) := by
  by_cases hs : idx = noKMer
  · exact ⟨res, kmers, by simp [promoteStep, hs], TableGrows_refl E res kmers,
      fun h => absurd hs h⟩
  · have hlt : idx < kmers.length := by
      rcases hidx with h | h
      · exact absurd h hs
      · exact h
    have hk : kmers[idx]? = some kmers[idx] := List.getElem?_eq_getElem hlt
    by_cases hg : E.isGoodForIterative kmers[idx].second = true
    · refine ⟨res, kmers, ?_, TableGrows_refl E res kmers, fun _ => ⟨_, hk, Or.inl hg⟩⟩
      simp [promoteStep, hs, hk, hg]
    · by_cases hm : E.isMarkedGoodForIterative kmers[idx].second = true
      · refine ⟨res, kmers, ?_, TableGrows_refl E res kmers, fun _ => ⟨_, hk, Or.inr hm⟩⟩
        simp [promoteStep, hs, hk, hm]
      · simp only [Bool.not_eq_true] at hg hm
        refine ⟨res + 1,
          kmers.set idx ⟨kmers[idx].first, E.makeGoodForIterative kmers[idx].second⟩, ?_,
          ⟨Nat.le_succ _, by simp, ?_, ?_, fun h => absurd h (by omega)⟩,
          fun _ => ⟨⟨kmers[idx].first, E.makeGoodForIterative kmers[idx].second⟩, ?_, ?_⟩⟩
        · simp [promoteStep, hs, hk, hg, hm]
        · intro i a ha
          by_cases hi : idx = i
          · subst hi
            obtain rfl : kmers[idx] = a := Option.some.inj (hk.symm.trans ha)
            exact ⟨⟨kmers[idx].first, E.makeGoodForIterative kmers[idx].second⟩,
              by rw [List.getElem?_set_self hlt], rfl, Or.inr ⟨hg, hmake _, hm⟩⟩
          · exact ⟨a, by rw [List.getElem?_set_ne hi]; exact ha, rfl, Or.inl rfl⟩
        · rw [countP_set_good _ kmers idx kmers[idx] _ hk hg (hmake _)]
          omega
        · rw [List.getElem?_set_self hlt]
        · exact Or.inl (hmake _)


theorem promoteStep_none {P : Type} (E : KMerEnv P) (l : List Nat) :
    l.foldl (promoteStep E) none = none := by
  induction l with
  | nil => rfl
  | cons x xs ih => simpa [List.foldl_cons, promoteStep] using ih

/-- The last loop of `IterativeExpansionStep` over the entries `l` of `kmer_indices`. -/
theorem promoteLoop_spec {P : Type} (E : KMerEnv P)
    (hmake : ∀ s, E.isGoodForIterative (E.makeGoodForIterative s) = true)
    (l : List Nat) : ∀ (res : Nat) (kmers : List (KMerCount P)),
    (∀ idx ∈ l, idx = noKMer ∨ idx < kmers.length) →
    ∃ res' kmers', l.foldl (promoteStep E) (some (res, kmers)) = some (res', kmers') ∧
      TableGrows E res kmers res' kmers' ∧
      ∀ idx ∈ l, idx ≠ noKMer → ∃ k' : KMerCount P, kmers'[idx]? = some k' ∧
        (E.isGoodForIterative k'.second = true ∨
          E.isMarkedGoodForIterative k'.second = true) := by
  induction l with
  | nil =>
    intro res kmers _
    exact ⟨res, kmers, rfl, TableGrows_refl E res kmers, fun _ h => absurd h (List.not_mem_nil _)⟩
  | cons x xs ih =>
    intro res kmers hl
    obtain ⟨res1, kmers1, h1, g1, p1⟩ :=
      promoteStep_spec E hmake res kmers x (hl x (List.mem_cons_self _ _))
    obtain ⟨res2, kmers2, h2, g2, p2⟩ := ih res1 kmers1 (fun idx hidx => by
      rw [g1.2.1]; exact hl idx (List.mem_cons_of_mem _ hidx))
    refine ⟨res2, kmers2, by rw [List.foldl_cons, h1, h2], TableGrows_trans g1 g2, ?_⟩
    intro idx hidx hne
    rcases List.mem_cons.1 hidx with rfl | hmem
    · obtain ⟨k1, hk1, hk1'⟩ := p1 hne
      obtain ⟨k2, hk2, -, hk2'⟩ := g2.2.2.1 idx k1 hk1
      refine ⟨k2, hk2, ?_⟩
      rcases hk2' with rfl | ⟨-, hg, -⟩
      · exact hk1'
      · exact Or.inl hg
    · exact p2 idx hmem hne

/-- The `while` loop of `IterativeExpansionStep` over k-mers that lie inside the read and
are k-mers of the table: it yields a result; a position is covered when it was covered
before or lies inside a k-mer of the list that is good for the iteration; an entry of
`kmer_indices` is as before or the index of the k-mer of the list at that position. -/
theorem scanKMers_spec {P : Type} (G : Globals) (E : KMerEnv P) (kmers : List (KMerCount P))
    (read_size : Nat) (hK : 1 ≤ G.K) (pairs : List (Nat × Nat)) :
    ∀ (cov : Nat → Bool) (ki : Nat → Nat),
    (∀ p ∈ pairs, p.1 + G.K ≤ read_size ∧ p.2 < kmers.length) →
    ∃ cov' ki', scanKMers G E kmers read_size pairs cov ki = some (cov', ki') ∧
      (∀ j, cov' j = true ↔ (cov j = true ∨ ∃ p ∈ pairs, p.1 ≤ j ∧ j < p.1 + G.K ∧
        ∃ k : KMerCount P, kmers[p.2]? = some k ∧ E.isGoodForIterative k.second = true)) ∧
      (∀ j, ki' j = ki j ∨ ∃ p ∈ pairs, p.1 = j ∧ ki' j = p.2) ∧
      ((pairs.map (fun p => p.1)).Nodup → ∀ p ∈ pairs, ki' p.1 = p.2) := by
  induction pairs with
  | nil =>
    intro cov ki _
    exact ⟨cov, ki, rfl, fun j => by simp, fun j => Or.inl rfl,
      fun _ p hp => absurd hp (List.not_mem_nil _)⟩
  | cons q rest ih =>
    intro cov ki hin
    obtain ⟨pos, idx⟩ := q
    have hq := hin (pos, idx) (List.mem_cons_self _ _)
    simp only at hq
    have hrest : ∀ p ∈ rest, p.1 + G.K ≤ read_size ∧ p.2 < kmers.length :=
      fun p hp => hin p (List.mem_cons_of_mem _ hp)
    have hk : kmers[idx]? = some kmers[idx] := List.getElem?_eq_getElem hq.2
    have hpos : pos < read_size := by omega
    by_cases hg : E.isGoodForIterative kmers[idx].second = true
    · obtain ⟨cov', ki', h1, h2, h3, h4⟩ := ih
        (fun j => decide (pos ≤ j ∧ j < pos + G.K) || cov j) (Function.update ki pos idx) hrest
      refine ⟨cov', ki', ?_, ?_, ?_, ?_⟩
      · simp only [scanKMers, if_pos hpos, hk, hg, if_true, if_pos hq.1, h1]
      · intro j
        rw [h2 j]
        simp only [Bool.or_eq_true, decide_eq_true_eq, List.mem_cons, exists_eq_or_imp]
        constructor
        · rintro ((h | h) | h)
          · exact Or.inr (Or.inl ⟨h.1, h.2, _, hk, hg⟩)
          · exact Or.inl h
          · exact Or.inr (Or.inr h)
        · rintro (h | h | h)
          · exact Or.inl (Or.inr h)
          · exact Or.inl (Or.inl ⟨h.1, h.2.1⟩)
          · exact Or.inr h
      · intro j
        rcases h3 j with h | ⟨p, hp, hp1, hp2⟩
        · by_cases hj : j = pos
          · subst hj
            exact Or.inr ⟨(j, idx), List.mem_cons_self _ _, rfl, by simp [h]⟩
          · exact Or.inl (by rw [h, Function.update_noteq hj])
        · exact Or.inr ⟨p, List.mem_cons_of_mem _ hp, hp1, hp2⟩
      · intro hnd p hp
        simp only [List.map_cons, List.nodup_cons] at hnd
        rcases List.mem_cons.1 hp with rfl | hmem
        · rcases h3 pos with h | ⟨p, hp', hp1, -⟩
          · simp [h]
          · exact absurd (List.mem_map.2 ⟨p, hp', hp1⟩) hnd.1
        · exact h4 hnd.2 p hmem
    · obtain ⟨cov', ki', h1, h2, h3, h4⟩ := ih cov (Function.update ki pos idx) hrest
      refine ⟨cov', ki', ?_, ?_, ?_, ?_⟩
      · simp only [scanKMers, if_pos hpos, hk, hg, h1]
        simp
      · intro j
        rw [h2 j]
        simp only [List.mem_cons, exists_eq_or_imp]
        constructor
        · rintro (h | h)
          · exact Or.inl h
          · exact Or.inr (Or.inr h)
        · rintro (h | h | h)
          · exact Or.inl h
          · obtain ⟨-, -, k, hk', hg'⟩ := h
            rw [hk] at hk'
            obtain rfl := Option.some.inj hk'
            exact absurd hg' hg
          · exact Or.inr h
      · intro j
        rcases h3 j with h | ⟨p, hp, hp1, hp2⟩
        · by_cases hj : j = pos
          · subst hj
            exact Or.inr ⟨(j, idx), List.mem_cons_self _ _, rfl, by simp [h]⟩
          · exact Or.inl (by rw [h, Function.update_noteq hj])
        · exact Or.inr ⟨p, List.mem_cons_of_mem _ hp, hp1, hp2⟩
      · intro hnd p hp
        simp only [List.map_cons, List.nodup_cons] at hnd
        rcases List.mem_cons.1 hp with rfl | hmem
        · rcases h3 pos with h | ⟨p, hp', hp1, -⟩
          · simp [h]
          · exact absurd (List.mem_map.2 ⟨p, hp', hp1⟩) hnd.1
        · exact h4 hnd.2 p hmem


theorem Grows_refl {P : Type} (E : KMerEnv P) (s : ExpansionState P) : Grows E s s :=
  ⟨TableGrows_refl E s.res s.kmers, rfl, fun _ r h => ⟨r, h, rfl, rfl, rfl, fun h => h⟩⟩

theorem Grows_trans {P : Type} {E : KMerEnv P} {s1 s2 s3 : ExpansionState P}
    (h12 : Grows E s1 s2) (h23 : Grows E s2 s3) : Grows E s1 s3 := by
  refine ⟨TableGrows_trans h12.1 h23.1, h23.2.1.trans h12.2.1, ?_⟩
  intro i r hr
  obtain ⟨r2, hr2, a1, a2, a3, a4⟩ := h12.2.2 i r hr
  obtain ⟨r3, hr3, b1, b2, b3, b4⟩ := h23.2.2 i r2 hr2
  exact ⟨r3, hr3, b1.trans a1, b2.trans a2, b3.trans a3, fun h => b4 (a4 h)⟩

theorem KMersInRange_grows {P : Type} {G : Globals} {E : KMerEnv P} {s s' : ExpansionState P}
    {revNo : Nat} (h : KMersInRange G E s.kmers s.pr revNo) (hg : Grows E s s') :
    KMersInRange G E s'.kmers s'.pr revNo := by
  obtain ⟨h1, h2, h3, h4⟩ := h
  refine ⟨by rw [hg.2.1]; exact h1, h2, by rw [hg.1.2.1]; exact h3, ?_⟩
  intro readno hlt r' hr'
  have hr : s.pr[readno]? = some s.pr[readno] := List.getElem?_eq_getElem (by omega)
  obtain ⟨r2, hr2, -, hsize, -, -⟩ := hg.2.2 readno _ hr
  obtain rfl : r2 = r' := Option.some.inj (hr2.symm.trans hr')
  obtain ⟨g1, g2⟩ := h4 readno hlt _ hr
  refine ⟨g1, fun p hp => ?_⟩
  rw [hsize, hg.1.2.1]
  exact g2 p hp

/-- The body of the loop of `IterativeExpansionStep` for one read whose k-mers are in range:
it yields a result; a read that is done, or has a position outside the solid k-mers, leaves
everything as it is; a read that is not done and is covered is marked done, and each of its
k-mers is then good for the iteration or marked. -/
theorem visitRead_spec {P : Type} (G : Globals) (E : KMerEnv P)
    (hmake : ∀ s, E.isGoodForIterative (E.makeGoodForIterative s) = true)
    (st : ExpansionState P) (readno : Nat) (r : PositionRead) (hK : 1 ≤ G.K)
    (hlen : st.kmers.length < 2 ^ 64) (hr : st.pr[readno]? = some r)
    (hnd : ((E.nextKMerNo readno).map (fun p => p.1)).Nodup)
    (hin : ∀ p ∈ E.nextKMerNo readno, p.1 + G.K ≤ r.size ∧ p.2 < st.kmers.length) :
    ∃ st', visitRead G E st readno = some st' ∧ Grows E st st' ∧
      (∀ i, i ≠ readno → st'.pr[i]? = st.pr[i]?) ∧
      (r.done = true → st' = st) ∧
      (r.done = false →
        (CoveredBySolid G E st.kmers readno r.size →
          st'.pr[readno]? = some { r with done := true } ∧
          ∀ p ∈ E.nextKMerNo readno, ∃ k' : KMerCount P, st'.kmers[p.2]? = some k' ∧
            (E.isGoodForIterative k'.second = true ∨
              E.isMarkedGoodForIterative k'.second = true)) ∧
        (¬ CoveredBySolid G E st.kmers readno r.size → st' = st)) := by
  by_cases hd : r.done = true
  · exact ⟨st, by simp [visitRead, hr, hd], Grows_refl E st, fun _ _ => rfl, fun _ => rfl,
      fun h => absurd hd (by simp [h])⟩
  · obtain ⟨cov, ki, hscan, hcov, hki, hki'⟩ := scanKMers_spec G E st.kmers r.size hK
      (E.nextKMerNo readno) (fun _ => false) (fun _ => noKMer) hin
    have hall : (List.range r.size).all cov = true ↔ CoveredBySolid G E st.kmers readno r.size := by
      simp only [List.all_eq_true, List.mem_range, CoveredBySolid]
      constructor
      · intro h j hj
        have := (hcov j).1 (h j hj)
        simpa using this
      · intro h j hj
        exact (hcov j).2 (Or.inr (h j hj))
    by_cases hc : CoveredBySolid G E st.kmers readno r.size
    · obtain ⟨res', kmers', hpro, hgrow, hpost⟩ := promoteLoop_spec E hmake
        ((List.range r.size).map ki) st.res st.kmers (by
          intro idx hidx
          obtain ⟨j, -, rfl⟩ := List.mem_map.1 hidx
          rcases hki j with h | ⟨p, hp, -, hp2⟩
          · exact Or.inl h
          · exact Or.inr (by rw [hp2]; exact (hin p hp).2))
      have hrl : readno < st.pr.length := (List.getElem?_eq_some.1 hr).1
      refine ⟨⟨res', kmers', st.pr.set readno { r with done := true }⟩, ?_,
        ⟨hgrow, by simp, ?_⟩, ?_, fun h => absurd h hd, fun _ => ⟨fun _ => ⟨?_, ?_⟩,
          fun h => absurd hc h⟩⟩
      · simp only [visitRead, hr, hd, hscan, hall.2 hc, hpro]
        simp
      · intro i x hx
        by_cases hi : readno = i
        · subst hi
          obtain rfl : r = x := Option.some.inj (hr.symm.trans hx)
          exact ⟨{ r with done := true }, by simp [List.getElem?_set_self hrl], rfl, rfl, rfl,
            fun _ => rfl⟩
        · exact ⟨x, by simp only [List.getElem?_set_ne hi]; exact hx, rfl, rfl, rfl,
            fun h => h⟩
      · intro i hi
        simp only [List.getElem?_set_ne (Ne.symm hi)]
      · simp [List.getElem?_set_self hrl]
      · intro p hp
        have h1 := (hin p hp)
        refine hpost p.2 (List.mem_map.2 ⟨p.1, List.mem_range.2 (by omega), hki' hnd p hp⟩) ?_
        unfold noKMer
        omega
    · refine ⟨st, ?_, Grows_refl E st, fun _ _ => rfl, fun _ => rfl,
        fun _ => ⟨fun h => absurd h hc, fun _ => rfl⟩⟩
      have : (List.range r.size).all cov = false := by
        rw [← Bool.not_eq_true, hall]; exact hc
      simp only [visitRead, hr, hd, hscan, this]
      simp

/-- The loop of `IterativeExpansionStep` over read numbers below `revNo`: it yields a
result, the state grows, and the reads that are not visited are left as they are. -/
theorem visitReads_spec {P : Type} (G : Globals) (E : KMerEnv P)
    (hmake : ∀ s, E.isGoodForIterative (E.makeGoodForIterative s) = true) (revNo : Nat)
    (l : List Nat) : ∀ st : ExpansionState P, (∀ readno ∈ l, readno < revNo) →
    KMersInRange G E st.kmers st.pr revNo →
    ∃ st', visitReads G E l st = some st' ∧ Grows E st st' ∧
      ∀ i, i ∉ l → st'.pr[i]? = st.pr[i]? := by
  induction l with
  | nil => intro st _ _; exact ⟨st, rfl, Grows_refl E st, fun _ _ => rfl⟩
  | cons x xs ih =>
    intro st hl hwf
    have hx : x < revNo := hl x (List.mem_cons_self _ _)
    have hxl : x < st.pr.length := by have := hwf.1; omega
    have hr : st.pr[x]? = some st.pr[x] := List.getElem?_eq_getElem hxl
    obtain ⟨g1, g2⟩ := hwf.2.2.2 x hx _ hr
    obtain ⟨st1, h1, hg1, hp1, -, -⟩ := visitRead_spec G E hmake st x _ hwf.2.1 hwf.2.2.1 hr g1 g2
    obtain ⟨st2, h2, hg2, hp2⟩ := ih st1 (fun y hy => hl y (List.mem_cons_of_mem _ hy))
      (KMersInRange_grows hwf hg1)
    refine ⟨st2, by simp only [visitReads, h1, h2], Grows_trans hg1 hg2, ?_⟩
    intro i hi
    simp only [List.mem_cons, not_or] at hi
    rw [hp2 i hi.2, hp1 i hi.1]

theorem countP_zip_newly {α : Type} (p : α → Bool) (l : List α) : ∀ l' : List α,
    l'.length = l.length →
    (∀ (i : Nat) (a : α), l[i]? = some a → ∃ b, l'[i]? = some b ∧ (p a = true → p b = true)) →
    l'.countP p = l.countP p + (l.zip l').countP (fun q => !p q.1 && p q.2) := by
  induction l with
  | nil =>
    intro l' hlen _
    have : l' = [] := List.length_eq_zero.1 hlen
    subst this
    rfl
  | cons a l ih =>
    intro l' hlen h
    cases l' with
    | nil => simp at hlen
    | cons b l' =>
      obtain ⟨b', hb', hab⟩ := h 0 a (by simp)
      obtain rfl : b = b' := by simpa using hb'
      have iht := ih l' (by simpa using hlen) (fun i x hx => by
        have := h (i + 1) x (by simpa using hx)
        simpa using this)
      simp only [List.zip_cons_cons, List.countP_cons, iht]
      by_cases ha : p a = true
      · simp only [ha, hab ha, if_true, Bool.not_true, Bool.false_and, Bool.false_eq_true,
          if_false]
        omega
      · simp only [Bool.not_eq_true] at ha
        cases hb : p b
        · simp [ha]
        · simp [ha]; omega

theorem isGood_of_tableGrows {P : Type} {E : KMerEnv P} {res res' : Nat}
    {kmers kmers' : List (KMerCount P)} (h : TableGrows E res kmers res' kmers') (i : Nat)
    (a : KMerCount P) (ha : kmers[i]? = some a) :
    ∃ b : KMerCount P, kmers'[i]? = some b ∧
      (E.isGoodForIterative a.second = true → E.isGoodForIterative b.second = true) := by
  obtain ⟨b, hb, -, hb'⟩ := h.2.2.1 i a ha
  refine ⟨b, hb, fun hg => ?_⟩
  rcases hb' with rfl | ⟨h1, -, -⟩
  · exact hg
  · rw [hg] at h1; exact absurd h1 (by simp)

/-- Steps made one after the other: each returns a value, and the number of those that are
not zero, added to the number of k-mers good for the iteration at the start, is at most the
number of k-mers. -/
theorem expansionResults_spec {P : Type} (G : Globals) (E : KMerEnv P)
    (hmake : ∀ s, E.isGoodForIterative (E.makeGoodForIterative s) = true) (revNo : Nat)
    (n : Nat) : ∀ (kmers : List (KMerCount P)) (pr : List PositionRead),
    KMersInRange G E kmers pr revNo →
    ∃ rs, expansionResults G E revNo n kmers pr = some rs ∧ rs.length = n ∧
      (rs.filter (fun x => decide (x ≠ 0))).length +
        kmers.countP (fun k => E.isGoodForIterative k.second) ≤ kmers.length := by
  induction n with
  | zero =>
    intro kmers pr _
    exact ⟨[], rfl, rfl, by simpa using List.countP_le_length _⟩
  | succ n ih =>
    intro kmers pr hwf
    obtain ⟨st, hst, hg, -⟩ := visitReads_spec G E hmake revNo (List.range revNo)
      ⟨0, kmers, pr⟩ (fun _ h => List.mem_range.1 h) hwf
    obtain ⟨rs, hrs, hlen, hb⟩ := ih st.kmers st.pr
      (KMersInRange_grows (s := ⟨0, kmers, pr⟩) hwf hg)
    have hst' : IterativeExpansionStep G E kmers pr revNo = some st := hst
    refine ⟨st.res :: rs, by simp only [expansionResults, hst', hrs], by simp [hlen], ?_⟩
    have hc : st.kmers.countP (fun k => E.isGoodForIterative k.second) + 0 =
        kmers.countP (fun k => E.isGoodForIterative k.second) + st.res := hg.1.2.2.2.1
    have hl : st.kmers.length = kmers.length := hg.1.2.1
    have hf : ((st.res :: rs).filter (fun x => decide (x ≠ 0))).length ≤
        (rs.filter (fun x => decide (x ≠ 0))).length + st.res := by
      by_cases h0 : st.res = 0
      · rw [List.filter_cons_of_neg (by simp [h0])]; omega
      · rw [List.filter_cons_of_pos (by simp [h0]), List.length_cons]; omega
    omega


theorem visitReads_append {P : Type} (G : Globals) (E : KMerEnv P) (l1 l2 : List Nat) :
    ∀ st st1 : ExpansionState P, visitReads G E l1 st = some st1 →
      visitReads G E (l1 ++ l2) st = visitReads G E l2 st1 := by
  induction l1 with
  | nil => intro st st1 h; simp only [visitReads, Option.some.injEq] at h; subst h; rfl
  | cons x xs ih =>
    intro st st1 h
    simp only [visitReads, List.cons_append] at h ⊢
    cases hv : visitRead G E st x with
    | none => rw [hv] at h; simp at h
    | some st2 => rw [hv] at h; simp only at h ⊢; exact ih st2 st1 h

theorem range_split (n m : Nat) (h : n < m) :
    ∃ rest, List.range m = List.range n ++ n :: rest ∧ n ∉ rest ∧ ∀ x ∈ rest, x < m := by
  refine ⟨List.range' (n + 1) (m - n - 1), ?_, ?_, ?_⟩
  · have e1 : List.range' 0 n ++ List.range' n (m - n) = List.range' 0 m := by
      have := List.range'_append_1 0 n (m - n)
      rw [Nat.zero_add, show m - n + n = m by omega] at this
      exact this
    have e2 : List.range' n (m - n) = n :: List.range' (n + 1) (m - n - 1) := by
      obtain ⟨d, hd⟩ : ∃ d, m - n = d + 1 := ⟨m - n - 1, by omega⟩
      rw [hd, List.range'_succ, Nat.add_sub_cancel]
    rw [List.range_eq_range', List.range_eq_range', ← e2, e1]
  · intro hmem
    simp only [List.mem_range'_1] at hmem
    omega
  · intro x hx
    simp only [List.mem_range'_1] at hx
    omega

/-- C13.  For reads whose k-mers are k-mers of the table and lie inside them, and an update
`makeGoodForIterative` after which `isGoodForIterative` holds, a step (its loop run in
sequence) returns; the table keeps its length; every k-mer that was good for the iteration
still is, and every read that was done still is; the value returned is the number of
k-mers that are good for the iteration after the step and were not before; when it is 0
the table is unchanged; and among any number of steps made one after the other, those
that return a value other than 0 are at most as many as the k-mers. -/
theorem IterativeExpansionStep_grows {P : Type} (G : Globals) (E : KMerEnv P)
    (hmake : ∀ s, E.isGoodForIterative (E.makeGoodForIterative s) = true)
    (kmers : List (KMerCount P)) (pr : List PositionRead) (revNo : Nat)
    (hwf : KMersInRange G E kmers pr revNo) :
    ∃ st, IterativeExpansionStep G E kmers pr revNo = some st ∧
      st.kmers.length = kmers.length ∧
      (∀ (i : Nat) (a : KMerCount P), kmers[i]? = some a →
        E.isGoodForIterative a.second = true →
        ∃ b : KMerCount P, st.kmers[i]? = some b ∧ E.isGoodForIterative b.second = true) ∧
      (∀ (i : Nat) (r : PositionRead), pr[i]? = some r → r.done = true →
        ∃ r' : PositionRead, st.pr[i]? = some r' ∧ r'.done = true) ∧
      st.res = (kmers.zip st.kmers).countP
        (fun q => !E.isGoodForIterative q.1.second && E.isGoodForIterative q.2.second) ∧
      (st.res = 0 → st.kmers = kmers) ∧
      ∀ n, ∃ rs, expansionResults G E revNo n kmers pr = some rs ∧ rs.length = n ∧
        (rs.filter (fun x => decide (x ≠ 0))).length ≤ kmers.length := by
  obtain ⟨st, hst, hg, -⟩ := visitReads_spec G E hmake revNo (List.range revNo)
    ⟨0, kmers, pr⟩ (fun _ h => List.mem_range.1 h) hwf
  have hc : st.kmers.countP (fun k => E.isGoodForIterative k.second) + 0 =
      kmers.countP (fun k => E.isGoodForIterative k.second) + st.res := hg.1.2.2.2.1
  have hl : st.kmers.length = kmers.length := hg.1.2.1
  refine ⟨st, hst, hl, ?_, ?_, ?_, ?_, ?_⟩
  · intro i a ha hga
    obtain ⟨b, hb, hb'⟩ := isGood_of_tableGrows hg.1 i a ha
    exact ⟨b, hb, hb' hga⟩
  · intro i r hr hd
    obtain ⟨r', hr', -, -, -, hd'⟩ := hg.2.2 i r hr
    exact ⟨r', hr', hd' hd⟩
  · have hz := countP_zip_newly (fun k : KMerCount P => E.isGoodForIterative k.second) kmers
      st.kmers hl (fun i a ha => isGood_of_tableGrows hg.1 i a ha)
    simp only at hz
    omega
  · intro h0
    exact hg.1.2.2.2.2 h0
  · intro n
    obtain ⟨rs, h1, h2, h3⟩ := expansionResults_spec G E hmake revNo n kmers pr hwf
    exact ⟨rs, h1, h2, by omega⟩

/-- C13, instance: `K = 2`, one read of size 4 with the k-mers 0, 1, 2 at the positions 0,
1, 2; the k-mers 0 and 2 are good for the iteration and the k-mer 1 is not (and is not
marked): the step returns 1, makes the k-mer 1 good and marks the read done. -/
theorem IterativeExpansionStep_grows_witness :
    IterativeExpansionStep (P := Nat) ⟨2, fun _ => 65, fun _ => 0, true, 0, 0, 0, 0, []⟩
      (codedEnv Nat (fun _ => [(0, 0), (1, 1), (2, 2)]))
      [⟨0, ⟨1, 1003, 0, []⟩⟩, ⟨1, ⟨1, 1001, 0, []⟩⟩, ⟨2, ⟨1, 1003, 0, []⟩⟩]
      [⟨0, 4, 0, false⟩] 1
      = some ⟨1, [⟨0, ⟨1, 1003, 0, []⟩⟩, ⟨1, ⟨1, 1003, 0, []⟩⟩, ⟨2, ⟨1, 1003, 0, []⟩⟩],
        [⟨0, 4, 0, true⟩]⟩ ∧
    ∃ st, IterativeExpansionStep (P := Nat) ⟨2, fun _ => 65, fun _ => 0, true, 0, 0, 0, 0, []⟩
      (codedEnv Nat (fun _ => [(0, 0), (1, 1), (2, 2)]))
      [⟨0, ⟨1, 1003, 0, []⟩⟩, ⟨1, ⟨1, 1001, 0, []⟩⟩, ⟨2, ⟨1, 1003, 0, []⟩⟩]
      [⟨0, 4, 0, false⟩] 1 = some st ∧ st.kmers.length = 3 := by
  refine ⟨by decide, ?_⟩
  obtain ⟨st, h1, h2, -⟩ := IterativeExpansionStep_grows (P := Nat)
    ⟨2, fun _ => 65, fun _ => 0, true, 0, 0, 0, 0, []⟩
    (codedEnv Nat (fun _ => [(0, 0), (1, 1), (2, 2)])) (fun _ => rfl)
    [⟨0, ⟨1, 1003, 0, []⟩⟩, ⟨1, ⟨1, 1001, 0, []⟩⟩, ⟨2, ⟨1, 1003, 0, []⟩⟩]
    [⟨0, 4, 0, false⟩] 1 (by decide)
  exact ⟨st, h1, h2⟩

/-- A step leaves the marked k-mers as they are, and the value it returns counts the
k-mers that were neither good for the iteration nor marked and are good after it. -/
theorem tableGrows_marked {P : Type} {E : KMerEnv P} {res' : Nat}
    {kmers kmers' : List (KMerCount P)} (h : TableGrows E 0 kmers res' kmers') :
    (∀ (i : Nat) (k : KMerCount P), kmers[i]? = some k →
      E.isMarkedGoodForIterative k.second = true → kmers'[i]? = some k) ∧
    res' = (kmers.zip kmers').countP (fun q => !E.isGoodForIterative q.1.second &&
      !E.isMarkedGoodForIterative q.1.second && E.isGoodForIterative q.2.second) := by
  have hm : ∀ (i : Nat) (k : KMerCount P), kmers[i]? = some k →
      E.isMarkedGoodForIterative k.second = true → kmers'[i]? = some k := by
    intro i k hk hmk
    obtain ⟨b, hb, -, hb'⟩ := h.2.2.1 i k hk
    rcases hb' with rfl | ⟨-, -, h3⟩
    · exact hb
    · rw [hmk] at h3; exact absurd h3 (by simp)
  refine ⟨hm, ?_⟩
  have hz := countP_zip_newly (fun k : KMerCount P => E.isGoodForIterative k.second) kmers
    kmers' h.2.1 (fun i a ha => isGood_of_tableGrows h i a ha)
  have hc := h.2.2.2.1
  have hcongr : (kmers.zip kmers').countP (fun q => !E.isGoodForIterative q.1.second &&
        !E.isMarkedGoodForIterative q.1.second && E.isGoodForIterative q.2.second) =
      (kmers.zip kmers').countP (fun q => !E.isGoodForIterative q.1.second &&
        E.isGoodForIterative q.2.second) := by
    apply List.countP_congr
    intro q hq
    obtain ⟨i, hi⟩ := List.getElem?_of_mem hq
    rw [List.getElem?_zip_eq_some] at hi
    obtain ⟨h1, h2⟩ := hi
    cases hmq : E.isMarkedGoodForIterative q.1.second
    · simp
    · have := hm i q.1 h1 hmq
      have e : q.2 = q.1 := Option.some.inj (h2.symm.trans this)
      rw [e]
      cases E.isGoodForIterative q.1.second <;> simp
  simp only at hz
  rw [hcongr]
  omega

/-- C14, counterexample.  `K = 2`, one read of size 4 with the k-mers 0, 1, 2 at the
positions 0, 1, 2; the k-mers 0 and 2 are good for the iteration and cover the read, the
k-mer 1 is marked and not good: the step marks the read done, returns 0 and leaves the
k-mer 1, which occurs in the read, not good for the iteration. -/
theorem IterativeExpansionStep_marked_counterexample :
    IterativeExpansionStep (P := Nat) ⟨2, fun _ => 65, fun _ => 0, true, 0, 0, 0, 0, []⟩
      (codedEnv Nat (fun _ => [(0, 0), (1, 1), (2, 2)]))
      [⟨0, ⟨1, 1003, 0, []⟩⟩, ⟨1, ⟨1, 1005, 0, []⟩⟩, ⟨2, ⟨1, 1003, 0, []⟩⟩]
      [⟨0, 4, 0, false⟩] 1
      = some ⟨0, [⟨0, ⟨1, 1003, 0, []⟩⟩, ⟨1, ⟨1, 1005, 0, []⟩⟩, ⟨2, ⟨1, 1003, 0, []⟩⟩],
        [⟨0, 4, 0, true⟩]⟩ ∧
    (1, 1) ∈ (codedEnv Nat (fun _ => [(0, 0), (1, 1), (2, 2)])).nextKMerNo 0 ∧
    (codedEnv Nat (fun _ => [(0, 0), (1, 1), (2, 2)])).isGoodForIterative
      (⟨1, 1005, 0, []⟩ : KMerStat Nat) = false := by
  decide

/-- C14, amended.  For reads whose k-mers are k-mers of the table and lie inside them, and a
read `readno < revNo` that is not done when the step starts: the step returns, and the read
is done after it if and only if, in the table `s1.kmers` met when the read is visited,
every position of the read lies inside one of its k-mers that is good for the iteration;
in that case every k-mer of the read that was not marked before the step is good for the
iteration after it; otherwise the visit of the read changes nothing.  A k-mer of the table
that is marked and not good for the iteration before the step is left as it is by the
step, whatever the reads it occurs in, and is not counted: the value returned is the
number of k-mers that were neither good for the iteration nor marked before the step and
are good for the iteration after it. -/
theorem IterativeExpansionStep_promotion {P : Type} (G : Globals) (E : KMerEnv P)
    (hmake : ∀ s, E.isGoodForIterative (E.makeGoodForIterative s) = true)
    (kmers : List (KMerCount P)) (pr : List PositionRead) (revNo : Nat)
    (hwf : KMersInRange G E kmers pr revNo) (readno : Nat) (hreadno : readno < revNo)
    (r : PositionRead) (hr : pr[readno]? = some r) (hdone : r.done = false) :
    ∃ s1 s3, visitReads G E (List.range readno) ⟨0, kmers, pr⟩ = some s1 ∧
      IterativeExpansionStep G E kmers pr revNo = some s3 ∧
      ((∃ r' : PositionRead, s3.pr[readno]? = some r' ∧ r'.done = true) ↔
        CoveredBySolid G E s1.kmers readno r.size) ∧
      (CoveredBySolid G E s1.kmers readno r.size →
        ∀ p ∈ E.nextKMerNo readno, ∀ k : KMerCount P, kmers[p.2]? = some k →
          E.isMarkedGoodForIterative k.second = false →
          ∃ k' : KMerCount P, s3.kmers[p.2]? = some k' ∧
            E.isGoodForIterative k'.second = true) ∧
      (¬ CoveredBySolid G E s1.kmers readno r.size → visitRead G E s1 readno = some s1) ∧
      (∀ (i : Nat) (k : KMerCount P), kmers[i]? = some k →
        E.isMarkedGoodForIterative k.second = true →
        E.isGoodForIterative k.second = false → s3.kmers[i]? = some k) ∧
      s3.res = (kmers.zip s3.kmers).countP (fun q => !E.isGoodForIterative q.1.second &&
        !E.isMarkedGoodForIterative q.1.second && E.isGoodForIterative q.2.second) := by
  obtain ⟨rest, hsplit, hnot, hrest⟩ := range_split readno revNo hreadno
  obtain ⟨s1, h1, hg1, hp1⟩ := visitReads_spec G E hmake revNo (List.range readno)
    ⟨0, kmers, pr⟩ (fun x h => by have := List.mem_range.1 h; omega) hwf
  have hwf1 := KMersInRange_grows (s := ⟨0, kmers, pr⟩) hwf hg1
  have hr1 : s1.pr[readno]? = some r := by
    rw [hp1 readno (by simp)]; exact hr
  obtain ⟨g1, g2⟩ := hwf1.2.2.2 readno hreadno _ hr1
  obtain ⟨s2, h2, hg2, hp2, -, hnd⟩ := visitRead_spec G E hmake s1 readno r hwf1.2.1
    hwf1.2.2.1 hr1 g1 g2
  obtain ⟨hcov, hnot'⟩ := hnd hdone
  obtain ⟨s3, h3, hg3, hp3⟩ := visitReads_spec G E hmake revNo rest s2 hrest
    (KMersInRange_grows hwf1 hg2)
  have hstep : IterativeExpansionStep G E kmers pr revNo = some s3 := by
    unfold IterativeExpansionStep
    rw [hsplit, visitReads_append G E _ _ _ _ h1]
    simp only [visitReads, h2, h3]
  have hall : TableGrows E 0 kmers s3.res s3.kmers :=
    TableGrows_trans hg1.1 (TableGrows_trans hg2.1 hg3.1)
  obtain ⟨hmarked, hres⟩ := tableGrows_marked hall
  refine ⟨s1, s3, h1, hstep, ?_, ?_, ?_, fun i k hk hm _ => hmarked i k hk hm, hres⟩
  · constructor
    · rintro ⟨r', hr', hd'⟩
      by_contra hc
      have e := hnot' hc
      subst e
      rw [hp3 readno hnot, hr1] at hr'
      obtain rfl := Option.some.inj hr'
      rw [hdone] at hd'
      exact absurd hd' (by simp)
    · intro hc
      refine ⟨{ r with done := true }, ?_, rfl⟩
      rw [hp3 readno hnot]
      exact (hcov hc).1
  · intro hc p hp k hk hm
    obtain ⟨b, hb, -, hb'⟩ := hg1.1.2.2.1 p.2 k hk
    obtain ⟨k2, hk2, hk2'⟩ := (hcov hc).2 p hp
    obtain ⟨c, hc1, -, hc2⟩ := hg2.1.2.2.1 p.2 b hb
    obtain rfl : c = k2 := Option.some.inj (hc1.symm.trans hk2)
    obtain ⟨k3, hk3, hk3'⟩ := isGood_of_tableGrows hg3.1 p.2 c hk2
    refine ⟨k3, hk3, hk3' ?_⟩
    rcases hk2' with h | h
    · exact h
    · rcases hc2 with rfl | ⟨-, hgood, -⟩
      · rcases hb' with rfl | ⟨-, hgood, -⟩
        · rw [hm] at h; exact absurd h (by simp)
        · exact hgood
      · exact hgood
  · intro hc
    have e := hnot' hc
    subst e
    exact h2

/-- C14, instance of the amended claim: the read of the counterexample, whose k-mer 1 is
marked and not good for the iteration; the read is done after the step, the k-mer 1 is
left as it is and the step returns 0. -/
theorem IterativeExpansionStep_promotion_witness :
    ∃ s1 s3, visitReads (P := Nat) ⟨2, fun _ => 65, fun _ => 0, true, 0, 0, 0, 0, []⟩
        (codedEnv Nat (fun _ => [(0, 0), (1, 1), (2, 2)])) (List.range 0)
        ⟨0, [⟨0, ⟨1, 1003, 0, []⟩⟩, ⟨1, ⟨1, 1005, 0, []⟩⟩, ⟨2, ⟨1, 1003, 0, []⟩⟩],
          [⟨0, 4, 0, false⟩]⟩ = some s1 ∧
      IterativeExpansionStep (P := Nat) ⟨2, fun _ => 65, fun _ => 0, true, 0, 0, 0, 0, []⟩
        (codedEnv Nat (fun _ => [(0, 0), (1, 1), (2, 2)]))
        [⟨0, ⟨1, 1003, 0, []⟩⟩, ⟨1, ⟨1, 1005, 0, []⟩⟩, ⟨2, ⟨1, 1003, 0, []⟩⟩]
        [⟨0, 4, 0, false⟩] 1 = some s3 ∧
      s3.kmers[1]? = some ⟨1, ⟨1, 1005, 0, []⟩⟩ := by
  obtain ⟨s1, s3, h1, h3, -, -, -, h6, -⟩ := IterativeExpansionStep_promotion (P := Nat)
    ⟨2, fun _ => 65, fun _ => 0, true, 0, 0, 0, 0, []⟩
    (codedEnv Nat (fun _ => [(0, 0), (1, 1), (2, 2)])) (fun _ => rfl)
    [⟨0, ⟨1, 1003, 0, []⟩⟩, ⟨1, ⟨1, 1005, 0, []⟩⟩, ⟨2, ⟨1, 1003, 0, []⟩⟩]
    [⟨0, 4, 0, false⟩] 1 (by decide) 0 (by decide) ⟨0, 4, 0, false⟩ rfl rfl
  exact ⟨s1, s3, h1, h3, h6 1 _ rfl rfl rfl⟩


/-! ### `internalCorrectReadProcedure` and `CorrectOneRead` -/

theorem voteLoop_spec {P : Type} (G : Globals) (E : KMerEnv P) (read_size kmer pos : Nat)
    (n : Nat) : ∀ (j : Nat) (v : Nat → Nat → Int),
    (∀ i, j ≤ i → i < j + n → E.dignucl (G.blob (kmer + i)) < 4) →
    pos + j + n ≤ read_size →
    voteLoop G E read_size kmer pos n j v =
      some (fun k c =>
        if pos + j ≤ c ∧ c < pos + j + n ∧ k = E.dignucl (G.blob (kmer + (c - pos))) then
          v k c + 1
        else v k c) := by
  induction n with
  | zero =>
    intro j v _ _
    simp only [voteLoop, Option.some.injEq]
    funext k c
    rw [if_neg (by omega)]
  | succ n ih =>
    intro j v hl hs
    have h1 : E.dignucl (G.blob (kmer + j)) < 4 ∧ pos + j < read_size :=
      ⟨hl j (le_refl _) (by omega), by omega⟩
    simp only [voteLoop, if_pos h1]
    rw [ih (j + 1) _ (fun i hi1 hi2 => hl i (by omega) (by omega)) (by omega)]
    simp only [Option.some.injEq]
    funext k c
    by_cases hc : c = pos + j
    · subst hc
      have e : pos + j - pos = j := by omega
      have hout : ¬ (pos + (j + 1) ≤ pos + j ∧ pos + j < pos + (j + 1) + n ∧
          k = E.dignucl (G.blob (kmer + (pos + j - pos)))) := fun h => by omega
      rw [if_neg hout, e]
      by_cases hk : k = E.dignucl (G.blob (kmer + j))
      · rw [if_pos ⟨hk, rfl⟩, if_pos ⟨le_refl _, by omega, hk⟩]
      · rw [if_neg (fun h => hk h.1), if_neg (fun h => hk h.2.2)]
    · have hin : ¬ (k = E.dignucl (G.blob (kmer + j)) ∧ c = pos + j) := fun h => hc h.2
      simp only [if_neg hin]
      by_cases h : pos + (j + 1) ≤ c ∧ c < pos + (j + 1) + n ∧
          k = E.dignucl (G.blob (kmer + (c - pos)))
      · rw [if_pos h, if_pos ⟨by omega, by omega, h.2.2⟩]
      · rw [if_neg h, if_neg]
        rintro ⟨a1, a2, a3⟩
        exact h ⟨by omega, by omega, a3⟩

theorem voteLoop_eq_addKMer {P : Type} (G : Globals) (E : KMerEnv P)
    (read_size kmer pos : Nat) (v : Nat → Nat → Int)
    (hl : ∀ j, j < G.K → E.dignucl (G.blob (kmer + j)) < 4) (hs : pos + G.K ≤ read_size) :
    voteLoop G E read_size kmer pos G.K 0 v = some (addKMer G E kmer pos v) := by
  rw [voteLoop_spec G E read_size kmer pos G.K 0 v (fun i _ hi => hl i (by omega)) (by omega)]
  rfl

theorem addKMer_voted {P : Type} (G : Globals) (E : KMerEnv P) (kmer pos : Nat)
    (v : Nat → Nat → Int) (k c : Nat) :
    ((∃ j, j < G.K ∧ k = E.dignucl (G.blob (kmer + j)) ∧ c = pos + j) →
      addKMer G E kmer pos v k c = v k c + 1) ∧
    ((¬ ∃ j, j < G.K ∧ k = E.dignucl (G.blob (kmer + j)) ∧ c = pos + j) →
      addKMer G E kmer pos v k c = v k c) := by
  constructor
  · rintro ⟨j, hj, hk, rfl⟩
    have e : pos + j - pos = j := by omega
    simp only [addKMer]
    rw [if_pos ⟨by omega, by omega, by rw [e]; exact hk⟩]
  · intro h
    simp only [addKMer]
    rw [if_neg]
    rintro ⟨a1, a2, a3⟩
    exact h ⟨c - pos, by omega, a3, by omega⟩

theorem extendWindow_eq (st : VoteState) (pos : Nat) (v : Nat → Nat → Int)
    (h31 : pos < 2 ^ 31) :
    extendWindow st pos v = ⟨v, min st.left pos, max st.right pos, true⟩ := by
  have e : omnigraph.toInt32 pos = pos :=
    omnigraph.toInt32_of_lt pos (Int.natCast_nonneg pos) (by exact_mod_cast h31)
  have hl : (if (pos : Int) < st.left then (pos : Int) else st.left) = min st.left pos := by
    split_ifs with h
    · exact (min_eq_right (le_of_lt h)).symm
    · exact (min_eq_left (not_lt.1 h)).symm
  have hr : (if (pos : Int) > st.right then (pos : Int) else st.right) = max st.right pos := by
    split_ifs with h
    · exact (max_eq_right (le_of_lt h)).symm
    · exact (max_eq_left (not_lt.1 h)).symm
  simp only [extendWindow, e, hl, hr]

/-- The three cases of `internalCorrectReadProcedure` for a k-mer that lies inside the read
and is made of the four letters, as is the k-mer to change to, if there is one. -/
theorem internalCorrectReadProcedure_cases {P : Type} (G : Globals) (E : KMerEnv P)
    (read_size : Nat) (km : List (KMerCount P)) (kmer pos : Nat) (stat : KMerStat P)
    (st : VoteState) (correct_threshold discard_singletons : Bool)
    (hpos : pos + G.K ≤ read_size) (h31 : pos < 2 ^ 31)
    (hletters : ∀ j, j < G.K → E.dignucl (G.blob (kmer + j)) < 4)
    (htarget : E.change stat = true → ∃ t : KMerCount P, km[stat.changeto]? = some t ∧
      ∀ j, j < G.K → E.dignucl (G.blob (t.first + j)) < 4) :
    ((E.isGoodForIterative stat = true ∨ (correct_threshold = true ∧ E.isGood stat = true)) →
      internalCorrectReadProcedure G E read_size km kmer pos stat st correct_threshold
          discard_singletons =
        some (⟨addKMer G E kmer pos st.v, min st.left pos, max st.right pos, true⟩, false)) ∧
    (¬ (E.isGoodForIterative stat = true ∨ (correct_threshold = true ∧ E.isGood stat = true)) →
      ∀ t : KMerCount P, E.change stat = true → km[stat.changeto]? = some t →
        (discard_singletons = true ∨ E.isGoodForIterative t.second = true) →
      internalCorrectReadProcedure G E read_size km kmer pos stat st correct_threshold
          discard_singletons =
        some (⟨addKMer G E t.first pos st.v, min st.left pos, max st.right pos, true⟩, true)) ∧
    (¬ (E.isGoodForIterative stat = true ∨ (correct_threshold = true ∧ E.isGood stat = true)) →
      ¬ (E.change stat = true ∧ (discard_singletons = true ∨
        ∃ t : KMerCount P, km[stat.changeto]? = some t ∧
          E.isGoodForIterative t.second = true)) →
      internalCorrectReadProcedure G E read_size km kmer pos stat st correct_threshold
        discard_singletons = some (st, false)) := by
  refine ⟨?_, ?_, ?_⟩
  · intro h
    have hc : (E.isGoodForIterative stat || (correct_threshold && E.isGood stat)) = true := by
      simpa using h
    simp only [internalCorrectReadProcedure, hc, if_true,
      voteLoop_eq_addKMer G E read_size kmer pos st.v hletters hpos,
      extendWindow_eq st pos _ h31]
  · intro h t hch ht hadm
    obtain ⟨t', ht', hl'⟩ := htarget hch
    obtain rfl : t' = t := Option.some.inj (ht'.symm.trans ht)
    have hc : (E.isGoodForIterative stat || (correct_threshold && E.isGood stat)) = false := by
      rw [← Bool.not_eq_true]; simpa using h
    have hc2 : (discard_singletons || E.isGoodForIterative t'.second ||
        (correct_threshold && E.isGood stat)) = true := by
      rcases hadm with h1 | h1 <;> simp [h1]
    simp only [internalCorrectReadProcedure, hc, Bool.false_eq_true, if_false, hch, if_true,
      ht, hc2, voteLoop_eq_addKMer G E read_size t'.first pos st.v hl' hpos,
      extendWindow_eq st pos _ h31]
  · intro h hno
    have hc : (E.isGoodForIterative stat || (correct_threshold && E.isGood stat)) = false := by
      rw [← Bool.not_eq_true]; simpa using h
    by_cases hch : E.change stat = true
    · obtain ⟨t, ht, -⟩ := htarget hch
      have hc2 : (discard_singletons || E.isGoodForIterative t.second ||
          (correct_threshold && E.isGood stat)) = false := by
        have h1 : discard_singletons = false := by
          rw [← Bool.not_eq_true]; exact fun hd => hno ⟨hch, Or.inl hd⟩
        have h2 : E.isGoodForIterative t.second = false := by
          rw [← Bool.not_eq_true]; exact fun hg => hno ⟨hch, Or.inr ⟨t, ht, hg⟩⟩
        have h3 : (correct_threshold && E.isGood stat) = false := by
          rw [← Bool.not_eq_true]
          intro h4
          exact h (Or.inr (by simpa using h4))
        simp [h1, h2, h3]
      simp only [internalCorrectReadProcedure, hc, Bool.false_eq_true, if_false, hch, if_true,
        ht, hc2]
    · simp only [internalCorrectReadProcedure, hc, Bool.false_eq_true, if_false, hch]

/-- C15.  For a k-mer at blob offset `kmer` and position `pos < 2 ^ 31` that lies inside
the read and is made of the four letters (as is the k-mer to change to, if there is one):
(1) if it is good for the iteration, or the threshold is in use and it is good, the
procedure returns false, sets `isGood`, extends `left` and `right` to contain `pos`, and
adds one vote to each of the `K` cells (letter of the k-mer at `j`, column `pos + j`) and
to no other cell; (2) otherwise, if it has a k-mer to change to and only singletons are
discarded or that k-mer is good for the iteration, the same happens with the letters of
that k-mer and true is returned; (3) otherwise nothing changes and false is returned. -/
theorem internalCorrectReadProcedure_rule {P : Type} (G : Globals) (E : KMerEnv P)
    (read_size : Nat) (km : List (KMerCount P)) (kmer pos : Nat) (stat : KMerStat P)
    (st : VoteState) (correct_threshold discard_singletons : Bool)
    (hpos : pos + G.K ≤ read_size) (h31 : pos < 2 ^ 31)
    (hletters : ∀ j, j < G.K → E.dignucl (G.blob (kmer + j)) < 4)
    (htarget : E.change stat = true → ∃ t : KMerCount P, km[stat.changeto]? = some t ∧
      ∀ j, j < G.K → E.dignucl (G.blob (t.first + j)) < 4) :
    ((E.isGoodForIterative stat = true ∨ (correct_threshold = true ∧ E.isGood stat = true)) →
      ∃ v', internalCorrectReadProcedure G E read_size km kmer pos stat st correct_threshold
          discard_singletons = some (⟨v', min st.left pos, max st.right pos, true⟩, false) ∧
        ∀ k c, ((∃ j, j < G.K ∧ k = E.dignucl (G.blob (kmer + j)) ∧ c = pos + j) →
            v' k c = st.v k c + 1) ∧
          ((¬ ∃ j, j < G.K ∧ k = E.dignucl (G.blob (kmer + j)) ∧ c = pos + j) →
            v' k c = st.v k c)) ∧
    (¬ (E.isGoodForIterative stat = true ∨ (correct_threshold = true ∧ E.isGood stat = true)) →
      ∀ t : KMerCount P, E.change stat = true → km[stat.changeto]? = some t →
        (discard_singletons = true ∨ E.isGoodForIterative t.second = true) →
      ∃ v', internalCorrectReadProcedure G E read_size km kmer pos stat st correct_threshold
          discard_singletons = some (⟨v', min st.left pos, max st.right pos, true⟩, true) ∧
        ∀ k c, ((∃ j, j < G.K ∧ k = E.dignucl (G.blob (t.first + j)) ∧ c = pos + j) →
            v' k c = st.v k c + 1) ∧
          ((¬ ∃ j, j < G.K ∧ k = E.dignucl (G.blob (t.first + j)) ∧ c = pos + j) →
            v' k c = st.v k c)) ∧
    (¬ (E.isGoodForIterative stat = true ∨ (correct_threshold = true ∧ E.isGood stat = true)) →
      ¬ (E.change stat = true ∧ (discard_singletons = true ∨
        ∃ t : KMerCount P, km[stat.changeto]? = some t ∧
          E.isGoodForIterative t.second = true)) →
      internalCorrectReadProcedure G E read_size km kmer pos stat st correct_threshold
        discard_singletons = some (st, false)) := by
  obtain ⟨h1, h2, h3⟩ := internalCorrectReadProcedure_cases G E read_size km kmer pos stat st
    correct_threshold discard_singletons hpos h31 hletters htarget
  exact ⟨fun h => ⟨_, h1 h, fun k c => addKMer_voted G E kmer pos st.v k c⟩,
    fun h t hch ht hadm => ⟨_, h2 h t hch ht hadm,
      fun k c => addKMer_voted G E t.first pos st.v k c⟩, h3⟩

/-- C15, instance: `K = 2`, the blob `C G C A C`, a read of size 3; the k-mer `CG` at
position 0 is good for the iteration and votes for `C` in column 0 and `G` in column 1. -/
theorem internalCorrectReadProcedure_rule_witness :
    ∃ v', internalCorrectReadProcedure (P := Nat)
        ⟨2, fun i => [67, 71, 67, 65, 67].getD i 0, fun _ => 0, true, 0, 0, 0, 0, []⟩
        (codedEnv Nat (fun _ => [(0, 0), (1, 1)])) 3
        [⟨0, ⟨1, 1003, 0, []⟩⟩, ⟨1, ⟨1, 2, 0, []⟩⟩, ⟨3, ⟨1, 1003, 0, []⟩⟩] 0 0
        ⟨1, 1003, 0, []⟩ ⟨fun _ _ => 0, 3, -1, false⟩ false false
        = some (⟨v', min 3 ((0 : Nat) : Int), max (-1) ((0 : Nat) : Int), true⟩, false) ∧
      v' 1 0 = 1 ∧ v' 2 1 = 1 ∧ v' 0 0 = 0 := by
  obtain ⟨v', h1, h2⟩ := (internalCorrectReadProcedure_rule (P := Nat)
    ⟨2, fun i => [67, 71, 67, 65, 67].getD i 0, fun _ => 0, true, 0, 0, 0, 0, []⟩
    (codedEnv Nat (fun _ => [(0, 0), (1, 1)])) 3
    [⟨0, ⟨1, 1003, 0, []⟩⟩, ⟨1, ⟨1, 2, 0, []⟩⟩, ⟨3, ⟨1, 1003, 0, []⟩⟩] 0 0
    ⟨1, 1003, 0, []⟩ ⟨fun _ _ => 0, 3, -1, false⟩ false false (by decide) (by decide)
    (by decide) (fun h => absurd h (by decide))).1 (Or.inl rfl)
  refine ⟨v', h1, ?_, ?_, ?_⟩
  · exact (h2 1 0).1 ⟨0, by decide, by decide, by decide⟩
  · exact (h2 2 1).1 ⟨1, by decide, by decide, by decide⟩
  · exact (h2 0 0).2 (by decide)


theorem consensusLetter_eq {P : Type} (E : KMerEnv P) (v : Nat → Nat → Int) (j c : Nat) :
    consensusLetter E v j c =
      if v 3 j > (if v 2 j > (if v 1 j > (if v 0 j > 0 then v 0 j else 0) then v 1 j
            else (if v 0 j > 0 then v 0 j else 0)) then v 2 j
          else (if v 1 j > (if v 0 j > 0 then v 0 j else 0) then v 1 j
            else (if v 0 j > 0 then v 0 j else 0))) then (E.nucl 3, v 3 j)
      else if v 2 j > (if v 1 j > (if v 0 j > 0 then v 0 j else 0) then v 1 j
            else (if v 0 j > 0 then v 0 j else 0)) then (E.nucl 2, v 2 j)
      else if v 1 j > (if v 0 j > 0 then v 0 j else 0) then (E.nucl 1, v 1 j)
      else if v 0 j > 0 then (E.nucl 0, v 0 j)
      else (c, 0) := by
  have hr : List.range 4 = [0, 1, 2, 3] := by decide
  simp only [consensusLetter, hr, List.foldl]
  split_ifs <;> simp_all

/-- The inner loop of the consensus: without a positive count the input letter is kept;
otherwise the letter chosen is the first one, in the order of the codes 0, 1, 2, 3, among
those with the greatest count. -/
theorem consensusLetter_spec {P : Type} (E : KMerEnv P) (v : Nat → Nat → Int) (j c : Nat) :
    ((∀ k, k < 4 → v k j ≤ 0) → consensusLetter E v j c = (c, 0)) ∧
    ((∃ k, k < 4 ∧ 0 < v k j) →
      ∃ k, k < 4 ∧ consensusLetter E v j c = (E.nucl k, v k j) ∧ 0 < v k j ∧
        (∀ k', k' < 4 → v k' j ≤ v k j) ∧ (∀ k', k' < k → v k' j < v k j)) := by
  rw [consensusLetter_eq]
  constructor
  · intro h
    have h0 := h 0 (by decide)
    have h1 := h 1 (by decide)
    have h2 := h 2 (by decide)
    have h3 := h 3 (by decide)
    split_ifs <;> first | rfl | omega
  · rintro ⟨k0, hk0, hpos⟩
    have hex : 0 < v 0 j ∨ 0 < v 1 j ∨ 0 < v 2 j ∨ 0 < v 3 j := by
      interval_cases k0
      · exact Or.inl hpos
      · exact Or.inr (Or.inl hpos)
      · exact Or.inr (Or.inr (Or.inl hpos))
      · exact Or.inr (Or.inr (Or.inr hpos))
    split_ifs <;>
      first
        | (refine ⟨3, by decide, rfl, by omega, fun k' hk' => ?_, fun k' hk' => ?_⟩ <;>
            interval_cases k' <;> omega)
        | (refine ⟨2, by decide, rfl, by omega, fun k' hk' => ?_, fun k' hk' => ?_⟩ <;>
            interval_cases k' <;> omega)
        | (refine ⟨1, by decide, rfl, by omega, fun k' hk' => ?_, fun k' hk' => ?_⟩ <;>
            interval_cases k' <;> omega)
        | (refine ⟨0, by decide, rfl, by omega, fun k' hk' => ?_, fun k' hk' => ?_⟩ <;>
            interval_cases k' <;> omega)
        | omega


/-- C16, counterexample.  `K = 2`, the blob `C G C A C`, the read `CGC` at offset 0 with
the k-mers `CG` (position 0, good for the iteration) and `GC` (position 1, to be changed to
the k-mer `AC` at offset 3, which is good for the iteration).  Column 1 gets one vote for
`A` (code 0) and one for the input letter `G` (code 2), a tie at the greatest count, and
the letter emitted at position 1 is `A`, not the input letter `G`. -/
theorem CorrectOneRead_tie_counterexample :
    (readVotes (P := Nat)
        ⟨2, fun i => [67, 71, 67, 65, 67].getD i 0, fun _ => 0, true, 0, 0, 0, 0, []⟩
        (codedEnv Nat (fun _ => [(0, 0), (1, 1)]))
        [⟨0, ⟨1, 1003, 0, []⟩⟩, ⟨1, ⟨1, 2, 0, []⟩⟩, ⟨3, ⟨1, 1003, 0, []⟩⟩] 0 ⟨0, 3, 0, false⟩
        false false).map (fun o => (o.1.v 0 1, o.1.v 1 1, o.1.v 2 1, o.1.v 3 1))
      = some (1, 0, 1, 0) ∧
    readSequence ⟨2, fun i => [67, 71, 67, 65, 67].getD i 0, fun _ => 0, true, 0, 0, 0, 0, []⟩
      ⟨0, 3, 0, false⟩ = [67, 71, 67] ∧
    (codedEnv Nat (fun _ => [(0, 0), (1, 1)])).dignucl 71 = 2 ∧
    CorrectOneRead (P := Nat)
        ⟨2, fun i => [67, 71, 67, 65, 67].getD i 0, fun _ => 0, true, 0, 0, 0, 0, []⟩
        (codedEnv Nat (fun _ => [(0, 0), (1, 1)]))
        [⟨0, ⟨1, 1003, 0, []⟩⟩, ⟨1, ⟨1, 2, 0, []⟩⟩, ⟨3, ⟨1, 1003, 0, []⟩⟩] [⟨0, 3, 0, false⟩]
        0 0 0 ⟨[67, 71, 67], [1, 1, 1]⟩ false false
      = some ⟨true, ⟨[67, 65, 67], [1, 1, 1]⟩, 1, 1⟩ := by
  decide

/-- C16, amended.  For every vote matrix `v`, string `seq` and position `j` with input
letter `c`, the consensus (the string that `CorrectOneRead` trims and emits) has a letter
at `j`; it is the input letter when no letter has a positive count in column `j`;
otherwise it is the letter of the first code, in the order 0, 1, 2, 3 (`A`, `C`, `G`,
`T`), among those with the greatest count in column `j`: a tie goes to the lowest code,
whether or not the input letter is among the tied ones. -/
theorem consensus_first_maximum {P : Type} (E : KMerEnv P) (v : Nat → Nat → Int)
    (seq : List Nat) (j c : Nat) (hc : seq[j]? = some c) :
    ∃ x, (consensus E v seq)[j]? = some x ∧
      ((∀ k, k < 4 → v k j ≤ 0) → x = c) ∧
      ((∃ k, k < 4 ∧ 0 < v k j) →
        ∃ k, k < 4 ∧ x = E.nucl k ∧ 0 < v k j ∧ (∀ k', k' < 4 → v k' j ≤ v k j) ∧
          (∀ k', k' < k → v k' j < v k j)) := by
  refine ⟨(consensusLetter E v j c).1, ?_, ?_, ?_⟩
  · simp [consensus, List.getElem?_enum, hc]
  · intro h
    rw [(consensusLetter_spec E v j c).1 h]
  · intro h
    obtain ⟨k, hk, he, hp, hmax, hfirst⟩ := (consensusLetter_spec E v j c).2 h
    exact ⟨k, hk, by rw [he], hp, hmax, hfirst⟩

/-- C16, instance of the amended claim: the column 1 of the counterexample, with one vote
for code 0 and one for code 2 and the input letter `G`; the consensus has `A` there. -/
theorem consensus_first_maximum_witness :
    ∃ x, (consensus (codedEnv Nat (fun _ => []))
        (fun k c => if c = 1 ∧ (k = 0 ∨ k = 2) then 1 else 0) [67, 71, 67])[1]? = some x ∧
      ∃ k, k < 4 ∧ x = (codedEnv Nat (fun _ => [])).nucl k ∧
        ∀ k', k' < k → (if (1 : Nat) = 1 ∧ (k' = 0 ∨ k' = 2) then (1 : Int) else 0)
          < (if (1 : Nat) = 1 ∧ (k = 0 ∨ k = 2) then (1 : Int) else 0) := by
  obtain ⟨x, h1, -, h3⟩ := consensus_first_maximum (codedEnv Nat (fun _ => []))
    (fun k c => if c = 1 ∧ (k = 0 ∨ k = 2) then 1 else 0) [67, 71, 67] 1 71 rfl
  obtain ⟨k, hk, hx, -, -, hf⟩ := h3 ⟨0, by decide, by decide⟩
  exact ⟨x, h1, k, hk, hx, hf⟩


/-- The `while` loop of `CorrectOneRead` over k-mers that can be voted on yields a result,
and `isGood` holds afterwards exactly when it held before or one of the k-mers casts a
vote. -/
theorem voteAll_isGood {P : Type} (G : Globals) (E : KMerEnv P) (kmers : List (KMerCount P))
    (read_size : Nat) (ct ds : Bool) (pairs : List (Nat × Nat)) :
    ∀ (st : VoteState) (changedRead : Bool),
    (∀ p ∈ pairs, p.1 + G.K ≤ read_size ∧ p.1 < 2 ^ 31 ∧
      ∃ kmc : KMerCount P, kmers[p.2]? = some kmc ∧
        (∀ j, j < G.K → E.dignucl (G.blob (kmc.first + j)) < 4) ∧
        (E.change kmc.second = true →
          ∃ t : KMerCount P, kmers[kmc.second.changeto]? = some t ∧
            ∀ j, j < G.K → E.dignucl (G.blob (t.first + j)) < 4)) →
    (changedRead = true → st.isGood = true) →
    ∃ st' b, voteAll G E kmers read_size ct ds pairs st changedRead = some (st', b) ∧
      (st'.isGood = true ↔ (st.isGood = true ∨ ∃ p ∈ pairs, ∃ kmc : KMerCount P,
        kmers[p.2]? = some kmc ∧ CastsVote E kmers ct ds kmc.second)) := by
  induction pairs with
  | nil =>
    intro st b _ _
    exact ⟨st, b, rfl, by simp⟩
  | cons q rest ih =>
    intro st b hin hb
    obtain ⟨pos, idx⟩ := q
    obtain ⟨h1, h2, kmc, hk, hl, ht⟩ := hin (pos, idx) (List.mem_cons_self _ _)
    simp only at h1 h2 hk
    have hrest := fun p hp => hin p (List.mem_cons_of_mem (pos, idx) hp)
    by_cases hcr : b = true
    · subst hcr
      obtain ⟨st', b', e1, e2⟩ := ih st true hrest hb
      refine ⟨st', b', by simp only [voteAll, hk, if_true, e1], ?_⟩
      have hg := hb rfl
      rw [e2]
      simp [hg]
    · have hcr' : b = false := by simpa using hcr
      subst hcr'
      obtain ⟨c1, c2, c3⟩ := internalCorrectReadProcedure_cases G E read_size kmers kmc.first pos
        kmc.second st ct ds h1 h2 hl ht
      by_cases hc1 : E.isGoodForIterative kmc.second = true ∨
          (ct = true ∧ E.isGood kmc.second = true)
      · obtain ⟨st', b', e1, e2⟩ := ih
          ⟨addKMer G E kmc.first pos st.v, min st.left pos, max st.right pos, true⟩ false hrest
          (fun h => rfl)
        refine ⟨st', b', by simp only [voteAll, hk, Bool.false_eq_true, if_false, c1 hc1, e1],
          ?_⟩
        rw [e2]
        simp only [true_or, true_iff]
        refine Or.inr ⟨(pos, idx), List.mem_cons_self _ _, kmc, hk, ?_⟩
        rcases hc1 with h | h
        · exact Or.inl h
        · exact Or.inr (Or.inl h)
      · by_cases hc2 : E.change kmc.second = true ∧ (ds = true ∨
            ∃ t : KMerCount P, kmers[kmc.second.changeto]? = some t ∧
              E.isGoodForIterative t.second = true)
        · obtain ⟨t, htt, -⟩ := ht hc2.1
          have hadm : ds = true ∨ E.isGoodForIterative t.second = true := by
            rcases hc2.2 with h | ⟨t', ht', hg⟩
            · exact Or.inl h
            · obtain rfl : t' = t := Option.some.inj (ht'.symm.trans htt)
              exact Or.inr hg
          obtain ⟨st', b', e1, e2⟩ := ih
            ⟨addKMer G E t.first pos st.v, min st.left pos, max st.right pos, true⟩ true hrest
            (fun _ => rfl)
          refine ⟨st', b', by
            simp only [voteAll, hk, Bool.false_eq_true, if_false, c2 hc1 t hc2.1 htt hadm, e1],
            ?_⟩
          rw [e2]
          simp only [true_or, true_iff]
          exact Or.inr ⟨(pos, idx), List.mem_cons_self _ _, kmc, hk, Or.inr (Or.inr hc2)⟩
        · obtain ⟨st', b', e1, e2⟩ := ih st false hrest (fun h => absurd h (by simp))
          refine ⟨st', b', by
            simp only [voteAll, hk, Bool.false_eq_true, if_false, c3 hc1 hc2, e1], ?_⟩
          rw [e2]
          constructor
          · rintro (h | ⟨p, hp, hh⟩)
            · exact Or.inl h
            · exact Or.inr ⟨p, List.mem_cons_of_mem _ hp, hh⟩
          · rintro (h | ⟨p, hp, kmc', hk', hv⟩)
            · exact Or.inl h
            · rcases List.mem_cons.1 hp with rfl | hmem
              · simp only at hk'
                obtain rfl : kmc' = kmc := Option.some.inj (hk'.symm.trans hk)
                rcases hv with h | h | h
                · exact absurd (Or.inl h) hc1
                · exact absurd (Or.inr h) hc1
                · exact absurd h hc2
              · exact Or.inr ⟨p, hmem, kmc', hk', hv⟩

theorem CorrectOneRead_eq {P : Type} (G : Globals) (E : KMerEnv P)
    (kmers : List (KMerCount P)) (pr : List PositionRead) (cr cn readno : Nat) (r : Read)
    (ct ds : Bool) (p : PositionRead) (hp : pr[readno]? = some p) (st : VoteState) (b : Bool)
    (hv : readVotes G E kmers readno p ct ds = some (st, b)) :
    CorrectOneRead G E kmers pr cr cn readno r ct ds =
      some
        { isGood := st.isGood
          r := Read.trimLeftRight ⟨consensus E st.v (readSequence G p), r.qual⟩
            (mergeWindow G.K p.size st.left st.right).1
            (omnigraph.toInt32 ((mergeWindow G.K p.size st.left st.right).2 + G.K - 1))
          changedReads :=
            if 0 < changedLetters E st.v (readSequence G p) then cr + 1 else cr
          changedNucleotides := cn + changedLetters E st.v (readSequence G p) } := by
  simp only [CorrectOneRead, hp, hv]

theorem VotesInRange_spec {P : Type} {G : Globals} {E : KMerEnv P}
    {kmers : List (KMerCount P)} {readno size : Nat} (h : VotesInRange G E kmers readno size) :
    ∀ p ∈ E.nextKMerNo readno, p.1 + G.K ≤ size ∧ p.1 < 2 ^ 31 ∧
      ∃ kmc : KMerCount P, kmers[p.2]? = some kmc ∧
        (∀ j, j < G.K → E.dignucl (G.blob (kmc.first + j)) < 4) ∧
        (E.change kmc.second = true →
          ∃ t : KMerCount P, kmers[kmc.second.changeto]? = some t ∧
            ∀ j, j < G.K → E.dignucl (G.blob (t.first + j)) < 4) := by
  intro p hp
  obtain ⟨h1, h2, h3, h4⟩ := h p hp
  have hk : kmers[p.2]? = some kmers[p.2] := List.getElem?_eq_getElem h3
  obtain ⟨h5, h6⟩ := h4 _ hk
  refine ⟨h1, h2, _, hk, h5, fun hc => ?_⟩
  obtain ⟨h7, h8⟩ := h6 hc
  have ht : kmers[kmers[p.2].second.changeto]? = some kmers[kmers[p.2].second.changeto] :=
    List.getElem?_eq_getElem h7
  exact ⟨_, ht, h8 _ ht⟩

/-- The value returned by `CorrectOneRead` for a read whose k-mers can be voted on. -/
theorem CorrectOneRead_isGood {P : Type} (G : Globals) (E : KMerEnv P)
    (kmers : List (KMerCount P)) (pr : List PositionRead) (cr cn readno : Nat) (r : Read)
    (ct ds : Bool) (p : PositionRead) (hp : pr[readno]? = some p)
    (hin : VotesInRange G E kmers readno p.size) :
    ∃ o, CorrectOneRead G E kmers pr cr cn readno r ct ds = some o ∧
      (o.isGood = true ↔ ∃ q ∈ E.nextKMerNo readno, ∃ kmc : KMerCount P,
        kmers[q.2]? = some kmc ∧ CastsVote E kmers ct ds kmc.second) := by
  obtain ⟨st', b, e1, e2⟩ := voteAll_isGood G E kmers p.size ct ds (E.nextKMerNo readno)
    ⟨fun _ _ => 0, omnigraph.toInt32 p.size, -1, false⟩ false (VotesInRange_spec hin)
    (fun h => absurd h (by simp))
  refine ⟨_, CorrectOneRead_eq G E kmers pr cr cn readno r ct ds p hp st' b e1, ?_⟩
  simp only [e2, Bool.false_eq_true, false_or]

/-- The loop of `CorrectReadFile`: each trimmed read that is at least `K` long is printed
to exactly one of the two streams, chosen by the value `CorrectOneRead` returns for it. -/
theorem CorrectReadFile_spec {P : Type} (G : Globals) (E : KMerEnv P) (R : ReadEnv)
    (kmers : List (KMerCount P)) (pr : List PositionRead) (ct ds : Bool)
    (reads : List Read) : ∀ st : FileState,
    (∀ i, i < ((reads.map R.trimNsAndBadQuality).filter
        (fun r => decide (G.K ≤ r.seq.length))).length →
      ∃ p : PositionRead, pr[st.readno + i]? = some p ∧
        VotesInRange G E kmers (st.readno + i) p.size) →
    ∃ (st' : FileState) (outs : List CorrectOutcome),
      CorrectReadFile G E R kmers pr ct ds reads st = some st' ∧
      outs.length = ((reads.map R.trimNsAndBadQuality).filter
        (fun r => decide (G.K ≤ r.seq.length))).length ∧
      st'.readno = st.readno + outs.length ∧
      st'.outf_good = st.outf_good ++ (outs.filter (fun o => o.isGood)).map (fun o => o.r) ∧
      st'.outf_bad = st.outf_bad ++ (outs.filter (fun o => !o.isGood)).map (fun o => o.r) ∧
      ∀ (i : Nat) (r : Read) (o : CorrectOutcome),
        ((reads.map R.trimNsAndBadQuality).filter
          (fun r => decide (G.K ≤ r.seq.length)))[i]? = some r → outs[i]? = some o →
        ∃ cr cn, CorrectOneRead G E kmers pr cr cn (st.readno + i) r ct ds = some o := by
  induction reads with
  | nil =>
    intro st _
    exact ⟨st, [], rfl, rfl, rfl, by simp, by simp, fun i r o h => by simp at h⟩
  | cons r0 rest ih =>
    intro st hin
    by_cases hK : (R.trimNsAndBadQuality r0).seq.length < G.K
    · have hf : ((r0 :: rest).map R.trimNsAndBadQuality).filter
          (fun r => decide (G.K ≤ r.seq.length)) =
          (rest.map R.trimNsAndBadQuality).filter (fun r => decide (G.K ≤ r.seq.length)) := by
        rw [List.map_cons, List.filter_cons_of_neg (by simp; omega)]
      rw [hf] at hin ⊢
      obtain ⟨st', outs, e1, e2⟩ := ih st hin
      exact ⟨st', outs, by simp only [CorrectReadFile, correctStep, if_pos hK, e1], e2⟩
    · have hf : ((r0 :: rest).map R.trimNsAndBadQuality).filter
          (fun r => decide (G.K ≤ r.seq.length)) =
          R.trimNsAndBadQuality r0 :: (rest.map R.trimNsAndBadQuality).filter
            (fun r => decide (G.K ≤ r.seq.length)) := by
        rw [List.map_cons, List.filter_cons_of_pos (by simp; omega)]
      rw [hf] at hin ⊢
      obtain ⟨p, hp, hv⟩ := hin 0 (by simp)
      obtain ⟨o, ho, -⟩ := CorrectOneRead_isGood G E kmers pr st.changedReads
        st.changedNucleotides (st.readno + 0) (R.trimNsAndBadQuality r0) ct ds p hp hv
      rw [Nat.add_zero] at ho
      obtain ⟨st', outs, e1, e2, e3, e4, e5, e6⟩ := ih
        { changedReads := o.changedReads
          changedNucleotides := o.changedNucleotides
          readno := st.readno + 1
          outf_good := if o.isGood then st.outf_good ++ [o.r] else st.outf_good
          outf_bad := if o.isGood then st.outf_bad else st.outf_bad ++ [o.r] }
        (fun i hi => by
          have := hin (i + 1) (by simpa using hi)
          simpa [Nat.add_assoc, Nat.add_comm 1 i] using this)
      refine ⟨st', o :: outs, ?_, by simp [e2], ?_, ?_, ?_, ?_⟩
      · simp only [CorrectReadFile, correctStep, if_neg hK, ho, e1]
      · rw [e3]; simp only [List.length_cons]; omega
      · rw [e4]
        cases hg : o.isGood <;> simp [hg]
      · rw [e5]
        cases hg : o.isGood <;> simp [hg]
      · intro i r o' hr ho'
        cases i with
        | zero =>
          simp only [List.getElem?_cons_zero, Option.some.injEq] at hr ho'
          subst hr; subst ho'
          exact ⟨_, _, ho⟩
        | succ i =>
          simp only [List.getElem?_cons_succ] at hr ho'
          obtain ⟨cr, cn, h⟩ := e6 i r o' hr ho'
          refine ⟨cr, cn, ?_⟩
          rw [← h]
          simp only [Nat.add_assoc, Nat.add_comm 1 i]

theorem length_le_one_of_zero (l : List (Nat × Nat)) (hnd : (l.map (fun p => p.1)).Nodup)
    (h0 : ∀ p ∈ l, p.1 = 0) : l = [] ∨ ∃ idx, l = [(0, idx)] := by
  match l, hnd, h0 with
  | [], _, _ => exact Or.inl rfl
  | [(a, b)], _, h0 =>
    have := h0 (a, b) (List.mem_cons_self _ _)
    simp only at this
    subst this
    exact Or.inr ⟨b, rfl⟩
  | x :: y :: rest, hnd, h0 =>
    have hx := h0 x (List.mem_cons_self _ _)
    have hy := h0 y (List.mem_cons_of_mem _ (List.mem_cons_self _ _))
    simp only [List.map_cons, List.nodup_cons, List.mem_cons, not_or] at hnd
    exact absurd (hx.trans hy.symm) hnd.1.1

/-- C17.  For the reads of a file whose trimmed reads of size at least `K` are reads of the
table (from number `st.readno` on) with k-mers that can be voted on, `CorrectReadFile`
returns; each such read, and no other, has an outcome of `CorrectOneRead`, in order; the
value returned is true exactly when one of the k-mers of the read casts a vote; the reads
with the value true are appended, in order, to the corrected stream and the others to the
bad stream, so each is printed to exactly one of them; and a read of size exactly `K`,
whose k-mers have different positions, has no k-mer and is bad, or has one k-mer, at
position 0, and is good exactly when that k-mer casts a vote. -/
theorem CorrectReadFile_classification {P : Type} (G : Globals) (E : KMerEnv P) (R : ReadEnv)
    (kmers : List (KMerCount P)) (pr : List PositionRead) (ct ds : Bool)
    (reads : List Read) (st : FileState)
    (hin : ∀ i, i < ((reads.map R.trimNsAndBadQuality).filter
        (fun r => decide (G.K ≤ r.seq.length))).length →
      ∃ p : PositionRead, pr[st.readno + i]? = some p ∧
        VotesInRange G E kmers (st.readno + i) p.size) :
    ∃ (st' : FileState) (outs : List CorrectOutcome),
      CorrectReadFile G E R kmers pr ct ds reads st = some st' ∧
      outs.length = ((reads.map R.trimNsAndBadQuality).filter
        (fun r => decide (G.K ≤ r.seq.length))).length ∧
      st'.outf_good = st.outf_good ++ (outs.filter (fun o => o.isGood)).map (fun o => o.r) ∧
      st'.outf_bad = st.outf_bad ++ (outs.filter (fun o => !o.isGood)).map (fun o => o.r) ∧
      st'.outf_good.length + st'.outf_bad.length =
        st.outf_good.length + st.outf_bad.length + outs.length ∧
      ∀ (i : Nat) (r : Read) (o : CorrectOutcome),
        ((reads.map R.trimNsAndBadQuality).filter
          (fun r => decide (G.K ≤ r.seq.length)))[i]? = some r → outs[i]? = some o →
        ∃ (cr cn : Nat) (p : PositionRead), pr[st.readno + i]? = some p ∧
          CorrectOneRead G E kmers pr cr cn (st.readno + i) r ct ds = some o ∧
          (o.isGood = true ↔ ∃ q ∈ E.nextKMerNo (st.readno + i), ∃ kmc : KMerCount P,
            kmers[q.2]? = some kmc ∧ CastsVote E kmers ct ds kmc.second) ∧
          (p.size = G.K → ((E.nextKMerNo (st.readno + i)).map (fun q => q.1)).Nodup →
            (E.nextKMerNo (st.readno + i) = [] ∧ o.isGood = false) ∨
            ∃ (idx : Nat) (kmc : KMerCount P), E.nextKMerNo (st.readno + i) = [(0, idx)] ∧
              kmers[idx]? = some kmc ∧
              (o.isGood = true ↔ CastsVote E kmers ct ds kmc.second)) := by
  obtain ⟨st', outs, e1, e2, -, e4, e5, e6⟩ :=
    CorrectReadFile_spec G E R kmers pr ct ds reads st hin
  refine ⟨st', outs, e1, e2, e4, e5, ?_, ?_⟩
  · rw [e4, e5]
    simp only [List.length_append, List.length_map]
    have := List.length_eq_length_filter_add (l := outs) (fun o => o.isGood)
    omega
  · intro i r o hr ho
    obtain ⟨cr, cn, hc⟩ := e6 i r o hr ho
    obtain ⟨p, hp, hv⟩ := hin i (by rw [← e2]; exact (List.getElem?_eq_some.1 ho).1)
    obtain ⟨o', ho', hiff⟩ := CorrectOneRead_isGood G E kmers pr cr cn (st.readno + i) r ct ds
      p hp hv
    obtain rfl : o' = o := Option.some.inj (ho'.symm.trans hc)
    refine ⟨cr, cn, p, hp, hc, hiff, ?_⟩
    intro hK hnd
    have h0 : ∀ q ∈ E.nextKMerNo (st.readno + i), q.1 = 0 := by
      intro q hq
      have := (hv q hq).1
      omega
    rcases length_le_one_of_zero _ hnd h0 with hnil | ⟨idx, hone⟩
    · refine Or.inl ⟨hnil, ?_⟩
      rw [← Bool.not_eq_true, hiff, hnil]
      simp
    · obtain ⟨-, -, kmc, hk, -⟩ := VotesInRange_spec hv (0, idx)
        (by rw [hone]; exact List.mem_cons_self _ _)
      refine Or.inr ⟨idx, kmc, hone, hk, ?_⟩
      rw [hiff, hone]
      constructor
      · rintro ⟨q, hq, kmc', hk', hcast⟩
        simp only [List.mem_singleton] at hq
        subst hq
        obtain rfl : kmc' = kmc := Option.some.inj (hk'.symm.trans hk)
        exact hcast
      · intro hcast
        exact ⟨(0, idx), List.mem_cons_self _ _, kmc, hk, hcast⟩


/-- C17, instance: `K = 2`, the blob `C G C A C` with the read `CGC` at offset 0, whose
k-mer `CG` is good for the iteration and whose k-mer `GC` is to be changed to `AC`; the
file holds this read and the read `A`, too short to be kept: the first is printed to the
corrected stream, as `CAC`, and nothing is printed to the bad stream. -/
theorem CorrectReadFile_classification_witness :
    CorrectReadFile (P := Nat)
        ⟨2, fun i => [67, 71, 67, 65, 67].getD i 0, fun _ => 0, true, 0, 0, 0, 0, []⟩
        (codedEnv Nat (fun _ => [(0, 0), (1, 1)])) ⟨id, 33⟩
        [⟨0, ⟨1, 1003, 0, []⟩⟩, ⟨1, ⟨1, 2, 0, []⟩⟩, ⟨3, ⟨1, 1003, 0, []⟩⟩] [⟨0, 3, 0, false⟩]
        false false [⟨[67, 71, 67], [1, 1, 1]⟩, ⟨[65], [1]⟩] ⟨0, 0, 0, [], []⟩
      = some ⟨1, 1, 1, [⟨[67, 65, 67], [1, 1, 1]⟩], []⟩ ∧
    ∃ (st' : FileState) (outs : List CorrectOutcome),
      CorrectReadFile (P := Nat)
        ⟨2, fun i => [67, 71, 67, 65, 67].getD i 0, fun _ => 0, true, 0, 0, 0, 0, []⟩
        (codedEnv Nat (fun _ => [(0, 0), (1, 1)])) ⟨id, 33⟩
        [⟨0, ⟨1, 1003, 0, []⟩⟩, ⟨1, ⟨1, 2, 0, []⟩⟩, ⟨3, ⟨1, 1003, 0, []⟩⟩] [⟨0, 3, 0, false⟩]
        false false [⟨[67, 71, 67], [1, 1, 1]⟩, ⟨[65], [1]⟩] ⟨0, 0, 0, [], []⟩ = some st' ∧
      outs.length = 1 := by
  refine ⟨by decide, ?_⟩
  obtain ⟨st', outs, h1, h2, -⟩ := CorrectReadFile_classification (P := Nat)
    ⟨2, fun i => [67, 71, 67, 65, 67].getD i 0, fun _ => 0, true, 0, 0, 0, 0, []⟩
    (codedEnv Nat (fun _ => [(0, 0), (1, 1)])) ⟨id, 33⟩
    [⟨0, ⟨1, 1003, 0, []⟩⟩, ⟨1, ⟨1, 2, 0, []⟩⟩, ⟨3, ⟨1, 1003, 0, []⟩⟩] [⟨0, 3, 0, false⟩]
    false false [⟨[67, 71, 67], [1, 1, 1]⟩, ⟨[65], [1]⟩] ⟨0, 0, 0, [], []⟩
    (by
      intro i hi
      have hi' : i = 0 := by
        have : i < 1 := hi
        omega
      subst hi'
      exact ⟨⟨0, 3, 0, false⟩, rfl, by decide⟩)
  exact ⟨st', outs, h1, h2⟩


/-! ### `CorrectPairedReadFiles` -/

/-- The writing loop of a batch. -/
theorem writeBatch_spec (ys : List PairResult) : ∀ st : PairedState,
    (ys.foldl writePair st).changedReads = st.changedReads ∧
    (ys.foldl writePair st).changedNucleotides = st.changedNucleotides ∧
    (ys.foldl writePair st).readno_left = st.readno_left ∧
    (ys.foldl writePair st).readno_right = st.readno_right ∧
    (ys.foldl writePair st).ofbadl =
      st.ofbadl ++ (ys.filter (fun y => !y.left_res)).map (fun y => y.l) ∧
    (ys.foldl writePair st).ofbadr =
      st.ofbadr ++ (ys.filter (fun y => !y.right_res)).map (fun y => y.r) ∧
    (ys.foldl writePair st).ofcorl =
      st.ofcorl ++ (ys.filter (fun y => y.left_res && y.right_res)).map (fun y => y.l) ∧
    (ys.foldl writePair st).ofcorr =
      st.ofcorr ++ (ys.filter (fun y => y.left_res && y.right_res)).map (fun y => y.r) ∧
    (ys.foldl writePair st).ofunp = st.ofunp ++ unpairedOf ys := by
  induction ys with
  | nil => intro st; simp [unpairedOf]
  | cons y ys ih =>
    intro st
    obtain ⟨h1, h2, h3, h4, h5, h6, h7, h8, h9⟩ := ih (writePair st y)
    simp only [List.foldl_cons]
    rw [h1, h2, h3, h4, h5, h6, h7, h8, h9]
    refine ⟨rfl, rfl, rfl, rfl, ?_, ?_, ?_, ?_, ?_⟩ <;>
      cases hl : y.left_res <;> cases hr : y.right_res <;>
      simp [writePair, unpairedOf, hl, hr, List.filter_cons]

/-- The reading loop of a batch, when the right stream is at least as long as the left
one. -/
theorem readBatch_spec (G : Globals) (R : ReadEnv) (n : Nat) :
    ∀ (irsl irsr : List Read) (nl nr : Nat), irsl.length ≤ irsr.length →
    ∃ b nl' nr', readBatch G R n irsl irsr nl nr =
        some (b, irsl.drop b.length, irsr.drop b.length, nl', nr') ∧
      b.length = min n irsl.length ∧ nl' ≤ nl + b.length ∧ nr' ≤ nr + b.length ∧
      ∀ (i : Nat) (x : BufferedPair), b[i]? = some x →
        ∃ l0 r0, irsl[i]? = some l0 ∧ irsr[i]? = some r0 ∧
          x.l = R.trimNsAndBadQuality l0 ∧ x.r = R.trimNsAndBadQuality r0 ∧
          x.readno_left ≤ nl + i ∧ x.readno_right ≤ nr + i := by
  induction n with
  | zero =>
    intro irsl irsr nl nr _
    exact ⟨[], nl, nr, by simp [readBatch], by simp, by simp, by simp,
      fun i x h => by simp at h⟩
  | succ n ih =>
    intro irsl irsr nl nr hlen
    cases irsl with
    | nil =>
      exact ⟨[], nl, nr, by simp [readBatch], by simp, by simp, by simp,
        fun i x h => by simp at h⟩
    | cons l0 irsl =>
      cases irsr with
      | nil => simp at hlen
      | cons r0 irsr =>
        obtain ⟨b, nl', nr', e1, e2, e3, e4, e5⟩ := ih irsl irsr
          (if G.K ≤ (R.trimNsAndBadQuality l0).seq.length then nl + 1 else nl)
          (if G.K ≤ (R.trimNsAndBadQuality r0).seq.length then nr + 1 else nr)
          (by simpa using hlen)
        refine ⟨⟨R.trimNsAndBadQuality l0, R.trimNsAndBadQuality r0, nl, nr⟩ :: b, nl', nr',
          by simp only [readBatch, e1, List.length_cons, List.drop_succ_cons], ?_, ?_, ?_, ?_⟩
        · simp only [List.length_cons, e2]; omega
        · simp only [List.length_cons]
          split_ifs at e3 <;> omega
        · simp only [List.length_cons]
          split_ifs at e4 <;> omega
        · intro i x hx
          cases i with
          | zero =>
            simp only [List.getElem?_cons_zero, Option.some.injEq] at hx
            subst hx
            exact ⟨l0, r0, by simp, by simp, rfl, rfl, by simp, by simp⟩
          | succ i =>
            simp only [List.getElem?_cons_succ] at hx
            obtain ⟨l1, r1, g1, g2, g3, g4, g5, g6⟩ := e5 i x hx
            refine ⟨l1, r1, by simpa using g1, by simpa using g2, g3, g4, ?_, ?_⟩
            · split_ifs at g5 <;> omega
            · split_ifs at g6 <;> omega

/-- One iteration of the correction loop, when `CorrectOneRead` returns for the read
numbers below `N`. -/
theorem correctPair_spec {P : Type} (G : Globals) (E : KMerEnv P) (kmers : List (KMerCount P))
    (pr : List PositionRead) (ct ds : Bool) (N : Nat)
    (hok : ∀ (cr cn readno : Nat) (r : Read), readno < N →
      ∃ o, CorrectOneRead G E kmers pr cr cn readno r ct ds = some o)
    (cr cn : Nat) (x : BufferedPair) (hl : x.readno_left < N) (hr : x.readno_right < N) :
    ∃ y cr' cn', correctPair G E kmers pr ct ds cr cn x = some (y, cr', cn') ∧
      ResultOf G E kmers pr ct ds x.l x.r y := by
  unfold correctPair ResultOf
  by_cases hboth : x.l.seq.length < G.K ∧ x.r.seq.length < G.K
  · refine ⟨⟨x.l, x.r, false, false⟩, cr, cn, by rw [if_pos hboth], ?_⟩
    rw [if_neg (by omega), if_neg (by omega)]
    exact ⟨⟨rfl, rfl⟩, rfl, rfl⟩
  · rw [if_neg hboth]
    by_cases hL : G.K ≤ x.l.seq.length
    · obtain ⟨o, ho⟩ := hok cr cn x.readno_left x.l hl
      by_cases hR : G.K ≤ x.r.seq.length
      · obtain ⟨o2, ho2⟩ := hok o.changedReads o.changedNucleotides x.readno_right x.r hr
        refine ⟨⟨o.r, o2.r, o.isGood, o2.isGood⟩, o2.changedReads, o2.changedNucleotides, ?_, ?_⟩
        · simp only [if_pos hL, ho, Option.map_some', if_pos hR, ho2]
        · rw [if_pos hL, if_pos hR]
          exact ⟨⟨_, _, _, o, ho, rfl, rfl⟩, ⟨_, _, _, o2, ho2, rfl, rfl⟩⟩
      · refine ⟨⟨o.r, x.r, o.isGood, false⟩, o.changedReads, o.changedNucleotides, ?_, ?_⟩
        · simp only [if_pos hL, ho, Option.map_some', if_neg hR]
        · rw [if_pos hL, if_neg hR]
          exact ⟨⟨_, _, _, o, ho, rfl, rfl⟩, rfl, rfl⟩
    · by_cases hR : G.K ≤ x.r.seq.length
      · obtain ⟨o2, ho2⟩ := hok cr cn x.readno_right x.r hr
        refine ⟨⟨x.l, o2.r, false, o2.isGood⟩, o2.changedReads, o2.changedNucleotides, ?_, ?_⟩
        · simp only [if_neg hL, if_pos hR, ho2, Option.map_some']
        · rw [if_neg hL, if_pos hR]
          exact ⟨⟨rfl, rfl⟩, ⟨_, _, _, o2, ho2, rfl, rfl⟩⟩
      · exact absurd ⟨by omega, by omega⟩ hboth

/-- The correction loop of a batch. -/
theorem correctBatch_spec {P : Type} (G : Globals) (E : KMerEnv P)
    (kmers : List (KMerCount P)) (pr : List PositionRead) (ct ds : Bool) (N : Nat)
    (hok : ∀ (cr cn readno : Nat) (r : Read), readno < N →
      ∃ o, CorrectOneRead G E kmers pr cr cn readno r ct ds = some o)
    (b : List BufferedPair) : ∀ (cr cn : Nat),
    (∀ x ∈ b, x.readno_left < N ∧ x.readno_right < N) →
    ∃ ys cr' cn', correctBatch G E kmers pr ct ds b cr cn = some (ys, cr', cn') ∧
      ys.length = b.length ∧
      ∀ (i : Nat) (x : BufferedPair) (y : PairResult), b[i]? = some x → ys[i]? = some y →
        ResultOf G E kmers pr ct ds x.l x.r y := by
  induction b with
  | nil =>
    intro cr cn _
    exact ⟨[], cr, cn, rfl, rfl, fun i x y h => by simp at h⟩
  | cons x rest ih =>
    intro cr cn hb
    obtain ⟨hl, hr⟩ := hb x (List.mem_cons_self _ _)
    obtain ⟨y, cr1, cn1, e1, e2⟩ := correctPair_spec G E kmers pr ct ds N hok cr cn x hl hr
    obtain ⟨ys, cr2, cn2, e3, e4, e5⟩ := ih cr1 cn1
      (fun z hz => hb z (List.mem_cons_of_mem _ hz))
    refine ⟨y :: ys, cr2, cn2, by simp only [correctBatch, e1, e3], by simp [e4], ?_⟩
    intro i x' y' hx hy
    cases i with
    | zero =>
      simp only [List.getElem?_cons_zero, Option.some.injEq] at hx hy
      subst hx; subst hy
      exact e2
    | succ i =>
      simp only [List.getElem?_cons_succ] at hx hy
      exact e5 i x' y' hx hy


/-- The loop over the batches: with a buffer of at least one pair, a right stream at least
as long as the left one, and a bound on the number of batches above the number of pairs,
it returns; the results of the pairs are routed to the five streams in order. -/
theorem pairedLoop_spec {P : Type} (G : Globals) (E : KMerEnv P) (R : ReadEnv)
    (kmers : List (KMerCount P)) (pr : List PositionRead) (ct ds : Bool)
    (read_buffer_size N : Nat) (hbuf : 1 ≤ read_buffer_size)
    (hok : ∀ (cr cn readno : Nat) (r : Read), readno < N →
      ∃ o, CorrectOneRead G E kmers pr cr cn readno r ct ds = some o)
    (fuel : Nat) : ∀ (irsl irsr : List Read) (st : PairedState),
    irsl.length < fuel → irsl.length ≤ irsr.length →
    st.readno_left + irsl.length ≤ N → st.readno_right + irsl.length ≤ N →
    ∃ (st' : PairedState) (ys : List PairResult),
      pairedLoop G E R kmers pr ct ds read_buffer_size fuel irsl irsr st = some st' ∧
      ys.length = irsl.length ∧
      (∀ (i : Nat) (y : PairResult), ys[i]? = some y → ∃ l0 r0, irsl[i]? = some l0 ∧
        irsr[i]? = some r0 ∧
        ResultOf G E kmers pr ct ds (R.trimNsAndBadQuality l0) (R.trimNsAndBadQuality r0) y) ∧
      st'.ofbadl = st.ofbadl ++ (ys.filter (fun y => !y.left_res)).map (fun y => y.l) ∧
      st'.ofbadr = st.ofbadr ++ (ys.filter (fun y => !y.right_res)).map (fun y => y.r) ∧
      st'.ofcorl =
        st.ofcorl ++ (ys.filter (fun y => y.left_res && y.right_res)).map (fun y => y.l) ∧
      st'.ofcorr =
        st.ofcorr ++ (ys.filter (fun y => y.left_res && y.right_res)).map (fun y => y.r) ∧
      st'.ofunp = st.ofunp ++ unpairedOf ys := by
  induction fuel with
  | zero => intro irsl irsr st h; exact absurd h (Nat.not_lt_zero _)
  | succ fuel ih =>
    intro irsl irsr st hfuel hlen hnl hnr
    by_cases hnil : irsl = []
    · subst hnil
      exact ⟨st, [], by simp [pairedLoop], rfl, fun i y h => by simp at h, by simp, by simp,
        by simp, by simp, by simp [unpairedOf]⟩
    · have hpos : 1 ≤ irsl.length := by
        cases irsl with
        | nil => exact absurd rfl hnil
        | cons _ _ => simp
      obtain ⟨b, nl', nr', e1, e2, e3, e4, e5⟩ :=
        readBatch_spec G R read_buffer_size irsl irsr st.readno_left st.readno_right hlen
      have hb1 : 1 ≤ b.length := by rw [e2]; omega
      have hb2 : b.length ≤ irsl.length := by rw [e2]; omega
      obtain ⟨ys1, cr, cn, c1, c2, c3⟩ := correctBatch_spec G E kmers pr ct ds N hok b 0 0
        (by
          intro x hx
          obtain ⟨i, hi⟩ := List.getElem?_of_mem hx
          have hib : i < b.length := (List.getElem?_eq_some.1 hi).1
          obtain ⟨l0, r0, -, -, -, -, g5, g6⟩ := e5 i x hi
          exact ⟨by omega, by omega⟩)
      obtain ⟨w1, w2, w3, w4, w5, w6, w7, w8, w9⟩ := writeBatch_spec ys1
        { st with
          changedReads := st.changedReads + cr
          changedNucleotides := st.changedNucleotides + cn
          readno_left := nl'
          readno_right := nr' }
      obtain ⟨st', ys2, f1, f2, f3, f4, f5, f6, f7, f8⟩ := ih (irsl.drop b.length)
        (irsr.drop b.length)
        (ys1.foldl writePair
          { st with
            changedReads := st.changedReads + cr
            changedNucleotides := st.changedNucleotides + cn
            readno_left := nl'
            readno_right := nr' })
        (by simp only [List.length_drop]; omega)
        (by simp only [List.length_drop]; omega)
        (by rw [w3]; simp only [List.length_drop]; omega)
        (by rw [w4]; simp only [List.length_drop]; omega)
      refine ⟨st', ys1 ++ ys2, ?_, ?_, ?_, ?_, ?_, ?_, ?_, ?_⟩
      · simp only [pairedLoop, if_neg hnil, e1, c1, f1]
      · simp only [List.length_append, c2, f2, List.length_drop]; omega
      · intro i y hy
        by_cases hi : i < ys1.length
        · rw [List.getElem?_append_left hi] at hy
          have hx : b[i]? = some b[i] := List.getElem?_eq_getElem (by omega)
          obtain ⟨l0, r0, g1, g2, g3, g4, -, -⟩ := e5 i _ hx
          have := c3 i _ y hx hy
          rw [g3, g4] at this
          exact ⟨l0, r0, g1, g2, this⟩
        · rw [List.getElem?_append_right (by omega)] at hy
          obtain ⟨l0, r0, g1, g2, g3⟩ := f3 _ y hy
          rw [List.getElem?_drop] at g1 g2
          refine ⟨l0, r0, ?_, ?_, g3⟩
          · rw [← g1]; congr 1; omega
          · rw [← g2]; congr 1; omega
      · rw [f4, w5]; simp [List.append_assoc]
      · rw [f5, w6]; simp [List.append_assoc]
      · rw [f6, w7]; simp [List.append_assoc]
      · rw [f7, w8]; simp [List.append_assoc]
      · rw [f8, w9]; simp [unpairedOf, List.append_assoc]

theorem unpairedOf_length (ys : List PairResult) :
    (unpairedOf ys).length + (ys.filter (fun y => !y.left_res)).length +
      (ys.filter (fun y => !y.right_res)).length +
      2 * (ys.filter (fun y => y.left_res && y.right_res)).length = 2 * ys.length := by
  induction ys with
  | nil => simp [unpairedOf]
  | cons y ys ih =>
    have e : unpairedOf (y :: ys) =
        ((if y.left_res && !y.right_res then [y.l] else []) ++
          (if !y.left_res && y.right_res then [y.r] else [])) ++ unpairedOf ys := by
      simp [unpairedOf]
    rw [e]
    cases hl : y.left_res <;> cases hr : y.right_res <;>
      simp [List.filter_cons, hl, hr] <;> omega

/-- C18.  With a buffer of at least one pair, a right stream at least as long as the left
one, reads of the table with k-mers that can be voted on for all the read numbers that can
be reached, and a bound on the number of batches above the number of pairs,
`CorrectPairedReadFiles` returns.  Every pair has a result `y`, in order (a read of
trimmed size below `K` has the result false, the others the value `CorrectOneRead`
returns); the left read goes to `ofbadl` when its result is false, to `ofunp` when it is
true and the result of the right read is false, and to `ofcorl` when both are true; the
right read goes to `ofbadr`, `ofunp` and `ofcorr` in the same way; the two streams `ofcorl`
and `ofcorr` receive the reads of the same pairs in the same order; and the five streams
together receive two reads for each pair. -/
theorem CorrectPairedReadFiles_routing {P : Type} (G : Globals) (E : KMerEnv P) (R : ReadEnv)
    (kmers : List (KMerCount P)) (pr : List PositionRead) (ct ds : Bool)
    (read_buffer_size : Nat) (irsl irsr : List Read) (st : PairedState) (fuel : Nat)
    (hbuf : 1 ≤ read_buffer_size) (hfuel : irsl.length < fuel)
    (hlen : irsl.length ≤ irsr.length)
    (hnl : st.readno_left + irsl.length ≤ pr.length)
    (hnr : st.readno_right + irsl.length ≤ pr.length)
    (hv : ∀ (readno : Nat) (p : PositionRead), pr[readno]? = some p →
      VotesInRange G E kmers readno p.size) :
    ∃ (st' : PairedState) (ys : List PairResult),
      CorrectPairedReadFiles G E R kmers pr ct ds read_buffer_size irsl irsr st fuel
        = some st' ∧
      ys.length = irsl.length ∧
      (∀ (i : Nat) (y : PairResult), ys[i]? = some y → ∃ l0 r0, irsl[i]? = some l0 ∧
        irsr[i]? = some r0 ∧
        ResultOf G E kmers pr ct ds (R.trimNsAndBadQuality l0) (R.trimNsAndBadQuality r0) y) ∧
      st'.ofbadl = st.ofbadl ++ (ys.filter (fun y => !y.left_res)).map (fun y => y.l) ∧
      st'.ofbadr = st.ofbadr ++ (ys.filter (fun y => !y.right_res)).map (fun y => y.r) ∧
      st'.ofcorl =
        st.ofcorl ++ (ys.filter (fun y => y.left_res && y.right_res)).map (fun y => y.l) ∧
      st'.ofcorr =
        st.ofcorr ++ (ys.filter (fun y => y.left_res && y.right_res)).map (fun y => y.r) ∧
      st'.ofunp = st.ofunp ++ ys.flatMap (fun y =>
        (if y.left_res && !y.right_res then [y.l] else []) ++
          (if !y.left_res && y.right_res then [y.r] else [])) ∧
      st'.ofbadl.length + st'.ofbadr.length + st'.ofcorl.length + st'.ofcorr.length +
          st'.ofunp.length =
        st.ofbadl.length + st.ofbadr.length + st.ofcorl.length + st.ofcorr.length +
          st.ofunp.length + 2 * irsl.length := by
  obtain ⟨st', ys, h1, h2, h3, h4, h5, h6, h7, h8⟩ := pairedLoop_spec G E R kmers pr ct ds
    read_buffer_size pr.length hbuf
    (fun cr cn readno r hlt => by
      have hp : pr[readno]? = some pr[readno] := List.getElem?_eq_getElem hlt
      obtain ⟨o, ho, -⟩ := CorrectOneRead_isGood G E kmers pr cr cn readno r ct ds _ hp
        (hv readno _ hp)
      exact ⟨o, ho⟩)
    fuel irsl irsr st hfuel hlen hnl hnr
  refine ⟨st', ys, h1, h2, h3, h4, h5, h6, h7, h8, ?_⟩
  have hlen' := unpairedOf_length ys
  rw [h4, h5, h6, h7, h8]
  simp only [List.length_append, List.length_map]
  omega


/-- C18, instance: `K = 2`, a buffer of one pair, the blob `C G T A A A`; the pairs are
(`CGTA`, `AA`) and (`C`, `A`).  The read `CGTA` has solid k-mers and the read `AA` has
none, so the first pair sends its left read to `ofunp` and its right read to `ofbadr`; the
reads of the second pair are too short and go to `ofbadl` and `ofbadr`. -/
theorem CorrectPairedReadFiles_routing_witness :
    CorrectPairedReadFiles (P := Nat)
        ⟨2, fun i => [67, 71, 84, 65, 65, 65].getD i 0, fun _ => 0, true, 0, 0, 0, 0, []⟩
        (codedEnv Nat (fun n => if n = 0 then [(0, 0), (1, 1), (2, 2)] else [(0, 3)])) ⟨id, 33⟩
        [⟨0, ⟨1, 1003, 0, []⟩⟩, ⟨1, ⟨1, 1001, 0, []⟩⟩, ⟨2, ⟨1, 1003, 0, []⟩⟩,
          ⟨4, ⟨1, 1001, 0, []⟩⟩]
        [⟨0, 4, 0, false⟩, ⟨4, 2, 1, false⟩, ⟨4, 2, 2, false⟩] false false 1
        [⟨[67, 71, 84, 65], [1, 1, 1, 1]⟩, ⟨[67], [1]⟩] [⟨[65, 65], [1, 1]⟩, ⟨[65], [1]⟩]
        ⟨0, 0, 0, 1, [], [], [], [], []⟩ 3
      = some ⟨0, 0, 1, 2, [⟨[67], [1]⟩], [], [⟨[65, 65], [1, 1]⟩, ⟨[65], [1]⟩], [],
          [⟨[67, 71, 84, 65], [1, 1, 1, 1]⟩]⟩ ∧
    ∃ (st' : PairedState) (ys : List PairResult),
      CorrectPairedReadFiles (P := Nat)
        ⟨2, fun i => [67, 71, 84, 65, 65, 65].getD i 0, fun _ => 0, true, 0, 0, 0, 0, []⟩
        (codedEnv Nat (fun n => if n = 0 then [(0, 0), (1, 1), (2, 2)] else [(0, 3)])) ⟨id, 33⟩
        [⟨0, ⟨1, 1003, 0, []⟩⟩, ⟨1, ⟨1, 1001, 0, []⟩⟩, ⟨2, ⟨1, 1003, 0, []⟩⟩,
          ⟨4, ⟨1, 1001, 0, []⟩⟩]
        [⟨0, 4, 0, false⟩, ⟨4, 2, 1, false⟩, ⟨4, 2, 2, false⟩] false false 1
        [⟨[67, 71, 84, 65], [1, 1, 1, 1]⟩, ⟨[67], [1]⟩] [⟨[65, 65], [1, 1]⟩, ⟨[65], [1]⟩]
        ⟨0, 0, 0, 1, [], [], [], [], []⟩ 3 = some st' ∧
      ys.length = 2 := by
  refine ⟨by decide, ?_⟩
  obtain ⟨st', ys, h1, h2, -⟩ := CorrectPairedReadFiles_routing (P := Nat)
    ⟨2, fun i => [67, 71, 84, 65, 65, 65].getD i 0, fun _ => 0, true, 0, 0, 0, 0, []⟩
    (codedEnv Nat (fun n => if n = 0 then [(0, 0), (1, 1), (2, 2)] else [(0, 3)])) ⟨id, 33⟩
    [⟨0, ⟨1, 1003, 0, []⟩⟩, ⟨1, ⟨1, 1001, 0, []⟩⟩, ⟨2, ⟨1, 1003, 0, []⟩⟩,
      ⟨4, ⟨1, 1001, 0, []⟩⟩]
    [⟨0, 4, 0, false⟩, ⟨4, 2, 1, false⟩, ⟨4, 2, 2, false⟩] false false 1
    [⟨[67, 71, 84, 65], [1, 1, 1, 1]⟩, ⟨[67], [1]⟩] [⟨[65, 65], [1, 1]⟩, ⟨[65], [1]⟩]
    ⟨0, 0, 0, 1, [], [], [], [], []⟩ 3 (by decide) (by decide) (by decide) (by decide)
    (by decide)
    (by
      intro readno p hp
      have hlt : readno < 3 := (List.getElem?_eq_some.1 hp).1
      interval_cases readno <;>
        (obtain rfl := Option.some.inj hp; decide))
  exact ⟨st', ys, h1, h2⟩


theorem kmerBytes_eq {G : Globals} {a b : Nat} (h : kmerBytes G a = kmerBytes G b) (j : Nat)
    (hj : j < G.K) : G.blob (a + j) = G.blob (b + j) := by
  unfold kmerBytes at h
  exact List.map_inj_left.1 h j (List.mem_range.2 hj)

theorem readSequence_window (G : Globals) (p : PositionRead) (i : Nat)
    (hi : i + G.K ≤ p.size) :
    ((readSequence G p).drop i).take G.K = kmerBytes G (p.start + i) := by
  unfold readSequence kmerBytes
  apply List.ext_getElem
  · simp; omega
  · intro n h1 h2
    simp [Nat.add_assoc]

/-- The `while` loop of `CorrectOneRead` over k-mers that are good for the iteration and
spell the bytes of the read: every k-mer votes, for the letters of the read, and `left` and
`right` come to bound the positions. -/
theorem voteAll_solid {P : Type} (G : Globals) (E : KMerEnv P) (kmers : List (KMerCount P))
    (p : PositionRead) (ct ds : Bool)
    (hletters : ∀ j, j < p.size → E.dignucl (G.blob (p.start + j)) < 4)
    (pairs : List (Nat × Nat)) : ∀ st : VoteState,
    (∀ q ∈ pairs, q.1 + G.K ≤ p.size ∧ q.1 < 2 ^ 31 ∧ ∃ kmc : KMerCount P,
      kmers[q.2]? = some kmc ∧ kmerBytes G kmc.first = kmerBytes G (p.start + q.1) ∧
      E.isGoodForIterative kmc.second = true) →
    ∃ st', voteAll G E kmers p.size ct ds pairs st false = some (st', false) ∧
      (VotesForRead G E p st.v → VotesForRead G E p st'.v) ∧
      (∀ q ∈ pairs, st'.left ≤ q.1 ∧ (q.1 : Int) ≤ st'.right) ∧
      st'.left ≤ st.left ∧ st.right ≤ st'.right ∧
      (st'.left = st.left ∨ ∃ q ∈ pairs, st'.left = q.1) ∧
      (st'.right = st.right ∨ ∃ q ∈ pairs, st'.right = q.1) ∧
      (st'.isGood = true ↔ (st.isGood = true ∨ pairs ≠ [])) := by
  induction pairs with
  | nil =>
    intro st _
    exact ⟨st, rfl, fun h => h, fun q hq => absurd hq (List.not_mem_nil _), le_refl _,
      le_refl _, Or.inl rfl, Or.inl rfl, by simp⟩
  | cons q rest ih =>
    intro st hin
    obtain ⟨pos, idx⟩ := q
    obtain ⟨h1, h2, kmc, hk, hb, hg⟩ := hin (pos, idx) (List.mem_cons_self _ _)
    simp only at h1 h2 hk hb
    have hl : ∀ j, j < G.K → E.dignucl (G.blob (kmc.first + j)) < 4 := by
      intro j hj
      rw [kmerBytes_eq hb j hj, Nat.add_assoc]
      exact hletters _ (by omega)
    have hint : internalCorrectReadProcedure G E p.size kmers kmc.first pos kmc.second st ct ds
        = some (⟨addKMer G E kmc.first pos st.v, min st.left pos, max st.right pos, true⟩,
          false) := by
      have hc : (E.isGoodForIterative kmc.second || (ct && E.isGood kmc.second)) = true := by
        simp [hg]
      simp only [internalCorrectReadProcedure, hc, if_true,
        voteLoop_eq_addKMer G E p.size kmc.first pos st.v hl h1, extendWindow_eq st pos _ h2]
    obtain ⟨st', e1, e2, e3, e4, e5, e6, e7, e8⟩ := ih
      ⟨addKMer G E kmc.first pos st.v, min st.left pos, max st.right pos, true⟩
      (fun q hq => hin q (List.mem_cons_of_mem _ hq))
    simp only at e4 e5 e6 e7
    refine ⟨st', ?_, ?_, ?_, ?_, ?_, ?_, ?_, ?_⟩
    · simp only [voteAll, hk, Bool.false_eq_true, if_false, hint, e1]
    · intro hv
      apply e2
      intro k c
      simp only [addKMer]
      by_cases hcell : pos ≤ c ∧ c < pos + G.K ∧ k = E.dignucl (G.blob (kmc.first + (c - pos)))
      · rw [if_pos hcell]
        refine ⟨by have := (hv k c).1; omega, fun _ => ⟨by omega, ?_⟩⟩
        rw [hcell.2.2, kmerBytes_eq hb (c - pos) (by omega)]
        congr 2
        omega
      · rw [if_neg hcell]
        exact hv k c
    · intro q hq
      rcases List.mem_cons.1 hq with rfl | hmem
      · simp only
        constructor
        · exact le_trans e4 (min_le_right _ _)
        · exact le_trans (le_max_right _ _) e5
      · exact e3 q hmem
    · exact le_trans e4 (min_le_left _ _)
    · exact le_trans (le_max_left _ _) e5
    · rcases e6 with h | ⟨q, hq, h⟩
      · rcases min_choice st.left (pos : Int) with hm | hm
        · exact Or.inl (by rw [h, hm])
        · exact Or.inr ⟨(pos, idx), List.mem_cons_self _ _, by rw [h, hm]⟩
      · exact Or.inr ⟨q, List.mem_cons_of_mem _ hq, h⟩
    · rcases e7 with h | ⟨q, hq, h⟩
      · rcases max_choice st.right (pos : Int) with hm | hm
        · exact Or.inl (by rw [h, hm])
        · exact Or.inr ⟨(pos, idx), List.mem_cons_self _ _, by rw [h, hm]⟩
      · exact Or.inr ⟨q, List.mem_cons_of_mem _ hq, h⟩
    · rw [e8]
      simp

/-- The consensus of votes for the letters of the read is the read, without a change. -/
theorem consensus_of_votesForRead {P : Type} (G : Globals) (E : KMerEnv P) (p : PositionRead)
    (v : Nat → Nat → Int) (hv : VotesForRead G E p v)
    (hnucl : ∀ j, j < p.size →
      E.nucl (E.dignucl (G.blob (p.start + j))) = G.blob (p.start + j)) :
    consensus E v (readSequence G p) = readSequence G p ∧
    changedLetters E v (readSequence G p) = 0 := by
  have key : ∀ jc ∈ (readSequence G p).enum, (consensusLetter E v jc.1 jc.2).1 = jc.2 := by
    rintro ⟨j, c⟩ hjc
    rw [List.mk_mem_enum_iff_getElem?] at hjc
    have hj : j < p.size := by
      have := (List.getElem?_eq_some.1 hjc).1
      simpa [readSequence] using this
    have hc : c = G.blob (p.start + j) := by
      simp only [readSequence, List.getElem?_map, List.getElem?_range hj, Option.map_some',
        Option.some.injEq] at hjc
      exact hjc.symm
    simp only
    by_cases hpos : ∃ k, k < 4 ∧ 0 < v k j
    · obtain ⟨k, -, he, hp, -, -⟩ := (consensusLetter_spec E v j c).2 hpos
      rw [he]
      simp only
      rw [((hv k j).2 hp).2, hnucl j hj, hc]
    · rw [(consensusLetter_spec E v j c).1 (fun k hk => by
        by_contra h
        exact hpos ⟨k, hk, by omega⟩)]
  constructor
  · unfold consensus
    rw [List.map_congr_left key]
    exact List.enum_map_snd _
  · unfold changedLetters
    rw [List.countP_eq_zero]
    intro jc hjc
    simp [key jc hjc]

theorem mergeWindow_solid (K size : Nat) (hK : K ≤ size) (hs : size < 2 ^ 31) :
    mergeWindow K size 0 ((size - K : Nat) : Int) = (0, ((size - K : Nat) : Int)) := by
  have e1 : omnigraph.toInt32 (size : Int) = size :=
    omnigraph.toInt32_of_lt _ (Int.natCast_nonneg _) (by exact_mod_cast hs)
  have e2 : omnigraph.toInt32 (K : Int) = K :=
    omnigraph.toInt32_of_lt _ (Int.natCast_nonneg _) (by
      have : K < 2 ^ 31 := by omega
      exact_mod_cast this)
  have e3 : omnigraph.toInt32 ((size : Int) - K) = (size : Int) - K :=
    omnigraph.toInt32_of_lt _ (by omega) (by
      have : (size : Int) < 2 ^ 31 := by exact_mod_cast hs
      omega)
  have e4 : ((size - K : Nat) : Int) = (size : Int) - K := by omega
  simp only [mergeWindow, e1, e2, e3, e4]
  rw [if_pos ⟨by omega, by omega⟩,
    min_eq_left (by omega : (0 : Int) ≤ (size : Int) - 0 - K),
    max_eq_left (by omega : (size : Int) - (size - K) - K ≤ (size : Int) - K)]


/-- The votes, the window and the flag of `CorrectOneRead` for a read that is solid
throughout. -/
theorem readVotes_solid {P : Type} (G : Globals) (E : KMerEnv P) (kmers : List (KMerCount P))
    (readno : Nat) (p : PositionRead) (ct ds : Bool) (hs : FullySolid G E kmers readno p) :
    ∃ st, readVotes G E kmers readno p ct ds = some (st, false) ∧ st.isGood = true ∧
      st.left = 0 ∧ st.right = ((p.size - G.K : Nat) : Int) ∧ VotesForRead G E p st.v := by
  obtain ⟨hK1, hK, h31, hmap, hlet, hsol⟩ := hs
  have hpos : ∀ q ∈ E.nextKMerNo readno, q.1 < p.size - G.K + 1 := by
    intro q hq
    have : q.1 ∈ (E.nextKMerNo readno).map (fun q => q.1) := List.mem_map.2 ⟨q, hq, rfl⟩
    rw [hmap] at this
    exact List.mem_range.1 this
  have hex : ∀ i, i < p.size - G.K + 1 → ∃ q ∈ E.nextKMerNo readno, q.1 = i := by
    intro i hi
    have : i ∈ (E.nextKMerNo readno).map (fun q => q.1) := by
      rw [hmap]; exact List.mem_range.2 hi
    obtain ⟨q, hq, rfl⟩ := List.mem_map.1 this
    exact ⟨q, hq, rfl⟩
  obtain ⟨st, e1, e2, e3, e4, e5, e6, e7, e8⟩ := voteAll_solid G E kmers p ct ds
    (fun j hj => (hlet j hj).1) (E.nextKMerNo readno)
    ⟨fun _ _ => 0, omnigraph.toInt32 p.size, -1, false⟩ (by
      intro q hq
      have h1 := hpos q hq
      obtain ⟨h2, h3⟩ := hsol q hq
      have hk : kmers[q.2]? = some kmers[q.2] := List.getElem?_eq_getElem h2
      obtain ⟨h4, h5⟩ := h3 _ hk
      exact ⟨by omega, by omega, _, hk, h4, h5⟩)
  have hsize : omnigraph.toInt32 (p.size : Int) = p.size :=
    omnigraph.toInt32_of_lt _ (Int.natCast_nonneg _) (by exact_mod_cast h31)
  simp only [hsize] at e4 e6
  simp only at e5 e7
  obtain ⟨q0, hq0, hq0'⟩ := hex 0 (by omega)
  obtain ⟨qn, hqn, hqn'⟩ := hex (p.size - G.K) (by omega)
  have hne : E.nextKMerNo readno ≠ [] := List.ne_nil_of_mem hq0
  have b0 := (e3 q0 hq0).1
  have bn := (e3 qn hqn).2
  rw [hq0'] at b0
  rw [hqn'] at bn
  refine ⟨st, e1, e8.2 (Or.inr hne), ?_, ?_,
    e2 (fun k c => ⟨le_refl _, fun h => absurd h (by simp)⟩)⟩
  · rcases e6 with h | ⟨q, hq, h⟩
    · have : (0 : Int) ≤ (p.size : Int) := Int.natCast_nonneg _
      simp only [Nat.cast_zero] at b0
      omega
    · have : (0 : Int) ≤ (q.1 : Int) := Int.natCast_nonneg _
      simp only [Nat.cast_zero] at b0
      omega
  · rcases e7 with h | ⟨q, hq, h⟩
    · have : (0 : Int) ≤ ((p.size - G.K : Nat) : Int) := Int.natCast_nonneg _
      omega
    · have h1 := hpos q hq
      have : (q.1 : Int) ≤ ((p.size - G.K : Nat) : Int) := by
        have : q.1 ≤ p.size - G.K := by omega
        exact_mod_cast this
      omega

/-- The outcome of `CorrectOneRead` for a read that is solid throughout: it is good, its
sequence is emitted as it is, and the counters do not move. -/
theorem CorrectOneRead_solid {P : Type} (G : Globals) (E : KMerEnv P)
    (kmers : List (KMerCount P)) (pr : List PositionRead) (cr cn readno : Nat) (r : Read)
    (ct ds : Bool) (p : PositionRead) (hp : pr[readno]? = some p)
    (hs : FullySolid G E kmers readno p) :
    ∃ o, CorrectOneRead G E kmers pr cr cn readno r ct ds = some o ∧ o.isGood = true ∧
      o.r.seq = readSequence G p ∧ o.changedReads = cr ∧ o.changedNucleotides = cn := by
  obtain ⟨st, e1, e2, e3, e4, e5⟩ := readVotes_solid G E kmers readno p ct ds hs
  obtain ⟨hK1, hK, h31, -, hlet, -⟩ := hs
  obtain ⟨c1, c2⟩ := consensus_of_votesForRead G E p st.v e5 (fun j hj => (hlet j hj).2)
  refine ⟨_, CorrectOneRead_eq G E kmers pr cr cn readno r ct ds p hp st false e1, e2, ?_, ?_, ?_⟩
  · simp only [c1, e3, e4, mergeWindow_solid G.K p.size hK h31, Read.trimLeftRight]
    have e : omnigraph.toInt32 (((p.size - G.K : Nat) : Int) + (G.K : Int) - 1) =
        (p.size : Int) - 1 := by
      rw [omnigraph.toInt32_of_lt _ (by omega) (by
        have : (p.size : Int) < 2 ^ 31 := by exact_mod_cast h31
        omega)]
      omega
    rw [e]
    have e' : ((p.size : Int) - 1 - 0 + 1).toNat = p.size := by omega
    rw [e']
    simp only [Int.toNat_zero, List.drop_zero]
    exact List.take_of_length_le (by simp [readSequence])
  · simp only [c2]
    simp
  · simp only [c2]
    simp

end HammerTools

/-! ## Properties of `graph_simplification.hpp` -/

namespace debruijn

theorem postPass_calls {σ : Type} (topology : Bool) (run : PostCall → σ → σ × Bool)
    (iteration : Nat) (s : σ) (calls : List PostCall) :
    (postPass topology run iteration s calls).state = (postPass topology run iteration s []).state ∧
    (postPass topology run iteration s calls).enable_flag =
      (postPass topology run iteration s []).enable_flag ∧
    (postPass topology run iteration s calls).calls = calls ++ passCalls topology iteration := by
  cases topology <;> simp [postPass, invoke, passCalls]

/-- The loop runs as many passes as it takes to meet one that reports no change. -/
theorem postLoop_spec {σ : Type} (topology : Bool) (run : PostCall → σ → σ × Bool) (k : Nat) :
    ∀ (fuel iteration : Nat) (s : σ) (calls : List PostCall), k < fuel →
    (∀ i, i < k → passChanged topology run i iteration s = true) →
    passChanged topology run k iteration s = false →
    postLoop topology run fuel iteration s calls =
      some (afterPasses topology run (k + 1) iteration s, iteration + k + 1,
        calls ++ (List.range (k + 1)).flatMap (fun i => passCalls topology (iteration + i))) := by
  induction k with
  | zero =>
    intro fuel iteration s calls hfuel _ hk
    obtain ⟨f, rfl⟩ : ∃ f, fuel = f + 1 := ⟨fuel - 1, by omega⟩
    obtain ⟨h1, h2, h3⟩ := postPass_calls topology run iteration s calls
    have hk' : (postPass topology run iteration s []).enable_flag = false := by
      simpa [passChanged, afterPasses] using hk
    simp only [postLoop, h2, hk', Bool.false_eq_true, if_false, h1, h3, afterPasses]
    rw [show List.range 1 = [0] from rfl]
    simp
  | succ k ih =>
    intro fuel iteration s calls hfuel hlt hk
    obtain ⟨f, rfl⟩ : ∃ f, fuel = f + 1 := ⟨fuel - 1, by omega⟩
    obtain ⟨h1, h2, h3⟩ := postPass_calls topology run iteration s calls
    have h0 : (postPass topology run iteration s []).enable_flag = true := by
      simpa [passChanged, afterPasses] using hlt 0 (by omega)
    have hshift : ∀ i, passChanged topology run i (iteration + 1)
        (postPass topology run iteration s []).state =
        passChanged topology run (i + 1) iteration s := by
      intro i
      simp only [passChanged, afterPasses]
      rw [show iteration + 1 + i = iteration + (i + 1) by omega]
    rw [postLoop, h2, h0, if_pos rfl, h1, h3,
      ih f (iteration + 1) _ _ (by omega)
        (fun i hi => by rw [hshift]; exact hlt (i + 1) (by omega))
        (by rw [hshift]; exact hk)]
    simp only [afterPasses, Option.some.injEq, Prod.mk.injEq]
    refine ⟨trivial, by omega, ?_⟩
    rw [List.range_succ_eq_map (k + 1), List.flatMap_cons, List.flatMap_map]
    have e : (fun i => passCalls topology (iteration + 1 + i)) =
        (fun a : Nat => passCalls topology (iteration + a.succ)) := by
      funext i
      rw [show iteration + 1 + i = iteration + i.succ by omega]
    rw [e, List.append_assoc]
    rfl

/-- C20.  A pass of the loop of `PostSimplification` calls `TopologyClipTips` (only when
topology simplification is enabled), `FinalRemoveErroneousEdges`, `ClipTips`,
`RemoveBulges` and `RemoveComplexBulges`, each once and in that order, each on the graph
left by the one before, whatever these returned, and its flag is true exactly when one of
them returned true.  The loop runs the passes 0 to `k`, where `k` is the first pass whose
flag is false: a pass follows exactly the passes whose flag is true (any bound above `k` on
the number of passes is enough).  On a graph `s` that every algorithm leaves as it is,
returning false, one pass is run and the loop ends with the graph `s`, which the whole
procedure returns as well. -/
theorem PostSimplification_fixpoint {σ : Type} (topology : Bool)
    (run : PostCall → σ → σ × Bool) (s : σ)
    (hquiet : ∀ c, run c s = (s, false)) :
    (∀ (iteration : Nat) (s0 : σ) (calls : List PostCall),
      ∃ s1 s2 s3 s4 s5 : σ,
        s1 = (if topology then (run .TopologyClipTips s0).1 else s0) ∧
        s2 = (run (.FinalRemoveErroneousEdges iteration) s1).1 ∧
        s3 = (run .ClipTips s2).1 ∧
        s4 = (run .RemoveBulges s3).1 ∧
        s5 = (run (.RemoveComplexBulges iteration) s4).1 ∧
        (postPass topology run iteration s0 calls).state = s5 ∧
        (postPass topology run iteration s0 calls).enable_flag =
          ((topology && (run .TopologyClipTips s0).2) ||
            (run (.FinalRemoveErroneousEdges iteration) s1).2 || (run .ClipTips s2).2 ||
            (run .RemoveBulges s3).2 || (run (.RemoveComplexBulges iteration) s4).2) ∧
        (postPass topology run iteration s0 calls).calls =
          calls ++ (if topology then [PostCall.TopologyClipTips] else []) ++
            [.FinalRemoveErroneousEdges iteration, .ClipTips, .RemoveBulges,
              .RemoveComplexBulges iteration]) ∧
    (∀ (s0 : σ) (k fuel : Nat), k < fuel →
      (∀ i, i < k → passChanged topology run i 0 s0 = true) →
      passChanged topology run k 0 s0 = false →
      postLoop topology run fuel 0 s0 [] =
        some (afterPasses topology run (k + 1) 0 s0, k + 1,
          (List.range (k + 1)).flatMap (fun i => passCalls topology i))) ∧
    (∀ fuel, 1 ≤ fuel →
      postLoop topology run fuel 0 s [] = some (s, 1, passCalls topology 0)) ∧
    (∀ fuel, 1 ≤ fuel →
      PostSimplification topology run fuel s =
        some (s, passCalls topology 0 ++
          (if topology then [PostCall.RemoveHiddenEC] else []))) := by
  have hpass : postPass topology run 0 s [] = ⟨s, false, passCalls topology 0⟩ := by
    cases topology <;> simp [postPass, invoke, passCalls, hquiet]
  have hloop : ∀ fuel, 1 ≤ fuel →
      postLoop topology run fuel 0 s [] = some (s, 1, passCalls topology 0) := by
    intro fuel hfuel
    have := postLoop_spec topology run 0 fuel 0 s [] (by omega)
      (fun i hi => absurd hi (Nat.not_lt_zero _))
      (by simp [passChanged, afterPasses, hpass])
    rw [this]
    simp only [afterPasses, hpass]
    rw [show List.range 1 = [0] from rfl]
    simp
  refine ⟨?_, ?_, hloop, ?_⟩
  · intro iteration s0 calls
    refine ⟨_, _, _, _, _, rfl, rfl, rfl, rfl, rfl, ?_⟩
    cases topology <;> simp [postPass, invoke]
  · intro s0 k fuel hfuel hlt hk
    have := postLoop_spec topology run k fuel 0 s0 [] hfuel hlt hk
    simpa using this
  · intro fuel hfuel
    simp only [PostSimplification, hloop fuel hfuel, hquiet]
    cases topology <;> simp

/-- C20, instance: the graph is a number, that `ClipTips` lowers by one (returning true)
while it is positive, the other algorithms leaving it as it is; from the graph 0, with
topology simplification enabled, the loop ends after one pass of five calls. -/
theorem PostSimplification_fixpoint_witness :
    postLoop true
        (fun c (n : Nat) => if c = PostCall.ClipTips ∧ 0 < n then (n - 1, true) else (n, false))
        3 0 0 []
      = some (0, 1, [.TopologyClipTips, .FinalRemoveErroneousEdges 0, .ClipTips, .RemoveBulges,
        .RemoveComplexBulges 0]) :=
  (PostSimplification_fixpoint true
    (fun c (n : Nat) => if c = PostCall.ClipTips ∧ 0 < n then (n - 1, true) else (n, false)) 0
    (fun c => by simp)).2.2.1 3 (by decide)

end debruijn

/-! ## Properties of `CoverageIndex`, `HammerTools` and the simplification schedule, continued -/

namespace omnigraph

/-! ### `AddPathsToGraph` -/

theorem IncCoverage_sum (s : Storage) (edge : EdgeId) (a : Int) (s' : Storage)
    (h : IncCoverage s edge a = .ok s') :
    (∀ e, e ≠ edge → s' e = s e) ∧
    ∀ S : Finset EdgeId, edge ∈ S →
      (∑ e in S, stored s' e) = (∑ e in S, stored s e) + a := by
  obtain ⟨_, h2⟩ := IncCoverage_ok s edge a s' h
  subst h2
  refine ⟨fun e he => by simp [he], fun S hS => ?_⟩
  simp only [stored_set]
  rw [Finset.sum_ite, Finset.filter_eq' S edge, if_pos hS, Finset.sum_singleton,
    ← Finset.sum_filter_add_sum_filter_not S (fun e => e = edge) (fun e => stored s e),
    Finset.filter_eq' S edge, if_pos hS, Finset.sum_singleton]
  ring

theorem addLengths_sum (g : Graph) :
    ∀ (es : List EdgeId) (s s' : Storage), addLengths g s es = .ok s' →
      (∀ e ∈ es, g.length e < 2 ^ 31) →
      (∀ e, e ∉ es → s' e = s e) ∧
      ∀ S : Finset EdgeId, (∀ e ∈ es, e ∈ S) →
        (∑ e in S, stored s' e) =
          (∑ e in S, stored s e) + (es.map (fun e => (g.length e : Int))).sum := by
  intro es
  induction es with
  | nil =>
    intro s s' h _
    simp only [addLengths, Except.ok.injEq] at h
    subst h
    simp
  | cons e tl ih =>
    intro s s' h hlen
    simp only [addLengths] at h
    obtain ⟨s1, hi, h⟩ := bind_eq_ok _ _ _ h
    obtain ⟨i1, i2⟩ := IncCoverage_sum s e _ s1 hi
    obtain ⟨j1, j2⟩ := ih s1 s' h (fun x hx => hlen x (List.mem_cons_of_mem _ hx))
    have hl : toInt32 (g.length e) = (g.length e : Int) :=
      toInt32_of_lt _ (by omega) (by have := hlen e (List.mem_cons_self _ _); omega)
    constructor
    · intro x hx
      rw [j1 x (fun hm => hx (List.mem_cons_of_mem _ hm)),
        i1 x (fun hm => hx (hm ▸ List.mem_cons_self _ _))]
    · intro S hS
      rw [j2 S (fun x hx => hS x (List.mem_cons_of_mem _ hx)),
        i2 S (hS e (List.mem_cons_self _ _)), hl, List.map_cons, List.sum_cons]
      ring

/-- C30: for an empty path `AddPathsToGraph` leaves the index as it is.  For a path whose
edge lengths, start position and end position are below `2 ^ 31` (they are converted to
`int`) and for which `AddPathsToGraph` completes: the entries of the edges that are not on
the path are unchanged; over every finite set of edges that contains the edges of the
path, the sum of the stored counts grows by the sum of the lengths of the edges of the
path, minus the start position, minus the length of the last edge less the end position;
and for a path of a single edge the count of that edge grows by the end position minus
the start position. -/
theorem AddPathsToGraph_growth (g : Graph) (s : Storage) (path : Path) :
    (path.sequence = [] → AddPathsToGraph g s path = .ok s) ∧
    ∀ s' : Storage, AddPathsToGraph g s path = .ok s' →
      (∀ e ∈ path.sequence, g.length e < 2 ^ 31) →
      path.start_pos < 2 ^ 31 → path.end_pos < 2 ^ 31 →
      (∀ e, e ∉ path.sequence → s' e = s e) ∧
      (∀ (hne : path.sequence ≠ []) (S : Finset EdgeId), (∀ e ∈ path.sequence, e ∈ S) →
        (∑ e in S, stored s' e) = (∑ e in S, stored s e) +
          ((path.sequence.map (fun e => (g.length e : Int))).sum - path.start_pos -
            ((g.length (path.sequence.getLast hne) : Int) - path.end_pos))) ∧
      (∀ e, path.sequence = [e] →
        stored s' e = stored s e + ((path.end_pos : Int) - path.start_pos)) := by
  constructor
  · intro h
    simp [AddPathsToGraph, h]
  · intro s' h hlen hs ht
    have key : (∀ e, e ∉ path.sequence → s' e = s e) ∧
        (∀ (hne : path.sequence ≠ []) (S : Finset EdgeId), (∀ e ∈ path.sequence, e ∈ S) →
          (∑ e in S, stored s' e) = (∑ e in S, stored s e) +
            ((path.sequence.map (fun e => (g.length e : Int))).sum - path.start_pos -
              ((g.length (path.sequence.getLast hne) : Int) - path.end_pos))) := by
      unfold AddPathsToGraph at h
      cases hseq : path.sequence with
      | nil =>
        simp only [hseq, Except.ok.injEq] at h
        subst h
        exact ⟨fun _ _ => rfl, fun hne => absurd rfl hne⟩
      | cons e0 rest =>
        simp only [hseq] at h hlen
        obtain ⟨s1, h1, h⟩ := bind_eq_ok _ _ _ h
        obtain ⟨d0, hd0, h⟩ := bind_eq_ok _ _ _ h
        obtain ⟨s2, h3, h⟩ := bind_eq_ok _ _ _ h
        obtain ⟨d1, hd1, h⟩ := bind_eq_ok _ _ _ h
        obtain ⟨a1, a2⟩ := addLengths_sum g _ s s1 h1 hlen
        obtain ⟨b1, b2⟩ := IncCoverage_sum s1 e0 d0 s2 h3
        obtain ⟨c1, c2⟩ := IncCoverage_sum s2 _ d1 s' h
        have hlast : (e0 :: rest).getLast (List.cons_ne_nil e0 rest) ∈ e0 :: rest :=
          List.getLast_mem _
        have e0v : d0 = -(path.start_pos : Int) := by
          rw [(int32_ok _ _ hd0).1, toInt32_of_lt _ (by omega) (by omega)]
        have e1v : d1 = (path.end_pos : Int) -
            (g.length ((e0 :: rest).getLast (List.cons_ne_nil e0 rest)) : Int) := by
          rw [(int32_ok _ _ hd1).1, toInt32_of_lt _ (by omega) (by omega),
            toInt32_of_lt _ (by omega) (by have := hlen _ hlast; omega)]
        constructor
        · intro x hx
          rw [c1 x (fun hm => hx (hm ▸ hlast)), b1 x (fun hm => hx (hm ▸ List.mem_cons_self _ _)),
            a1 x hx]
        · intro hne S hS
          rw [c2 S (hS _ hlast), b2 S (hS _ (List.mem_cons_self _ _)), a2 S hS, e0v, e1v]
          ring
    refine ⟨key.1, key.2, ?_⟩
    intro e he
    have h2 := key.2 (by rw [he]; exact List.cons_ne_nil _ _) {e}
      (by intro x hx; rw [he] at hx; simpa using hx)
    simp only [Finset.sum_singleton, he, List.map_cons, List.map_nil, List.sum_cons,
      List.sum_nil, List.getLast_singleton] at h2
    rw [h2]
    ring

/-- C30, instance: edges of length 10, an empty index, the path of the edges 1 and 2 from
position 3 of edge 1 to position 7 of edge 2: the entries become 7 and 7, the sum of the
counts grows by `20 - 3 - (10 - 7) = 14`, the entry of edge 5 stays absent. -/
theorem AddPathsToGraph_growth_witness :
    ∃ s', AddPathsToGraph ⟨fun _ => 10⟩ (fun _ => none) ⟨[1, 2], 3, 7⟩ = .ok s' ∧
      stored s' 1 = 7 ∧ stored s' 2 = 7 ∧ s' 5 = none ∧
      (∑ e in ({1, 2} : Finset EdgeId), stored s' e) =
        (∑ e in ({1, 2} : Finset EdgeId), stored (fun _ => none) e) + 14 := by
  obtain ⟨s', hs'⟩ : ∃ s', AddPathsToGraph ⟨fun _ => 10⟩ (fun _ => none) ⟨[1, 2], 3, 7⟩
      = .ok s' := ⟨_, rfl⟩
  have h := (AddPathsToGraph_growth ⟨fun _ => 10⟩ (fun _ => none) ⟨[1, 2], 3, 7⟩).2 s' hs'
    (by decide) (by decide) (by decide)
  refine ⟨s', hs', ?_, ?_, ?_, ?_⟩
  · cases hs'
    decide
  · cases hs'
    decide
  · rw [h.1 5 (by decide)]
  · rw [h.2.1 (by decide) {1, 2} (by decide)]
    decide

end omnigraph

namespace HammerTools

/-- The merge step of `CorrectOneRead` leaves a window in which a vote was cast: its
bounds are positions of k-mers of the read. -/
theorem mergeWindow_voted (K size : Nat) (left right : Int) (hK : K ≤ size)
    (hs : size < 2 ^ 31) (h0 : 0 ≤ left) (h1 : left ≤ right)
    (h2 : right ≤ ((size - K : Nat) : Int)) :
    mergeWindow K size left right = (left, right) := by
  have e1 : omnigraph.toInt32 (size : Int) = size :=
    omnigraph.toInt32_of_lt _ (Int.natCast_nonneg _) (by exact_mod_cast hs)
  have e2 : omnigraph.toInt32 (K : Int) = K :=
    omnigraph.toInt32_of_lt _ (Int.natCast_nonneg _) (by
      have : K < 2 ^ 31 := by omega
      exact_mod_cast this)
  have e3 : omnigraph.toInt32 ((size : Int) - K) = (size : Int) - K :=
    omnigraph.toInt32_of_lt _ (by omega) (by
      have : (size : Int) < 2 ^ 31 := by exact_mod_cast hs
      omega)
  have e4 : ((size - K : Nat) : Int) = (size : Int) - K := by omega
  rw [e4] at h2
  simp only [mergeWindow, e1, e2, e3]
  rw [if_pos ⟨h1, by omega⟩,
    min_eq_left (by omega : left ≤ (size : Int) - 0 - K),
    max_eq_left (by omega : (size : Int) - (size - K) - K ≤ right)]

/-- The merge step of `CorrectOneRead` for a read in which no vote was cast, where the
loop leaves `left = read_size` and `right = -1`: the window becomes `left = size - K`,
`right = 0`. -/
theorem mergeWindow_no_vote (K size : Nat) (hK : K ≤ size) (hs : size < 2 ^ 31) :
    mergeWindow K size (omnigraph.toInt32 size) (-1) = (((size - K : Nat) : Int), 0) := by
  have e1 : omnigraph.toInt32 (size : Int) = size :=
    omnigraph.toInt32_of_lt _ (Int.natCast_nonneg _) (by exact_mod_cast hs)
  have e2 : omnigraph.toInt32 (K : Int) = K :=
    omnigraph.toInt32_of_lt _ (Int.natCast_nonneg _) (by
      have : K < 2 ^ 31 := by omega
      exact_mod_cast this)
  have e3 : omnigraph.toInt32 ((size : Int) - K) = (size : Int) - K :=
    omnigraph.toInt32_of_lt _ (by omega) (by
      have : (size : Int) < 2 ^ 31 := by exact_mod_cast hs
      omega)
  have e4 : ((size - K : Nat) : Int) = (size : Int) - K := by omega
  simp only [mergeWindow, e1, e2, e3, e4]
  rw [if_neg (by omega), if_pos ⟨by omega, by omega⟩]
  ext <;> simp

/-! ### The window of `CorrectOneRead` -/

/-- C28: for a read of the table that is solid throughout (a k-mer at every position from
0 to `size - K`, each a k-mer of the table that spells the bytes of the read there and is
good for the iteration), given with the letters it has in the blob, `CorrectOneRead`
returns true; the window it computes is `left = 0`, `right = size - K`, also after the
merge step; the read is left as it was, nothing being trimmed; no letter is counted as
changed, `changedNucleotides` grows by 0 and `changedReads` is not incremented. -/
theorem CorrectOneRead_identity_on_solid {P : Type} (G : Globals) (E : KMerEnv P)
    (kmers : List (KMerCount P)) (pr : List PositionRead) (cr cn readno : Nat) (r : Read)
    (ct ds : Bool) (p : PositionRead) (hp : pr[readno]? = some p)
    (hs : FullySolid G E kmers readno p) (hr : r.seq = readSequence G p)
    (hq : r.qual.length ≤ p.size) :
    ∃ (st : VoteState) (o : CorrectOutcome),
      readVotes G E kmers readno p ct ds = some (st, false) ∧
      st.left = 0 ∧ st.right = ((p.size - G.K : Nat) : Int) ∧
      mergeWindow G.K p.size st.left st.right = (0, ((p.size - G.K : Nat) : Int)) ∧
      changedLetters E st.v (readSequence G p) = 0 ∧
      CorrectOneRead G E kmers pr cr cn readno r ct ds = some o ∧
      o.isGood = true ∧ o.r = r ∧ o.changedNucleotides = cn + 0 ∧ o.changedReads = cr := by
  obtain ⟨st, e1, e2, e3, e4, e5⟩ := readVotes_solid G E kmers readno p ct ds hs
  obtain ⟨hK1, hK, h31, -, hlet, -⟩ := hs
  obtain ⟨c1, c2⟩ := consensus_of_votesForRead G E p st.v e5 (fun j hj => (hlet j hj).2)
  have hw : mergeWindow G.K p.size st.left st.right = (0, ((p.size - G.K : Nat) : Int)) := by
    rw [e3, e4]
    exact mergeWindow_solid G.K p.size hK h31
  refine ⟨st, _, e1, e3, e4, hw, c2,
    CorrectOneRead_eq G E kmers pr cr cn readno r ct ds p hp st false e1, e2, ?_, ?_, ?_⟩
  · simp only [c1, hw, Read.trimLeftRight]
    have e : omnigraph.toInt32 (((p.size - G.K : Nat) : Int) + (G.K : Int) - 1) =
        (p.size : Int) - 1 := by
      rw [omnigraph.toInt32_of_lt _ (by omega) (by
        have : (p.size : Int) < 2 ^ 31 := by exact_mod_cast h31
        omega)]
      omega
    rw [e]
    have e' : ((p.size : Int) - 1 - 0 + 1).toNat = p.size := by omega
    rw [e']
    simp only [Int.toNat_zero, List.drop_zero]
    rw [List.take_of_length_le (by simp [readSequence]), List.take_of_length_le hq, ← hr]
  · simp only [c2]
  · simp only [c2]
    simp

/-- C28, instance: `K = 2`, the read `CGTA` with its three k-mers good for the
iteration. -/
theorem CorrectOneRead_identity_on_solid_witness :
    ∃ (st : VoteState) (o : CorrectOutcome),
      readVotes (P := Nat)
        ⟨2, fun i => [67, 71, 84, 65].getD i 0, fun _ => 0, true, 0, 0, 0, 0, []⟩
        (codedEnv Nat (fun _ => [(0, 0), (1, 1), (2, 2)]))
        [⟨0, ⟨1, 1003, 0, []⟩⟩, ⟨1, ⟨1, 1003, 0, []⟩⟩, ⟨2, ⟨1, 1003, 0, []⟩⟩]
        0 ⟨0, 4, 0, false⟩ false false = some (st, false) ∧
      st.left = 0 ∧ st.right = 2 ∧
      CorrectOneRead (P := Nat)
        ⟨2, fun i => [67, 71, 84, 65].getD i 0, fun _ => 0, true, 0, 0, 0, 0, []⟩
        (codedEnv Nat (fun _ => [(0, 0), (1, 1), (2, 2)]))
        [⟨0, ⟨1, 1003, 0, []⟩⟩, ⟨1, ⟨1, 1003, 0, []⟩⟩, ⟨2, ⟨1, 1003, 0, []⟩⟩]
        [⟨0, 4, 0, false⟩] 5 9 0 ⟨[67, 71, 84, 65], [1, 1, 1, 1]⟩ false false = some o ∧
      o = ⟨true, ⟨[67, 71, 84, 65], [1, 1, 1, 1]⟩, 5, 9⟩ := by
  obtain ⟨st, o, h1, h2, h3, -, -, h6, h7, h8, h9, h10⟩ :=
    CorrectOneRead_identity_on_solid (P := Nat)
      ⟨2, fun i => [67, 71, 84, 65].getD i 0, fun _ => 0, true, 0, 0, 0, 0, []⟩
      (codedEnv Nat (fun _ => [(0, 0), (1, 1), (2, 2)]))
      [⟨0, ⟨1, 1003, 0, []⟩⟩, ⟨1, ⟨1, 1003, 0, []⟩⟩, ⟨2, ⟨1, 1003, 0, []⟩⟩]
      [⟨0, 4, 0, false⟩] 5 9 0 ⟨[67, 71, 84, 65], [1, 1, 1, 1]⟩ false false ⟨0, 4, 0, false⟩
      rfl (by decide) (by decide) (by decide)
  refine ⟨st, o, h1, h2, h3, h6, ?_⟩
  cases o
  simp only [CorrectOutcome.mk.injEq]
  exact ⟨h7, h8, h10, h9⟩

/-- C29 (the code differs), at the failing input.  `K = 2`, the blob `A C G T` is the
read 0; its k-mer `AC` (position 0) is to be changed to the k-mer `CC` of the table, which
is good for the iteration; its k-mers `CG` (position 1) and `GT` (position 2) are good
for the iteration.  All three are voting k-mers, the smallest position being 0 and the
largest 2, so the window of the claim is `[0, 3]` and no letter is trimmed.  The loop
stops calling `internalCorrectReadProcedure` once it has returned true for `AC`: it is
left with `left = 0`, `right = 0`, the votes of the target `CC` alone; the merge step
leaves the window as it is, `trimLeftRight (0, 1)` is called and the read emitted is `CC`,
two letters long. -/
theorem CorrectOneRead_window_stops_at_change :
    (readVotes (P := Nat)
        ⟨2, fun i => [65, 67, 71, 84, 67, 67].getD i 0, fun _ => 0, true, 0, 0, 0, 0, []⟩
        (codedEnv Nat (fun _ => [(0, 0), (1, 1), (2, 2)]))
        [⟨0, ⟨1, 3, 0, []⟩⟩, ⟨1, ⟨1, 1003, 0, []⟩⟩, ⟨2, ⟨1, 1003, 0, []⟩⟩,
          ⟨4, ⟨1, 1003, 0, []⟩⟩]
        0 ⟨0, 4, 0, false⟩ false false).map (fun x => (x.1.left, x.1.right, x.1.isGood, x.2))
      = some (0, 0, true, true) ∧
    mergeWindow 2 4 0 0 = (0, 0) ∧
    CorrectOneRead (P := Nat)
        ⟨2, fun i => [65, 67, 71, 84, 67, 67].getD i 0, fun _ => 0, true, 0, 0, 0, 0, []⟩
        (codedEnv Nat (fun _ => [(0, 0), (1, 1), (2, 2)]))
        [⟨0, ⟨1, 3, 0, []⟩⟩, ⟨1, ⟨1, 1003, 0, []⟩⟩, ⟨2, ⟨1, 1003, 0, []⟩⟩,
          ⟨4, ⟨1, 1003, 0, []⟩⟩]
        [⟨0, 4, 0, false⟩] 0 0 0 ⟨[65, 67, 71, 84], [1, 1, 1, 1]⟩ false false
      = some ⟨true, ⟨[67, 67], [1, 1]⟩, 1, 1⟩ ∧
    (codedEnv Nat (fun _ => [(0, 0), (1, 1), (2, 2)])).isGoodForIterative
      (⟨1, 1003, 0, []⟩ : KMerStat Nat) = true ∧
    (internalCorrectReadProcedure (P := Nat)
        ⟨2, fun i => [65, 67, 71, 84, 67, 67].getD i 0, fun _ => 0, true, 0, 0, 0, 0, []⟩
        (codedEnv Nat (fun _ => [(0, 0), (1, 1), (2, 2)])) 4
        [⟨0, ⟨1, 3, 0, []⟩⟩, ⟨1, ⟨1, 1003, 0, []⟩⟩, ⟨2, ⟨1, 1003, 0, []⟩⟩,
          ⟨4, ⟨1, 1003, 0, []⟩⟩]
        2 2 ⟨1, 1003, 0, []⟩ ⟨fun _ _ => 0, 0, 0, true⟩ false false).map
        (fun x => (x.1.left, x.1.right)) = some (0, 2) := by
  decide

/-! ### `ProcessKmerHashFile` -/

theorem loadLoop_line {P : Type} (sscanf : List Nat → Option Nat × Option P) :
    ∀ (line rest buf : List Nat) (x : LoadState P), (∀ c ∈ line, c ≠ 10) →
      loadLoop sscanf (line ++ 10 :: rest) buf x =
        match loadLine sscanf (buf ++ line) x with
        | none => none
        | some x1 => loadLoop sscanf rest [] x1 := by
  intro line
  induction line with
  | nil =>
    intro rest buf x _
    simp [loadLoop]
  | cons c tl ih =>
    intro rest buf x h
    have hc : c ≠ 10 := h c (List.mem_cons_self _ _)
    rw [List.cons_append, loadLoop, if_neg hc, ih rest (buf ++ [c]) x
      (fun d hd => h d (List.mem_cons_of_mem _ hd)), List.append_assoc]
    rfl

/-- A stream of `n ≥ 1` lines, each ended by a newline and each a record from which
`sscanf` takes both values: the loop pushes the `n` records and then the last one once
more. -/
theorem loadLoop_terminated {P : Type} (sscanf : List Nat → Option Nat × Option P)
    (lines : List (List Nat)) :
    ∀ (x : LoadState P) (recs : List (KMerNo P)),
      (∀ l ∈ lines, ∀ c ∈ l, c ≠ 10) →
      List.Forall₂ (fun l (r : KMerNo P) => sscanf l = (some r.index, some r.errprob))
        lines recs →
      sscanf [] = (none, none) →
      (lines = [] → ∃ (i : Nat) (q : P), x.pos = some i ∧ x.prob = some q) →
      ∃ x1 : LoadState P,
        loadLoop sscanf (lines.flatMap (fun l => l ++ [10])) [] x = some x1 ∧
        ∃ (i : Nat) (q : P), x1.pos = some i ∧ x1.prob = some q ∧
          x1.vec = x.vec ++ recs ++ [⟨i, q⟩] ∧
          (∀ r ∈ recs.getLast?, (⟨i, q⟩ : KMerNo P) = r) := by
  induction lines with
  | nil =>
    intro x recs _ hf h0 hx
    cases hf
    obtain ⟨i, q, h1, h2⟩ := hx rfl
    refine ⟨⟨some i, some q, x.vec ++ [⟨i, q⟩]⟩, ?_, i, q, rfl, rfl, by simp, by simp⟩
    simp [loadLoop, loadLine, h0, h1, h2]
  | cons l tl ih =>
    intro x recs hl hf h0 _
    cases hf with
    | cons hr hrest =>
      rename_i r rs
      have e : (l :: tl).flatMap (fun l => l ++ [10]) =
          l ++ 10 :: tl.flatMap (fun l => l ++ [10]) := by
        simp [List.flatMap_cons]
      have hline : loadLine sscanf ([] ++ l) x =
          some ⟨some r.index, some r.errprob, x.vec ++ [r]⟩ := by
        simp [loadLine, hr]
      rw [e, loadLoop_line sscanf l _ [] x (hl l (List.mem_cons_self _ _)), hline]
      obtain ⟨x1, g1, i, q, g2, g3, g4, g5⟩ :=
        ih ⟨some r.index, some r.errprob, x.vec ++ [r]⟩ rs
          (fun m hm => hl m (List.mem_cons_of_mem _ hm)) hrest h0
          (fun _ => ⟨r.index, r.errprob, rfl, rfl⟩)
      refine ⟨x1, g1, i, q, g2, g3, by simp [g4], ?_⟩
      cases hrest with
      | nil =>
        simp only [List.flatMap_nil, loadLoop, loadLine, h0, Option.orElse] at g1
        simp only [Option.some.injEq] at g1
        subst g1
        simp only [Option.some.injEq] at g2 g3
        intro r' hr'
        simp only [List.getLast?_singleton, Option.mem_def, Option.some.injEq] at hr'
        subst hr'
        cases r
        simp only [KMerNo.mk.injEq]
        exact ⟨g2.symm, g3.symm⟩
      | cons hr2 hrest2 =>
        intro r' hr'
        rw [List.getLast?_cons_cons] at hr'
        exact g5 r' hr'

set_option maxRecDepth 100000 in
/-- C26 (the code differs), at the failing input.  `K = 1`, the common quality is used;
the bucket file is the single record with offset 0 and error probability 0.5, ended by
its newline, and `sscanf` takes 0 and 0.5 from this line and assigns nothing for an empty
line.  The loop tests `inf.good ()` before `std::getline`: after the newline the stream
is still good, the next `getline` meets the end with nothing taken, `sscanf` assigns
nothing and the record `(0, 0.5)` is pushed a second time.  One `KMerCount` is produced
with `count = 2` and `totalQual = 0.5 * 0.5 = 0.25`, for one record in the file; the
sibling `ProcessKmerHashVector` gives `count = 1` and `totalQual = 0.5` for the same
record.  For the empty file the record pushed is made of variables that never got a
value, where no `KMerCount` is to be produced. -/
theorem ProcessKmerHashFile_extra_record :
    ProcessKmerHashFile (P := Dbl) ⟨1, fun _ => 0, fun _ => 0, true, 0, 0, 255, 7, []⟩
        (fun buf => if buf = [48, 9, 48, 46, 53] then (some 0, some (Dbl.ofRatio 1 2))
          else (none, none))
        (fun _ _ => false) (recordBytes [48] [48, 46, 53]) []
      = some [⟨0, ⟨2, 7, Dbl.ofRatio 1 4, []⟩⟩] ∧
    ProcessKmerHashVector (P := Dbl) ⟨1, fun _ => 0, fun _ => 0, true, 0, 0, 255, 7, []⟩
        (fun _ _ => false) [(0, Dbl.ofRatio 1 2)] []
      = some [⟨0, ⟨1, 7, Dbl.ofRatio 1 2, []⟩⟩] ∧
    ProcessKmerHashFile (P := Dbl) ⟨1, fun _ => 0, fun _ => 0, true, 0, 0, 255, 7, []⟩
        (fun buf => if buf = [48, 9, 48, 46, 53] then (some 0, some (Dbl.ofRatio 1 2))
          else (none, none))
        (fun _ _ => false) [] [] = none := by
  decide

/-! ### Read numbers in `ReadFileIntoBlob`, `CorrectReadFile`, `CorrectPairedReadFiles` -/

theorem readNumberSpec_add (G : Globals) (R : ReadEnv) (start : Nat) (reads : List Read)
    (m i : Nat) :
    readNumberSpec G R (readNumberSpec G R start reads m) (reads.drop m) i =
      readNumberSpec G R start reads (m + i) := by
  unfold readNumberSpec
  rw [List.take_add, List.countP_append]
  omega

theorem readNumberSpec_cons (G : Globals) (R : ReadEnv) (start : Nat) (r0 : Read)
    (reads : List Read) (i : Nat) :
    readNumberSpec G R start (r0 :: reads) (i + 1) =
      readNumberSpec G R
        (if G.K ≤ (R.trimNsAndBadQuality r0).seq.length then start + 1 else start) reads i := by
  unfold readNumberSpec
  rw [List.take_succ_cons, List.countP_cons]
  by_cases h : G.K ≤ (R.trimNsAndBadQuality r0).seq.length
  · simp only [keptRead, h, decide_True, if_true]
    omega
  · simp only [keptRead, h, decide_False, if_false]
    simp

theorem take_succ_of_getElem? {α : Type} (l : List α) (j : Nat) (a : α) (h : l[j]? = some a) :
    l.take (j + 1) = l.take j ++ [a] := by
  rw [List.take_succ, h]
  rfl

theorem ReadFileIntoBlob_cur_read (G : Globals) (R : ReadEnv) (rc : Bool)
    (reads : List Read) : ∀ st : BlobState,
    (ReadFileIntoBlob G R reads rc st).cur_read = st.cur_read + reads.countP (keptRead G R) := by
  induction reads with
  | nil => intro st; simp [ReadFileIntoBlob]
  | cons r0 rest ih =>
    intro st
    have e : ReadFileIntoBlob G R (r0 :: rest) rc st =
        ReadFileIntoBlob G R rest rc (storeRead G R rc st r0) := rfl
    rw [e, ih, List.countP_cons]
    by_cases h : G.K ≤ (R.trimNsAndBadQuality r0).seq.length
    · simp only [storeRead, if_neg (by omega : ¬ (R.trimNsAndBadQuality r0).seq.length < G.K),
        pushRead, keptRead, h, decide_True, if_true]
      omega
    · simp only [storeRead, if_pos (by omega : (R.trimNsAndBadQuality r0).seq.length < G.K),
        keptRead, h, decide_False]
      simp

theorem CorrectReadFile_append {P : Type} (G : Globals) (E : KMerEnv P) (R : ReadEnv)
    (kmers : List (KMerCount P)) (pr : List PositionRead) (ct ds : Bool)
    (a b : List Read) : ∀ st : FileState,
    CorrectReadFile G E R kmers pr ct ds (a ++ b) st =
      (CorrectReadFile G E R kmers pr ct ds a st).bind
        (fun st1 => CorrectReadFile G E R kmers pr ct ds b st1) := by
  induction a with
  | nil => intro st; simp [CorrectReadFile]
  | cons r0 rest ih =>
    intro st
    simp only [List.cons_append, CorrectReadFile]
    cases correctStep G E R kmers pr ct ds st r0 with
    | none => rfl
    | some st1 => exact ih st1

theorem correctStep_readno {P : Type} (G : Globals) (E : KMerEnv P) (R : ReadEnv)
    (kmers : List (KMerCount P)) (pr : List PositionRead) (ct ds : Bool)
    (st st1 : FileState) (r0 : Read) (h : correctStep G E R kmers pr ct ds st r0 = some st1) :
    st1.readno = st.readno + (if keptRead G R r0 then 1 else 0) := by
  unfold correctStep at h
  by_cases hK : (R.trimNsAndBadQuality r0).seq.length < G.K
  · rw [if_pos hK] at h
    obtain rfl := Option.some.inj h
    simp [keptRead, hK]
  · rw [if_neg hK] at h
    cases ho : CorrectOneRead G E kmers pr st.changedReads st.changedNucleotides st.readno
        (R.trimNsAndBadQuality r0) ct ds with
    | none => simp [ho] at h
    | some o =>
      simp only [ho, Option.some.injEq] at h
      subst h
      simp [keptRead, Nat.le_of_not_lt hK]

theorem CorrectReadFile_readno {P : Type} (G : Globals) (E : KMerEnv P) (R : ReadEnv)
    (kmers : List (KMerCount P)) (pr : List PositionRead) (ct ds : Bool)
    (reads : List Read) : ∀ st st1 : FileState,
    CorrectReadFile G E R kmers pr ct ds reads st = some st1 →
    st1.readno = st.readno + reads.countP (keptRead G R) := by
  induction reads with
  | nil =>
    intro st st1 h
    simp only [CorrectReadFile, Option.some.injEq] at h
    subst h
    simp
  | cons r0 rest ih =>
    intro st st1 h
    simp only [CorrectReadFile] at h
    cases hs : correctStep G E R kmers pr ct ds st r0 with
    | none => simp [hs] at h
    | some st2 =>
      simp only [hs] at h
      rw [ih st2 st1 h, correctStep_readno G E R kmers pr ct ds st st2 r0 hs, List.countP_cons]
      omega

/-- The reading loop of a batch numbers the reads as the claim says. -/
theorem readBatch_numbers (G : Globals) (R : ReadEnv) (n : Nat) :
    ∀ (irsl irsr : List Read) (nl nr : Nat), irsl.length ≤ irsr.length →
    ∃ b : List BufferedPair, readBatch G R n irsl irsr nl nr =
        some (b, irsl.drop b.length, irsr.drop b.length,
          readNumberSpec G R nl irsl b.length, readNumberSpec G R nr irsr b.length) ∧
      b.length = min n irsl.length ∧
      ∀ (i : Nat) (x : BufferedPair), b[i]? = some x →
        ∃ l0 r0, irsl[i]? = some l0 ∧ irsr[i]? = some r0 ∧
          x = ⟨R.trimNsAndBadQuality l0, R.trimNsAndBadQuality r0,
            readNumberSpec G R nl irsl i, readNumberSpec G R nr irsr i⟩ := by
  induction n with
  | zero =>
    intro irsl irsr nl nr _
    exact ⟨[], by simp [readBatch, readNumberSpec], by simp, fun i x h => by simp at h⟩
  | succ n ih =>
    intro irsl irsr nl nr hlen
    cases irsl with
    | nil =>
      exact ⟨[], by simp [readBatch, readNumberSpec], by simp, fun i x h => by simp at h⟩
    | cons l0 irsl =>
      cases irsr with
      | nil => simp at hlen
      | cons r0 irsr =>
        obtain ⟨b, e1, e2, e5⟩ := ih irsl irsr
          (if G.K ≤ (R.trimNsAndBadQuality l0).seq.length then nl + 1 else nl)
          (if G.K ≤ (R.trimNsAndBadQuality r0).seq.length then nr + 1 else nr)
          (by simpa using hlen)
        refine ⟨⟨R.trimNsAndBadQuality l0, R.trimNsAndBadQuality r0, nl, nr⟩ :: b, ?_, ?_, ?_⟩
        · simp only [readBatch, e1, List.length_cons, List.drop_succ_cons,
            readNumberSpec_cons]
        · simp only [List.length_cons, e2]; omega
        · intro i x hx
          cases i with
          | zero =>
            simp only [List.getElem?_cons_zero, Option.some.injEq] at hx
            subst hx
            exact ⟨l0, r0, by simp, by simp, by simp [readNumberSpec]⟩
          | succ i =>
            simp only [List.getElem?_cons_succ] at hx
            obtain ⟨l1, r1, g1, g2, g3⟩ := e5 i x hx
            exact ⟨l1, r1, by simpa using g1, by simpa using g2,
              by rw [g3, readNumberSpec_cons, readNumberSpec_cons]⟩

theorem readNumberSpec_le (G : Globals) (R : ReadEnv) (start : Nat) (reads : List Read)
    (j : Nat) : readNumberSpec G R start reads j ≤ start + j := by
  unfold readNumberSpec
  have h1 := List.countP_le_length (keptRead G R) (l := reads.take j)
  have h2 := List.length_take_le j reads
  omega

/-- One iteration of the correction loop: each read is corrected under its own number. -/
theorem correctPair_at {P : Type} (G : Globals) (E : KMerEnv P) (kmers : List (KMerCount P))
    (pr : List PositionRead) (ct ds : Bool) (N : Nat)
    (hok : ∀ (cr cn readno : Nat) (r : Read), readno < N →
      ∃ o, CorrectOneRead G E kmers pr cr cn readno r ct ds = some o)
    (cr cn : Nat) (x : BufferedPair) (hl : x.readno_left < N) (hr : x.readno_right < N) :
    ∃ y cr' cn', correctPair G E kmers pr ct ds cr cn x = some (y, cr', cn') ∧
      ResultAt G E kmers pr ct ds x y := by
  unfold correctPair ResultAt
  by_cases hboth : x.l.seq.length < G.K ∧ x.r.seq.length < G.K
  · refine ⟨⟨x.l, x.r, false, false⟩, cr, cn, by rw [if_pos hboth], ?_⟩
    rw [if_neg (by omega), if_neg (by omega)]
    exact ⟨⟨rfl, rfl⟩, rfl, rfl⟩
  · rw [if_neg hboth]
    by_cases hL : G.K ≤ x.l.seq.length
    · obtain ⟨o, ho⟩ := hok cr cn x.readno_left x.l hl
      by_cases hR : G.K ≤ x.r.seq.length
      · obtain ⟨o2, ho2⟩ := hok o.changedReads o.changedNucleotides x.readno_right x.r hr
        refine ⟨⟨o.r, o2.r, o.isGood, o2.isGood⟩, o2.changedReads, o2.changedNucleotides, ?_, ?_⟩
        · simp only [if_pos hL, ho, Option.map_some', if_pos hR, ho2]
        · rw [if_pos hL, if_pos hR]
          exact ⟨⟨_, _, o, ho, rfl, rfl⟩, ⟨_, _, o2, ho2, rfl, rfl⟩⟩
      · refine ⟨⟨o.r, x.r, o.isGood, false⟩, o.changedReads, o.changedNucleotides, ?_, ?_⟩
        · simp only [if_pos hL, ho, Option.map_some', if_neg hR]
        · rw [if_pos hL, if_neg hR]
          exact ⟨⟨_, _, o, ho, rfl, rfl⟩, rfl, rfl⟩
    · by_cases hR : G.K ≤ x.r.seq.length
      · obtain ⟨o2, ho2⟩ := hok cr cn x.readno_right x.r hr
        refine ⟨⟨x.l, o2.r, false, o2.isGood⟩, o2.changedReads, o2.changedNucleotides, ?_, ?_⟩
        · simp only [if_neg hL, if_pos hR, ho2, Option.map_some']
        · rw [if_neg hL, if_pos hR]
          exact ⟨⟨rfl, rfl⟩, ⟨_, _, o2, ho2, rfl, rfl⟩⟩
      · exact absurd ⟨by omega, by omega⟩ hboth

theorem correctBatch_at {P : Type} (G : Globals) (E : KMerEnv P)
    (kmers : List (KMerCount P)) (pr : List PositionRead) (ct ds : Bool) (N : Nat)
    (hok : ∀ (cr cn readno : Nat) (r : Read), readno < N →
      ∃ o, CorrectOneRead G E kmers pr cr cn readno r ct ds = some o)
    (b : List BufferedPair) : ∀ (cr cn : Nat),
    (∀ x ∈ b, x.readno_left < N ∧ x.readno_right < N) →
    ∃ ys cr' cn', correctBatch G E kmers pr ct ds b cr cn = some (ys, cr', cn') ∧
      ys.length = b.length ∧
      ∀ (i : Nat) (x : BufferedPair) (y : PairResult), b[i]? = some x → ys[i]? = some y →
        ResultAt G E kmers pr ct ds x y := by
  induction b with
  | nil =>
    intro cr cn _
    exact ⟨[], cr, cn, rfl, rfl, fun i x y h => by simp at h⟩
  | cons x rest ih =>
    intro cr cn hb
    obtain ⟨hl, hr⟩ := hb x (List.mem_cons_self _ _)
    obtain ⟨y, cr1, cn1, e1, e2⟩ := correctPair_at G E kmers pr ct ds N hok cr cn x hl hr
    obtain ⟨ys, cr2, cn2, e3, e4, e5⟩ := ih cr1 cn1
      (fun z hz => hb z (List.mem_cons_of_mem _ hz))
    refine ⟨y :: ys, cr2, cn2, by simp only [correctBatch, e1, e3], by simp [e4], ?_⟩
    intro i x' y' hx hy
    cases i with
    | zero =>
      simp only [List.getElem?_cons_zero, Option.some.injEq] at hx hy
      subst hx; subst hy
      exact e2
    | succ i =>
      simp only [List.getElem?_cons_succ] at hx hy
      exact e5 i x' y' hx hy

/-- The loop over the batches passes to `CorrectOneRead`, for the `i`-th pair of the two
streams, the read numbers of the claim, whatever the batch the pair falls in. -/
theorem pairedLoop_numbers {P : Type} (G : Globals) (E : KMerEnv P) (R : ReadEnv)
    (kmers : List (KMerCount P)) (pr : List PositionRead) (ct ds : Bool)
    (read_buffer_size N : Nat) (hbuf : 1 ≤ read_buffer_size)
    (hok : ∀ (cr cn readno : Nat) (r : Read), readno < N →
      ∃ o, CorrectOneRead G E kmers pr cr cn readno r ct ds = some o)
    (fuel : Nat) : ∀ (irsl irsr : List Read) (st : PairedState),
    irsl.length < fuel → irsl.length ≤ irsr.length →
    st.readno_left + irsl.length ≤ N → st.readno_right + irsl.length ≤ N →
    ∃ (st' : PairedState) (ys : List PairResult),
      pairedLoop G E R kmers pr ct ds read_buffer_size fuel irsl irsr st = some st' ∧
      ys.length = irsl.length ∧
      (∀ (i : Nat) (y : PairResult), ys[i]? = some y → ∃ l0 r0, irsl[i]? = some l0 ∧
        irsr[i]? = some r0 ∧
        ResultAt G E kmers pr ct ds
          ⟨R.trimNsAndBadQuality l0, R.trimNsAndBadQuality r0,
            readNumberSpec G R st.readno_left irsl i,
            readNumberSpec G R st.readno_right irsr i⟩ y) ∧
      st'.readno_left = readNumberSpec G R st.readno_left irsl irsl.length ∧
      st'.readno_right = readNumberSpec G R st.readno_right irsr irsl.length ∧
      st'.ofbadl = st.ofbadl ++ (ys.filter (fun y => !y.left_res)).map (fun y => y.l) ∧
      st'.ofbadr = st.ofbadr ++ (ys.filter (fun y => !y.right_res)).map (fun y => y.r) ∧
      st'.ofcorl =
        st.ofcorl ++ (ys.filter (fun y => y.left_res && y.right_res)).map (fun y => y.l) ∧
      st'.ofcorr =
        st.ofcorr ++ (ys.filter (fun y => y.left_res && y.right_res)).map (fun y => y.r) ∧
      st'.ofunp = st.ofunp ++ unpairedOf ys := by
  induction fuel with
  | zero => intro irsl irsr st h; exact absurd h (Nat.not_lt_zero _)
  | succ fuel ih =>
    intro irsl irsr st hfuel hlen hnl hnr
    by_cases hnil : irsl = []
    · subst hnil
      exact ⟨st, [], by simp [pairedLoop], rfl, fun i y h => by simp at h,
        by simp [readNumberSpec], by simp [readNumberSpec], by simp, by simp,
        by simp, by simp, by simp [unpairedOf]⟩
    · have hpos : 1 ≤ irsl.length := by
        cases irsl with
        | nil => exact absurd rfl hnil
        | cons _ _ => simp
      obtain ⟨b, e1, e2, e5⟩ :=
        readBatch_numbers G R read_buffer_size irsl irsr st.readno_left st.readno_right hlen
      have hb1 : 1 ≤ b.length := by rw [e2]; omega
      have hb2 : b.length ≤ irsl.length := by rw [e2]; omega
      obtain ⟨ys1, cr, cn, c1, c2, c3⟩ := correctBatch_at G E kmers pr ct ds N hok b 0 0
        (by
          intro x hx
          obtain ⟨i, hi⟩ := List.getElem?_of_mem hx
          have hib : i < b.length := (List.getElem?_eq_some.1 hi).1
          obtain ⟨l0, r0, -, -, g3⟩ := e5 i x hi
          subst g3
          have g5 := readNumberSpec_le G R st.readno_left irsl i
          have g6 := readNumberSpec_le G R st.readno_right irsr i
          exact ⟨by simp only; omega, by simp only; omega⟩)
      obtain ⟨w1, w2, w3, w4, w5, w6, w7, w8, w9⟩ := writeBatch_spec ys1
        { st with
          changedReads := st.changedReads + cr
          changedNucleotides := st.changedNucleotides + cn
          readno_left := readNumberSpec G R st.readno_left irsl b.length
          readno_right := readNumberSpec G R st.readno_right irsr b.length }
      have hL := readNumberSpec_le G R st.readno_left irsl b.length
      have hR := readNumberSpec_le G R st.readno_right irsr b.length
      obtain ⟨st', ys2, f1, f2, f3, fl, fr, f4, f5, f6, f7, f8⟩ := ih (irsl.drop b.length)
        (irsr.drop b.length)
        (ys1.foldl writePair
          { st with
            changedReads := st.changedReads + cr
            changedNucleotides := st.changedNucleotides + cn
            readno_left := readNumberSpec G R st.readno_left irsl b.length
            readno_right := readNumberSpec G R st.readno_right irsr b.length })
        (by simp only [List.length_drop]; omega)
        (by simp only [List.length_drop]; omega)
        (by rw [w3]; simp only [List.length_drop]; omega)
        (by rw [w4]; simp only [List.length_drop]; omega)
      rw [w3] at f3 fl
      rw [w4] at f3 fr
      simp only [readNumberSpec_add] at f3 fl fr
      refine ⟨st', ys1 ++ ys2, ?_, ?_, ?_, ?_, ?_, ?_, ?_, ?_, ?_, ?_⟩
      · simp only [pairedLoop, if_neg hnil, e1, c1, f1]
      · simp only [List.length_append, c2, f2, List.length_drop]; omega
      · intro i y hy
        by_cases hi : i < ys1.length
        · rw [List.getElem?_append_left hi] at hy
          have hx : b[i]? = some b[i] := List.getElem?_eq_getElem (by omega)
          obtain ⟨l0, r0, g1, g2, g3⟩ := e5 i _ hx
          have := c3 i _ y hx hy
          rw [g3] at this
          exact ⟨l0, r0, g1, g2, this⟩
        · rw [List.getElem?_append_right (by omega)] at hy
          obtain ⟨l0, r0, g1, g2, g3⟩ := f3 _ y hy
          rw [List.getElem?_drop] at g1 g2
          have ei : b.length + (i - ys1.length) = i := by omega
          rw [ei] at g1 g2 g3
          exact ⟨l0, r0, g1, g2, g3⟩
      · rw [fl]
        simp only [List.length_drop]
        congr 1
        omega
      · rw [fr]
        simp only [List.length_drop]
        congr 1
        omega
      · rw [f4, w5]; simp [List.append_assoc]
      · rw [f5, w6]; simp [List.append_assoc]
      · rw [f6, w7]; simp [List.append_assoc]
      · rw [f7, w8]; simp [List.append_assoc]
      · rw [f8, w9]; simp [unpairedOf, List.append_assoc]

/-- C27: the read number of the `j`-th read of a file is, in all three functions, the
starting read number plus the number of earlier reads of the file whose trimmed size is
at least `K`.  `ReadFileIntoBlob` has this value in `cur_read` when it reaches the read
and gives it as id to the table entry it pushes for the read, and pushes nothing and keeps
`cur_read` for a read of trimmed size below `K`.  `CorrectReadFile` has this value in
`readno` when it reaches the read and calls `CorrectOneRead` with it, and skips the read,
keeping `readno`, when its trimmed size is below `K`.  `CorrectPairedReadFiles` (buffer of
at least one pair, right stream at least as long as the left one, reads of the table with
k-mers that can be voted on, a bound on the number of batches above the number of pairs)
returns, and the result of the `i`-th pair, whatever its batch, is that of `CorrectOneRead`
called with this value for the left stream on the left read and with this value for the
right stream on the right read, reads of trimmed size below `K` being left as they are;
the results are the ones routed to the output streams. -/
theorem read_numbers_agree {P : Type} (G : Globals) (E : KMerEnv P) (R : ReadEnv)
    (kmers : List (KMerCount P)) (pr : List PositionRead) (ct ds : Bool) :
    (∀ (reads : List Read) (rc : Bool) (st : BlobState) (j : Nat) (r0 : Read),
      reads[j]? = some r0 →
      (ReadFileIntoBlob G R (reads.take j) rc st).cur_read =
        readNumberSpec G R st.cur_read reads j ∧
      (G.K ≤ (R.trimNsAndBadQuality r0).seq.length →
        ∃ x : PositionRead, x.id = readNumberSpec G R st.cur_read reads j ∧
          (ReadFileIntoBlob G R (reads.take (j + 1)) rc st).pr =
            (ReadFileIntoBlob G R (reads.take j) rc st).pr ++ [x] ∧
          (ReadFileIntoBlob G R (reads.take (j + 1)) rc st).cur_read =
            readNumberSpec G R st.cur_read reads j + 1) ∧
      ((R.trimNsAndBadQuality r0).seq.length < G.K →
        ReadFileIntoBlob G R (reads.take (j + 1)) rc st =
          ReadFileIntoBlob G R (reads.take j) rc st)) ∧
    (∀ (reads : List Read) (st stj : FileState) (j : Nat) (r0 : Read),
      reads[j]? = some r0 →
      CorrectReadFile G E R kmers pr ct ds (reads.take j) st = some stj →
      stj.readno = readNumberSpec G R st.readno reads j ∧
      (G.K ≤ (R.trimNsAndBadQuality r0).seq.length →
        CorrectReadFile G E R kmers pr ct ds (reads.take (j + 1)) st =
          (CorrectOneRead G E kmers pr stj.changedReads stj.changedNucleotides
            (readNumberSpec G R st.readno reads j) (R.trimNsAndBadQuality r0) ct ds).map
            (fun o =>
              { changedReads := o.changedReads
                changedNucleotides := o.changedNucleotides
                readno := readNumberSpec G R st.readno reads j + 1
                outf_good := if o.isGood then stj.outf_good ++ [o.r] else stj.outf_good
                outf_bad := if o.isGood then stj.outf_bad else stj.outf_bad ++ [o.r] })) ∧
      ((R.trimNsAndBadQuality r0).seq.length < G.K →
        CorrectReadFile G E R kmers pr ct ds (reads.take (j + 1)) st = some stj)) ∧
    (∀ (read_buffer_size : Nat) (irsl irsr : List Read) (st : PairedState) (fuel : Nat),
      1 ≤ read_buffer_size → irsl.length < fuel → irsl.length ≤ irsr.length →
      st.readno_left + irsl.length ≤ pr.length →
      st.readno_right + irsl.length ≤ pr.length →
      (∀ (readno : Nat) (p : PositionRead), pr[readno]? = some p →
        VotesInRange G E kmers readno p.size) →
      ∃ (st' : PairedState) (ys : List PairResult),
        CorrectPairedReadFiles G E R kmers pr ct ds read_buffer_size irsl irsr st fuel
          = some st' ∧
        ys.length = irsl.length ∧
        (∀ (i : Nat) (y : PairResult), ys[i]? = some y → ∃ l0 r0, irsl[i]? = some l0 ∧
          irsr[i]? = some r0 ∧
          ResultAt G E kmers pr ct ds
            ⟨R.trimNsAndBadQuality l0, R.trimNsAndBadQuality r0,
              readNumberSpec G R st.readno_left irsl i,
              readNumberSpec G R st.readno_right irsr i⟩ y) ∧
        st'.readno_left = readNumberSpec G R st.readno_left irsl irsl.length ∧
        st'.readno_right = readNumberSpec G R st.readno_right irsr irsl.length ∧
        st'.ofbadl = st.ofbadl ++ (ys.filter (fun y => !y.left_res)).map (fun y => y.l) ∧
        st'.ofbadr = st.ofbadr ++ (ys.filter (fun y => !y.right_res)).map (fun y => y.r) ∧
        st'.ofcorl =
          st.ofcorl ++ (ys.filter (fun y => y.left_res && y.right_res)).map (fun y => y.l) ∧
        st'.ofcorr =
          st.ofcorr ++ (ys.filter (fun y => y.left_res && y.right_res)).map (fun y => y.r) ∧
        st'.ofunp = st.ofunp ++ unpairedOf ys) := by
  refine ⟨?_, ?_, ?_⟩
  · intro reads rc st j r0 hj
    have hcur : (ReadFileIntoBlob G R (reads.take j) rc st).cur_read =
        readNumberSpec G R st.cur_read reads j :=
      ReadFileIntoBlob_cur_read G R rc (reads.take j) st
    have hstep : ReadFileIntoBlob G R (reads.take (j + 1)) rc st =
        storeRead G R rc (ReadFileIntoBlob G R (reads.take j) rc st) r0 := by
      rw [take_succ_of_getElem? reads j r0 hj]
      simp [ReadFileIntoBlob, List.foldl_append]
    refine ⟨hcur, ?_, ?_⟩
    · intro hK
      have e : storeRead G R rc (ReadFileIntoBlob G R (reads.take j) rc st) r0 =
          pushRead G R (ReadFileIntoBlob G R (reads.take j) rc st)
            (R.trimNsAndBadQuality r0).seq.length
            (if rc then (R.trimNsAndBadQuality r0).revComp else R.trimNsAndBadQuality r0) := by
        simp only [storeRead,
          if_neg (by omega : ¬ (R.trimNsAndBadQuality r0).seq.length < G.K)]
      rw [hstep, e]
      exact ⟨⟨(ReadFileIntoBlob G R (reads.take j) rc st).curpos,
        (R.trimNsAndBadQuality r0).seq.length % 2 ^ 32,
        (ReadFileIntoBlob G R (reads.take j) rc st).cur_read, false⟩, hcur, rfl,
        by rw [← hcur]; rfl⟩
    · intro hK
      rw [hstep]
      simp only [storeRead, if_pos hK]
  · intro reads st stj j r0 hj hpre
    have hno : stj.readno = readNumberSpec G R st.readno reads j :=
      CorrectReadFile_readno G E R kmers pr ct ds (reads.take j) st stj hpre
    have hstep : CorrectReadFile G E R kmers pr ct ds (reads.take (j + 1)) st =
        correctStep G E R kmers pr ct ds stj r0 := by
      rw [take_succ_of_getElem? reads j r0 hj, CorrectReadFile_append, hpre]
      simp only [Option.some_bind, CorrectReadFile]
      cases correctStep G E R kmers pr ct ds stj r0 <;> rfl
    refine ⟨hno, ?_, ?_⟩
    · intro hK
      rw [hstep]
      simp only [correctStep,
        if_neg (by omega : ¬ (R.trimNsAndBadQuality r0).seq.length < G.K), hno]
      cases CorrectOneRead G E kmers pr stj.changedReads stj.changedNucleotides
        (readNumberSpec G R st.readno reads j) (R.trimNsAndBadQuality r0) ct ds <;> rfl
    · intro hK
      rw [hstep]
      simp only [correctStep, if_pos hK]
  · intro read_buffer_size irsl irsr st fuel hbuf hfuel hlen hnl hnr hv
    exact pairedLoop_numbers G E R kmers pr ct ds read_buffer_size pr.length hbuf
      (fun cr cn readno r hlt => by
        have hp : pr[readno]? = some pr[readno] := List.getElem?_eq_getElem hlt
        obtain ⟨o, ho, -⟩ := CorrectOneRead_isGood G E kmers pr cr cn readno r ct ds _ hp
          (hv readno _ hp)
        exact ⟨o, ho⟩)
      fuel irsl irsr st hfuel hlen hnl hnr

/-- C27, instance: `K = 2`, the file holds the reads `C`, `CGTA` and `AA` and starts at the
read number 0; the blob is `C G T A A A`.  The read `AA`, the third of the file, has one
earlier read of size at least `K`, so its number is 1: `ReadFileIntoBlob` reaches it with
`cur_read = 1` and `CorrectReadFile`, which has printed `CGTA` as read 0, calls
`CorrectOneRead` with the read number 1 for it. -/
theorem read_numbers_agree_witness :
    readNumberSpec ⟨2, fun i => [67, 71, 84, 65, 65, 65].getD i 0, fun _ => 0, true, 0, 0, 0,
        0, []⟩ ⟨id, 33⟩ 0
      [⟨[67], [1]⟩, ⟨[67, 71, 84, 65], [1, 1, 1, 1]⟩, ⟨[65, 65], [1, 1]⟩] 2 = 1 ∧
    (ReadFileIntoBlob ⟨2, fun i => [67, 71, 84, 65, 65, 65].getD i 0, fun _ => 0, true, 0, 0,
        0, 0, []⟩ ⟨id, 33⟩
      ([⟨[67], [1]⟩, ⟨[67, 71, 84, 65], [1, 1, 1, 1]⟩, ⟨[65, 65], [1, 1]⟩].take 2) false
      ⟨fun _ => 0, fun _ => 0, [], 0, 0⟩).cur_read =
      readNumberSpec ⟨2, fun i => [67, 71, 84, 65, 65, 65].getD i 0, fun _ => 0, true, 0, 0,
        0, 0, []⟩ ⟨id, 33⟩ 0
        [⟨[67], [1]⟩, ⟨[67, 71, 84, 65], [1, 1, 1, 1]⟩, ⟨[65, 65], [1, 1]⟩] 2 ∧
    (⟨0, 0, 1, [⟨[67, 71, 84, 65], [1, 1, 1, 1]⟩], []⟩ : FileState).readno =
      readNumberSpec ⟨2, fun i => [67, 71, 84, 65, 65, 65].getD i 0, fun _ => 0, true, 0, 0,
        0, 0, []⟩ ⟨id, 33⟩ 0
        [⟨[67], [1]⟩, ⟨[67, 71, 84, 65], [1, 1, 1, 1]⟩, ⟨[65, 65], [1, 1]⟩] 2 :=
  ⟨by decide,
    ((read_numbers_agree (P := Nat)
      ⟨2, fun i => [67, 71, 84, 65, 65, 65].getD i 0, fun _ => 0, true, 0, 0, 0, 0, []⟩
      (codedEnv Nat (fun n => if n = 0 then [(0, 0), (1, 1), (2, 2)] else [(0, 3)])) ⟨id, 33⟩
      [⟨0, ⟨1, 1003, 0, []⟩⟩, ⟨1, ⟨1, 1001, 0, []⟩⟩, ⟨2, ⟨1, 1003, 0, []⟩⟩,
        ⟨4, ⟨1, 1001, 0, []⟩⟩]
      [⟨0, 4, 0, false⟩, ⟨4, 2, 1, false⟩] false false).1
      [⟨[67], [1]⟩, ⟨[67, 71, 84, 65], [1, 1, 1, 1]⟩, ⟨[65, 65], [1, 1]⟩] false
      ⟨fun _ => 0, fun _ => 0, [], 0, 0⟩ 2 ⟨[65, 65], [1, 1]⟩ rfl).1,
    ((read_numbers_agree (P := Nat)
      ⟨2, fun i => [67, 71, 84, 65, 65, 65].getD i 0, fun _ => 0, true, 0, 0, 0, 0, []⟩
      (codedEnv Nat (fun n => if n = 0 then [(0, 0), (1, 1), (2, 2)] else [(0, 3)])) ⟨id, 33⟩
      [⟨0, ⟨1, 1003, 0, []⟩⟩, ⟨1, ⟨1, 1001, 0, []⟩⟩, ⟨2, ⟨1, 1003, 0, []⟩⟩,
        ⟨4, ⟨1, 1001, 0, []⟩⟩]
      [⟨0, 4, 0, false⟩, ⟨4, 2, 1, false⟩] false false).2.1
      [⟨[67], [1]⟩, ⟨[67, 71, 84, 65], [1, 1, 1, 1]⟩, ⟨[65, 65], [1, 1]⟩]
      ⟨0, 0, 0, [], []⟩ ⟨0, 0, 1, [⟨[67, 71, 84, 65], [1, 1, 1, 1]⟩], []⟩ 2
      ⟨[65, 65], [1, 1]⟩ rfl (by decide)).1⟩

/-! ### Reads whose votes are for one sequence -/

/-- A k-mer that casts no vote leaves the variables of `CorrectOneRead` as they are. -/
theorem noVote_step {P : Type} (G : Globals) (E : KMerEnv P) (kmers : List (KMerCount P))
    (read_size pos : Nat) (st : VoteState) (ct ds : Bool) (q : Nat × Nat) (kmc : KMerCount P)
    (hk : kmers[q.2]? = some kmc) (h : NoVote E kmers ct ds q) :
    internalCorrectReadProcedure G E read_size kmers kmc.first pos kmc.second st ct ds =
      some (st, false) := by
  obtain ⟨-, hall⟩ := h
  obtain ⟨h1, h2, h3⟩ := hall kmc hk
  have hc : (E.isGoodForIterative kmc.second || (ct && E.isGood kmc.second)) = false := by
    cases hct : ct
    · simp [h1]
    · simp [h1, h2 hct]
  by_cases hch : E.change kmc.second = true
  · obtain ⟨c1, c2, c3⟩ := h3 hch
    have ht : kmers[kmc.second.changeto]? = some kmers[kmc.second.changeto] :=
      List.getElem?_eq_getElem c1
    have c4 := c3 _ ht
    have hc2 : (ds || E.isGoodForIterative kmers[kmc.second.changeto].second ||
        (ct && E.isGood kmc.second)) = false := by
      cases hct : ct
      · simp [c2, c4]
      · simp [c2, c4, h2 hct]
    simp only [internalCorrectReadProcedure, hc, Bool.false_eq_true, if_false, hch, if_true,
      ht, hc2]
  · simp only [internalCorrectReadProcedure, hc, Bool.false_eq_true, if_false, hch]

theorem voteAll_skip {P : Type} (G : Globals) (E : KMerEnv P) (kmers : List (KMerCount P))
    (read_size : Nat) (ct ds : Bool) (skip l2 : List (Nat × Nat)) (st : VoteState)
    (h : ∀ q ∈ skip, NoVote E kmers ct ds q) :
    voteAll G E kmers read_size ct ds (skip ++ l2) st false =
      voteAll G E kmers read_size ct ds l2 st false := by
  induction skip with
  | nil => rfl
  | cons q tl ih =>
    obtain ⟨pos, idx⟩ := q
    have hq := h (pos, idx) (List.mem_cons_self _ _)
    have hlt : idx < kmers.length := hq.1
    have hk : kmers[idx]? = some kmers[idx] := List.getElem?_eq_getElem hlt
    simp only [List.cons_append, voteAll, hk, Bool.false_eq_true, if_false,
      noVote_step G E kmers read_size pos st ct ds (pos, idx) _ hk hq]
    exact ih (fun q hq => h q (List.mem_cons_of_mem _ hq))

theorem voteAll_changed {P : Type} (G : Globals) (E : KMerEnv P) (kmers : List (KMerCount P))
    (read_size : Nat) (ct ds : Bool) (rest : List (Nat × Nat)) (st : VoteState)
    (h : ∀ q ∈ rest, q.2 < kmers.length) :
    voteAll G E kmers read_size ct ds rest st true = some (st, true) := by
  induction rest with
  | nil => rfl
  | cons q tl ih =>
    obtain ⟨pos, idx⟩ := q
    have hlt : idx < kmers.length := h (pos, idx) (List.mem_cons_self _ _)
    have hk : kmers[idx]? = some kmers[idx] := List.getElem?_eq_getElem hlt
    simp only [voteAll, hk, if_true]
    exact ih (fun q hq => h q (List.mem_cons_of_mem _ hq))

/-- The votes after a k-mer that spells the letters of `s` has voted next to, or inside,
the columns that have votes. -/
theorem votesCover_addKMer {P : Type} (G : Globals) (E : KMerEnv P) (s : Nat → Nat)
    (a w kmer pos : Nat) (v : Nat → Nat → Int) (hv : VotesCover E s a w v) (hK : 1 ≤ G.K)
    (ha : a ≤ pos) (hgap : pos ≤ a + w) (hw : a + w ≤ pos + G.K)
    (hword : ∀ j, j < G.K → G.blob (kmer + j) = s (pos + j)) :
    VotesCover E s a (pos + G.K - a) (addKMer G E kmer pos v) := by
  have hval : ∀ k c, addKMer G E kmer pos v k c =
      if pos ≤ c ∧ c < pos + G.K ∧ k = E.dignucl (s c) then v k c + 1 else v k c := by
    intro k c
    simp only [addKMer]
    by_cases hr : pos ≤ c ∧ c < pos + G.K
    · have e : G.blob (kmer + (c - pos)) = s c := by
        rw [hword (c - pos) (by omega)]
        congr 1
        omega
      rw [e]
    · rw [if_neg (fun h => hr ⟨h.1, h.2.1⟩), if_neg (fun h => hr ⟨h.1, h.2.1⟩)]
  intro k c
  obtain ⟨v1, v2, v3⟩ := hv k c
  refine ⟨?_, ?_, ?_⟩
  · rw [hval]
    split_ifs <;> omega
  · rw [hval]
    intro hp
    by_cases hcell : pos ≤ c ∧ c < pos + G.K ∧ k = E.dignucl (s c)
    · exact ⟨by omega, by omega, hcell.2.2⟩
    · rw [if_neg hcell] at hp
      obtain ⟨b1, b2, b3⟩ := v2 hp
      exact ⟨b1, by omega, b3⟩
  · intro h1 h2
    rw [hval]
    obtain ⟨u1, -, u3⟩ := hv (E.dignucl (s c)) c
    by_cases hcell : pos ≤ c ∧ c < pos + G.K
    · rw [if_pos ⟨hcell.1, hcell.2, rfl⟩]
      omega
    · rw [if_neg (fun h => hcell ⟨h.1, h.2.1⟩)]
      exact u3 h1 (by omega)

/-- The consensus on the columns that have votes, all for the letters of `s`, is `s`. -/
theorem consensus_votesCover {P : Type} (E : KMerEnv P) (s : Nat → Nat) (a w : Nat)
    (v : Nat → Nat → Int) (seq : List Nat) (hv : VotesCover E s a w v)
    (hs : ∀ c, a ≤ c → c < a + w → E.dignucl (s c) < 4 ∧ E.nucl (E.dignucl (s c)) = s c)
    (hlen : a + w ≤ seq.length) :
    ((consensus E v seq).drop a).take w = (List.range' a w).map s := by
  apply List.ext_getElem
  · simp [consensus]
    omega
  · intro i h1 h2
    have hi : i < w := by simpa using h2
    have hai : a + i < seq.length := by omega
    simp only [consensus, List.getElem_take, List.getElem_drop, List.getElem_map,
      List.getElem_range', Nat.one_mul]
    have hpos : ∃ k, k < 4 ∧ 0 < v k (a + i) :=
      ⟨E.dignucl (s (a + i)), (hs (a + i) (by omega) (by omega)).1,
        (hv 0 (a + i)).2.2 (by omega) (by omega)⟩
    have hb : a + i < seq.enum.length := by simpa using hai
    have hen : seq.enum[a + i] = (a + i, seq[a + i]) := by
      simp
    rw [hen]
    obtain ⟨k, -, he, hp, -, -⟩ := (consensusLetter_spec E v (a + i) seq[a + i]).2 hpos
    rw [he]
    simp only
    rw [((hv k (a + i)).2.1 hp).2.2, (hs (a + i) (by omega) (by omega)).2]

theorem window_of_map (s : Nat → Nat) (a w i K : Nat) (h : i + K ≤ w) :
    (((List.range' a w).map s).drop i).take K = (List.range K).map (fun j => s (a + i + j)) := by
  apply List.ext_getElem
  · simp
    omega
  · intro n h1 h2
    simp only [List.getElem_take, List.getElem_drop, List.getElem_map, List.getElem_range',
      List.getElem_range, Nat.one_mul]
    congr 1
    omega

/-- One more k-mer votes for the letters of `s`, at the position after the last one. -/
theorem afterVotes_step {P : Type} (G : Globals) (E : KMerEnv P) (s : Nat → Nat)
    (a size m kmer : Nat) (st : VoteState) (h : AfterVotes E s a G.K size m st) (hK : 1 ≤ G.K)
    (hpos : a + m + G.K ≤ size)
    (hword : ∀ j, j < G.K → G.blob (kmer + j) = s (a + m + j)) :
    AfterVotes E s a G.K size (m + 1)
      ⟨addKMer G E kmer (a + m) st.v, min st.left ((a + m : Nat) : Int),
        max st.right ((a + m : Nat) : Int), true⟩ := by
  obtain ⟨h1, h2, h3, h4⟩ := h
  refine ⟨?_, ?_, ?_, ?_⟩
  · have hc := votesCover_addKMer G E s a (if m = 0 then 0 else m - 1 + G.K) kmer (a + m)
      st.v h1 hK (by omega) (by split_ifs <;> omega) (by split_ifs <;> omega) hword
    have e : a + m + G.K - a = m + 1 - 1 + G.K := by omega
    rw [e] at hc
    simpa using hc
  · simp only [h2]
    rw [if_neg (Nat.succ_ne_zero m)]
    split_ifs with hm
    · subst hm
      simp only [Nat.add_zero]
      exact min_eq_right (by exact_mod_cast (by omega : a ≤ size))
    · exact min_eq_left (by exact_mod_cast (by omega : a ≤ a + m))
  · simp only [h3]
    rw [if_neg (Nat.succ_ne_zero m)]
    split_ifs with hm
    · subst hm
      simp only [Nat.add_zero, Nat.cast_zero, Int.add_zero]
      rw [max_eq_right (by omega)]
      simp
    · rw [max_eq_right (by push_cast; omega)]
      push_cast
      omega
  · simp

theorem solidVote_step {P : Type} (G : Globals) (E : KMerEnv P) (kmers : List (KMerCount P))
    (read_size : Nat) (st : VoteState) (ct ds : Bool) (s : Nat → Nat) (q : Nat × Nat)
    (kmc : KMerCount P) (hk : kmers[q.2]? = some kmc) (h : SolidVote G E kmers s q)
    (hpos : q.1 + G.K ≤ read_size) (h31 : q.1 < 2 ^ 31)
    (hs : ∀ j, j < G.K → E.dignucl (s (q.1 + j)) < 4) :
    E.isGoodForIterative kmc.second = true ∧
    (∀ j, j < G.K → G.blob (kmc.first + j) = s (q.1 + j)) ∧
    internalCorrectReadProcedure G E read_size kmers kmc.first q.1 kmc.second st ct ds =
      some (⟨addKMer G E kmc.first q.1 st.v, min st.left q.1, max st.right q.1, true⟩,
        false) := by
  obtain ⟨-, hall⟩ := h
  obtain ⟨hg, hb⟩ := hall kmc hk
  refine ⟨hg, hb, ?_⟩
  have hl : ∀ j, j < G.K → E.dignucl (G.blob (kmc.first + j)) < 4 := by
    intro j hj
    rw [hb j hj]
    exact hs j hj
  have hc : (E.isGoodForIterative kmc.second || (ct && E.isGood kmc.second)) = true := by
    simp [hg]
  simp only [internalCorrectReadProcedure, hc, if_true,
    voteLoop_eq_addKMer G E read_size kmc.first q.1 st.v hl hpos, extendWindow_eq st q.1 _ h31]

theorem changeVote_step {P : Type} (G : Globals) (E : KMerEnv P) (kmers : List (KMerCount P))
    (read_size : Nat) (st : VoteState) (ct ds : Bool) (s : Nat → Nat) (q : Nat × Nat)
    (kmc : KMerCount P) (hk : kmers[q.2]? = some kmc) (h : ChangeVote G E kmers ct s q)
    (hpos : q.1 + G.K ≤ read_size) (h31 : q.1 < 2 ^ 31)
    (hs : ∀ j, j < G.K → E.dignucl (s (q.1 + j)) < 4) :
    ∃ t : KMerCount P, t ∈ kmers ∧ E.isGoodForIterative t.second = true ∧
      (∀ j, j < G.K → G.blob (t.first + j) = s (q.1 + j)) ∧
      internalCorrectReadProcedure G E read_size kmers kmc.first q.1 kmc.second st ct ds =
        some (⟨addKMer G E t.first q.1 st.v, min st.left q.1, max st.right q.1, true⟩,
          true) := by
  obtain ⟨-, hall⟩ := h
  obtain ⟨h1, h2, hch, hlt, ht⟩ := hall kmc hk
  have hte : kmers[kmc.second.changeto]? = some kmers[kmc.second.changeto] :=
    List.getElem?_eq_getElem hlt
  obtain ⟨hg, hb⟩ := ht _ hte
  refine ⟨kmers[kmc.second.changeto], List.getElem_mem hlt, hg, hb, ?_⟩
  have hl : ∀ j, j < G.K → E.dignucl (G.blob (kmers[kmc.second.changeto].first + j)) < 4 := by
    intro j hj
    rw [hb j hj]
    exact hs j hj
  have hc : (E.isGoodForIterative kmc.second || (ct && E.isGood kmc.second)) = false := by
    cases hct : ct
    · simp [h1]
    · simp [h1, h2 hct]
  have hc2 : (ds || E.isGoodForIterative kmers[kmc.second.changeto].second ||
      (ct && E.isGood kmc.second)) = true := by
    simp [hg]
  simp only [internalCorrectReadProcedure, hc, Bool.false_eq_true, if_false, hch, if_true,
    hte, hc2, voteLoop_eq_addKMer G E read_size _ q.1 st.v hl hpos,
    extendWindow_eq st q.1 _ h31]

/-- The loop of `CorrectOneRead` over k-mers that are good for the iteration, sit at
consecutive positions and spell the letters of `s`. -/
theorem voteAll_solid_run {P : Type} (G : Globals) (E : KMerEnv P)
    (kmers : List (KMerCount P)) (size : Nat) (ct ds : Bool) (s : Nat → Nat) (a : Nat)
    (hK : 1 ≤ G.K) (h31 : size < 2 ^ 31) (l2 : List (Nat × Nat)) (vs : List (Nat × Nat)) :
    ∀ (m : Nat) (st : VoteState),
      vs.map (fun q => q.1) = List.range' (a + m) vs.length →
      (∀ q ∈ vs, SolidVote G E kmers s q) →
      (vs ≠ [] → a + m + vs.length + G.K ≤ size + 1) →
      (∀ c, a + m ≤ c → c + 1 < a + m + vs.length + G.K → E.dignucl (s c) < 4) →
      AfterVotes E s a G.K size m st →
      ∃ st', voteAll G E kmers size ct ds (vs ++ l2) st false =
          voteAll G E kmers size ct ds l2 st' false ∧
        AfterVotes E s a G.K size (m + vs.length) st' := by
  induction vs with
  | nil =>
    intro m st _ _ _ _ hst
    exact ⟨st, rfl, hst⟩
  | cons q tl ih =>
    intro m st hmap hsol hlen hlet hst
    obtain ⟨pos, idx⟩ := q
    have hlen' := hlen (List.cons_ne_nil _ _)
    simp only [List.length_cons] at hlen' hlet
    simp only [List.map_cons, List.length_cons, List.range'_succ, List.cons.injEq] at hmap
    obtain ⟨hpos, hmap'⟩ := hmap
    subst hpos
    have hq := hsol (a + m, idx) (List.mem_cons_self _ _)
    have hlt : idx < kmers.length := hq.1
    have hk : kmers[idx]? = some kmers[idx] := List.getElem?_eq_getElem hlt
    obtain ⟨-, hb, hstep⟩ := solidVote_step G E kmers size st ct ds s (a + m, idx) _ hk hq
      (by simp only; omega) (by simp only; omega)
      (fun j hj => hlet (a + m + j) (by omega) (by omega))
    simp only at hb hstep
    obtain ⟨st', e1, e2⟩ := ih (m + 1) _
      (by rw [hmap']; congr 1)
      (fun q hq => hsol q (List.mem_cons_of_mem _ hq))
      (fun _ => by omega)
      (fun c h1 h2 => hlet c (by omega) (by omega))
      (afterVotes_step G E s a size m kmers[idx].first st hst hK (by omega) hb)
    refine ⟨st', ?_, ?_⟩
    · simp only [List.cons_append, voteAll, hk, Bool.false_eq_true, if_false, hstep]
      exact e1
    · rw [List.length_cons, show m + (tl.length + 1) = m + 1 + tl.length by omega]
      exact e2

/-- The votes, the window and the flag of `CorrectOneRead` for a read whose votes are for
one sequence: the window runs from the first to the last of the voting k-mers and every
column of it has votes, all for the letter of the sequence. -/
theorem readVotes_consistent {P : Type} (G : Globals) (E : KMerEnv P)
    (kmers : List (KMerCount P)) (readno : Nat) (p : PositionRead) (ct ds : Bool)
    (skip voters rest : List (Nat × Nat)) (a : Nat) (s : Nat → Nat)
    (h : ConsistentVotes G E kmers readno p ct ds skip voters rest a s) :
    ∃ st b, readVotes G E kmers readno p ct ds = some (st, b) ∧
      AfterVotes E s a G.K p.size voters.length st ∧
      ∀ q ∈ voters, ∃ kmc ∈ kmers, E.isGoodForIterative kmc.second = true ∧
        ∀ j, j < G.K → G.blob (kmc.first + j) = s (q.1 + j) := by
  obtain ⟨hK, h31, hne, hlen, hlist, hmap, hlet, hskip, hinit, hlast⟩ := h
  have hM : 1 ≤ voters.length := List.length_pos.2 hne
  have hsplit : voters.dropLast ++ [voters.getLast hne] = voters :=
    List.dropLast_append_getLast hne
  have hil : voters.dropLast.length = voters.length - 1 := List.length_dropLast voters
  have hmap2 : (voters.dropLast ++ [voters.getLast hne]).map (fun q => q.1) =
      List.range' a (voters.length - 1) ++ [a + (voters.length - 1)] := by
    rw [hsplit, hmap]
    have e : voters.length = (voters.length - 1) + 1 := by omega
    conv_lhs => rw [e]
    rw [List.range'_concat]
    simp
  rw [List.map_append, List.map_singleton] at hmap2
  obtain ⟨hmi, hml⟩ := List.append_inj hmap2 (by simp [hil])
  have hlp : (voters.getLast hne).1 = a + (voters.length - 1) := by
    simpa using hml
  have hst0 : AfterVotes E s a G.K p.size 0
      ⟨fun _ _ => 0, omnigraph.toInt32 p.size, -1, false⟩ := by
    refine ⟨?_, ?_, rfl, rfl⟩
    · intro k c
      simp only [if_true]
      exact ⟨le_refl _, fun hc => absurd hc (lt_irrefl _), fun h1 h2 => by omega⟩
    · simp only [if_true]
      exact omnigraph.toInt32_of_lt _ (Int.natCast_nonneg _) (by exact_mod_cast h31)
  obtain ⟨st1, e1, hst1⟩ := voteAll_solid_run G E kmers p.size ct ds s a hK h31
    ([voters.getLast hne] ++ rest) voters.dropLast 0 _
    (by rw [hmi, hil]; rfl) hinit (fun _ => by rw [hil]; omega)
    (fun c h1 h2 => (hlet c (by omega) (by rw [hil] at h2; omega)).1) hst0
  rw [Nat.zero_add, hil] at hst1
  have hlastq := hlast (voters.getLast hne) (List.getLast?_eq_getLast _ hne)
  have hrun : readVotes G E kmers readno p ct ds =
      voteAll G E kmers p.size ct ds ([voters.getLast hne] ++ rest) st1 false := by
    unfold readVotes
    rw [hlist, List.append_assoc, voteAll_skip G E kmers p.size ct ds skip _ _ hskip]
    conv_lhs => rw [← hsplit, List.append_assoc]
    exact e1
  have hstepv : ∀ (idx : Nat) (kmc : KMerCount P) (st2 : VoteState) (res : Bool),
      kmers[idx]? = some kmc →
      internalCorrectReadProcedure G E p.size kmers kmc.first (a + (voters.length - 1))
        kmc.second st1 ct ds = some (st2, res) →
      voteAll G E kmers p.size ct ds ([(a + (voters.length - 1), idx)] ++ rest) st1 false =
        voteAll G E kmers p.size ct ds rest st2 res := by
    intro idx kmc st2 res hk hint
    simp only [List.singleton_append, voteAll, hk, Bool.false_eq_true, if_false, hint]
    rfl
  have hstep := afterVotes_step G E s a p.size (voters.length - 1)
  have hMe : voters.length - 1 + 1 = voters.length := by omega
  have hsolid : ∀ q ∈ voters.dropLast, ∃ kmc ∈ kmers, E.isGoodForIterative kmc.second = true ∧
      ∀ j, j < G.K → G.blob (kmc.first + j) = s (q.1 + j) := by
    intro q hq
    obtain ⟨hlt, hall⟩ := hinit q hq
    obtain ⟨g1, g2⟩ := hall _ (List.getElem?_eq_getElem hlt)
    exact ⟨_, List.getElem_mem hlt, g1, g2⟩
  have hmem : ∀ q ∈ voters, q ∈ voters.dropLast ∨ q = voters.getLast hne := by
    intro q hq
    rw [← hsplit] at hq
    simpa using hq
  rcases hq' : voters.getLast hne with ⟨pos, idx⟩
  rw [hq'] at hlp hlastq hrun
  simp only at hlp
  subst hlp
  rcases hlastq with ⟨hs, hrest⟩ | ⟨hc, hrest⟩
  · have hlt : idx < kmers.length := hs.1
    have hk : kmers[idx]? = some kmers[idx] := List.getElem?_eq_getElem hlt
    obtain ⟨hg, hb, hint⟩ := solidVote_step G E kmers p.size st1 ct ds s
      (a + (voters.length - 1), idx) _ hk hs (by simp only; omega) (by simp only; omega)
      (fun j hj => (hlet _ (by omega) (by omega)).1)
    simp only at hb hint
    have hst2 := hstep kmers[idx].first st1 hst1 hK (by omega) hb
    rw [hMe] at hst2
    refine ⟨_, false, ?_, hst2, ?_⟩
    · have e2 := voteAll_skip G E kmers p.size ct ds rest []
        ⟨addKMer G E kmers[idx].first (a + (voters.length - 1)) st1.v,
          min st1.left ((a + (voters.length - 1) : Nat) : Int),
          max st1.right ((a + (voters.length - 1) : Nat) : Int), true⟩ hrest
      rw [List.append_nil] at e2
      rw [hrun, hstepv _ _ _ _ hk hint, e2]
      rfl
    · intro q hq
      rcases hmem q hq with h1 | h1
      · exact hsolid q h1
      · rw [h1, hq']
        exact ⟨_, List.getElem_mem hlt, hg, hb⟩
  · have hlt : idx < kmers.length := hc.1
    have hk : kmers[idx]? = some kmers[idx] := List.getElem?_eq_getElem hlt
    obtain ⟨t, htm, hg, hb, hint⟩ := changeVote_step G E kmers p.size st1 ct ds s
      (a + (voters.length - 1), idx) _ hk hc (by simp only; omega) (by simp only; omega)
      (fun j hj => (hlet _ (by omega) (by omega)).1)
    simp only at hb hint
    have hst2 := hstep t.first st1 hst1 hK (by omega) hb
    rw [hMe] at hst2
    refine ⟨_, true, ?_, hst2, ?_⟩
    · rw [hrun, hstepv _ _ _ _ hk hint]
      exact voteAll_changed G E kmers p.size ct ds rest _ hrest
    · intro q hq
      rcases hmem q hq with h1 | h1
      · exact hsolid q h1
      · rw [h1, hq']
        exact ⟨t, htm, hg, hb⟩

end HammerTools

namespace debruijn

/-! ### The schedule of `SimplifyGraph` -/

theorem call_calls {σ : Type} (E : GraphPack σ) (c : SimplifCall) (x : SimplifState σ) :
    (call E c x).calls = x.calls ++ [c] := rfl

theorem call_state {σ : Type} (E : GraphPack σ) (c : SimplifCall) (x : SimplifState σ) :
    (call E c x).state = E.exec c x.state := rfl

theorem SimplificationCycle_calls {σ : Type} (E : GraphPack σ) (cfg : debruijn_config)
    (info : SimplifInfoContainer) (x : SimplifState σ) :
    (SimplificationCycle E cfg info x).calls = x.calls ++ cycleCalls cfg info := by
  simp [SimplificationCycle, call, cycleCalls]

theorem SimplificationCycle_state {σ : Type} (E : GraphPack σ) (cfg : debruijn_config)
    (info : SimplifInfoContainer) (x : SimplifState σ) :
    (SimplificationCycle E cfg info x).state =
      (SimplificationCycle E cfg info ⟨x.state, []⟩).state := rfl

theorem simplifyLoop_spec {σ : Type} (E : GraphPack σ) (cfg : debruijn_config) (n : Nat) :
    ∀ (i : Nat) (info : SimplifInfoContainer) (x : SimplifState σ),
      (simplifyLoop E cfg n i info x).state =
          (List.range n).foldl (fun st j =>
            (SimplificationCycle E cfg { info with iteration := i + j } ⟨st, []⟩).state)
            x.state ∧
        (simplifyLoop E cfg n i info x).calls =
          x.calls ++ (List.range n).flatMap
            (fun j => cycleCalls cfg { info with iteration := i + j }) := by
  induction n with
  | zero => intro i info x; simp [simplifyLoop]
  | succ n ih =>
    intro i info x
    obtain ⟨h1, h2⟩ := ih (i + 1) { info with iteration := i }
      (SimplificationCycle E cfg { info with iteration := i } x)
    have e : ∀ j : Nat, i + 1 + j = i + (j + 1) := fun j => by omega
    simp only [e] at h1 h2
    constructor
    · rw [simplifyLoop, h1, List.range_succ_eq_map, List.foldl_cons, List.foldl_map,
        SimplificationCycle_state]
      rfl
    · rw [simplifyLoop, h2, SimplificationCycle_calls, List.range_succ_eq_map,
        List.flatMap_cons, List.flatMap_map, List.append_assoc]
      rfl

/-- C21: `SimplifyGraph` calls the printer, then runs `PreSimplification` once (a failed
`VERIFY` in it ends the run), then `SimplificationCycle` for the iterations
`0, 1, ..., iteration_count - 1` in this order, each on the graph pack left by the one
before, then `PostSimplification` once on the graph pack left by the last cycle; the calls
recorded are those of `PreSimplification`, then for each `i` in increasing order those of
the cycle `i`, then those of `PostSimplification`.  Each `SimplificationCycle` calls
`ClipTips`, `RemoveBulges` and `RemoveLowCoverageEdges` once each, in this order, each
followed by a call of the printer. -/
theorem SimplifyGraph_schedule {σ : Type} (E : GraphPack σ) (cfg : debruijn_config)
    (run : PostCall → σ → σ × Bool) (info0 : SimplifInfoContainer) (iteration_count : Nat)
    (fuel : Nat) (s : σ) :
    SimplifyGraph E cfg run info0 iteration_count fuel s =
        (match PreSimplification E cfg cfg.presimp
            (presimpInfo E cfg info0 (E.exec (.printer .ipp_before_simplification none) s))
            ⟨E.exec (.printer .ipp_before_simplification none) s,
              [.printer .ipp_before_simplification none]⟩ with
        | .error f => .error f
        | .ok x1 =>
          .ok ((PostSimplification cfg.topology_simplif_enabled run fuel
            ((List.range iteration_count).foldl (fun st i =>
              (SimplificationCycle E cfg
                { presimpInfo E cfg info0 (E.exec (.printer .ipp_before_simplification none) s)
                  with iteration_count := iteration_count, iteration := i } ⟨st, []⟩).state)
              x1.state)).map
            (fun r => (r.1,
              (x1.calls ++ (List.range iteration_count).flatMap (fun i =>
                cycleCalls cfg
                  { presimpInfo E cfg info0
                      (E.exec (.printer .ipp_before_simplification none) s)
                    with iteration_count := iteration_count, iteration := i })).map Sum.inl ++
                r.2.map Sum.inr)))) ∧
      ∀ (info_container : SimplifInfoContainer) (x : SimplifState σ),
        (SimplificationCycle E cfg info_container x).calls =
          x.calls ++
            [.ClipTips cfg.tc_condition info_container cfg.graph_read_corr_enable,
              .printer .ipp_tip_clipping (some info_container.iteration),
              .RemoveBulges,
              .printer .ipp_bulge_removal (some info_container.iteration),
              .RemoveLowCoverageEdges cfg.ec_condition info_container,
              .printer .ipp_err_con_removal (some info_container.iteration)] := by
  refine ⟨?_, fun info x => SimplificationCycle_calls E cfg info x⟩
  unfold SimplifyGraph
  simp only [call_state, call, List.nil_append]
  cases hp : PreSimplification E cfg cfg.presimp
      (presimpInfo E cfg info0 (E.exec (.printer .ipp_before_simplification none) s))
      ⟨E.exec (.printer .ipp_before_simplification none) s,
        [.printer .ipp_before_simplification none]⟩ with
  | error f => rfl
  | ok x1 =>
    obtain ⟨h1, h2⟩ := simplifyLoop_spec E cfg iteration_count 0
      { presimpInfo E cfg info0 (E.exec (.printer .ipp_before_simplification none) s)
        with iteration_count := iteration_count } x1
    simp only [Nat.zero_add] at h1 h2
    simp only [h1, h2]
    cases PostSimplification cfg.topology_simplif_enabled run fuel
      ((List.range iteration_count).foldl (fun st i =>
        (SimplificationCycle E cfg
          { presimpInfo E cfg info0 (E.exec (.printer .ipp_before_simplification none) s)
            with iteration_count := iteration_count, iteration := i } ⟨st, []⟩).state)
        x1.state) with
    | none => rfl
    | some r => rfl

theorem SimplifyGraph_schedule_witness :
    SimplifyGraph (countingPack true)
        ⟨"tc", "ec", ⟨0, ⟨0, 0⟩, 0⟩, ⟨true, false, 1, ⟨0, 0⟩, "", "", ⟨10, ⟨2, 0⟩, 50⟩⟩,
          false, 100, false⟩
        (fun _ s => (s + 1, false)) ⟨0, ⟨0, 0⟩, ⟨0, 0⟩, 0, 0, 0⟩ 2 1 0 =
      .ok (some (19,
        [Sum.inl (.printer .ipp_before_simplification none),
          Sum.inl (.RemoveSelfConjugateEdges 155 ⟨1, 0⟩),
          Sum.inl (.EdgeRemovingAlgorithm (isolatedEdgeCondition 10 ⟨2, 0⟩ 100)),
          Sum.inl (.ClipTips "tc" ⟨100, ⟨0, 0⟩, ⟨0, 0⟩, 2, 0, 0⟩ false),
          Sum.inl (.printer .ipp_tip_clipping (some 0)),
          Sum.inl .RemoveBulges,
          Sum.inl (.printer .ipp_bulge_removal (some 0)),
          Sum.inl (.RemoveLowCoverageEdges "ec" ⟨100, ⟨0, 0⟩, ⟨0, 0⟩, 2, 0, 0⟩),
          Sum.inl (.printer .ipp_err_con_removal (some 0)),
          Sum.inl (.ClipTips "tc" ⟨100, ⟨0, 0⟩, ⟨0, 0⟩, 2, 1, 0⟩ false),
          Sum.inl (.printer .ipp_tip_clipping (some 1)),
          Sum.inl .RemoveBulges,
          Sum.inl (.printer .ipp_bulge_removal (some 1)),
          Sum.inl (.RemoveLowCoverageEdges "ec" ⟨100, ⟨0, 0⟩, ⟨0, 0⟩, 2, 1, 0⟩),
          Sum.inl (.printer .ipp_err_con_removal (some 1)),
          Sum.inr (.FinalRemoveErroneousEdges 0), Sum.inr .ClipTips, Sum.inr .RemoveBulges,
          Sum.inr (.RemoveComplexBulges 0)])) := by
  rw [(SimplifyGraph_schedule (countingPack true)
    ⟨"tc", "ec", ⟨0, ⟨0, 0⟩, 0⟩, ⟨true, false, 1, ⟨0, 0⟩, "", "", ⟨10, ⟨2, 0⟩, 50⟩⟩,
      false, 100, false⟩
    (fun _ s => (s + 1, false)) ⟨0, ⟨0, 0⟩, ⟨0, 0⟩, 0, 0, 0⟩ 2 1 0).1]
  rfl

/-! ### `PreSimplification`, `RemoveIsolatedEdges`, `EnableParallel` -/

theorem PreSimplification_enabled {σ : Type} (E : GraphPack σ) (cfg : debruijn_config)
    (presimp : presimplification) (info : SimplifInfoContainer) (x : SimplifState σ)
    (he : presimp.enabled = true) :
    PreSimplification E cfg presimp info x =
      if E.eq info.detected_mean_coverage ⟨0, 0⟩ = true ∨
          E.ls info.detected_mean_coverage presimp.activation_cov = true then
        .ok (RemoveIsolatedEdgesConfig E cfg presimp.ier info.read_length
          (call E (.RemoveSelfConjugateEdges ((E.k_value x.state + 100) % 2 ^ 64) Dbl.one) x))
      else
        match EnableParallel E presimp (RemoveIsolatedEdgesConfig E cfg presimp.ier
            info.read_length (call E (.RemoveSelfConjugateEdges
              ((E.k_value x.state + 100) % 2 ^ 64) Dbl.one) x)).state with
        | .error f => .error f
        | .ok b =>
          .ok ((if b then
              ParallelPreSimplification E presimp { info with chunk_cnt := presimp.chunk_cnt }
            else NonParallelPreSimplification E presimp info)
            (RemoveIsolatedEdgesConfig E cfg presimp.ier info.read_length
              (call E (.RemoveSelfConjugateEdges ((E.k_value x.state + 100) % 2 ^ 64)
                Dbl.one) x))) := by
  unfold PreSimplification
  simp only [he, Bool.not_true, Bool.false_eq_true, if_false]
  by_cases h1 : E.eq info.detected_mean_coverage ⟨0, 0⟩ = true
  · simp [h1]
  · by_cases h2 : E.ls info.detected_mean_coverage presimp.activation_cov = true
    · simp [h1, h2]
    · simp only [h1, h2, if_false, or_self]
      cases EnableParallel E presimp (RemoveIsolatedEdgesConfig E cfg presimp.ier
          info.read_length (call E (.RemoveSelfConjugateEdges
            ((E.k_value x.state + 100) % 2 ^ 64) Dbl.one) x)).state with
      | error f => rfl
      | ok b => cases b <;> rfl

/-- C22: when presimplification is disabled, `PreSimplification` makes no call and leaves
the graph pack as it is.  When it is enabled and the detected mean coverage equals 0
(`math::eq`) or is less than `presimp.activation_cov` (`math::ls`), it makes exactly two
calls: `RemoveSelfConjugateEdges` with the length bound `k + 100` and the coverage bound
`1.`, then the edge removing algorithm of `RemoveIsolatedEdges`; no tip clipping, no
removal of low covered edges and no compression is called. -/
theorem PreSimplification_gate {σ : Type} (E : GraphPack σ) (cfg : debruijn_config)
    (presimp : presimplification) (info : SimplifInfoContainer) (x : SimplifState σ) :
    (presimp.enabled = false → PreSimplification E cfg presimp info x = .ok x) ∧
    (presimp.enabled = true → E.k_value x.state + 100 < 2 ^ 64 →
      (E.eq info.detected_mean_coverage ⟨0, 0⟩ = true ∨
        E.ls info.detected_mean_coverage presimp.activation_cov = true) →
      ∃ x1 : SimplifState σ, PreSimplification E cfg presimp info x = .ok x1 ∧
        x1.calls = x.calls ++
          [.RemoveSelfConjugateEdges (E.k_value x.state + 100) Dbl.one,
            .EdgeRemovingAlgorithm (isolatedEdgeCondition presimp.ier.max_length
              presimp.ier.max_coverage (max info.read_length cfg.ier.max_length_any_cov))] ∧
        x1.state =
          E.exec (.EdgeRemovingAlgorithm (isolatedEdgeCondition presimp.ier.max_length
              presimp.ier.max_coverage (max info.read_length cfg.ier.max_length_any_cov)))
            (E.exec (.RemoveSelfConjugateEdges (E.k_value x.state + 100) Dbl.one)
              x.state)) := by
  constructor
  · intro he
    simp [PreSimplification, he]
  · intro he hk hc
    rw [PreSimplification_enabled E cfg presimp info x he, if_pos hc, Nat.mod_eq_of_lt hk]
    exact ⟨_, rfl, by simp [RemoveIsolatedEdgesConfig, RemoveIsolatedEdges, call], rfl⟩

theorem PreSimplification_gate_witness :
    ∃ x1 : SimplifState Nat,
      PreSimplification (countingPack true)
          ⟨"tc", "ec", ⟨0, ⟨0, 0⟩, 200⟩, ⟨true, true, 4, ⟨5, 0⟩, "", "", ⟨10, ⟨2, 0⟩, 50⟩⟩,
            false, 100, false⟩
          ⟨true, true, 4, ⟨5, 0⟩, "", "", ⟨10, ⟨2, 0⟩, 50⟩⟩ ⟨100, ⟨3, 0⟩, ⟨0, 0⟩, 0, 0, 0⟩
          ⟨0, []⟩ = .ok x1 ∧
        x1.calls = [.RemoveSelfConjugateEdges 155 ⟨1, 0⟩,
          .EdgeRemovingAlgorithm (isolatedEdgeCondition 10 ⟨2, 0⟩ 200)] ∧
        x1.state = 2 := by
  obtain ⟨x1, h1, h2, h3⟩ := (PreSimplification_gate (countingPack true)
    ⟨"tc", "ec", ⟨0, ⟨0, 0⟩, 200⟩, ⟨true, true, 4, ⟨5, 0⟩, "", "", ⟨10, ⟨2, 0⟩, 50⟩⟩,
      false, 100, false⟩
    ⟨true, true, 4, ⟨5, 0⟩, "", "", ⟨10, ⟨2, 0⟩, 50⟩⟩ ⟨100, ⟨3, 0⟩, ⟨0, 0⟩, 0, 0, 0⟩
    ⟨0, []⟩).2 rfl (by decide) (Or.inr (by decide))
  exact ⟨x1, h1, h2, h3⟩

/-- C23 (the code differs): `RemoveIsolatedEdges (g, ier, read_length, handler)` takes the
any-coverage length bound from `cfg::get ().simp.ier`, not from the record `ier` it is
given.  With `ier = (max_length 10, max_coverage 2, max_length_any_cov 50)`, the global
`simp.ier.max_length_any_cov = 200` and `read_length = 100` the condition is built with
the bound `200`, not with `max (100, 50) = 100`: an isolated edge of length 150 (with a
coverage above the bound) satisfies the condition that is built and not the one with the
bound of the record. -/
theorem RemoveIsolatedEdges_any_cov_bound_global :
    (∀ (σ : Type) (E : GraphPack σ) (x : SimplifState σ),
      (RemoveIsolatedEdgesConfig E
          ⟨"", "", ⟨0, ⟨0, 0⟩, 200⟩, ⟨true, false, 1, ⟨0, 0⟩, "", "", ⟨10, ⟨2, 0⟩, 50⟩⟩,
            false, 100, false⟩
          ⟨10, ⟨2, 0⟩, 50⟩ 100 x).calls =
        x.calls ++ [.EdgeRemovingAlgorithm (isolatedEdgeCondition 10 ⟨2, 0⟩ 200)]) ∧
      max 100 (⟨10, ⟨2, 0⟩, 50⟩ : isolated_edges_remover).max_length_any_cov = 100 ∧
      (isolatedEdgeCondition 10 ⟨2, 0⟩ 200).Check
        ⟨fun _ => true, fun m _ => decide (150 ≤ m), fun _ _ => false⟩ 7 = true ∧
      (isolatedEdgeCondition 10 ⟨2, 0⟩ 100).Check
        ⟨fun _ => true, fun m _ => decide (150 ≤ m), fun _ _ => false⟩ 7 = false := by
  refine ⟨fun σ E x => rfl, by decide, by decide, by decide⟩

/-- C24: the condition built by `RemoveIsolatedEdges (g, max_length, max_coverage,
max_length_any_cov)` holds for an edge exactly when the edge is isolated and it satisfies
the length bound `max_length_any_cov`, or the length bound `max_length` together with the
coverage bound `max_coverage`; an edge that is not isolated never satisfies it; and this
condition is the one the edge removing algorithm is run with. -/
theorem RemoveIsolatedEdges_condition (T : EdgeTests) (max_length : Nat)
    (max_coverage : Dbl) (max_length_any_cov : Nat) (e : omnigraph.EdgeId) :
    ((isolatedEdgeCondition max_length max_coverage max_length_any_cov).Check T e = true ↔
      T.isolated e = true ∧
        (T.lengthBound max_length_any_cov e = true ∨
          (T.lengthBound max_length e = true ∧ T.coverageBound max_coverage e = true))) ∧
    (T.isolated e = false →
      (isolatedEdgeCondition max_length max_coverage max_length_any_cov).Check T e = false) ∧
    ∀ (σ : Type) (E : GraphPack σ) (x : SimplifState σ),
      (RemoveIsolatedEdges E max_length max_coverage max_length_any_cov x).calls =
        x.calls ++ [.EdgeRemovingAlgorithm
          (isolatedEdgeCondition max_length max_coverage max_length_any_cov)] := by
  refine ⟨?_, ?_, fun σ E x => rfl⟩
  · simp [isolatedEdgeCondition, EdgeCondition.Check]
  · intro h
    simp [isolatedEdgeCondition, EdgeCondition.Check, h]

theorem RemoveIsolatedEdges_condition_witness :
    (isolatedEdgeCondition 10 ⟨2, 0⟩ 100).Check
        ⟨fun e => decide (e = 7), fun m e => decide (e + 50 ≤ m),
          fun c e => Dbl.lt (Dbl.ofNat e) c⟩ 7 = true ∧
      (isolatedEdgeCondition 10 ⟨2, 0⟩ 100).Check
        ⟨fun e => decide (e = 7), fun m e => decide (e + 50 ≤ m),
          fun c e => Dbl.lt (Dbl.ofNat e) c⟩ 8 = false := by
  refine ⟨(RemoveIsolatedEdges_condition
    ⟨fun e => decide (e = 7), fun m e => decide (e + 50 ≤ m),
      fun c e => Dbl.lt (Dbl.ofNat e) c⟩ 10 ⟨2, 0⟩ 100 7).1.2 ⟨by decide, Or.inl (by decide)⟩,
    (RemoveIsolatedEdges_condition
    ⟨fun e => decide (e = 7), fun m e => decide (e + 50 ≤ m),
      fun c e => Dbl.lt (Dbl.ofNat e) c⟩ 10 ⟨2, 0⟩ 100 8).2.1 (by decide)⟩

/-- C25 (counterexample): with `presimp.parallel` set and `presimp.chunk_cnt = 1`,
`EnableParallel` returns true although a handler of the graph is not thread-safe, and
`PreSimplification` (enabled, mean coverage 10 above the activation coverage 5) takes the
parallel path. -/
theorem EnableParallel_single_chunk_counterexample :
    EnableParallel (countingPack false)
        ⟨true, true, 1, ⟨5, 0⟩, "t", "e", ⟨10, ⟨2, 0⟩, 50⟩⟩ 2 = .ok true ∧
      (PreSimplification (countingPack false)
        ⟨"tc", "ec", ⟨0, ⟨0, 0⟩, 200⟩, ⟨true, true, 1, ⟨5, 0⟩, "t", "e", ⟨10, ⟨2, 0⟩, 50⟩⟩,
          false, 100, false⟩
        ⟨true, true, 1, ⟨5, 0⟩, "t", "e", ⟨10, ⟨2, 0⟩, 50⟩⟩ ⟨100, ⟨10, 0⟩, ⟨0, 0⟩, 0, 0, 0⟩
        ⟨0, []⟩).map (fun x1 => x1.calls) =
        .ok [.RemoveSelfConjugateEdges 155 ⟨1, 0⟩,
          .EdgeRemovingAlgorithm (isolatedEdgeCondition 10 ⟨2, 0⟩ 200),
          .ParallelTipClipping "t" ⟨100, ⟨10, 0⟩, ⟨0, 0⟩, 0, 0, 1⟩,
          .ParallelCompressor 1, .CompressAllVertices, .Clean,
          .ParallelLowCoverage "e" ⟨100, ⟨10, 0⟩, ⟨0, 0⟩, 0, 0, 1⟩,
          .ParallelCompressor 1, .CompressAllVertices] := by
  constructor
  · rfl
  · rfl

/-- C25 (amended): `EnableParallel` returns true exactly when `presimp.parallel` is set
and either `presimp.chunk_cnt` is 1 (the handlers are then not asked) or `chunk_cnt` is
above 1 and all handlers of the graph are thread-safe; it returns false exactly when
`parallel` is not set, or `chunk_cnt` is above 1 and some handler is not thread-safe; with
`parallel` set and `chunk_cnt = 0` it fails its `VERIFY`.  An enabled `PreSimplification`
whose mean coverage passes the activation gate continues, after the removal of
self-conjugate and isolated edges, with `ParallelPreSimplification` when `EnableParallel`
returns true and with `NonParallelPreSimplification` when it returns false. -/
theorem EnableParallel_iff {σ : Type} (E : GraphPack σ) (presimp : presimplification)
    (s : σ) :
    (EnableParallel E presimp s = .ok true ↔
      presimp.parallel = true ∧
        (presimp.chunk_cnt = 1 ∨
          (1 < presimp.chunk_cnt ∧ E.AllHandlersThreadSafe s = true))) ∧
    (EnableParallel E presimp s = .ok false ↔
      presimp.parallel = false ∨
        (1 < presimp.chunk_cnt ∧ E.AllHandlersThreadSafe s = false)) ∧
    (EnableParallel E presimp s = .error .verify ↔
      presimp.parallel = true ∧ presimp.chunk_cnt = 0) ∧
    ∀ (cfg : debruijn_config) (info : SimplifInfoContainer) (x : SimplifState σ),
      presimp.enabled = true →
      E.eq info.detected_mean_coverage ⟨0, 0⟩ = false →
      E.ls info.detected_mean_coverage presimp.activation_cov = false →
      PreSimplification E cfg presimp info x =
        match EnableParallel E presimp (RemoveIsolatedEdgesConfig E cfg presimp.ier
            info.read_length (call E (.RemoveSelfConjugateEdges
              ((E.k_value x.state + 100) % 2 ^ 64) Dbl.one) x)).state with
        | .error f => .error f
        | .ok b =>
          .ok ((if b then
              ParallelPreSimplification E presimp { info with chunk_cnt := presimp.chunk_cnt }
            else NonParallelPreSimplification E presimp info)
            (RemoveIsolatedEdgesConfig E cfg presimp.ier info.read_length
              (call E (.RemoveSelfConjugateEdges ((E.k_value x.state + 100) % 2 ^ 64)
                Dbl.one) x))) := by
  refine ⟨?_, ?_, ?_, ?_⟩
  · unfold EnableParallel
    cases hp : presimp.parallel
    · simp
    · by_cases h0 : presimp.chunk_cnt = 0
      · simp [h0]
      · by_cases h1 : presimp.chunk_cnt = 1
        · simp [h1]
        · have h2 : 1 < presimp.chunk_cnt := by omega
          have h3 : 0 < presimp.chunk_cnt := by omega
          cases ht : E.AllHandlersThreadSafe s <;> simp [h1, h2, h3]
  · unfold EnableParallel
    cases hp : presimp.parallel
    · simp
    · by_cases h0 : presimp.chunk_cnt = 0
      · simp [h0]
      · by_cases h1 : presimp.chunk_cnt = 1
        · simp [h1]
        · have h2 : 1 < presimp.chunk_cnt := by omega
          have h3 : 0 < presimp.chunk_cnt := by omega
          cases ht : E.AllHandlersThreadSafe s <;> simp [h1, h2, h3]
  · unfold EnableParallel
    cases hp : presimp.parallel
    · simp
    · by_cases h0 : presimp.chunk_cnt = 0
      · simp [h0]
      · by_cases h1 : presimp.chunk_cnt = 1
        · simp [h1]
        · have h3 : 0 < presimp.chunk_cnt := by omega
          cases ht : E.AllHandlersThreadSafe s <;> simp [h1, h0, h3]
  · intro cfg info x he h1 h2
    rw [PreSimplification_enabled E cfg presimp info x he, if_neg (by simp [h1, h2])]

theorem EnableParallel_iff_witness :
    EnableParallel (countingPack true)
        ⟨true, true, 4, ⟨5, 0⟩, "t", "e", ⟨10, ⟨2, 0⟩, 50⟩⟩ 2 = .ok true ∧
      EnableParallel (countingPack false)
        ⟨true, true, 4, ⟨5, 0⟩, "t", "e", ⟨10, ⟨2, 0⟩, 50⟩⟩ 2 = .ok false :=
  ⟨(EnableParallel_iff (countingPack true)
    ⟨true, true, 4, ⟨5, 0⟩, "t", "e", ⟨10, ⟨2, 0⟩, 50⟩⟩ 2).1.2
      ⟨rfl, Or.inr ⟨by decide, rfl⟩⟩,
    (EnableParallel_iff (countingPack false)
    ⟨true, true, 4, ⟨5, 0⟩, "t", "e", ⟨10, ⟨2, 0⟩, 50⟩⟩ 2).2.1.2
      (Or.inr ⟨by decide, rfl⟩)⟩

end debruijn
